import Mathlib

/-!
# OpenRarity (Go): a shallow embedding of the scoring and ranking engine

Conventions of the embedding.

* A Go `map[string]V` is a `GoMap V`: an association list with pairwise distinct
  keys. Go leaves the iteration order of a map unspecified; the embedding
  iterates in list order (insertion order).
* Go `int` is `Int`; the one place where the source subtracts two
  caller-supplied `int`s (the comparator of `SetRarityRanks`) wraps at 64 bits.
* `float64`: the definitions of the scoring code take any type `F` with the arithmetic
  operations, and the base-2 logarithm as a parameter `log2`. The theorems on formulas, bounds
  and orders take an ordered field (`F = ℝ`, `log2 = Real.logb 2`): they are statements in
  exact arithmetic. What rounding changes is shown on `Float64`, the finite `float64` values
  with round-to-nearest operations and the library's `math.Log2`; infinities and NaN are not
  modelled.
* A Go `string` is a `String`, a list of Unicode code points: the source's strings are
  taken to be valid UTF-8. `strings.ToLower` lowers rune by rune with the case tables of
  Unicode 15.0.0 (`lowerCaseRanges`), `strings.TrimSpace` trims the runes of `unicode.IsSpace`.
* A Go `(T, error)` result is an `Except String T`.
* `sort.Slice` is `sortSlice`, the insertion sort that the library (Go 1.19 and later) runs
  on a slice of at most 12 elements; its steps on a slice of 13 elements are
  `sortSliceThirteen`. The library promises a sorted permutation and no order among elements
  neither of which sorts before the other: the ranks do not depend on that order
  (`setRarityRanksWith_triples`), the order of tied tokens in the output does, and
  `SetRarityRanksWith` takes the sort as a parameter for the statements about it.
* Pointers are values: two tokens of a list never share a metadata object, and a
  function that mutates its argument returns the updated value.
-/

namespace OpenRarity

/-! ## Go maps -/

/-- A Go map with string keys: an association list without duplicate keys. -/
structure GoMap (V : Type) where
  entries : List (String × V)
  nodup : (entries.map Prod.fst).Nodup

namespace GoMap

variable {V : Type}

/-- The empty map (`map[string]V{}`; a nil map reads the same way). -/
def empty : GoMap V := ⟨[], List.nodup_nil⟩

/-- Lookup in an association list. -/
def getList (k : String) : List (String × V) → Option V
  | [] => none
  | (k', v) :: r => if k' = k then some v else getList k r

/-- Assignment in an association list: overwrite the entry of `k`, or append one. -/
def setList (k : String) (v : V) : List (String × V) → List (String × V)
  | [] => [(k, v)]
  | (k', v') :: r => if k' = k then (k, v) :: r else (k', v') :: setList k v r

theorem mem_keys_setList (k : String) (v : V) (l : List (String × V)) (x : String) :
    x ∈ (setList k v l).map Prod.fst ↔ x = k ∨ x ∈ l.map Prod.fst := by
  induction l with
  | nil => simp [setList]
  | cons e r ih =>
    obtain ⟨k', v'⟩ := e
    by_cases h : k' = k
    · subst h
      simp [setList]
    · simp only [setList, if_neg h, List.map_cons, List.mem_cons, ih]
      tauto

theorem nodup_setList (k : String) (v : V) (l : List (String × V))
    (h : (l.map Prod.fst).Nodup) : ((setList k v l).map Prod.fst).Nodup := by
  induction l with
  | nil => simp [setList]
  | cons e r ih =>
    obtain ⟨k', v'⟩ := e
    rw [List.map_cons, List.nodup_cons] at h
    by_cases hk : k' = k
    · subst hk
      simpa [setList] using h
    · simp only [setList, if_neg hk, List.map_cons, List.nodup_cons, mem_keys_setList]
      exact ⟨fun hx => hx.elim hk h.1, ih h.2⟩

/-- The Go expression `m[k]` with the comma-ok flag: `none` when `k` is absent. -/
def get? (m : GoMap V) (k : String) : Option V := getList k m.entries

/-- The Go statement `m[k] = v`. -/
def set (m : GoMap V) (k : String) (v : V) : GoMap V :=
  ⟨setList k v m.entries, nodup_setList k v m.entries m.nodup⟩

/-- A Go map literal: the listed entries written into an empty map, in order. -/
def ofList (l : List (String × V)) : GoMap V :=
  l.foldl (fun m e => m.set e.1 e.2) empty

/-- The keys of the map, in iteration order. -/
def keys (m : GoMap V) : List String := m.entries.map Prod.fst

/-- The Go expression `len(m)`. -/
def len (m : GoMap V) : Int := (m.entries.length : Int)

end GoMap

/-! ## models/attribute.go -/

/-- The reserved name `TraitCountAttributeName`. -/
def TraitCountAttributeName : String := "meta_trait:trait_count"

/-- White space as `strings.TrimSpace` sees it (`unicode.IsSpace`). -/
def isSpaceRune (c : Char) : Bool :=
  [9, 10, 11, 12, 13, 32, 0x85, 0xA0, 0x1680, 0x2028, 0x2029, 0x202F, 0x205F, 0x3000].contains
      c.toNat
    || (0x2000 ≤ c.toNat && c.toNat ≤ 0x200A)

/-- The simple lower-case mappings of the runes above U+007F, as the case tables of the
package `unicode` hold them (Unicode 15.0.0, the tables of Go 1.21 and later): an entry
`(lo, hi, stride, target)` maps the runes `lo`, `lo + stride`, ..., `hi` to `target`,
`target + stride`, ... in this order. -/
def lowerCaseRanges : List (Nat × Nat × Nat × Nat) :=
  [ (0xc0, 0xd6, 1, 0xe0), (0xd8, 0xde, 1, 0xf8), (0x100, 0x12e, 2, 0x101),
    (0x130, 0x130, 1, 0x69), (0x132, 0x136, 2, 0x133), (0x139, 0x147, 2, 0x13a),
    (0x14a, 0x176, 2, 0x14b), (0x178, 0x178, 1, 0xff), (0x179, 0x17d, 2, 0x17a),
    (0x181, 0x181, 1, 0x253), (0x182, 0x184, 2, 0x183), (0x186, 0x186, 1, 0x254),
    (0x187, 0x187, 1, 0x188), (0x189, 0x18a, 1, 0x256), (0x18b, 0x18b, 1, 0x18c),
    (0x18e, 0x18e, 1, 0x1dd), (0x18f, 0x18f, 1, 0x259), (0x190, 0x190, 1, 0x25b),
    (0x191, 0x191, 1, 0x192), (0x193, 0x193, 1, 0x260), (0x194, 0x194, 1, 0x263),
    (0x196, 0x196, 1, 0x269), (0x197, 0x197, 1, 0x268), (0x198, 0x198, 1, 0x199),
    (0x19c, 0x19c, 1, 0x26f), (0x19d, 0x19d, 1, 0x272), (0x19f, 0x19f, 1, 0x275),
    (0x1a0, 0x1a4, 2, 0x1a1), (0x1a6, 0x1a6, 1, 0x280), (0x1a7, 0x1a7, 1, 0x1a8),
    (0x1a9, 0x1a9, 1, 0x283), (0x1ac, 0x1ac, 1, 0x1ad), (0x1ae, 0x1ae, 1, 0x288),
    (0x1af, 0x1af, 1, 0x1b0), (0x1b1, 0x1b2, 1, 0x28a), (0x1b3, 0x1b5, 2, 0x1b4),
    (0x1b7, 0x1b7, 1, 0x292), (0x1b8, 0x1b8, 1, 0x1b9), (0x1bc, 0x1bc, 1, 0x1bd),
    (0x1c4, 0x1c4, 1, 0x1c6), (0x1c5, 0x1c5, 1, 0x1c6), (0x1c7, 0x1c7, 1, 0x1c9),
    (0x1c8, 0x1c8, 1, 0x1c9), (0x1ca, 0x1ca, 1, 0x1cc), (0x1cb, 0x1db, 2, 0x1cc),
    (0x1de, 0x1ee, 2, 0x1df), (0x1f1, 0x1f1, 1, 0x1f3), (0x1f2, 0x1f4, 2, 0x1f3),
    (0x1f6, 0x1f6, 1, 0x195), (0x1f7, 0x1f7, 1, 0x1bf), (0x1f8, 0x21e, 2, 0x1f9),
    (0x220, 0x220, 1, 0x19e), (0x222, 0x232, 2, 0x223), (0x23a, 0x23a, 1, 0x2c65),
    (0x23b, 0x23b, 1, 0x23c), (0x23d, 0x23d, 1, 0x19a), (0x23e, 0x23e, 1, 0x2c66),
    (0x241, 0x241, 1, 0x242), (0x243, 0x243, 1, 0x180), (0x244, 0x244, 1, 0x289),
    (0x245, 0x245, 1, 0x28c), (0x246, 0x24e, 2, 0x247), (0x370, 0x372, 2, 0x371),
    (0x376, 0x376, 1, 0x377), (0x37f, 0x37f, 1, 0x3f3), (0x386, 0x386, 1, 0x3ac),
    (0x388, 0x38a, 1, 0x3ad), (0x38c, 0x38c, 1, 0x3cc), (0x38e, 0x38f, 1, 0x3cd),
    (0x391, 0x3a1, 1, 0x3b1), (0x3a3, 0x3ab, 1, 0x3c3), (0x3cf, 0x3cf, 1, 0x3d7),
    (0x3d8, 0x3ee, 2, 0x3d9), (0x3f4, 0x3f4, 1, 0x3b8), (0x3f7, 0x3f7, 1, 0x3f8),
    (0x3f9, 0x3f9, 1, 0x3f2), (0x3fa, 0x3fa, 1, 0x3fb), (0x3fd, 0x3ff, 1, 0x37b),
    (0x400, 0x40f, 1, 0x450), (0x410, 0x42f, 1, 0x430), (0x460, 0x480, 2, 0x461),
    (0x48a, 0x4be, 2, 0x48b), (0x4c0, 0x4c0, 1, 0x4cf), (0x4c1, 0x4cd, 2, 0x4c2),
    (0x4d0, 0x52e, 2, 0x4d1), (0x531, 0x556, 1, 0x561), (0x10a0, 0x10c5, 1, 0x2d00),
    (0x10c7, 0x10c7, 1, 0x2d27), (0x10cd, 0x10cd, 1, 0x2d2d), (0x13a0, 0x13ef, 1, 0xab70),
    (0x13f0, 0x13f5, 1, 0x13f8), (0x1c90, 0x1cba, 1, 0x10d0), (0x1cbd, 0x1cbf, 1, 0x10fd),
    (0x1e00, 0x1e94, 2, 0x1e01), (0x1e9e, 0x1e9e, 1, 0xdf), (0x1ea0, 0x1efe, 2, 0x1ea1),
    (0x1f08, 0x1f0f, 1, 0x1f00), (0x1f18, 0x1f1d, 1, 0x1f10), (0x1f28, 0x1f2f, 1, 0x1f20),
    (0x1f38, 0x1f3f, 1, 0x1f30), (0x1f48, 0x1f4d, 1, 0x1f40), (0x1f59, 0x1f5f, 2, 0x1f51),
    (0x1f68, 0x1f6f, 1, 0x1f60), (0x1f88, 0x1f8f, 1, 0x1f80), (0x1f98, 0x1f9f, 1, 0x1f90),
    (0x1fa8, 0x1faf, 1, 0x1fa0), (0x1fb8, 0x1fb9, 1, 0x1fb0), (0x1fba, 0x1fbb, 1, 0x1f70),
    (0x1fbc, 0x1fbc, 1, 0x1fb3), (0x1fc8, 0x1fcb, 1, 0x1f72), (0x1fcc, 0x1fcc, 1, 0x1fc3),
    (0x1fd8, 0x1fd9, 1, 0x1fd0), (0x1fda, 0x1fdb, 1, 0x1f76), (0x1fe8, 0x1fe9, 1, 0x1fe0),
    (0x1fea, 0x1feb, 1, 0x1f7a), (0x1fec, 0x1fec, 1, 0x1fe5), (0x1ff8, 0x1ff9, 1, 0x1f78),
    (0x1ffa, 0x1ffb, 1, 0x1f7c), (0x1ffc, 0x1ffc, 1, 0x1ff3), (0x2126, 0x2126, 1, 0x3c9),
    (0x212a, 0x212a, 1, 0x6b), (0x212b, 0x212b, 1, 0xe5), (0x2132, 0x2132, 1, 0x214e),
    (0x2160, 0x216f, 1, 0x2170), (0x2183, 0x2183, 1, 0x2184), (0x24b6, 0x24cf, 1, 0x24d0),
    (0x2c00, 0x2c2f, 1, 0x2c30), (0x2c60, 0x2c60, 1, 0x2c61), (0x2c62, 0x2c62, 1, 0x26b),
    (0x2c63, 0x2c63, 1, 0x1d7d), (0x2c64, 0x2c64, 1, 0x27d), (0x2c67, 0x2c6b, 2, 0x2c68),
    (0x2c6d, 0x2c6d, 1, 0x251), (0x2c6e, 0x2c6e, 1, 0x271), (0x2c6f, 0x2c6f, 1, 0x250),
    (0x2c70, 0x2c70, 1, 0x252), (0x2c72, 0x2c72, 1, 0x2c73), (0x2c75, 0x2c75, 1, 0x2c76),
    (0x2c7e, 0x2c7f, 1, 0x23f), (0x2c80, 0x2ce2, 2, 0x2c81), (0x2ceb, 0x2ced, 2, 0x2cec),
    (0x2cf2, 0x2cf2, 1, 0x2cf3), (0xa640, 0xa66c, 2, 0xa641), (0xa680, 0xa69a, 2, 0xa681),
    (0xa722, 0xa72e, 2, 0xa723), (0xa732, 0xa76e, 2, 0xa733), (0xa779, 0xa77b, 2, 0xa77a),
    (0xa77d, 0xa77d, 1, 0x1d79), (0xa77e, 0xa786, 2, 0xa77f), (0xa78b, 0xa78b, 1, 0xa78c),
    (0xa78d, 0xa78d, 1, 0x265), (0xa790, 0xa792, 2, 0xa791), (0xa796, 0xa7a8, 2, 0xa797),
    (0xa7aa, 0xa7aa, 1, 0x266), (0xa7ab, 0xa7ab, 1, 0x25c), (0xa7ac, 0xa7ac, 1, 0x261),
    (0xa7ad, 0xa7ad, 1, 0x26c), (0xa7ae, 0xa7ae, 1, 0x26a), (0xa7b0, 0xa7b0, 1, 0x29e),
    (0xa7b1, 0xa7b1, 1, 0x287), (0xa7b2, 0xa7b2, 1, 0x29d), (0xa7b3, 0xa7b3, 1, 0xab53),
    (0xa7b4, 0xa7c2, 2, 0xa7b5), (0xa7c4, 0xa7c4, 1, 0xa794), (0xa7c5, 0xa7c5, 1, 0x282),
    (0xa7c6, 0xa7c6, 1, 0x1d8e), (0xa7c7, 0xa7c9, 2, 0xa7c8), (0xa7d0, 0xa7d0, 1, 0xa7d1),
    (0xa7d6, 0xa7d8, 2, 0xa7d7), (0xa7f5, 0xa7f5, 1, 0xa7f6), (0xff21, 0xff3a, 1, 0xff41),
    (0x10400, 0x10427, 1, 0x10428), (0x104b0, 0x104d3, 1, 0x104d8),
    (0x10570, 0x1057a, 1, 0x10597), (0x1057c, 0x1058a, 1, 0x105a3),
    (0x1058c, 0x10592, 1, 0x105b3), (0x10594, 0x10595, 1, 0x105bb),
    (0x10c80, 0x10cb2, 1, 0x10cc0), (0x118a0, 0x118bf, 1, 0x118c0),
    (0x16e40, 0x16e5f, 1, 0x16e60), (0x1e900, 0x1e921, 1, 0x1e922) ]

/-- The function `unicode.ToLower` on a code point. -/
def toLowerCode (r : Nat) : Nat :=
  if r ≤ 127 then
    if 65 ≤ r ∧ r ≤ 90 then r + 32 else r
  else
    match lowerCaseRanges.find? fun cr =>
        decide (cr.1 ≤ r) && decide (r ≤ cr.2.1) && decide ((r - cr.1) % cr.2.2.1 = 0) with
    | some cr => cr.2.2.2 + (r - cr.1)
    | none => r

/-- Lower-casing of one rune, as `strings.ToLower` does it (`unicode.ToLower`). -/
def toLowerRune (c : Char) : Char := Char.ofNat (toLowerCode c.toNat)

/-- The code points of white space. -/
def spaceCodes : List Nat :=
  [9, 10, 11, 12, 13, 32, 0x85, 0xA0, 0x1680, 0x2028, 0x2029, 0x202F, 0x205F, 0x3000,
    0x2000, 0x2001, 0x2002, 0x2003, 0x2004, 0x2005, 0x2006, 0x2007, 0x2008, 0x2009, 0x200A]

/-- The images of the entry `cr` of the case table lie outside the runes that the entry `cq`
maps. -/
def imageOutside (cr cq : Nat × Nat × Nat × Nat) : Bool :=
  decide (cr.2.2.2 + (cr.2.1 - cr.1) < cq.1) || decide (cq.2.1 < cr.2.2.2)
    || (decide (cq.2.2.1 = 2) && decide (cq.1 ≤ cr.2.2.2) && decide ((cr.2.2.2 - cq.1) % 2 = 1)
        && (decide (cr.2.1 = cr.1) || decide (cr.2.2.1 = 2)))

/-- The check of one entry of the case table: its images are runes, neither the runes it
maps nor their images are white space, and no image is mapped again. -/
def caseRangeChecked (cr : Nat × Nat × Nat × Nat) : Bool :=
  (decide (cr.2.2.2 + (cr.2.1 - cr.1) < 0xD800)
      || (decide (0xDFFF < cr.2.2.2) && decide (cr.2.2.2 + (cr.2.1 - cr.1) < 0x110000)))
    && (spaceCodes.all fun s =>
        (decide (s < cr.2.2.2) || decide (cr.2.2.2 + (cr.2.1 - cr.1) < s))
          && (decide (s < cr.1) || decide (cr.2.1 < s)))
    && (if cr.2.2.2 + (cr.2.1 - cr.1) ≤ 127 then
          decide (cr.2.2.2 + (cr.2.1 - cr.1) < 65) || decide (90 < cr.2.2.2)
        else decide (127 < cr.2.2.2) && lowerCaseRanges.all (imageOutside cr))

/-- The function `strings.TrimSpace` on a list of runes. -/
def trimSpace (l : List Char) : List Char :=
  ((l.dropWhile isSpaceRune).reverse.dropWhile isSpaceRune).reverse

/-- The source's `NormalizeAttributeString`: `strings.TrimSpace(strings.ToLower(value))`. -/
def NormalizeAttributeString (value : String) : String :=
  String.mk (trimSpace (value.data.map toLowerRune))

/-- The struct `StringAttribute`. -/
structure StringAttribute where
  name : String
  value : String
deriving DecidableEq, Repr

/-- The constructor `NewStringAttribute`. -/
def NewStringAttribute (name : String) (value : String) : StringAttribute :=
  { name := NormalizeAttributeString name, value := NormalizeAttributeString value }

/-- The struct `NumericAttributeValue`: a `float64` (kept as a rational), an `int64` or an `int`. -/
inductive NumericAttributeValue where
  | float64 (v : Rat)
  | int64 (v : Int)
  | int (v : Int)
deriving DecidableEq, Repr

/-- The struct `NumericAttribute`. -/
structure NumericAttribute where
  name : String
  value : NumericAttributeValue
deriving DecidableEq, Repr

/-- The constructor `NewNumericAttribute`. -/
def NewNumericAttribute (name : String) (value : NumericAttributeValue) : NumericAttribute :=
  { name := NormalizeAttributeString name, value := value }

/-- The struct `DateAttribute`; the value is a unix time in seconds. -/
structure DateAttribute where
  name : String
  value : Int
deriving DecidableEq, Repr

/-- The constructor `NewDateAttribute`. -/
def NewDateAttribute (name : String) (value : Int) : DateAttribute :=
  { name := NormalizeAttributeString name, value := value }

/-- The implementations of the interface `IAttribute`. -/
inductive Attribute where
  | string (a : StringAttribute)
  | numeric (a : NumericAttribute)
  | date (a : DateAttribute)
deriving DecidableEq, Repr

/-- The method `Name` of `IAttribute`. -/
def Attribute.Name : Attribute → String
  | .string a => a.name
  | .numeric a => a.name
  | .date a => a.name

/-! ## models/token_metadata.go -/

/-- The struct `TokenMetadata`. -/
structure TokenMetadata where
  stringAttributes : GoMap StringAttribute
  numericAttributes : GoMap NumericAttribute
  dateAttributes : GoMap DateAttribute

/-- A value of the raw attribute mapping `map[string]interface{}`: one of the
five accepted dynamic types, or a value of another type (named by `%T`). -/
inductive RawValue where
  | string (v : String)
  | float64 (v : Rat)
  | int64 (v : Int)
  | int (v : Int)
  | time (unix : Int)
  | other (typeName : String)
deriving DecidableEq, Repr

/-- The constructor `NewTokenMetadataFromStringAttributes`. -/
def NewTokenMetadataFromStringAttributes (stringAttributes : GoMap StringAttribute) :
    TokenMetadata :=
  { stringAttributes := stringAttributes
    numericAttributes := GoMap.empty
    dateAttributes := GoMap.empty }

/-- One iteration of the loop of `NewTokenMetadataFromAttributes`. -/
def addRawAttribute (md : TokenMetadata) (attrName : String) (attrValue : RawValue) :
    Except String TokenMetadata :=
  let normalizeAttributeName := NormalizeAttributeString attrName
  match attrValue with
  | .string v =>
    let a := NewStringAttribute normalizeAttributeName v
    .ok { md with stringAttributes := GoMap.set md.stringAttributes normalizeAttributeName a }
  | .float64 v =>
    let a := NewNumericAttribute normalizeAttributeName (.float64 v)
    .ok { md with numericAttributes := GoMap.set md.numericAttributes normalizeAttributeName a }
  | .int64 v =>
    let a := NewNumericAttribute normalizeAttributeName (.int64 v)
    .ok { md with numericAttributes := GoMap.set md.numericAttributes normalizeAttributeName a }
  | .int v =>
    let a := NewNumericAttribute normalizeAttributeName (.int v)
    .ok { md with numericAttributes := GoMap.set md.numericAttributes normalizeAttributeName a }
  | .time v =>
    let a := NewDateAttribute normalizeAttributeName v
    .ok { md with dateAttributes := GoMap.set md.dateAttributes normalizeAttributeName a }
  | .other typeName => .error
      ("Provided attribute value has invalid type: " ++ typeName ++ ", Must be string.")

/-- The loop of `NewTokenMetadataFromAttributes` over the entries of the raw mapping. -/
def addRawAttributes (md : TokenMetadata) : List (String × RawValue) → Except String TokenMetadata
  | [] => .ok md
  | (attrName, attrValue) :: rest =>
    match addRawAttribute md attrName attrValue with
    | .error e => .error e
    | .ok md' => addRawAttributes md' rest

/-- The constructor `NewTokenMetadataFromAttributes`. -/
def NewTokenMetadataFromAttributes (attributes : GoMap RawValue) : Except String TokenMetadata :=
  addRawAttributes
    { stringAttributes := GoMap.empty, numericAttributes := GoMap.empty,
      dateAttributes := GoMap.empty }
    attributes.entries

/-- The method `TokenMetadata.AttributeExists`. -/
def TokenMetadata.AttributeExists (c : TokenMetadata) (name : String) : Bool :=
  (c.stringAttributes.get? name).isSome

/-- The method `TokenMetadata.AddAttribute`; the updated metadata is returned. -/
def TokenMetadata.AddAttribute (c : TokenMetadata) (attr : Attribute) : TokenMetadata :=
  match attr with
  | .string v => { c with stringAttributes := GoMap.set c.stringAttributes attr.Name v }
  | _ => c

/-! ## models/token_identifier.go, models/token_standard.go, models/token.go -/

/-- The implementations of `ITokenIdentifier`. -/
inductive TokenIdentifier where
  | evmContract (contractAddress : String) (tokenID : Int)
  | solanaMintAddress (mintAddress : String)
deriving DecidableEq, Repr

/-- The string type `TokenStandard`. -/
abbrev TokenStandard := String

/-- The constant `TokenStandardERC721`. -/
def TokenStandardERC721 : TokenStandard := "erc721"

/-- The constant `TokenStandardERC1155`. -/
def TokenStandardERC1155 : TokenStandard := "erc1155"

/-- The constant `TokenStandardMetaplexNonFungible`. -/
def TokenStandardMetaplexNonFungible : TokenStandard := "metaplex_non_fungible"

/-- The struct `Token`. -/
structure Token where
  metadata : TokenMetadata
  tokenStandard : TokenStandard
  tokenIdentifier : TokenIdentifier

/-- The constructor `NewToken`. -/
def NewToken (tokenIdentifier : TokenIdentifier) (tokenStandard : TokenStandard)
    (metadata : TokenMetadata) : Token :=
  { tokenIdentifier := tokenIdentifier, tokenStandard := tokenStandard, metadata := metadata }

/-- The constructor `NewERC721Token`. -/
def NewERC721Token (contractAddress : String) (tokenID : Int) (metadata : GoMap RawValue) :
    Except String Token :=
  match NewTokenMetadataFromAttributes metadata with
  | .error e => .error e
  | .ok attributes =>
    .ok { tokenIdentifier := .evmContract contractAddress tokenID
          tokenStandard := TokenStandardERC721
          metadata := attributes }

/-- The method `Token.HasAttribute`. -/
def Token.HasAttribute (c : Token) (name : String) : Bool :=
  c.metadata.AttributeExists name

/-- The function `GetStringAttributesCount`. -/
def GetStringAttributesCount (attributes : GoMap StringAttribute) : Int :=
  attributes.entries.foldl
    (fun count e =>
      if NormalizeAttributeString e.2.value = "" ∨ NormalizeAttributeString e.2.value = "none"
      then count else count + 1)
    0

/-- The method `Token.TraitCount`. -/
def Token.TraitCount (c : Token) : Int :=
  GetStringAttributesCount c.metadata.stringAttributes
    + c.metadata.numericAttributes.len + c.metadata.dateAttributes.len

/-! ## models/collection.go -/

/-- The struct `CollectionAttribute`. -/
structure CollectionAttribute where
  Attribute : StringAttribute
  TotalTokens : Int
deriving DecidableEq, Repr

/-- The struct `Collection`. The only constructor of the source is `NewCollection`. Go tells
the nil slice from an empty slice that is not nil: `tokensIsNil` says that the slice `tokens`
is the nil slice, which has no element. -/
structure Collection where
  name : String
  tokens : List Token
  attributesFrequencyCounts : GoMap (GoMap Int)
  tokensIsNil : Bool := false
  nil_empty : tokensIsNil = true → tokens = [] := by simp

/-- The function `strconv.FormatInt(i, 10)`. -/
def FormatInt (i : Int) : String := toString i

/-- One iteration of the loop of `traitCountify`; the updated token is returned. -/
def traitCountifyToken (token : Token) : Token :=
  let traitCount := token.TraitCount
  let traitCount :=
    if token.HasAttribute TraitCountAttributeName then traitCount - 1 else traitCount
  let a := NewStringAttribute TraitCountAttributeName (FormatInt traitCount)
  { token with metadata := token.metadata.AddAttribute (.string a) }

/-- The method `Collection.traitCountify`; the updated tokens are returned. -/
def traitCountify (tokens : List Token) : List Token :=
  tokens.map traitCountifyToken

/-- The body of the inner loop of `deriveNormalizedAttrsFrequencyCount`. -/
def countAttribute (attrsFreqCounts : GoMap (GoMap Int)) (attrName : String)
    (strAttr : StringAttribute) : GoMap (GoMap Int) :=
  match attrsFreqCounts.get? attrName with
  | none => attrsFreqCounts.set attrName (GoMap.empty.set strAttr.value 1)
  | some inner =>
    attrsFreqCounts.set attrName (inner.set strAttr.value ((inner.get? strAttr.value).getD 0 + 1))

/-- The method `Collection.deriveNormalizedAttrsFrequencyCount`, on the tokens of the collection. -/
def deriveNormalizedAttrsFrequencyCount (tokens : List Token) : GoMap (GoMap Int) :=
  tokens.foldl
    (fun attrsFreqCounts token =>
      token.metadata.stringAttributes.entries.foldl
        (fun acc e => countAttribute acc e.1 e.2) attrsFreqCounts)
    GoMap.empty

/-- The constructor `NewCollection` on a token slice that is not nil (it may be empty). -/
def NewCollection (name : String) (tokens : List Token) : Collection :=
  let tokens := traitCountify tokens
  { name := name
    tokens := tokens
    attributesFrequencyCounts := deriveNormalizedAttrsFrequencyCount tokens }

/-- The constructor `NewCollection` on the nil token slice, `NewCollection(name, nil)`: the
two loops run over no token and the slice that is stored is nil. -/
def NewCollectionOfNil (name : String) : Collection :=
  { name := name
    tokens := []
    attributesFrequencyCounts := deriveNormalizedAttrsFrequencyCount []
    tokensIsNil := true
    nil_empty := fun _ => rfl }

/-- The Go expression `table[name][value]` on the frequency table: 0 when the name or the
value is absent. -/
def tableCount (table : GoMap (GoMap Int)) (name value : String) : Int :=
  match table.get? name with
  | none => 0
  | some inner => (inner.get? value).getD 0

/-- The Go expression `table[name][value]` with the comma-ok flag: `none` when the name or
the value is absent. -/
def tableGet? (table : GoMap (GoMap Int)) (name value : String) : Option Int :=
  match table.get? name with
  | none => none
  | some inner => inner.get? value

/-- The inner loop of `ExtractNullAttributes`: the sum `totalTraitCount` of the counts of
one attribute name. -/
def totalTraitCount (traitValues : GoMap Int) : Int :=
  traitValues.entries.foldl (fun total kv => total + kv.2) 0

/-- The sum of the counts that the frequency table holds for the attribute name `name`
(0 when the name is absent). -/
def tableSum (table : GoMap (GoMap Int)) (name : String) : Int :=
  match table.get? name with
  | none => 0
  | some inner => totalTraitCount inner

/-- Whether the string-attribute map of the token holds, under the key `name`, an attribute
whose value is `value`. -/
def tokenHoldsValue (token : Token) (name value : String) : Bool :=
  match token.metadata.stringAttributes.get? name with
  | some a => decide (a.value = value)
  | none => false

namespace Collection

/-- The method `Collection.HasNumericAttribute`. -/
def HasNumericAttribute (c : Collection) : Bool :=
  c.tokens.any fun token =>
    decide (token.metadata.numericAttributes.len > 0)
      || decide (token.metadata.dateAttributes.len > 0)

/-- The method `Collection.TotalTokensWithAttributes`. -/
def TotalTokensWithAttributes (c : Collection) (a : StringAttribute) : Int :=
  tableCount c.attributesFrequencyCounts a.name a.value

/-- The method `Collection.Tokens`. -/
def Tokens (c : Collection) : List Token := c.tokens

/-- The method `Collection.TokenTotalSupply`. -/
def TokenTotalSupply (c : Collection) : Int := (c.tokens.length : Int)

/-- The method `Collection.TotalAttributeValues`. -/
def TotalAttributeValues (c : Collection) (attributeName : String) : Int :=
  match c.attributesFrequencyCounts.get? attributeName with
  | none => 0
  | some inner => inner.len

/-- The method `Collection.ExtractNullAttributes`. -/
def ExtractNullAttributes (c : Collection) : GoMap CollectionAttribute :=
  c.attributesFrequencyCounts.entries.foldl
    (fun result e =>
      let assetsWithoutTrait := c.TokenTotalSupply - totalTraitCount e.2
      if assetsWithoutTrait > 0 then
        result.set e.1
          { Attribute := NewStringAttribute e.1 "Null", TotalTokens := assetsWithoutTrait }
      else result)
    GoMap.empty

/-- The method `Collection.ExtractCollectionAttributes`. -/
def ExtractCollectionAttributes (c : Collection) : GoMap (List CollectionAttribute) :=
  c.attributesFrequencyCounts.entries.foldl
    (fun collectionTraits e =>
      e.2.entries.foldl
        (fun acc kv =>
          acc.set e.1
            (((acc.get? e.1).getD []) ++
              [{ Attribute := NewStringAttribute e.1 kv.1, TotalTokens := kv.2 }]))
        collectionTraits)
    GoMap.empty

end Collection

/-! ## models/set.go -/

/-- The struct `Set[T]` of the source (its `dedup` map holds exactly the elements of `data`). -/
structure DedupSet (T : Type) where
  data : List T

/-- The constructor `NewSet`. -/
def NewSet {T : Type} : DedupSet T := ⟨[]⟩

/-- The method `Set.Add`. -/
def DedupSet.Add {T : Type} [DecidableEq T] (c : DedupSet T) (item : T) : DedupSet T :=
  if item ∈ c.data then c else ⟨c.data ++ [item]⟩

/-- The method `Set.List`. -/
def DedupSet.List {T : Type} (c : DedupSet T) : List T := c.data

/-- The function `IsSubset`: every element of `subSet` occurs in `mainSet`. -/
def IsSubset {T : Type} [DecidableEq T] (mainSet : List T) (subSet : List T) : Bool :=
  subSet.all fun item => decide (item ∈ mainSet)

/-- The method `Collection.TokenStandards`. -/
def Collection.TokenStandards (c : Collection) : List TokenStandard :=
  (c.Tokens.foldl (fun tokenStandards token => tokenStandards.Add token.tokenStandard)
    (NewSet : DedupSet TokenStandard)).List

/-! ## sort.Slice -/

/-- The inner loop of Go's insertion sort: the new element `x` moves left past every
element it is `less` than. The sorted prefix is held in reverse (nearest element first). -/
def insertLess {α : Type} (less : α → α → Bool) (x : α) : List α → List α
  | [] => [x]
  | p :: ps => if less x p then p :: insertLess less x ps else x :: p :: ps

/-- The library function `sort.Slice` with the comparator `less`, as the insertion sort Go
runs on slices of at most 12 elements. On longer slices Go runs pattern-defeating quicksort,
whose result is sorted by `less` as well and may order equivalent elements differently. -/
def sortSlice {α : Type} (less : α → α → Bool) (data : List α) : List α :=
  (data.foldl (fun prefixRev x => insertLess less x prefixRev) []).reverse

/-! ## scoring/utils.go -/

/-- The function `GetMapKeys`. -/
def GetMapKeys {V : Type} (a : GoMap V) : List String := a.keys

/-- The function `MergeMap`: the entries of `a`, then those of `b`, written into a fresh map. -/
def MergeMap {V : Type} (a b : GoMap V) : GoMap V :=
  b.entries.foldl (fun data e => data.set e.1 e.2)
    (a.entries.foldl (fun data e => data.set e.1 e.2) GoMap.empty)

/-- The function `convertToCollectionAttributesDict`. -/
def convertToCollectionAttributesDict (collection : Collection) (token : Token) :
    GoMap CollectionAttribute :=
  token.metadata.stringAttributes.entries.foldl
    (fun attributes e =>
      attributes.set e.1
        { Attribute := e.2, TotalTokens := collection.TotalTokensWithAttributes e.2 })
    GoMap.empty

section ScoringDefinitions

variable {F : Type} [Zero F] [One F] [Add F] [Mul F] [Neg F] [Div F] [IntCast F]
  [DecidableEq F]

/-- The function `GetTokenAttributesScoresAndWeights`; a nil `collectionNullAttributes` is `none`. -/
def GetTokenAttributesScoresAndWeights (collection : Collection) (token : Token)
    (normalized : Bool) (collectionNullAttributes : Option (GoMap CollectionAttribute)) :
    List F × List F :=
  let nullAttributes :=
    match collectionNullAttributes with
    | none => collection.ExtractNullAttributes
    | some m => m
  let combinedAttributes :=
    MergeMap nullAttributes (convertToCollectionAttributesDict collection token)
  let sortedAttrNames := sortSlice (fun a b => decide (a < b)) (GetMapKeys combinedAttributes)
  let sortedAttrs := sortedAttrNames.filterMap fun name => combinedAttributes.get? name
  let totalSupply := collection.TokenTotalSupply
  let attrWeights : List F :=
    if normalized then
      sortedAttrNames.map fun attrName => 1 / ((collection.TotalAttributeValues attrName : Int) : F)
    else
      sortedAttrNames.map fun _ => (((sortedAttrNames.length : Int)) : F)
  let scores : List F :=
    sortedAttrs.map fun attr => ((totalSupply : Int) : F) / ((attr.TotalTokens : Int) : F)
  (scores, attrWeights)

/-! ## scoring/handlers/information_content.go -/

namespace InformationContentScoringHandler

/-- The method `GetCollectionEntropy`; nil maps are `none`. The base-2 logarithm is `log2`. -/
def GetCollectionEntropy (log2 : F → F) (collection : Collection)
    (attributes : Option (GoMap (List CollectionAttribute)))
    (nullAttributes : Option (GoMap CollectionAttribute)) : F :=
  let attributes :=
    match attributes with
    | none => collection.ExtractCollectionAttributes
    | some m => m
  let nullAttributes :=
    match nullAttributes with
    | none => collection.ExtractNullAttributes
    | some m => m
  let collectionProbabilities : List F :=
    attributes.entries.foldl
      (fun probs e =>
        let attrValues :=
          match nullAttributes.get? e.1 with
          | some nullAttr => e.2 ++ [nullAttr]
          | none => e.2
        let probabilities : List F :=
          attrValues.map fun attrValue =>
            ((attrValue.TotalTokens : Int) : F) / ((collection.TokenTotalSupply : Int) : F)
        probs ++ probabilities)
      []
  let collectionEntropy : F :=
    collectionProbabilities.foldl (fun acc item => acc + item * log2 item) 0
  collectionEntropy * -1

/-- The method `getICScore`. -/
def getICScore (log2 : F → F) (collection : Collection) (token : Token)
    (collectionNullAttributes : Option (GoMap CollectionAttribute)) : F :=
  let attrScores : List F :=
    (GetTokenAttributesScoresAndWeights collection token false collectionNullAttributes).1
  let result : F := attrScores.foldl (fun result score => result + log2 (1 / score)) 0
  (-1) * result

/-- The value of the local variable `collectionEntropy` of `scoreToken` at the division. -/
def scoreTokenDivisor (log2 : F → F) (collection : Collection)
    (collectionNullAttributes : Option (GoMap CollectionAttribute))
    (collectionEntropyNormalization : F) : F :=
  if collectionEntropyNormalization = 0 then
    GetCollectionEntropy log2 collection (some collection.ExtractCollectionAttributes)
      collectionNullAttributes
  else collectionEntropyNormalization

/-- The method `scoreToken`. -/
def scoreToken (log2 : F → F) (collection : Collection) (token : Token)
    (collectionNullAttributes : Option (GoMap CollectionAttribute))
    (collectionEntropyNormalization : F) : F :=
  let icTokenScore := getICScore log2 collection token collectionNullAttributes
  let collectionEntropy :=
    scoreTokenDivisor log2 collection collectionNullAttributes collectionEntropyNormalization
  icTokenScore / collectionEntropy

/-- The value of the local variable `collectionEntropy` of `ScoreTokens` before its loop. -/
def scoreTokensEntropy (log2 : F → F) (collection : Collection) : F :=
  let collectionNullAttributes := collection.ExtractNullAttributes
  let collectionAttributes := collection.ExtractCollectionAttributes
  let collectionEntropy :=
    GetCollectionEntropy log2 collection (some collectionAttributes)
      (some collectionNullAttributes)
  if collectionEntropy = 0 then 1 else collectionEntropy

/-- The method `ScoreTokens` (its error result is always nil). -/
def ScoreTokens (log2 : F → F) (collection : Collection) (tokens : List Token) : List F :=
  let collectionNullAttributes := collection.ExtractNullAttributes
  let collectionEntropy := scoreTokensEntropy log2 collection
  tokens.map fun token =>
    scoreToken log2 collection token (some collectionNullAttributes) collectionEntropy

/-- The method `ScoreToken` (its error result is always nil). -/
def ScoreToken (log2 : F → F) (collection : Collection) (token : Token) : F :=
  scoreToken log2 collection token none 0

end InformationContentScoringHandler

/-! ## scoring/scorer.go -/

/-- The interface `IScoreHandler`. -/
structure IScoreHandler (F : Type) where
  ScoreToken : Collection → Token → Except String F
  ScoreTokens : Collection → List Token → Except String (List F)

/-- The constructor `NewInformationContentScoringHandler`, as an `IScoreHandler`. -/
def NewInformationContentScoringHandler (log2 : F → F) : IScoreHandler F :=
  { ScoreToken := fun collection token =>
      .ok (InformationContentScoringHandler.ScoreToken log2 collection token)
    ScoreTokens := fun collection tokens =>
      .ok (InformationContentScoringHandler.ScoreTokens log2 collection tokens) }

/-- The struct `Scorer`. -/
structure Scorer (F : Type) where
  handler : IScoreHandler F

/-- The constructor `NewScorer`. -/
def NewScorer (handler : IScoreHandler F) : Scorer F := { handler := handler }

namespace Scorer

/-- The method `Scorer.ValidateCollection`; `.ok ()` is the nil error. -/
def ValidateCollection (_c : Scorer F) (collection : Collection) : Except String Unit :=
  if collection.HasNumericAttribute then
    .error ("OpenRarity currently does not support collections with " ++
      "numeric or date traits")
  else
    let allowedStandards := [TokenStandardERC721, TokenStandardMetaplexNonFungible]
    if !IsSubset allowedStandards collection.TokenStandards then
      .error "OpenRarity currently only supports ERC721/Non-fungible standards"
    else .ok ()

/-- The method `Scorer.ScoreToken`. -/
def ScoreToken (c : Scorer F) (collection : Collection) (token : Token) : Except String F :=
  match c.ValidateCollection collection with
  | .error err => .error err
  | .ok _ => c.handler.ScoreToken collection token

/-- The method `Scorer.ScoreTokens`. -/
def ScoreTokens (c : Scorer F) (collection : Collection) (tokens : List Token) :
    Except String (List F) :=
  match c.ValidateCollection collection with
  | .error err => .error err
  | .ok _ => c.handler.ScoreTokens collection tokens

/-- The method `Scorer.ScoreCollection`. -/
def ScoreCollection (c : Scorer F) (collection : Collection) : Except String (List F) :=
  match c.ValidateCollection collection with
  | .error err => .error err
  | .ok _ => c.handler.ScoreTokens collection collection.Tokens

/-- The loop of `Scorer.ScoreCollections`; `allScores` is the list built so far. -/
def scoreCollectionsLoop (c : Scorer F) (allScores : List (List F)) :
    List Collection → Except String (List (List F))
  | [] => .ok allScores
  | collection :: rest =>
    match c.ValidateCollection collection with
    | .error err => .error err
    | .ok _ =>
      match c.ScoreTokens collection collection.Tokens with
      | .error err => .error err
      | .ok scores => scoreCollectionsLoop c (allScores ++ [scores]) rest

/-- The method `Scorer.ScoreCollections`. -/
def ScoreCollections (c : Scorer F) (collections : List Collection) :
    Except String (List (List F)) :=
  scoreCollectionsLoop c [] collections

end Scorer

/-- The interface `IScorer`. -/
structure IScorer (F : Type) extends IScoreHandler F where
  ValidateCollection : Collection → Except String Unit
  ScoreCollection : Collection → Except String (List F)
  ScoreCollections : List Collection → Except String (List (List F))

/-- A `Scorer` seen through the interface `IScorer`. -/
def Scorer.toIScorer (c : Scorer F) : IScorer F :=
  { ScoreToken := c.ScoreToken
    ScoreTokens := c.ScoreTokens
    ValidateCollection := c.ValidateCollection
    ScoreCollection := c.ScoreCollection
    ScoreCollections := c.ScoreCollections }

/-- The function `NewOpenRarityScorer` of openrarity.go. -/
def NewOpenRarityScorer (log2 : F → F) : IScorer F :=
  (NewScorer (NewInformationContentScoringHandler log2)).toIScorer

end ScoringDefinitions

section Scoring

variable {F : Type} [LinearOrderedField F]

/-! ## models/token_rarity_features.go, models/token_rarity.go -/

/-- The struct `TokenRankingFeatures`. -/
structure TokenRankingFeatures where
  uniqueAttributeCount : Int
deriving DecidableEq, Repr

/-- The constructor `NewTokenRankingFeatures`. -/
def NewTokenRankingFeatures (uniqueAttributeCount : Int) : TokenRankingFeatures :=
  { uniqueAttributeCount := uniqueAttributeCount }

/-- The function `ExtractUniqueAttributeCount`. -/
def ExtractUniqueAttributeCount (token : Token) (collection : Collection) :
    TokenRankingFeatures :=
  NewTokenRankingFeatures
    (token.metadata.stringAttributes.entries.foldl
      (fun uniqueAttributesCount e =>
        if collection.TotalTokensWithAttributes e.2 = 1 then uniqueAttributesCount + 1
        else uniqueAttributesCount)
      0)

/-- The struct `TokenRarity`. -/
structure TokenRarity (F : Type) where
  score : F
  tokenFeatures : TokenRankingFeatures
  token : Token
  rank : Int

/-- The constructor `NewTokenRarity`: the rank starts at the zero value. -/
def NewTokenRarity (token : Token) (score : F) (tokenFeatures : TokenRankingFeatures) :
    TokenRarity F :=
  { score := score, tokenFeatures := tokenFeatures, token := token, rank := 0 }

/-- The method `TokenRarity.SetRarityRanks`; the updated value is returned. -/
def TokenRarity.SetRarityRanks (c : TokenRarity F) (rank : Int) : TokenRarity F :=
  { c with rank := rank }

/-! ## rarity_ranker.go -/

/-- The function `IsFloat64Close`; the constant `1e-9` is `1 / 10 ^ 9`. -/
def IsFloat64Close (a b : F) : Bool :=
  decide (a = b) || decide (|a - b| ≤ 1 / 10 ^ 9)

/-- The result of an operation on Go's 64-bit `int`: the exact result reduced into
`[-2 ^ 63, 2 ^ 63)`. -/
def wrapInt (x : Int) : Int := (x + 2 ^ 63) % 2 ^ 64 - 2 ^ 63

/-- The comparator that `SetRarityRanks` hands to `sort.Slice`. -/
def rarityLess (a b : TokenRarity F) : Bool :=
  let delta :=
    wrapInt (a.tokenFeatures.uniqueAttributeCount - b.tokenFeatures.uniqueAttributeCount)
  if delta ≠ 0 then decide (delta > 0) else decide (a.score > b.score)

/-- The ranking loop of `SetRarityRanks` from index `i` on; `prev` is the element at index
`i - 1` after its rank was set (`none` when `i = 0`). -/
def rankLoop (i : Nat) (prev : Option (TokenRarity F)) :
    List (TokenRarity F) → Except String (List (TokenRarity F))
  | [] => .ok []
  | tokenRarity :: rest =>
    let rank : Int := (i : Int) + 1
    let rank? : Except String Int :=
      match prev with
      | none => .ok rank
      | some prevTokenRarity =>
        if IsFloat64Close tokenRarity.score prevTokenRarity.score then
          if prevTokenRarity.rank = 0 then .error "preview token rarity rank is zero"
          else .ok prevTokenRarity.rank
        else .ok rank
    match rank? with
    | .error err => .error err
    | .ok rank =>
      let tokenRarity := tokenRarity.SetRarityRanks rank
      match rankLoop (i + 1) (some tokenRarity) rest with
      | .error err => .error err
      | .ok ranked => .ok (tokenRarity :: ranked)

/-- The method `RarityRanker.SetRarityRanks`. -/
def SetRarityRanks (tokenRarities : List (TokenRarity F)) :
    Except String (List (TokenRarity F)) :=
  rankLoop 0 none (sortSlice rarityLess tokenRarities)

/-- The method `RarityRanker.RankCollection`. A nil collection is `none`; a nil collection and
a collection whose token slice is nil return no ranked items and no error. -/
def RankCollection (collection : Option Collection) (scorer : IScorer F) :
    Except String (List (TokenRarity F)) :=
  match collection with
  | none => .ok []
  | some collection =>
    if collection.tokensIsNil then .ok []
    else
      let tokens := collection.Tokens
      match scorer.ScoreTokens collection tokens with
      | .error err => .error err
      | .ok scores =>
        if tokens.length ≠ scores.length then
          .error "dimension of scores doesn't match dimension of tokens"
        else
          SetRarityRanks
            ((tokens.zip scores).map fun ts =>
              NewTokenRarity ts.1 ts.2 (ExtractUniqueAttributeCount ts.1 collection))

/-! ## The formulas of the specification -/

/-- The entropy as the specification words it (section 4.5, step 2): minus the single flat sum
of `p * log2 p` over every (name, value) pair of the frequency table and over every null
placeholder, with `p = count / totalSupply`. -/
def specEntropy (log2 : F → F) (c : Collection) : F :=
  -((c.attributesFrequencyCounts.entries.map fun e =>
        (e.2.entries.map fun kv =>
          ((kv.2 : Int) : F) / ((c.TokenTotalSupply : Int) : F)
            * log2 (((kv.2 : Int) : F) / ((c.TokenTotalSupply : Int) : F))).sum).sum
    + (c.ExtractNullAttributes.entries.map fun e =>
        ((e.2.TotalTokens : Int) : F) / ((c.TokenTotalSupply : Int) : F)
          * log2 (((e.2.TotalTokens : Int) : F) / ((c.TokenTotalSupply : Int) : F))).sum)

/-- The information content of a token as the specification words it (section 4.5, step 3):
the sum of `log2 (totalSupply / count)` over the token's combined attribute set, that is
over its own string attributes, with the count of tokens holding that attribute value, and
over the null placeholders of the names the token lacks, with the count of the placeholder. -/
def specIC (log2 : F → F) (c : Collection) (token : Token) : F :=
  (token.metadata.stringAttributes.entries.map fun e =>
      log2 (((c.TokenTotalSupply : Int) : F) / ((c.TotalTokensWithAttributes e.2 : Int) : F))).sum
    + ((c.ExtractNullAttributes.entries.filter fun e => !token.HasAttribute e.1).map fun e =>
        log2 (((c.TokenTotalSupply : Int) : F) / ((e.2.TotalTokens : Int) : F))).sum

/-- The token with the attribute `X` explicitly set to the literal "none", through
`AddAttribute (NewStringAttribute X "none")`, when its string attributes have no entry for
that name; the token itself otherwise. -/
def withExplicitNone (X : String) (token : Token) : Token :=
  if token.HasAttribute (NewStringAttribute X "none").name then token
  else
    { token with
      metadata := token.metadata.AddAttribute (.string (NewStringAttribute X "none")) }

/-- The number of tokens that lack the attribute `X`. -/
def lackCount (X : String) (tokens : List Token) : Nat :=
  tokens.countP fun t => !t.HasAttribute (NewStringAttribute X "none").name

/-- The sum of `φ count` over the values that the table holds for the name `k`. -/
def valueSum (φ : Int → F) (table : GoMap (GoMap Int)) (k : String) : F :=
  match table.get? k with
  | some inner => (inner.entries.map fun kv => φ kv.2).sum
  | none => 0

/-- The term `φ deficit` of the null placeholder of the name `k`, 0 when there is none. -/
def nullTerm (φ : Int → F) (N : Int) (table : GoMap (GoMap Int)) (k : String) : F :=
  if N - tableSum table k > 0 then φ (N - tableSum table k) else 0

/-! ## Test fixtures: scoring/scoring_suite_test.go, examples/score_generated_collection -/

/-- The constant `IdentifierTypeEVMContract`. -/
def IdentifierTypeEVMContract : String := "evm_contract"

/-- The constant `IdentifierTypeSolanaMintAddress`. -/
def IdentifierTypeSolanaMintAddress : String := "solana_mint_address"

/-- The loop of the test helper `GenerateCollectionWithTokenTraits`, from index `idx` on. -/
def generateTokens (tokenIdentifierType : String) :
    Nat → List (GoMap RawValue) → Except String (List Token)
  | _, [] => .ok []
  | idx, tokenTraits :: rest =>
    if tokenIdentifierType ≠ IdentifierTypeEVMContract
        ∧ tokenIdentifierType ≠ IdentifierTypeSolanaMintAddress then
      .error ("Unexpected token identifier type: " ++ tokenIdentifierType)
    else
      let identifierType : TokenIdentifier :=
        if tokenIdentifierType = IdentifierTypeEVMContract then .evmContract "0x0" idx
        else .solanaMintAddress ("Fake-Address-" ++ toString idx)
      match NewTokenMetadataFromAttributes tokenTraits with
      | .error err => .error err
      | .ok tokenMetadata =>
        match generateTokens tokenIdentifierType (idx + 1) rest with
        | .error err => .error err
        | .ok tokens => .ok (NewToken identifierType TokenStandardERC721 tokenMetadata :: tokens)

/-- The test helper `GenerateCollectionWithTokenTraits`. -/
def GenerateCollectionWithTokenTraits (tokensTraits : List (GoMap RawValue))
    (tokenIdentifierType : String) : Except String Collection :=
  match generateTokens tokenIdentifierType 0 tokensTraits with
  | .error err => .error err
  | .ok tokens => .ok (NewCollection "My Collection" tokens)

/-- A raw attribute mapping all of whose values are strings. -/
def stringTraits (l : List (String × String)) : GoMap RawValue :=
  GoMap.ofList (l.map fun e => (e.1, RawValue.string e.2))

/-- The tokens of a generated collection (no tokens when the generation fails). -/
def tokensOf (c : Except String Collection) : List Token :=
  match c with
  | .ok c => c.Tokens
  | .error _ => []

/-- The collection of a successful generation (the zero value otherwise). -/
def collectionOf (c : Except String Collection) : Collection :=
  match c with
  | .ok c => c
  | .error _ => { name := "", tokens := [], attributesFrequencyCounts := GoMap.empty }

/-- The traits of `collectionWithEmpty` of `test_information_content_null_value_attribute`. -/
def traitsWithEmpty : List (GoMap RawValue) :=
  [ stringTraits [("bottom", "spec"), ("hat", "spec"), ("special", "true")],
    stringTraits [("bottom", "1"), ("hat", "1"), ("special", "true")],
    stringTraits [("bottom", "1"), ("hat", "1")],
    stringTraits [("bottom", "2"), ("hat", "2")],
    stringTraits [("bottom", "2"), ("hat", "2")],
    stringTraits [("bottom", "3"), ("hat", "2")] ]

/-- The collection `collectionWithEmpty` of `test_information_content_null_value_attribute`. -/
def collectionWithEmpty : Collection :=
  collectionOf (GenerateCollectionWithTokenTraits traitsWithEmpty IdentifierTypeEVMContract)

/-- The traits of `collectionWithNull` of `test_information_content_empty_attribute`. -/
def traitsWithNull : List (GoMap RawValue) :=
  [ stringTraits [("bottom", "1"), ("hat", "1"), ("special", "true")],
    stringTraits [("bottom", "1"), ("hat", "1")],
    stringTraits [("bottom", "2"), ("hat", "2")],
    stringTraits [("bottom", "2"), ("hat", "2")],
    stringTraits [("bottom", "3"), ("hat", "2")] ]

/-- The traits of `collectionWithoutNull` of `test_information_content_empty_attribute`. -/
def traitsWithoutNull : List (GoMap RawValue) :=
  [ stringTraits [("bottom", "1"), ("hat", "1"), ("special", "true")],
    stringTraits [("bottom", "1"), ("hat", "1"), ("special", "none")],
    stringTraits [("bottom", "2"), ("hat", "2"), ("special", "none")],
    stringTraits [("bottom", "2"), ("hat", "2"), ("special", "none")],
    stringTraits [("bottom", "3"), ("hat", "2"), ("special", "none")] ]

/-- The tokens of a list of constructor results (the helper `must` of the example program
panics on an error; here a failed construction leaves the token out). -/
def mustTokens (l : List (Except String Token)) : List Token :=
  l.filterMap fun r =>
    match r with
    | .ok t => some t
    | .error _ => none

/-- The token list of the example program `score_generated_collection`. -/
def exampleTokens : List Token :=
  mustTokens
    [ NewERC721Token "0xa3049..." 1 (stringTraits [("hat", "cap"), ("shirt", "blue")]),
      NewERC721Token "0xa3049..." 2 (stringTraits [("hat", "visor"), ("shirt", "green")]),
      NewERC721Token "0xa3049..." 3
        (stringTraits [("hat", "visor"), ("shirt", "blue"), ("color", "blue")]) ]

/-- The collection of the example program `score_generated_collection`. -/
def exampleCollection : Collection := NewCollection "My Collection Name" exampleTokens

/-- A collection of one ERC721 token with the single attribute `hat: cap`: every attribute
value is held by all tokens, so the entropy is 0. -/
def uniformCollection : Collection :=
  NewCollection "uniform" (mustTokens [NewERC721Token "0x0" 0 (stringTraits [("hat", "cap")])])

/-- A token with the attributes `x: a` and `y: b`, which no other token of
`rarityCollection` holds. -/
def rareTokenRaw : Token :=
  NewToken (.evmContract "0x0" 0) TokenStandardERC721
    (NewTokenMetadataFromStringAttributes
      (GoMap.ofList [("x", NewStringAttribute "x" "a"), ("y", NewStringAttribute "y" "b")]))

/-- A token with the single attribute `x: c`. -/
def commonTokenRaw (tokenID : Int) : Token :=
  NewToken (.evmContract "0x0" tokenID) TokenStandardERC721
    (NewTokenMetadataFromStringAttributes (GoMap.ofList [("x", NewStringAttribute "x" "c")]))

/-- A collection of one rare token and two equal common tokens. -/
def rarityCollection : Collection :=
  NewCollection "rarity" [rareTokenRaw, commonTokenRaw 1, commonTokenRaw 2]

/-- The raw tokens that `GenerateCollectionWithTokenTraits` builds for EVM contracts, before
`NewCollection` (no tokens when the generation fails). -/
def generatedTokens (tokensTraits : List (GoMap RawValue)) : List Token :=
  match generateTokens IdentifierTypeEVMContract 0 tokensTraits with
  | .ok tokens => tokens
  | .error _ => []

/-- The collection `collectionWithNull` of `test_information_content_empty_attribute`. -/
def collectionWithNull : Collection :=
  collectionOf (GenerateCollectionWithTokenTraits traitsWithNull IdentifierTypeEVMContract)

/-- The collection `collectionWithoutNull` of `test_information_content_empty_attribute`. -/
def collectionWithoutNull : Collection :=
  collectionOf (GenerateCollectionWithTokenTraits traitsWithoutNull IdentifierTypeEVMContract)

/-- Two tokens with the attribute `a: 1`; the first also carries, before the collection is
built, an attribute under the reserved trait-count name. -/
def reservedNameTokens : List Token :=
  mustTokens
    [ NewERC721Token "0x0" 0 (stringTraits [("a", "1"), (TraitCountAttributeName, "5")]),
      NewERC721Token "0x0" 1 (stringTraits [("a", "1")]) ]

/-- The error of `ValidateCollection` on a collection; `none` when the collection is valid. -/
def validationError? (c : Scorer F) (collection : Collection) : Option String :=
  match c.ValidateCollection collection with
  | .error err => some err
  | .ok _ => none

/-- The metadata of a successful construction (the test helper `must` panics on an error;
here a failed construction gives the empty metadata). -/
def mustMetadata (r : Except String TokenMetadata) : TokenMetadata :=
  match r with
  | .ok m => m
  | .error _ =>
    { stringAttributes := GoMap.empty, numericAttributes := GoMap.empty,
      dateAttributes := GoMap.empty }

/-- The test helper `CreateEVMToken`; a nil `metadata` is `none`. -/
def CreateEVMToken (tokenId : Int) (contractAddress : String) (tokenStandard : TokenStandard)
    (metadata : Option TokenMetadata) : Token :=
  let metadata :=
    match metadata with
    | some m => m
    | none => mustMetadata (NewTokenMetadataFromAttributes GoMap.empty)
  NewToken (.evmContract contractAddress tokenId) tokenStandard metadata

/-- The collection of `test_score_collection_with_erc1155_errors`: ten ERC1155 tokens. -/
def erc1155Collection : Collection :=
  NewCollection "test"
    ((List.range 10).map fun i => CreateEVMToken (i : Int) "0xaaa" TokenStandardERC1155 none)

/-- The traits of `test_score_collections_with_string_attributes`. -/
def traitsStringOnly : List (GoMap RawValue) :=
  [ stringTraits [("bottom", "1"), ("hat", "1"), ("special", "true")],
    stringTraits [("bottom", "1"), ("hat", "1"), ("special", "false")],
    stringTraits [("bottom", "2"), ("hat", "2"), ("special", "false")],
    stringTraits [("bottom", "2"), ("hat", "2"), ("special", "false")],
    stringTraits [("bottom", "pants"), ("hat", "cap"), ("special", "false")] ]

/-- The collection of `test_score_collections_with_string_attributes`. -/
def collectionStringOnly : Collection :=
  collectionOf (GenerateCollectionWithTokenTraits traitsStringOnly IdentifierTypeEVMContract)

/-- The traits of `test_score_collection_with_numeric_attribute_errors`: the last token
holds the numeric attributes `bottom: 3` and `hat: 2`. -/
def traitsWithNumeric : List (GoMap RawValue) :=
  [ stringTraits [("bottom", "1"), ("hat", "1"), ("special", "true")],
    stringTraits [("bottom", "1"), ("hat", "1"), ("special", "false")],
    stringTraits [("bottom", "2"), ("hat", "2"), ("special", "false")],
    stringTraits [("bottom", "2"), ("hat", "2"), ("special", "false")],
    GoMap.ofList
      [("bottom", RawValue.int 3), ("hat", RawValue.int 2), ("special", RawValue.string "false")] ]

/-- The collection of `test_score_collection_with_numeric_attribute_errors`. -/
def collectionWithNumeric : Collection :=
  collectionOf (GenerateCollectionWithTokenTraits traitsWithNumeric IdentifierTypeEVMContract)

/-- A scoring handler, as a caller may supply one through the interface `IScoreHandler`, whose
two methods always fail. -/
def failingHandler : IScoreHandler F :=
  { ScoreToken := fun _ _ => .error "handler failed"
    ScoreTokens := fun _ _ => .error "handler failed" }

/-- A scoring handler, as a caller may supply one through the interface `IScoreHandler`, whose
`ScoreTokens` returns no score at all, whatever the number of tokens. -/
def shortHandler : IScoreHandler F :=
  { ScoreToken := fun _ _ => .ok 0
    ScoreTokens := fun _ _ => .ok [] }

/-- The collection `NewCollection("nil", nil)`: its token slice is nil. -/
def nilTokensCollection : Collection := NewCollectionOfNil "nil"

/-- The collection `NewCollection("empty", []models.IToken{})`: its token slice is empty and
not nil. -/
def emptyTokensCollection : Collection := NewCollection "empty" []

/-- Three tokens with the attributes `id` and `kind`: every token has its own value of `id`,
and all tokens hold the value `cat` of `kind`. -/
def distinctIdTokens : List Token :=
  mustTokens
    [ NewERC721Token "0x0" 1 (stringTraits [("id", "1"), ("kind", "cat")]),
      NewERC721Token "0x0" 2 (stringTraits [("id", "2"), ("kind", "cat")]),
      NewERC721Token "0x0" 3 (stringTraits [("id", "3"), ("kind", "cat")]) ]

/-- The traits of `test_feature_extractor`. -/
def traitsFeatureExtractor : List (GoMap RawValue) :=
  [ stringTraits [("bottom", "1"), ("hat", "1"), ("special", "true")],
    stringTraits [("bottom", "1"), ("hat", "1"), ("special", "false")],
    stringTraits [("bottom", "2"), ("hat", "2"), ("special", "false")],
    stringTraits [("bottom", "2"), ("hat", "2"), ("special", "false")],
    stringTraits [("bottom", "3"), ("hat", "2"), ("special", "false")],
    stringTraits [("bottom", "4"), ("hat", "3"), ("special", "false")] ]

/-- The collection of `test_feature_extractor`. -/
def collectionFeatureExtractor : Collection :=
  collectionOf (GenerateCollectionWithTokenTraits traitsFeatureExtractor IdentifierTypeEVMContract)

/-- The trait count of a token as the specification words it for the synthetic attribute:
the number of its string attributes other than the one under the reserved trait-count name
whose normalized value is neither empty nor "none", plus the number of its numeric
attributes, plus the number of its date attributes. -/
def traitCountWithoutSynthetic (token : Token) : Int :=
  ((token.metadata.stringAttributes.entries.countP fun e =>
      decide (e.1 ≠ TraitCountAttributeName
        ∧ ¬ (NormalizeAttributeString e.2.value = ""
          ∨ NormalizeAttributeString e.2.value = "none")) : Nat) : Int)
    + token.metadata.numericAttributes.len + token.metadata.dateAttributes.len

/-- One token with the attribute `a: 1` that holds, before the collection is built, the value
"none" under the reserved trait-count name. -/
def noneTraitCountTokens : List Token :=
  mustTokens
    [NewERC721Token "0x0" 0 (stringTraits [("a", "1"), (TraitCountAttributeName, "none")])]

/-- Following the words of the specification: the contribution of the attribute name `k` to
the entropy of the collection, minus the sum of `p * log2 p` over the values of the name and
over its null placeholder, with `p = count / totalSupply`. -/
def attributeEntropy (log2 : F → F) (c : Collection) (k : String) : F :=
  -(valueSum
        (fun x : Int => ((x : Int) : F) / ((c.TokenTotalSupply : Int) : F)
          * log2 (((x : Int) : F) / ((c.TokenTotalSupply : Int) : F)))
        c.attributesFrequencyCounts k
      + nullTerm
        (fun x : Int => ((x : Int) : F) / ((c.TokenTotalSupply : Int) : F)
          * log2 (((x : Int) : F) / ((c.TokenTotalSupply : Int) : F)))
        c.TokenTotalSupply c.attributesFrequencyCounts k)

/-- The kind of a raw attribute value in the type switch of `NewTokenMetadataFromAttributes`:
0 for a string, 1 for a number (`float64`, `int64`, `int`), 2 for a timestamp and 3 for a
value of another type. -/
def RawValue.kind : RawValue → Nat
  | .string _ => 0
  | .float64 _ => 1
  | .int64 _ => 1
  | .int _ => 1
  | .time _ => 2
  | .other _ => 3

/-- The metadata stores the raw entry `attrName: attrValue` under the normalized name: a
string as a string attribute with the normalized value, a number as a numeric attribute, a
timestamp as a date attribute with its unix seconds. -/
def storesRawEntry (md : TokenMetadata) (attrName : String) (attrValue : RawValue) : Prop :=
  match attrValue with
  | .string v =>
    md.stringAttributes.get? (NormalizeAttributeString attrName)
      = some ⟨NormalizeAttributeString attrName, NormalizeAttributeString v⟩
  | .float64 v =>
    md.numericAttributes.get? (NormalizeAttributeString attrName)
      = some ⟨NormalizeAttributeString attrName, .float64 v⟩
  | .int64 v =>
    md.numericAttributes.get? (NormalizeAttributeString attrName)
      = some ⟨NormalizeAttributeString attrName, .int64 v⟩
  | .int v =>
    md.numericAttributes.get? (NormalizeAttributeString attrName)
      = some ⟨NormalizeAttributeString attrName, .int v⟩
  | .time unix =>
    md.dateAttributes.get? (NormalizeAttributeString attrName)
      = some ⟨NormalizeAttributeString attrName, unix⟩
  | .other _ => False

/-- The invariant of the specification on a metadata value: no name is a key of two of the
three mappings. -/
def keysInAtMostOneMapping (md : TokenMetadata) : Prop :=
  ∀ k : String,
    ¬ (k ∈ md.stringAttributes.keys ∧ k ∈ md.numericAttributes.keys) ∧
      ¬ (k ∈ md.stringAttributes.keys ∧ k ∈ md.dateAttributes.keys) ∧
      ¬ (k ∈ md.numericAttributes.keys ∧ k ∈ md.dateAttributes.keys)

/-- A raw mapping with the two keys `Hat` and `hat`, both with string values. -/
def rawHatTwice : GoMap RawValue :=
  GoMap.ofList [("Hat", RawValue.string "a"), ("hat", RawValue.string "b")]

/-- The raw mapping `rawHatTwice` in the other iteration order. -/
def rawHatTwiceReversed : GoMap RawValue :=
  GoMap.ofList [("hat", RawValue.string "b"), ("Hat", RawValue.string "a")]

/-- A raw mapping with the two keys `Hat`, a string, and `hat`, a number. -/
def rawHatMixed : GoMap RawValue :=
  GoMap.ofList [("Hat", RawValue.string "cap"), ("hat", RawValue.int 3)]

/-- A raw mapping with the two keys `École` and `école`, both with string values. -/
def rawEcoleTwice : GoMap RawValue :=
  GoMap.ofList [("École", RawValue.string "a"), ("école", RawValue.string "b")]

/-- A raw mapping with the two keys `École` and `école`, both with string values, and the key
`level` with a number. -/
def rawEcoleLevel : GoMap RawValue :=
  GoMap.ofList
    [("École", RawValue.string "a"), ("école", RawValue.string "b"),
      ("level", RawValue.int 3)]

/-- A raw mapping with one value of each kind: a string, a number and a timestamp. -/
def rawOneOfEach : GoMap RawValue :=
  GoMap.ofList
    [("Hat", RawValue.string " Cap "), ("level", RawValue.int 3), ("born", RawValue.time 86400)]

/-- The test helper `UniformRarityTokens`: `tokenTotalSupply` tokens with the attributes
`0`, ..., `attributeCount - 1`, the value of every attribute of the token `tokenId` being
`tokenId / (tokenTotalSupply / valuesPerAttribute)`. (Go panics on a division by zero, where
the natural-number division here gives 0.) -/
def UniformRarityTokens (attributeCount valuesPerAttribute tokenTotalSupply : Nat) :
    List Token :=
  (List.range tokenTotalSupply).map fun (tokenId : Nat) =>
    NewToken (.evmContract "0x0" (tokenId : Int)) TokenStandardERC721
      (NewTokenMetadataFromStringAttributes
        ((List.range attributeCount).foldl
          (fun stringAttributeMap (i : Nat) =>
            stringAttributeMap.set (FormatInt (i : Int))
              (NewStringAttribute (FormatInt (i : Int))
                (FormatInt ((tokenId / (tokenTotalSupply / valuesPerAttribute) : Nat) : Int))))
          GoMap.empty))

/-- Two tokens whose string-attribute maps hold, under the key `A`, attributes that
`NewStringAttribute` made from the name `A`, that is with the normalized name `a`; the values
are `x` and `y`. -/
def mismatchedKeyTokens : List Token :=
  [ NewToken (.evmContract "0x0" 0) TokenStandardERC721
      (NewTokenMetadataFromStringAttributes (GoMap.ofList [("A", NewStringAttribute "A" "x")])),
    NewToken (.evmContract "0x0" 1) TokenStandardERC721
      (NewTokenMetadataFromStringAttributes (GoMap.ofList [("A", NewStringAttribute "A" "y")])) ]

/-! ## sort.Slice on a slice of 13 elements

The library function `sort.Slice` (Go 1.19 and later) sorts by pattern-defeating quicksort:
a range of at most 12 elements goes to insertion sort, a longer one is partitioned around a
pivot. On 13 elements that is one choice of a pivot, one test whether the slice is sorted
already, one partition, and an insertion sort of either side, which is what follows. -/

/-- The call `data.Less(i, j)` of the library: the comparator on the elements at the indices
`i` and `j`. -/
def lessAt {α : Type} (less : α → α → Bool) (data : List α) (i j : Nat) : Bool :=
  match data[i]?, data[j]? with
  | some x, some y => less x y
  | _, _ => false

/-- The call `data.Swap(i, j)` of the library. -/
def swapAt {α : Type} (data : List α) (i j : Nat) : List α :=
  match data[i]?, data[j]? with
  | some x, some y => (data.set i y).set j x
  | _, _ => data

/-- The library function `order2_func`: the two indices with the one of the element that
sorts first in front, and the count of swaps so far. -/
def order2 {α : Type} (less : α → α → Bool) (data : List α) (a b swaps : Nat) :
    Nat × Nat × Nat :=
  if lessAt less data b a then (b, a, swaps + 1) else (a, b, swaps)

/-- The library function `median_func`: the index of the median of the elements at `a`, `b`
and `c`, and the count of swaps. -/
def median {α : Type} (less : α → α → Bool) (data : List α) (a b c swaps : Nat) : Nat × Nat :=
  let r1 := order2 less data a b swaps
  let r2 := order2 less data r1.2.1 c r1.2.2
  let r3 := order2 less data r1.1 r2.1 r2.2.2
  (r3.2.1, r3.2.2)

/-- The library function `choosePivot_func` on a range `[a, b)` of 8 to 49 elements (a longer
range takes medians of adjacent elements first): the index of the pivot and the count of
swaps; no swap means that the range looks sorted (`increasingHint`). -/
def choosePivot {α : Type} (less : α → α → Bool) (data : List α) (a b : Nat) : Nat × Nat :=
  let l := b - a
  median less data (a + l / 4 * 1) (a + l / 4 * 2) (a + l / 4 * 3) 0

/-- The library function `partialInsertionSort_func` on a range `[a, b)` of fewer than 50
elements, where it moves nothing: whether no element of the range sorts before its
predecessor. -/
def partialInsertionSort {α : Type} (less : α → α → Bool) (data : List α) (a b : Nat) : Bool :=
  (List.range (b - a - 1)).all fun d => !lessAt less data (a + 1 + d) (a + d)

/-- The loop `for i <= j && data.Less(i, a) { i++ }` of `partition_func`. -/
def scanLess {α : Type} (less : α → α → Bool) (data : List α) (a j : Nat) : Nat → Nat → Nat
  | 0, i => i
  | fuel + 1, i =>
    if i ≤ j ∧ lessAt less data i a = true then scanLess less data a j fuel (i + 1) else i

/-- The loop `for i <= j && !data.Less(j, a) { j-- }` of `partition_func`. -/
def scanNotLess {α : Type} (less : α → α → Bool) (data : List α) (a i : Nat) : Nat → Nat → Nat
  | 0, j => j
  | fuel + 1, j =>
    if i ≤ j ∧ lessAt less data j a = false then scanNotLess less data a i fuel (j - 1) else j

/-- The main loop of `partition_func`: the data and the index `j` at the `break`. -/
def partitionLoop {α : Type} (less : α → α → Bool) (a b : Nat) :
    Nat → List α → Nat → Nat → List α × Nat
  | 0, data, _, j => (data, j)
  | fuel + 1, data, i, j =>
    let i := scanLess less data a j (b - a) i
    let j := scanNotLess less data a i (b - a) j
    if i > j then (data, j)
    else partitionLoop less a b fuel (swapAt data i j) (i + 1) (j - 1)

/-- The library function `partition_func` on the range `[a, b)`: the data, the new index of
the pivot, and whether the range was partitioned already. -/
def partition_func {α : Type} (less : α → α → Bool) (data : List α) (a b pivot : Nat) :
    List α × Nat × Bool :=
  let data := swapAt data a pivot
  let i := scanLess less data a (b - 1) (b - a) (a + 1)
  let j := scanNotLess less data a i (b - a) (b - 1)
  if i > j then (swapAt data j a, j, true)
  else
    let r := partitionLoop less a b (b - a) (swapAt data i j) (i + 1) (j - 1)
    (swapAt r.1 r.2 a, r.2, false)

/-- The library function `sort.Slice` on a slice of 13 elements (`pdqsort_func` with
`a = 0`, `b = 13`): with no swap in the choice of the pivot and a sorted slice it returns at
once; otherwise it partitions, and the two sides, of at most 12 elements together, go to
insertion sort. On a list of another length the result is that of `sortSlice`. -/
def sortSliceThirteen {α : Type} (less : α → α → Bool) (data : List α) : List α :=
  if data.length = 13 then
    let p := choosePivot less data 0 13
    if p.2 = 0 ∧ partialInsertionSort less data 0 13 = true then data
    else
      let r := partition_func less data 0 13 p.1
      sortSlice less (r.1.take r.2.1) ++ (r.1.drop r.2.1).take 1
        ++ sortSlice less (r.1.drop (r.2.1 + 1))
  else sortSlice less data

/-- Thirteen token rarities with the unique-attribute count 0: the one at index 3 has the
score 2, the others have the score 1. The token of the rarity at index `i` has the
identifier `i`. -/
def thirteenRarities : List (TokenRarity ℚ) :=
  (List.range 13).map fun (i : Nat) =>
    NewTokenRarity (commonTokenRaw (i : Int)) (if i = 3 then 2 else 1)
      (NewTokenRankingFeatures 0)

/-- The stability the specification states, between the input and the output of a ranking:
for every unique-attribute count and score, the output rarities that have them are the input
rarities that have them, in the same order (the ranks, which the ranking sets, left apart). -/
def specStableOrder (input output : List (TokenRarity F)) : Prop :=
  ∀ (count : Int) (score : F),
    (output.filter fun r =>
        decide (r.tokenFeatures.uniqueAttributeCount = count ∧ r.score = score)).map
        (fun r => r.SetRarityRanks 0)
      = (input.filter fun r =>
        decide (r.tokenFeatures.uniqueAttributeCount = count ∧ r.score = score)).map
        (fun r => r.SetRarityRanks 0)

/-- Following the words of the specification: the test `math.isclose(a, b)` of Python with its
default parameters `rel_tol = 1e-9` and `abs_tol = 0`, that is
`|a - b| ≤ 1e-9 * max(|a|, |b|)`. -/
def specIsClose (a b : F) : Bool :=
  decide (|a - b| ≤ 1 / 10 ^ 9 * max |a| |b|)

/-- Following the words of the specification: the count behind the score of the attribute name
`name` for a token: the number of tokens that hold the token's own value when the token holds
the name (whether or not the name has a null placeholder), and the count of the null
placeholder of the name otherwise. -/
def specCombinedCount (c : Collection) (token : Token) (name : String) : Int :=
  match token.metadata.stringAttributes.get? name with
  | some a => c.TotalTokensWithAttributes a
  | none =>
    match c.ExtractNullAttributes.get? name with
    | some nullAttr => nullAttr.TotalTokens
    | none => 0

/-- Following the words of the specification: the number of tokens of `tokens` that share the
value of `token` for the attribute name `name`, or its absence of the name: the tokens that
hold, under `name`, the value that `token` holds under `name`, or the tokens that lack `name`
when `token` lacks it. -/
def specSharedCount (tokens : List Token) (token : Token) (name : String) : Nat :=
  match token.metadata.stringAttributes.get? name with
  | some a => tokens.countP fun u => tokenHoldsValue u name a.value
  | none => tokens.countP fun u => !u.HasAttribute name

/-- Three tokens whose string-attribute maps hold, under the key `A`, attributes that
`NewStringAttribute` made from the name `A`, that is with the normalized name `a`; the values
are `x`, `x` and `y`. -/
def sharedKeyTokens : List Token :=
  [ NewToken (.evmContract "0x0" 0) TokenStandardERC721
      (NewTokenMetadataFromStringAttributes (GoMap.ofList [("A", NewStringAttribute "A" "x")])),
    NewToken (.evmContract "0x0" 1) TokenStandardERC721
      (NewTokenMetadataFromStringAttributes (GoMap.ofList [("A", NewStringAttribute "A" "x")])),
    NewToken (.evmContract "0x0" 2) TokenStandardERC721
      (NewTokenMetadataFromStringAttributes (GoMap.ofList [("A", NewStringAttribute "A" "y")])) ]

/-- Four token rarities, not in ranking order: the unique-attribute counts and scores are
(1, 5), (2, 7), (1, 5) and (2, 8). -/
def mixedRarities : List (TokenRarity ℚ) :=
  [ NewTokenRarity (commonTokenRaw 0) 5 (NewTokenRankingFeatures 1),
    NewTokenRarity (commonTokenRaw 1) 7 (NewTokenRankingFeatures 2),
    NewTokenRarity (commonTokenRaw 2) 5 (NewTokenRankingFeatures 1),
    NewTokenRarity (commonTokenRaw 3) 8 (NewTokenRankingFeatures 2) ]

/-- Python's `math.isclose(a, b, rel_tol, abs_tol)`:
`|a - b| ≤ max(rel_tol * max(|a|, |b|), abs_tol)`. -/
def specIsCloseTol (relTol absTol a b : F) : Bool :=
  decide (|a - b| ≤ max (relTol * max |a| |b|) absTol)

/-- The method `RarityRanker.SetRarityRanks` with the library function `sort.Slice` as the
parameter `sortSliceImpl`. The library promises that `sort.Slice` leaves a permutation of the
slice in which no element sorts before an earlier one, and promises no order among elements
neither of which sorts before the other ("the sort is not guaranteed to be stable"); the
order it leaves among them has changed between versions of the library. `SetRarityRanks` is
`SetRarityRanksWith sortSlice`. -/
def SetRarityRanksWith
    (sortSliceImpl : (TokenRarity F → TokenRarity F → Bool) → List (TokenRarity F)
      → List (TokenRarity F))
    (tokenRarities : List (TokenRarity F)) : Except String (List (TokenRarity F)) :=
  rankLoop 0 none (sortSliceImpl rarityLess tokenRarities)

/-! ## float64

The theorems on scores are stated in exact arithmetic. For what rounding changes, the
definitions of the scoring handler are also run on `Float64`: the finite values of the type
`float64`, with the operations rounded to nearest, ties to even (IEEE 754, the arithmetic of
Go on amd64, where no multiplication is fused with an addition). Infinities, NaN, the sign of
zero and overflow are left out; a division by zero gives 0, as in the field of rationals. -/

/-- The number of binary digits of `n` after the first: `⌊log2 n⌋` for `n ≥ 1`. The first
argument bounds the number of halvings. -/
def floorLog2 : Nat → Nat → Nat
  | 0, _ => 0
  | fuel + 1, n => if n < 2 then 0 else floorLog2 fuel (n / 2) + 1

/-- The power `2 ^ e` of an integer exponent, as a rational number. -/
def pow2 (e : Int) : ℚ :=
  if 0 ≤ e then ((2 ^ e.toNat : Nat) : ℚ) else 1 / ((2 ^ (-e).toNat : Nat) : ℚ)

/-- The binary exponent of a rational number `q ≠ 0`: the `e` with
`2 ^ e ≤ |q| < 2 ^ (e + 1)`. -/
def binaryExponent (q : ℚ) : Int :=
  let e : Int := (floorLog2 q.num.natAbs q.num.natAbs : Int) - (floorLog2 q.den q.den : Int)
  if pow2 e ≤ |q| then e else e - 1

/-- The nearest integer to a rational number `q ≥ 0`, a tie going to the even one. -/
def roundHalfEven (q : ℚ) : Nat :=
  let n := q.num.natAbs
  let fl := n / q.den
  let r := n % q.den
  if 2 * r < q.den then fl
  else if q.den < 2 * r then fl + 1
  else if fl % 2 = 0 then fl else fl + 1

/-- Rounding of an exact value to `float64`, to nearest with ties to even: 53 binary digits
for a normal number, multiples of `2 ^ -1074` below `2 ^ -1022`. -/
def roundFloat64 (q : ℚ) : ℚ :=
  if q = 0 then 0
  else
    let e := max (binaryExponent q) (-1022)
    let m := roundHalfEven (|q| / pow2 (e - 52))
    let v := (m : ℚ) * pow2 (e - 52)
    if q < 0 then -v else v

/-- A finite `float64`, by its exact value. -/
structure Float64 where
  val : ℚ
deriving DecidableEq

instance : Zero Float64 := ⟨⟨0⟩⟩

instance : One Float64 := ⟨⟨1⟩⟩

instance : Add Float64 := ⟨fun a b => ⟨roundFloat64 (a.val + b.val)⟩⟩

instance : Sub Float64 := ⟨fun a b => ⟨roundFloat64 (a.val - b.val)⟩⟩

instance : Mul Float64 := ⟨fun a b => ⟨roundFloat64 (a.val * b.val)⟩⟩

instance : Div Float64 := ⟨fun a b => ⟨roundFloat64 (a.val / b.val)⟩⟩

instance : Neg Float64 := ⟨fun a => ⟨-a.val⟩⟩

instance : IntCast Float64 := ⟨fun n => ⟨roundFloat64 (n : ℚ)⟩⟩

/-- A decimal constant `digits / 10 ^ exp10` of a Go source, converted to `float64`. -/
def Float64.ofDecimal (digits : Int) (exp10 : Nat) : Float64 :=
  ⟨roundFloat64 (digits / (10 ^ exp10 : Nat))⟩

/-- The library function `math.Frexp` on a finite number other than 0: the fraction in
`[1/2, 1)` and the exponent. -/
def Frexp (x : Float64) : Float64 × Int :=
  (⟨x.val / pow2 (binaryExponent x.val + 1)⟩, binaryExponent x.val + 1)

/-- The library function `math.Log` on a finite number above 0 (log.go of the package `math`,
and the same steps in log_amd64.s), with the constants of the library. -/
def Log (x : Float64) : Float64 :=
  let Ln2Hi := Float64.ofDecimal 693147180369123816490 21
  let Ln2Lo := Float64.ofDecimal 190821492927058770002 30
  let L1 := Float64.ofDecimal 6666666666666735130 19
  let L2 := Float64.ofDecimal 3999999999940941908 19
  let L3 := Float64.ofDecimal 2857142874366239149 19
  let L4 := Float64.ofDecimal 2222219843214978396 19
  let L5 := Float64.ofDecimal 1818357216161805012 19
  let L6 := Float64.ofDecimal 1531383769920937332 19
  let L7 := Float64.ofDecimal 1479819860511658591 19
  let Sqrt2 := Float64.ofDecimal 141421356237309504880168872420969807857 38
  let two : Float64 := ⟨2⟩
  let half : Float64 := ⟨1 / 2⟩
  let fr := Frexp x
  let f1 : Float64 := if fr.1.val < (Sqrt2 / two).val then fr.1 * two else fr.1
  let ki : Int := if fr.1.val < (Sqrt2 / two).val then fr.2 - 1 else fr.2
  let f := f1 - 1
  let k : Float64 := (ki : Float64)
  let s := f / (two + f)
  let s2 := s * s
  let s4 := s2 * s2
  let t1 := s2 * (L1 + s4 * (L3 + s4 * (L5 + s4 * L7)))
  let t2 := s4 * (L2 + s4 * (L4 + s4 * L6))
  let R := t1 + t2
  let hfsq := half * f * f
  k * Ln2Hi - ((hfsq - (s * (hfsq + R) + k * Ln2Lo)) - f)

/-- The library function `math.Log2` on a finite number above 0 (log10.go of the package
`math`): exact on a power of two, `Log(frac) * (1/Ln2) + exp` otherwise. -/
def Log2 (x : Float64) : Float64 :=
  let fr := Frexp x
  if fr.1.val = 1 / 2 then ((fr.2 - 1 : Int) : Float64)
  else
    Log fr.1 * ⟨roundFloat64 (1 / (693147180559945309417232121458176568 / 10 ^ 36))⟩
      + ((fr.2 : Int) : Float64)

/-- Four tokens with the attributes `a`, `b`, `c` and `d`: each token holds the value `1` of
one attribute, which no other token holds, and the value `0` of the three other attributes,
which three tokens hold. -/
def equalProductTokens : List Token :=
  mustTokens
    [ NewERC721Token "0x0" 0 (stringTraits [("a", "1"), ("b", "0"), ("c", "0"), ("d", "0")]),
      NewERC721Token "0x0" 1 (stringTraits [("a", "0"), ("b", "0"), ("c", "0"), ("d", "1")]),
      NewERC721Token "0x0" 2 (stringTraits [("a", "0"), ("b", "0"), ("c", "1"), ("d", "0")]),
      NewERC721Token "0x0" 3 (stringTraits [("a", "0"), ("b", "1"), ("c", "0"), ("d", "0")]) ]

/-- Five tokens with the attributes `a`, `b`, `c` and `d`, the attributes of every token
being listed in this order. -/
def listedTokens : List Token :=
  mustTokens
    [ NewERC721Token "0x0" 0 (stringTraits [("a", "1"), ("b", "1"), ("c", "0"), ("d", "1")]),
      NewERC721Token "0x0" 1 (stringTraits [("a", "0"), ("b", "2"), ("c", "0"), ("d", "3")]),
      NewERC721Token "0x0" 2 (stringTraits [("a", "2"), ("b", "3"), ("c", "3"), ("d", "3")]),
      NewERC721Token "0x0" 3 (stringTraits [("a", "0"), ("b", "3"), ("c", "3"), ("d", "2")]),
      NewERC721Token "0x0" 4 (stringTraits [("a", "2"), ("b", "2"), ("c", "3"), ("d", "3")]) ]

/-- The tokens of `listedTokens`, the attributes of every token being listed in the order
`d`, `c`, `b`, `a`: as Go values, whose maps have no order, the same tokens. -/
def relistedTokens : List Token :=
  mustTokens
    [ NewERC721Token "0x0" 0 (stringTraits [("d", "1"), ("c", "0"), ("b", "1"), ("a", "1")]),
      NewERC721Token "0x0" 1 (stringTraits [("d", "3"), ("c", "0"), ("b", "2"), ("a", "0")]),
      NewERC721Token "0x0" 2 (stringTraits [("d", "3"), ("c", "3"), ("b", "3"), ("a", "2")]),
      NewERC721Token "0x0" 3 (stringTraits [("d", "2"), ("c", "3"), ("b", "3"), ("a", "0")]),
      NewERC721Token "0x0" 4 (stringTraits [("d", "3"), ("c", "3"), ("b", "2"), ("a", "2")]) ]

/-- The value of the local variable `collectionProbabilities` of `GetCollectionEntropy`, when
the method is called with nil maps. -/
def collectionProbabilities {G : Type} [Div G] [IntCast G] (collection : Collection) : List G :=
  collection.ExtractCollectionAttributes.entries.foldl
    (fun probs e =>
      let attrValues :=
        match collection.ExtractNullAttributes.get? e.1 with
        | some nullAttr => e.2 ++ [nullAttr]
        | none => e.2
      let probabilities : List G :=
        attrValues.map fun attrValue =>
          ((attrValue.TotalTokens : Int) : G) / ((collection.TokenTotalSupply : Int) : G)
      probs ++ probabilities)
    []

/-! ## The ranking pass -/

/-- In an ordered field `IsFloat64Close a b` is `|a - b| ≤ 1e-9`: the test `a == b` adds nothing. -/
theorem isFloat64Close_iff (a b : F) :
    IsFloat64Close a b = true ↔ |a - b| ≤ 1 / 10 ^ 9 := by
  unfold IsFloat64Close
  simp only [Bool.or_eq_true, decide_eq_true_eq]
  constructor
  · rintro (h | h)
    · subst h
      simp
    · exact h
  · exact fun h => Or.inr h

/-- The loop of `SetRarityRanks` never fails; it keeps the items and their order, and gives
the item at 0-based index `i` the rank `i + 1`, or the rank of its predecessor when the two
scores are within `1e-9`. -/
theorem rankLoop_spec (l : List (TokenRarity F)) :
    ∀ (i : Nat) (prev : Option (TokenRarity F)), (∀ p, prev = some p → p.rank ≠ 0) →
      ∃ out, rankLoop i prev l = .ok out ∧ out.length = l.length ∧
        out.map (fun t => t.SetRarityRanks 0) = l.map (fun t => t.SetRarityRanks 0) ∧
        (∀ t ∈ out, t.rank ≠ 0) ∧
        (prev = none → ∀ t, out[0]? = some t → t.rank = (i : Int) + 1) ∧
        (∀ p, prev = some p → ∀ t, out[0]? = some t → t.rank =
          if |t.score - p.score| ≤ 1 / 10 ^ 9 then p.rank else (i : Int) + 1) ∧
        (∀ (j : Nat) (p t : TokenRarity F), out[j]? = some p → out[j + 1]? = some t → t.rank =
          if |t.score - p.score| ≤ 1 / 10 ^ 9 then p.rank else (i : Int) + (j : Int) + 2) := by
  induction l with
  | nil =>
    intro i prev _
    exact ⟨[], rfl, rfl, rfl, by simp, by simp, by simp, by simp⟩
  | cons x rest ih =>
    intro i prev hprev
    -- the rank given to `x`
    obtain ⟨r, hr, hr0, hrn, hrs⟩ : ∃ r : Int,
        (match prev with
          | none => (Except.ok ((i : Int) + 1) : Except String Int)
          | some prevTokenRarity =>
            if IsFloat64Close x.score prevTokenRarity.score then
              if prevTokenRarity.rank = 0 then .error "preview token rarity rank is zero"
              else .ok prevTokenRarity.rank
            else .ok ((i : Int) + 1)) = .ok r ∧ r ≠ 0 ∧
        (prev = none → r = (i : Int) + 1) ∧
        (∀ p, prev = some p →
          r = if |x.score - p.score| ≤ 1 / 10 ^ 9 then p.rank else (i : Int) + 1) := by
      cases prev with
      | none => exact ⟨(i : Int) + 1, rfl, by omega, fun _ => rfl, by simp⟩
      | some p =>
        have hp := hprev p rfl
        by_cases hc : |x.score - p.score| ≤ 1 / 10 ^ 9
        · refine ⟨p.rank, ?_, hp, by simp, ?_⟩
          · simp only [(isFloat64Close_iff _ _).2 hc, if_true, if_neg hp]
          · intro q hq
            cases hq
            simp only [if_pos hc]
        · have hc' : IsFloat64Close x.score p.score = false := by
            rw [← Bool.not_eq_true, isFloat64Close_iff]; exact hc
          refine ⟨(i : Int) + 1, ?_, by omega, by simp, ?_⟩
          · simp only [hc', Bool.false_eq_true, if_false]
          · intro q hq
            cases hq
            simp only [if_neg hc]
    obtain ⟨out, hout, hlen, hkey, hne, -, hfirst, hpair⟩ :=
      ih (i + 1) (some (x.SetRarityRanks r)) (by
        intro p hp
        cases hp
        exact hr0)
    refine ⟨x.SetRarityRanks r :: out, ?_, by simp [hlen], ?_, ?_, ?_, ?_, ?_⟩
    · simp only [rankLoop, hr, hout]
    · simp only [List.map_cons, hkey]
      rfl
    · intro t ht
      rcases List.mem_cons.1 ht with h | h
      · subst h; exact hr0
      · exact hne t h
    · intro hn t ht
      simp only [List.getElem?_cons_zero, Option.some.injEq] at ht
      subst ht
      exact hrn hn
    · intro p hp t ht
      simp only [List.getElem?_cons_zero, Option.some.injEq] at ht
      subst ht
      exact hrs p hp
    · intro j p t hp ht
      cases j with
      | zero =>
        simp only [List.getElem?_cons_zero, Option.some.injEq] at hp
        simp only [zero_add, List.getElem?_cons_succ] at ht
        subst hp
        have := hfirst _ rfl t ht
        rw [this]
        push_cast
        rfl
      | succ j =>
        simp only [List.getElem?_cons_succ] at hp ht
        have := hpair j p t hp ht
        rw [this]
        push_cast
        ring_nf

/-- With equal unique-attribute counts the comparator compares the scores. -/
theorem rarityLess_same_count (a b : TokenRarity F)
    (h : a.tokenFeatures.uniqueAttributeCount = b.tokenFeatures.uniqueAttributeCount) :
    rarityLess a b = decide (b.score < a.score) := by
  have h0 : wrapInt 0 = 0 := by decide
  simp [rarityLess, h, h0]

/-- C1: `SetRarityRanks` never fails and assigns competition ranks in one pass over the
sorted list: the output is the sorted input (ranks apart), its first item has rank 1, and
the item at 0-based index `j + 1` (1-based position `j + 2`) has the rank of its
predecessor when their scores differ by at most `1e-9`, and rank `j + 2` otherwise.
For the scores 10, 8, 8, 8, 3 with equal unique-attribute counts the ranks are 1, 2, 2, 2, 5. -/
theorem C1_setRarityRanks_competition_ranks :
    (∀ tokenRarities : List (TokenRarity F), ∃ out,
      SetRarityRanks tokenRarities = .ok out ∧
      out.map (fun t => t.SetRarityRanks 0)
        = (sortSlice rarityLess tokenRarities).map (fun t => t.SetRarityRanks 0) ∧
      (∀ t, out[0]? = some t → t.rank = 1) ∧
      (∀ (j : Nat) (p t : TokenRarity F), out[j]? = some p → out[j + 1]? = some t →
        t.rank = if |t.score - p.score| ≤ 1 / 10 ^ 9 then p.rank else (j : Int) + 2)) ∧
    (∀ (u : Int) (tk : Token) (r : Int),
      SetRarityRanks
          [(⟨10, ⟨u⟩, tk, r⟩ : TokenRarity F), ⟨8, ⟨u⟩, tk, r⟩, ⟨8, ⟨u⟩, tk, r⟩,
            ⟨8, ⟨u⟩, tk, r⟩, ⟨3, ⟨u⟩, tk, r⟩]
        = .ok [⟨10, ⟨u⟩, tk, 1⟩, ⟨8, ⟨u⟩, tk, 2⟩, ⟨8, ⟨u⟩, tk, 2⟩, ⟨8, ⟨u⟩, tk, 2⟩,
            ⟨3, ⟨u⟩, tk, 5⟩]) := by
  constructor
  · intro tokenRarities
    obtain ⟨out, hout, -, hkey, -, hfirst, -, hpair⟩ :=
      rankLoop_spec (sortSlice rarityLess tokenRarities) 0 none (by simp)
    refine ⟨out, hout, hkey, ?_, ?_⟩
    · intro t ht
      simpa using hfirst rfl t ht
    · intro j p t hp ht
      simpa using hpair j p t hp ht
  · intro u tk r
    have e1 : ¬ ((10 : F) < 8) := by norm_num
    have e2 : ¬ ((10 : F) < 3) := by norm_num
    have e3 : ¬ ((8 : F) < 3) := by norm_num
    have c1 : ¬ (|(8 : F) - 10| ≤ 1 / 10 ^ 9) := by norm_num [abs_le]
    have c2 : ¬ (|(3 : F) - 8| ≤ 1 / 10 ^ 9) := by norm_num [abs_le]
    simp only [SetRarityRanks, sortSlice, List.foldl, insertLess, rarityLess_same_count,
      lt_self_iff_false, e1, e2, e3, decide_False, Bool.false_eq_true, if_false,
      List.reverse_cons, List.reverse_nil, List.nil_append, List.cons_append, rankLoop,
      IsFloat64Close, TokenRarity.SetRarityRanks, c1, c2, decide_True, Bool.or_true,
      Bool.or_false, Bool.true_or, if_true, sub_self, abs_zero]
    norm_num

theorem wrapInt_of_bounds (x : Int) (h1 : -2 ^ 63 ≤ x) (h2 : x < 2 ^ 63) : wrapInt x = x := by
  unfold wrapInt
  norm_num at h1 h2 ⊢
  omega

/-- Without overflow in the subtraction, the comparator is the strict lexicographic order
on (unique-attribute count, score), greater first. -/
theorem rarityLess_iff (a b : TokenRarity F)
    (ha : 0 ≤ a.tokenFeatures.uniqueAttributeCount ∧ a.tokenFeatures.uniqueAttributeCount < 2 ^ 63)
    (hb : 0 ≤ b.tokenFeatures.uniqueAttributeCount ∧ b.tokenFeatures.uniqueAttributeCount < 2 ^ 63) :
    rarityLess a b = true ↔
      b.tokenFeatures.uniqueAttributeCount < a.tokenFeatures.uniqueAttributeCount ∨
        (a.tokenFeatures.uniqueAttributeCount = b.tokenFeatures.uniqueAttributeCount ∧
          b.score < a.score) := by
  have hw : wrapInt (a.tokenFeatures.uniqueAttributeCount - b.tokenFeatures.uniqueAttributeCount)
      = a.tokenFeatures.uniqueAttributeCount - b.tokenFeatures.uniqueAttributeCount := by
    apply wrapInt_of_bounds
    · norm_num at ha hb ⊢; omega
    · norm_num at ha hb ⊢; omega
  unfold rarityLess
  simp only [hw]
  by_cases hd : a.tokenFeatures.uniqueAttributeCount - b.tokenFeatures.uniqueAttributeCount = 0
  · have : a.tokenFeatures.uniqueAttributeCount = b.tokenFeatures.uniqueAttributeCount := by omega
    simp [hd, this]
  · simp only [ne_eq, hd, not_false_eq_true, if_true, decide_eq_true_eq, gt_iff_lt]
    constructor
    · intro h; left; omega
    · rintro (h | ⟨h, -⟩)
      · omega
      · omega

theorem insertLess_perm {α : Type} (less : α → α → Bool) (x : α) (l : List α) :
    (insertLess less x l).Perm (x :: l) := by
  induction l with
  | nil => exact List.Perm.refl _
  | cons p ps ih =>
    unfold insertLess
    split
    · exact (List.Perm.cons p ih).trans (List.Perm.swap x p ps)
    · exact List.Perm.refl _

theorem sortSlice_perm {α : Type} (less : α → α → Bool) (l : List α) :
    (sortSlice less l).Perm l := by
  unfold sortSlice
  suffices h : ∀ (acc : List α), (l.foldl (fun prefixRev x => insertLess less x prefixRev) acc).Perm
      (l.reverse ++ acc) by
    have := h []
    simp only [List.append_nil] at this
    exact (List.reverse_perm _).trans (this.trans (List.reverse_perm l))
  induction l with
  | nil => intro acc; exact List.Perm.refl _
  | cons x r ih =>
    intro acc
    simp only [List.foldl_cons, List.reverse_cons, List.append_assoc, List.singleton_append]
    exact (ih _).trans (List.Perm.append_left _ (insertLess_perm less x acc))

/-- Insertion keeps the reversed prefix sorted when `less` is asymmetric and its negation
is transitive on the elements at hand. -/
theorem insertLess_pairwise {α : Type} (less : α → α → Bool) (P : α → Prop)
    (hasym : ∀ a b, P a → P b → less a b = true → less b a = false)
    (htrans : ∀ a b c, P a → P b → P c → less a b = false → less b c = false → less a c = false)
    (x : α) (hx : P x) (l : List α) (hl : ∀ y ∈ l, P y)
    (hs : l.Pairwise (fun p q => less p q = false)) :
    (insertLess less x l).Pairwise (fun p q => less p q = false) := by
  induction l with
  | nil => simp [insertLess]
  | cons p ps ih =>
    have hp : P p := hl p (List.mem_cons_self _ _)
    have hps : ∀ y ∈ ps, P y := fun y hy => hl y (List.mem_cons_of_mem _ hy)
    rw [List.pairwise_cons] at hs
    unfold insertLess
    by_cases hxp : less x p = true
    · rw [if_pos hxp, List.pairwise_cons]
      refine ⟨?_, ih hps hs.2⟩
      intro y hy
      rcases List.mem_cons.1 ((insertLess_perm less x ps).subset hy) with h | h
      · subst h; exact hasym _ _ hx hp hxp
      · exact hs.1 y h
    · rw [if_neg hxp, List.pairwise_cons, List.pairwise_cons]
      have hxp' : less x p = false := by simpa using hxp
      refine ⟨?_, hs.1, hs.2⟩
      intro y hy
      rcases List.mem_cons.1 hy with h | h
      · subst h; exact hxp'
      · exact htrans x p y hx hp (hps y h) hxp' (hs.1 y h)

theorem sortSlice_pairwise {α : Type} (less : α → α → Bool) (P : α → Prop)
    (hasym : ∀ a b, P a → P b → less a b = true → less b a = false)
    (htrans : ∀ a b c, P a → P b → P c → less a b = false → less b c = false → less a c = false)
    (l : List α) (hl : ∀ y ∈ l, P y) :
    (sortSlice less l).Pairwise (fun a b => less b a = false) := by
  unfold sortSlice
  rw [List.pairwise_reverse]
  suffices h : ∀ (acc : List α), (∀ y ∈ acc, P y) → acc.Pairwise (fun p q => less p q = false) →
      (l.foldl (fun prefixRev x => insertLess less x prefixRev) acc).Pairwise
        (fun p q => less p q = false) by
    exact h [] (by simp) List.Pairwise.nil
  induction l with
  | nil => intro acc _ h; exact h
  | cons x r ih =>
    intro acc hacc hs
    simp only [List.foldl_cons]
    apply ih (fun y hy => hl y (List.mem_cons_of_mem _ hy))
    · intro y hy
      rcases List.mem_cons.1 ((insertLess_perm less x acc).subset hy) with h | h
      · subst h; exact hl _ (List.mem_cons_self _ _)
      · exact hacc y h
    · exact insertLess_pairwise less P hasym htrans x (hl _ (List.mem_cons_self _ _)) acc hacc hs

/-- For unique-attribute counts in `[0, 2 ^ 63)`, where the subtraction of the comparator is
exact, `SetRarityRanks` returns a permutation of its input (ranks apart) in descending
lexicographic order of (unique-attribute count, score). -/
theorem setRarityRanks_sorted_perm (tokenRarities : List (TokenRarity F))
    (h : ∀ t ∈ tokenRarities,
      0 ≤ t.tokenFeatures.uniqueAttributeCount ∧ t.tokenFeatures.uniqueAttributeCount < 2 ^ 63) :
    ∃ out, SetRarityRanks tokenRarities = .ok out ∧
      (out.map (fun t => t.SetRarityRanks 0)).Perm
        (tokenRarities.map (fun t => t.SetRarityRanks 0)) ∧
      out.Pairwise (fun a b =>
        b.tokenFeatures.uniqueAttributeCount < a.tokenFeatures.uniqueAttributeCount ∨
          (a.tokenFeatures.uniqueAttributeCount = b.tokenFeatures.uniqueAttributeCount ∧
            b.score ≤ a.score)) := by
  obtain ⟨out, hout, -, hkey, -⟩ :=
    rankLoop_spec (sortSlice rarityLess tokenRarities) 0 none (by simp)
  refine ⟨out, hout, ?_, ?_⟩
  · rw [hkey]
    exact (sortSlice_perm rarityLess tokenRarities).map _
  · set P : TokenRarity F → Prop := fun t =>
      0 ≤ t.tokenFeatures.uniqueAttributeCount ∧ t.tokenFeatures.uniqueAttributeCount < 2 ^ 63
      with hP
    have hfalse : ∀ a b : TokenRarity F, P a → P b → (rarityLess a b = false ↔
        a.tokenFeatures.uniqueAttributeCount < b.tokenFeatures.uniqueAttributeCount ∨
          (b.tokenFeatures.uniqueAttributeCount = a.tokenFeatures.uniqueAttributeCount ∧
            a.score ≤ b.score)) := by
      intro a b ha hb
      rw [← Bool.not_eq_true, rarityLess_iff a b ha hb]
      constructor
      · intro hn
        rcases lt_trichotomy a.tokenFeatures.uniqueAttributeCount
            b.tokenFeatures.uniqueAttributeCount with h1 | h1 | h1
        · exact Or.inl h1
        · exact Or.inr ⟨h1.symm, not_lt.1 fun hlt => hn (Or.inr ⟨h1, hlt⟩)⟩
        · exact absurd (Or.inl h1) hn
      · rintro (h1 | ⟨h1, h2⟩) (h3 | ⟨h3, h4⟩)
        · omega
        · omega
        · omega
        · exact absurd h4 (not_lt.2 h2)
    have hsorted := sortSlice_pairwise rarityLess P
      (by
        intro a b ha hb hab
        rw [hfalse b a hb ha]
        rcases (rarityLess_iff a b ha hb).1 hab with h1 | ⟨h1, h2⟩
        · exact Or.inl h1
        · exact Or.inr ⟨h1, le_of_lt h2⟩)
      (by
        intro a b c ha hb hc hab hbc
        rw [hfalse a b ha hb] at hab
        rw [hfalse b c hb hc] at hbc
        rw [hfalse a c ha hc]
        rcases hab with h1 | ⟨h1, h2⟩ <;> rcases hbc with h3 | ⟨h3, h4⟩
        · left; omega
        · left; omega
        · left; omega
        · right; exact ⟨by omega, le_trans h2 h4⟩)
      tokenRarities h
    have hP' : ∀ y ∈ sortSlice rarityLess tokenRarities, P y :=
      fun y hy => h y ((sortSlice_perm rarityLess tokenRarities).subset hy)
    have hs2 : (sortSlice rarityLess tokenRarities).Pairwise (fun a b =>
        b.tokenFeatures.uniqueAttributeCount < a.tokenFeatures.uniqueAttributeCount ∨
          (a.tokenFeatures.uniqueAttributeCount = b.tokenFeatures.uniqueAttributeCount ∧
            b.score ≤ a.score)) := by
      refine List.Pairwise.imp_of_mem ?_ hsorted
      intro a b ha hb hab
      exact (hfalse b a (hP' b hb) (hP' a ha)).1 hab
    have hs3 : ((sortSlice rarityLess tokenRarities).map (fun t => t.SetRarityRanks 0)).Pairwise
        (fun a b =>
        b.tokenFeatures.uniqueAttributeCount < a.tokenFeatures.uniqueAttributeCount ∨
          (a.tokenFeatures.uniqueAttributeCount = b.tokenFeatures.uniqueAttributeCount ∧
            b.score ≤ a.score)) := by
      rw [List.pairwise_map]
      exact hs2
    rw [← hkey, List.pairwise_map] at hs3
    exact hs3

/-! ## Go maps: reading and writing -/

namespace GoMap

variable {V : Type}

theorem getList_setList_self (k : String) (v : V) (l : List (String × V)) :
    getList k (setList k v l) = some v := by
  induction l with
  | nil => simp [setList, getList]
  | cons e r ih =>
    obtain ⟨k', v'⟩ := e
    by_cases h : k' = k
    · simp [setList, getList, h]
    · simp [setList, getList, h, ih]

theorem getList_setList_ne (k k' : String) (v : V) (l : List (String × V)) (h : k' ≠ k) :
    getList k' (setList k v l) = getList k' l := by
  induction l with
  | nil => simp [setList, getList, Ne.symm h]
  | cons e r ih =>
    obtain ⟨k₀, v₀⟩ := e
    by_cases h0 : k₀ = k
    · subst h0
      simp [setList, getList, Ne.symm h]
    · by_cases h1 : k₀ = k'
      · subst h1
        simp [setList, getList, h0]
      · simp [setList, getList, h0, h1, ih]

theorem get?_set_self (m : GoMap V) (k : String) (v : V) : (m.set k v).get? k = some v :=
  getList_setList_self k v m.entries

theorem get?_set_ne (m : GoMap V) (k k' : String) (v : V) (h : k' ≠ k) :
    (m.set k v).get? k' = m.get? k' :=
  getList_setList_ne k k' v m.entries h

theorem get?_empty (k : String) : (empty : GoMap V).get? k = none := rfl

theorem getList_eq_none_iff (k : String) (l : List (String × V)) :
    getList k l = none ↔ k ∉ l.map Prod.fst := by
  induction l with
  | nil => simp [getList]
  | cons e r ih =>
    obtain ⟨k', v'⟩ := e
    by_cases h : k' = k
    · simp [getList, h]
    · simp [getList, h, ih, Ne.symm h]

theorem getList_eq_some_iff (k : String) (v : V) (l : List (String × V))
    (hl : (l.map Prod.fst).Nodup) : getList k l = some v ↔ (k, v) ∈ l := by
  induction l with
  | nil => simp [getList]
  | cons e r ih =>
    obtain ⟨k', v'⟩ := e
    rw [List.map_cons, List.nodup_cons] at hl
    by_cases h : k' = k
    · subst h
      have : ∀ w, (k', w) ∉ r := fun w hw => hl.1 (List.mem_map.2 ⟨(k', w), hw, rfl⟩)
      simp [getList, this, eq_comm]
    · simp [getList, h, ih hl.2, Ne.symm h]

theorem get?_eq_some_iff (m : GoMap V) (k : String) (v : V) :
    m.get? k = some v ↔ (k, v) ∈ m.entries :=
  getList_eq_some_iff k v m.entries m.nodup

theorem get?_eq_none_iff (m : GoMap V) (k : String) : m.get? k = none ↔ k ∉ m.keys :=
  getList_eq_none_iff k m.entries

theorem mem_keys_iff (m : GoMap V) (k : String) : k ∈ m.keys ↔ ∃ v, m.get? k = some v := by
  constructor
  · intro h
    cases hg : m.get? k with
    | none => exact absurd h ((get?_eq_none_iff m k).1 hg)
    | some v => exact ⟨v, rfl⟩
  · rintro ⟨v, hv⟩
    by_contra hn
    rw [(get?_eq_none_iff m k).2 hn] at hv
    cases hv

theorem mem_keys_set (m : GoMap V) (k : String) (v : V) (x : String) :
    x ∈ (m.set k v).keys ↔ x = k ∨ x ∈ m.keys :=
  mem_keys_setList k v m.entries x

/-- Writing a key that is absent appends the entry. -/
theorem setList_of_not_mem (k : String) (v : V) (l : List (String × V))
    (h : k ∉ l.map Prod.fst) : setList k v l = l ++ [(k, v)] := by
  induction l with
  | nil => rfl
  | cons e r ih =>
    obtain ⟨k', v'⟩ := e
    simp only [List.map_cons, List.mem_cons, not_or] at h
    simp [setList, Ne.symm h.1, ih h.2]

/-- Writing the key of the last entry overwrites that entry. -/
theorem setList_append_same (k : String) (v w : V) (l : List (String × V))
    (h : k ∉ l.map Prod.fst) : setList k v (l ++ [(k, w)]) = l ++ [(k, v)] := by
  induction l with
  | nil => simp [setList]
  | cons e r ih =>
    obtain ⟨k', v'⟩ := e
    simp only [List.map_cons, List.mem_cons, not_or] at h
    simp [setList, Ne.symm h.1, ih h.2]

theorem getList_append_same (k : String) (w : V) (l : List (String × V))
    (h : k ∉ l.map Prod.fst) : getList k (l ++ [(k, w)]) = some w := by
  induction l with
  | nil => simp [getList]
  | cons e r ih =>
    obtain ⟨k', v'⟩ := e
    simp only [List.map_cons, List.mem_cons, not_or] at h
    simp [getList, Ne.symm h.1, ih h.2]

end GoMap

/-! ## The frequency table -/

theorem foldl_add_eq_sum {α : Type} (f : α → Int) (l : List α) (z : Int) :
    l.foldl (fun total x => total + f x) z = z + (l.map f).sum := by
  induction l generalizing z with
  | nil => simp
  | cons x r ih => simp [ih, add_assoc]

theorem totalTraitCount_eq_sum (m : GoMap Int) :
    totalTraitCount m = (m.entries.map Prod.snd).sum := by
  unfold totalTraitCount
  rw [foldl_add_eq_sum (fun kv : String × Int => kv.2)]
  simp

theorem sum_setList (k : String) (x : Int) (l : List (String × Int)) :
    ((GoMap.setList k x l).map Prod.snd).sum
      = (l.map Prod.snd).sum - (GoMap.getList k l).getD 0 + x := by
  induction l with
  | nil => simp [GoMap.setList, GoMap.getList]
  | cons e r ih =>
    obtain ⟨k', v'⟩ := e
    by_cases h : k' = k
    · simp [GoMap.setList, GoMap.getList, h]
      ring
    · simp [GoMap.setList, GoMap.getList, h, ih]
      ring

theorem totalTraitCount_set (m : GoMap Int) (v : String) :
    totalTraitCount (m.set v ((m.get? v).getD 0 + 1)) = totalTraitCount m + 1 := by
  rw [totalTraitCount_eq_sum, totalTraitCount_eq_sum]
  show ((GoMap.setList v _ m.entries).map Prod.snd).sum = _
  rw [sum_setList]
  show _ - (GoMap.getList v m.entries).getD 0 + ((GoMap.getList v m.entries).getD 0 + 1) = _
  ring

theorem tableCount_countAttribute (T : GoMap (GoMap Int)) (k : String) (a : StringAttribute)
    (n v : String) :
    tableCount (countAttribute T k a) n v
      = tableCount T n v + if k = n ∧ a.value = v then 1 else 0 := by
  unfold countAttribute tableCount
  by_cases hn : n = k
  · subst hn
    cases hT : T.get? n with
    | none =>
      simp only [GoMap.get?_set_self, true_and]
      by_cases hv : v = a.value
      · subst hv
        simp [GoMap.get?_set_self]
      · rw [GoMap.get?_set_ne _ _ _ _ hv, if_neg (Ne.symm hv)]
        simp [GoMap.get?_empty]
    | some inner =>
      simp only [GoMap.get?_set_self, true_and]
      by_cases hv : v = a.value
      · subst hv
        simp [GoMap.get?_set_self]
      · rw [GoMap.get?_set_ne _ _ _ _ hv, if_neg (Ne.symm hv)]
        simp
  · have hk : ¬ (k = n ∧ a.value = v) := fun h => hn h.1.symm
    rw [if_neg hk, add_zero]
    cases hT : T.get? k with
    | none => simp only [GoMap.get?_set_ne _ _ _ _ hn]
    | some inner => simp only [GoMap.get?_set_ne _ _ _ _ hn]

theorem tableSum_countAttribute (T : GoMap (GoMap Int)) (k : String) (a : StringAttribute)
    (n : String) :
    tableSum (countAttribute T k a) n = tableSum T n + if k = n then 1 else 0 := by
  unfold countAttribute tableSum
  by_cases hn : n = k
  · subst hn
    cases hT : T.get? n with
    | none =>
      simp only [GoMap.get?_set_self, if_true]
      rfl
    | some inner =>
      simp only [GoMap.get?_set_self, if_true]
      exact totalTraitCount_set inner a.value
  · rw [if_neg (Ne.symm hn), add_zero]
    cases hT : T.get? k with
    | none => simp only [GoMap.get?_set_ne _ _ _ _ hn]
    | some inner => simp only [GoMap.get?_set_ne _ _ _ _ hn]

theorem mem_keys_countAttribute (T : GoMap (GoMap Int)) (k : String) (a : StringAttribute)
    (n : String) : n ∈ (countAttribute T k a).keys ↔ n = k ∨ n ∈ T.keys := by
  unfold countAttribute
  cases T.get? k with
  | none => exact GoMap.mem_keys_set _ _ _ _
  | some inner => exact GoMap.mem_keys_set _ _ _ _


/-- Counting the attributes of one token: the count of `(n, v)` grows by one when the token
holds `v` under the key `n`. -/
theorem tableCount_foldl_entries (l : List (String × StringAttribute))
    (hl : (l.map Prod.fst).Nodup) (T : GoMap (GoMap Int)) (n v : String) :
    tableCount (l.foldl (fun acc e => countAttribute acc e.1 e.2) T) n v
      = tableCount T n v +
        (match GoMap.getList n l with
          | some a => if a.value = v then 1 else 0
          | none => 0) := by
  induction l generalizing T with
  | nil => simp [GoMap.getList]
  | cons e r ih =>
    obtain ⟨k, a⟩ := e
    rw [List.map_cons, List.nodup_cons] at hl
    rw [List.foldl_cons, ih hl.2, tableCount_countAttribute]
    by_cases hk : k = n
    · subst hk
      have : GoMap.getList k r = none := (GoMap.getList_eq_none_iff k r).2 hl.1
      simp [GoMap.getList, this]
    · simp [GoMap.getList, hk]

theorem tableSum_foldl_entries (l : List (String × StringAttribute))
    (hl : (l.map Prod.fst).Nodup) (T : GoMap (GoMap Int)) (n : String) :
    tableSum (l.foldl (fun acc e => countAttribute acc e.1 e.2) T) n
      = tableSum T n + if (GoMap.getList n l).isSome then 1 else 0 := by
  induction l generalizing T with
  | nil => simp [GoMap.getList]
  | cons e r ih =>
    obtain ⟨k, a⟩ := e
    rw [List.map_cons, List.nodup_cons] at hl
    rw [List.foldl_cons, ih hl.2, tableSum_countAttribute]
    by_cases hk : k = n
    · subst hk
      have : GoMap.getList k r = none := (GoMap.getList_eq_none_iff k r).2 hl.1
      simp [GoMap.getList, this]
    · simp [GoMap.getList, hk]

theorem mem_keys_foldl_entries (l : List (String × StringAttribute)) (T : GoMap (GoMap Int))
    (n : String) :
    n ∈ (l.foldl (fun acc e => countAttribute acc e.1 e.2) T).keys
      ↔ n ∈ l.map Prod.fst ∨ n ∈ T.keys := by
  induction l generalizing T with
  | nil => simp
  | cons e r ih =>
    rw [List.foldl_cons, ih, mem_keys_countAttribute]
    simp only [List.map_cons, List.mem_cons]
    tauto

/-- The frequency table counts, for every pair, the tokens that hold it. -/
theorem tableCount_derive (tokens : List Token) (n v : String) :
    tableCount (deriveNormalizedAttrsFrequencyCount tokens) n v
      = ((tokens.countP fun t => tokenHoldsValue t n v : Nat) : Int) := by
  unfold deriveNormalizedAttrsFrequencyCount
  suffices h : ∀ T : GoMap (GoMap Int),
      tableCount (tokens.foldl (fun attrsFreqCounts token =>
        token.metadata.stringAttributes.entries.foldl
          (fun acc e => countAttribute acc e.1 e.2) attrsFreqCounts) T) n v
        = tableCount T n v + ((tokens.countP fun t => tokenHoldsValue t n v : Nat) : Int) by
    rw [h]
    simp [tableCount, GoMap.get?_empty]
  induction tokens with
  | nil => intro T; simp
  | cons t r ih =>
    intro T
    rw [List.foldl_cons, ih, tableCount_foldl_entries _ t.metadata.stringAttributes.nodup,
      List.countP_cons]
    unfold tokenHoldsValue GoMap.get?
    cases GoMap.getList n t.metadata.stringAttributes.entries with
    | none => simp
    | some a =>
      by_cases hv : a.value = v
      · simp [hv]; ring
      · simp [hv]

/-- The counts of one attribute name add up to the number of tokens that hold the name. -/
theorem tableSum_derive (tokens : List Token) (n : String) :
    tableSum (deriveNormalizedAttrsFrequencyCount tokens) n
      = ((tokens.countP fun t => t.HasAttribute n : Nat) : Int) := by
  unfold deriveNormalizedAttrsFrequencyCount
  suffices h : ∀ T : GoMap (GoMap Int),
      tableSum (tokens.foldl (fun attrsFreqCounts token =>
        token.metadata.stringAttributes.entries.foldl
          (fun acc e => countAttribute acc e.1 e.2) attrsFreqCounts) T) n
        = tableSum T n + ((tokens.countP fun t => t.HasAttribute n : Nat) : Int) by
    rw [h]
    simp [tableSum, GoMap.get?_empty]
  induction tokens with
  | nil => intro T; simp
  | cons t r ih =>
    intro T
    rw [List.foldl_cons, ih, tableSum_foldl_entries _ t.metadata.stringAttributes.nodup,
      List.countP_cons]
    unfold Token.HasAttribute TokenMetadata.AttributeExists GoMap.get?
    cases GoMap.getList n t.metadata.stringAttributes.entries with
    | none => simp
    | some a => simp; ring

theorem mem_keys_derive (tokens : List Token) (n : String) :
    n ∈ (deriveNormalizedAttrsFrequencyCount tokens).keys
      ↔ ∃ t ∈ tokens, n ∈ t.metadata.stringAttributes.keys := by
  unfold deriveNormalizedAttrsFrequencyCount
  suffices h : ∀ T : GoMap (GoMap Int),
      n ∈ (tokens.foldl (fun attrsFreqCounts token =>
        token.metadata.stringAttributes.entries.foldl
          (fun acc e => countAttribute acc e.1 e.2) attrsFreqCounts) T).keys
        ↔ (∃ t ∈ tokens, n ∈ t.metadata.stringAttributes.keys) ∨ n ∈ T.keys by
    rw [h]
    simp [GoMap.keys, GoMap.empty]
  induction tokens with
  | nil => intro T; simp
  | cons t r ih =>
    intro T
    rw [List.foldl_cons, ih, mem_keys_foldl_entries]
    simp only [List.mem_cons, exists_eq_or_imp, GoMap.keys]
    constructor
    · rintro (h | h | h)
      · exact Or.inl (Or.inr h)
      · exact Or.inl (Or.inl h)
      · exact Or.inr h
    · rintro ((h | h) | h)
      · exact Or.inr (Or.inl h)
      · exact Or.inl h
      · exact Or.inr (Or.inr h)

/-- C6: after `NewCollection` the frequency table is exact. For every string attribute `a`,
`TotalTokensWithAttributes a` is the number of tokens of the collection (after trait-count
synthesis) whose string-attribute map holds, under the name `a.name`, an attribute with the
value `a.value`; it is 0 when no token holds that pair. -/
theorem C6_frequency_table_exact (name : String) (tokens : List Token) (a : StringAttribute) :
    (NewCollection name tokens).TotalTokensWithAttributes a
        = (((NewCollection name tokens).Tokens.countP
            fun t => tokenHoldsValue t a.name a.value : Nat) : Int) ∧
      ((∀ t ∈ (NewCollection name tokens).Tokens, tokenHoldsValue t a.name a.value = false) →
        (NewCollection name tokens).TotalTokensWithAttributes a = 0) := by
  have h : (NewCollection name tokens).TotalTokensWithAttributes a
      = (((NewCollection name tokens).Tokens.countP
          fun t => tokenHoldsValue t a.name a.value : Nat) : Int) :=
    tableCount_derive (traitCountify tokens) a.name a.value
  refine ⟨h, fun hnone => ?_⟩
  rw [h]
  have : (NewCollection name tokens).Tokens.countP
      (fun t => tokenHoldsValue t a.name a.value) = 0 := by
    rw [List.countP_eq_zero]
    intro t ht
    simp [hnone t ht]
  simp [this]

/-! ## Null placeholders -/

/-- The entry that `ExtractNullAttributes` writes for a name is decided by the deficit of
that name alone. -/
theorem nullFold_get? (N : Int) (l : List (String × GoMap Int)) (hl : (l.map Prod.fst).Nodup)
    (acc : GoMap CollectionAttribute) (k : String) :
    (l.foldl
      (fun result e =>
        let assetsWithoutTrait := N - totalTraitCount e.2
        if assetsWithoutTrait > 0 then
          result.set e.1
            { Attribute := NewStringAttribute e.1 "Null", TotalTokens := assetsWithoutTrait }
        else result)
      acc).get? k
      = match GoMap.getList k l with
        | some inner =>
          if N - totalTraitCount inner > 0 then
            some { Attribute := NewStringAttribute k "Null",
                   TotalTokens := N - totalTraitCount inner }
          else acc.get? k
        | none => acc.get? k := by
  induction l generalizing acc with
  | nil => rfl
  | cons e r ih =>
    obtain ⟨k', inner'⟩ := e
    rw [List.map_cons, List.nodup_cons] at hl
    rw [List.foldl_cons, ih hl.2]
    by_cases hk : k' = k
    · subst hk
      have hr : GoMap.getList k' r = none := (GoMap.getList_eq_none_iff k' r).2 hl.1
      simp only [hr, GoMap.getList, if_true]
      by_cases hd : N - totalTraitCount inner' > 0
      · simp only [hd, if_true, GoMap.get?_set_self]
      · simp only [hd, if_false]
    · simp only [GoMap.getList, if_neg hk]
      have hacc : (if N - totalTraitCount inner' > 0 then
            acc.set k'
              { Attribute := NewStringAttribute k' "Null",
                TotalTokens := N - totalTraitCount inner' }
          else acc).get? k = acc.get? k := by
        by_cases hd : N - totalTraitCount inner' > 0
        · simp only [hd, if_true]
          exact GoMap.get?_set_ne _ _ _ _ (Ne.symm hk)
        · simp only [hd, if_false]
      simp only [hacc]

/-- The null placeholder of a name: present exactly when the deficit of the name is positive. -/
theorem extractNullAttributes_get? (c : Collection) (k : String) :
    c.ExtractNullAttributes.get? k
      = match c.attributesFrequencyCounts.get? k with
        | some inner =>
          if c.TokenTotalSupply - totalTraitCount inner > 0 then
            some { Attribute := NewStringAttribute k "Null",
                   TotalTokens := c.TokenTotalSupply - totalTraitCount inner }
          else none
        | none => none := by
  unfold Collection.ExtractNullAttributes
  rw [nullFold_get? c.TokenTotalSupply _ c.attributesFrequencyCounts.nodup]
  rfl

/-- C7 (frequency conservation): in a collection built by `NewCollection`, for every
attribute name of the frequency table the counts of its values sum to at most the total
item count; `ExtractNullAttributes` has an entry for the name exactly when the deficit
`TokenTotalSupply - sum` is positive, with the deficit as its `TotalTokens`; and the sum plus
the null count (0 without an entry) is the total item count. -/
theorem C7_frequency_conservation (name : String) (tokens : List Token) (n : String)
    (hn : n ∈ (NewCollection name tokens).attributesFrequencyCounts.keys) :
    tableSum (NewCollection name tokens).attributesFrequencyCounts n
        ≤ (NewCollection name tokens).TokenTotalSupply ∧
      (NewCollection name tokens).ExtractNullAttributes.get? n
        = (if (NewCollection name tokens).TokenTotalSupply
              - tableSum (NewCollection name tokens).attributesFrequencyCounts n > 0 then
            some { Attribute := NewStringAttribute n "Null",
                   TotalTokens := (NewCollection name tokens).TokenTotalSupply
                    - tableSum (NewCollection name tokens).attributesFrequencyCounts n }
          else none) ∧
      tableSum (NewCollection name tokens).attributesFrequencyCounts n
          + (match (NewCollection name tokens).ExtractNullAttributes.get? n with
              | some nullAttr => nullAttr.TotalTokens
              | none => 0)
        = (NewCollection name tokens).TokenTotalSupply := by
  obtain ⟨inner, hinner⟩ := (GoMap.mem_keys_iff _ _).1 hn
  have hsum : tableSum (NewCollection name tokens).attributesFrequencyCounts n
      = (((traitCountify tokens).countP fun t => t.HasAttribute n : Nat) : Int) :=
    tableSum_derive (traitCountify tokens) n
  have hle : tableSum (NewCollection name tokens).attributesFrequencyCounts n
      ≤ (NewCollection name tokens).TokenTotalSupply := by
    rw [hsum]
    show _ ≤ (((traitCountify tokens).length : Nat) : Int)
    exact_mod_cast List.countP_le_length _
  have hts : tableSum (NewCollection name tokens).attributesFrequencyCounts n
      = totalTraitCount inner := by
    unfold tableSum
    rw [hinner]
  have hnull := extractNullAttributes_get? (NewCollection name tokens) n
  rw [hinner] at hnull
  simp only [← hts] at hnull
  refine ⟨hle, hnull, ?_⟩
  rw [hnull]
  by_cases hd : (NewCollection name tokens).TokenTotalSupply
      - tableSum (NewCollection name tokens).attributesFrequencyCounts n > 0
  · simp only [hd, if_true]
    ring
  · simp only [hd, if_false]
    omega

/-! ## The derived attribute lists -/

/-- The null placeholders in iteration order: one for every name of the table whose deficit
is positive. -/
theorem nullFold_entries (N : Int) (l : List (String × GoMap Int))
    (hl : (l.map Prod.fst).Nodup) (acc : GoMap CollectionAttribute)
    (hacc : ∀ k ∈ l.map Prod.fst, k ∉ acc.keys) :
    (l.foldl
      (fun result e =>
        let assetsWithoutTrait := N - totalTraitCount e.2
        if assetsWithoutTrait > 0 then
          result.set e.1
            { Attribute := NewStringAttribute e.1 "Null", TotalTokens := assetsWithoutTrait }
        else result)
      acc).entries
      = acc.entries ++ l.filterMap fun e =>
          if N - totalTraitCount e.2 > 0 then
            some (e.1, { Attribute := NewStringAttribute e.1 "Null",
                         TotalTokens := N - totalTraitCount e.2 })
          else none := by
  induction l generalizing acc with
  | nil => simp
  | cons e r ih =>
    obtain ⟨k, inner⟩ := e
    rw [List.map_cons, List.nodup_cons] at hl
    have hk : k ∉ acc.keys := hacc k (by simp)
    rw [List.foldl_cons]
    by_cases hd : N - totalTraitCount inner > 0
    · simp only [hd, if_true, List.filterMap_cons]
      rw [ih hl.2]
      · show GoMap.setList k _ acc.entries ++ _ = _
        rw [GoMap.setList_of_not_mem k _ acc.entries hk]
        simp
      · intro k' hk' hmem
        rcases (GoMap.mem_keys_set _ _ _ _).1 hmem with h | h
        · subst h; exact hl.1 hk'
        · exact hacc k' (by simp [hk']) h
    · simp only [hd, if_false, List.filterMap_cons]
      exact ih hl.2 acc fun k' hk' => hacc k' (by simp [hk'])

theorem extractNullAttributes_entries (c : Collection) :
    c.ExtractNullAttributes.entries
      = c.attributesFrequencyCounts.entries.filterMap fun e =>
          if c.TokenTotalSupply - totalTraitCount e.2 > 0 then
            some (e.1, { Attribute := NewStringAttribute e.1 "Null",
                         TotalTokens := c.TokenTotalSupply - totalTraitCount e.2 })
          else none := by
  unfold Collection.ExtractNullAttributes
  rw [nullFold_entries c.TokenTotalSupply _ c.attributesFrequencyCounts.nodup GoMap.empty
    (by intro k _ h; simp [GoMap.keys, GoMap.empty] at h)]
  rfl

/-- The inner loop of `ExtractCollectionAttributes` on a name that already has its entry at
the end of the map. -/
theorem collectionTraitsInner_append (n : String) (kvs : List (String × Int))
    (base : List (String × List CollectionAttribute)) (hn : n ∉ base.map Prod.fst)
    (pre : List CollectionAttribute) (acc : GoMap (List CollectionAttribute))
    (hacc : acc.entries = base ++ [(n, pre)]) :
    (kvs.foldl
      (fun acc kv =>
        acc.set n
          (((acc.get? n).getD []) ++
            [{ Attribute := NewStringAttribute n kv.1, TotalTokens := kv.2 }]))
      acc).entries
      = base ++ [(n, pre ++ kvs.map fun kv =>
          { Attribute := NewStringAttribute n kv.1, TotalTokens := kv.2 })] := by
  induction kvs generalizing pre acc with
  | nil => simp [hacc]
  | cons kv r ih =>
    rw [List.foldl_cons]
    have hget : acc.get? n = some pre := by
      unfold GoMap.get?
      rw [hacc]
      exact GoMap.getList_append_same n pre base hn
    rw [ih (pre ++ [{ Attribute := NewStringAttribute n kv.1, TotalTokens := kv.2 }])]
    · simp
    · show GoMap.setList n _ acc.entries = _
      rw [hacc, hget]
      exact GoMap.setList_append_same n _ pre base hn

/-- The inner loop of `ExtractCollectionAttributes` on a name that has no entry yet. -/
theorem collectionTraitsInner (n : String) (kvs : List (String × Int))
    (acc : GoMap (List CollectionAttribute)) (hn : n ∉ acc.keys) :
    (kvs.foldl
      (fun acc kv =>
        acc.set n
          (((acc.get? n).getD []) ++
            [{ Attribute := NewStringAttribute n kv.1, TotalTokens := kv.2 }]))
      acc).entries
      = acc.entries ++
          (if kvs = [] then []
           else [(n, kvs.map fun kv =>
              ({ Attribute := NewStringAttribute n kv.1, TotalTokens := kv.2 } :
                CollectionAttribute))]) := by
  cases kvs with
  | nil => simp
  | cons kv r =>
    rw [List.foldl_cons]
    have hget : acc.get? n = none := (GoMap.get?_eq_none_iff acc n).2 hn
    rw [collectionTraitsInner_append n r acc.entries hn
      [{ Attribute := NewStringAttribute n kv.1, TotalTokens := kv.2 }]]
    · simp
    · show GoMap.setList n _ acc.entries = _
      rw [hget]
      exact GoMap.setList_of_not_mem n _ acc.entries hn

theorem collectionTraitsOuter (l : List (String × GoMap Int)) (hl : (l.map Prod.fst).Nodup)
    (acc : GoMap (List CollectionAttribute)) (hacc : ∀ k ∈ l.map Prod.fst, k ∉ acc.keys) :
    (l.foldl
      (fun collectionTraits e =>
        e.2.entries.foldl
          (fun acc kv =>
            acc.set e.1
              (((acc.get? e.1).getD []) ++
                [{ Attribute := NewStringAttribute e.1 kv.1, TotalTokens := kv.2 }]))
          collectionTraits)
      acc).entries
      = acc.entries ++ l.filterMap fun e =>
          if e.2.entries = [] then none
          else some (e.1, e.2.entries.map fun kv =>
            ({ Attribute := NewStringAttribute e.1 kv.1, TotalTokens := kv.2 } :
              CollectionAttribute)) := by
  induction l generalizing acc with
  | nil => simp
  | cons e r ih =>
    obtain ⟨k, inner⟩ := e
    rw [List.map_cons, List.nodup_cons] at hl
    have hk : k ∉ acc.keys := hacc k (by simp)
    rw [List.foldl_cons, ih hl.2]
    · rw [collectionTraitsInner k inner.entries acc hk]
      by_cases he : inner.entries = []
      · simp [he]
      · simp [he]
    · intro k' hk' hmem
      have hmem' : k' ∈ (inner.entries.foldl
          (fun acc kv =>
            acc.set k
              (((acc.get? k).getD []) ++
                [{ Attribute := NewStringAttribute k kv.1, TotalTokens := kv.2 }]))
          acc).entries.map Prod.fst := hmem
      rw [collectionTraitsInner k inner.entries acc hk] at hmem'
      rw [List.map_append, List.mem_append] at hmem'
      rcases hmem' with h | h
      · exact hacc k' (by simp [hk']) h
      · by_cases he : inner.entries = []
        · simp [he] at h
        · simp [he] at h
          subst h
          exact hl.1 hk'

theorem extractCollectionAttributes_entries (c : Collection) :
    c.ExtractCollectionAttributes.entries
      = c.attributesFrequencyCounts.entries.filterMap fun e =>
          if e.2.entries = [] then none
          else some (e.1, e.2.entries.map fun kv =>
            ({ Attribute := NewStringAttribute e.1 kv.1, TotalTokens := kv.2 } :
              CollectionAttribute)) := by
  unfold Collection.ExtractCollectionAttributes
  rw [collectionTraitsOuter _ c.attributesFrequencyCounts.nodup GoMap.empty
    (by intro k _ h; simp [GoMap.keys, GoMap.empty] at h)]
  rfl

/-! ## The collection entropy -/

theorem foldl_add_eq_sum_field {α : Type} (f : α → F) (l : List α) (z : F) :
    l.foldl (fun total x => total + f x) z = z + (l.map f).sum := by
  induction l generalizing z with
  | nil => simp
  | cons x r ih => simp [ih, add_assoc]

theorem sum_foldl_append {α β : Type} (g : α → List β) (f : β → F) (l : List α)
    (init : List β) :
    ((l.foldl (fun probs e => probs ++ g e) init).map f).sum
      = (init.map f).sum + (l.map fun e => ((g e).map f).sum).sum := by
  induction l generalizing init with
  | nil => simp
  | cons x r ih => simp [ih, add_assoc]

theorem sum_filterMap {α β : Type} (φ : α → Option β) (ψ : β → F) (l : List α) :
    ((l.filterMap φ).map ψ).sum
      = (l.map fun e =>
          match φ e with
          | some x => ψ x
          | none => 0).sum := by
  induction l with
  | nil => simp
  | cons x r ih =>
    cases h : φ x with
    | none => simp [List.filterMap_cons, h, ih]
    | some y => simp [List.filterMap_cons, h, ih]

theorem sum_map_add {α : Type} (f g : α → F) (l : List α) :
    (l.map fun e => f e + g e).sum = (l.map f).sum + (l.map g).sum := by
  induction l with
  | nil => simp
  | cons x r ih =>
    simp only [List.map_cons, List.sum_cons, ih]
    ring

/-- The entropy that the code computes is the flat sum of the specification. -/
theorem getCollectionEntropy_eq_spec (log2 : F → F) (h1 : log2 1 = 0) (c : Collection) :
    InformationContentScoringHandler.GetCollectionEntropy log2 c none none
      = specEntropy log2 c := by
  unfold InformationContentScoringHandler.GetCollectionEntropy specEntropy
  simp only []
  rw [foldl_add_eq_sum_field (fun item : F => item * log2 item), zero_add,
    sum_foldl_append, List.map_nil, List.sum_nil, zero_add,
    extractCollectionAttributes_entries, extractNullAttributes_entries,
    sum_filterMap, sum_filterMap, mul_neg_one, ← sum_map_add]
  congr 1
  congr 1
  apply List.map_congr_left
  rintro ⟨n, inner⟩ hmem
  have hget : c.attributesFrequencyCounts.get? n = some inner :=
    (GoMap.get?_eq_some_iff _ _ _).2 hmem
  have hnull := extractNullAttributes_get? c n
  rw [hget] at hnull
  simp only [] at hnull ⊢
  by_cases he : inner.entries = []
  · have htt : totalTraitCount inner = 0 := by
      rw [totalTraitCount_eq_sum, he]; rfl
    simp only [he, if_true, List.map_nil, List.sum_nil, zero_add, htt, sub_zero]
    by_cases hN : c.TokenTotalSupply > 0
    · have hN' : ((c.TokenTotalSupply : Int) : F) ≠ 0 := by
        exact_mod_cast (ne_of_gt hN)
      simp [hN, div_self hN', h1]
    · simp [hN]
  · simp only [he, if_false]
    rw [hnull]
    by_cases hd : c.TokenTotalSupply - totalTraitCount inner > 0
    · simp [hd, List.map_map, Function.comp_def]
    · simp [hd, List.map_map, Function.comp_def]

/-- The flat sum of the specification, from the lists of counts alone. -/
theorem specEntropy_of_counts (log2 : F → F) (c : Collection) (counts : List (List Int))
    (nulls : List Int) (N : Int)
    (hc : c.attributesFrequencyCounts.entries.map (fun e => e.2.entries.map Prod.snd) = counts)
    (hn : c.ExtractNullAttributes.entries.map (fun e => e.2.TotalTokens) = nulls)
    (hN : c.TokenTotalSupply = N) :
    specEntropy log2 c
      = -((counts.map fun cs =>
            (cs.map fun k => ((k : Int) : F) / ((N : Int) : F)
              * log2 (((k : Int) : F) / ((N : Int) : F))).sum).sum
          + (nulls.map fun k => ((k : Int) : F) / ((N : Int) : F)
              * log2 (((k : Int) : F) / ((N : Int) : F))).sum) := by
  subst hc hn hN
  unfold specEntropy
  simp [List.map_map, Function.comp_def]

/-- C5: `GetCollectionEntropy` is minus the single flat sum of `p * log2 p` over every
(name, value) pair of the frequency table (the synthetic trait-count attribute included) and
over every null placeholder, with `p = count / totalSupply`. On the 6-token collection of the
test the sum runs over bottom 1, 2, 2, 1, hat 1, 2, 3, special 2 and Null 4, trait count 2, 4
(each over 6). -/
theorem C5_collection_entropy_flat_sum :
    (∀ c : Collection,
      InformationContentScoringHandler.GetCollectionEntropy (Real.logb 2) c none none
        = specEntropy (Real.logb 2) c) ∧
    InformationContentScoringHandler.GetCollectionEntropy (Real.logb 2) collectionWithEmpty
        none none
      = -(((1 / 6 * Real.logb 2 (1 / 6) + 2 / 6 * Real.logb 2 (2 / 6)
              + 2 / 6 * Real.logb 2 (2 / 6) + 1 / 6 * Real.logb 2 (1 / 6))
            + (1 / 6 * Real.logb 2 (1 / 6) + 2 / 6 * Real.logb 2 (2 / 6)
              + 3 / 6 * Real.logb 2 (3 / 6))
            + (2 / 6 * Real.logb 2 (2 / 6))
            + (2 / 6 * Real.logb 2 (2 / 6) + 4 / 6 * Real.logb 2 (4 / 6)))
          + 4 / 6 * Real.logb 2 (4 / 6)) := by
  have hgen : ∀ c : Collection,
      InformationContentScoringHandler.GetCollectionEntropy (Real.logb 2) c none none
        = specEntropy (Real.logb 2) c :=
    fun c => getCollectionEntropy_eq_spec (Real.logb 2) (Real.logb_one) c
  refine ⟨hgen, ?_⟩
  rw [hgen, specEntropy_of_counts (Real.logb 2) collectionWithEmpty
    [[1, 2, 2, 1], [1, 2, 3], [2], [2, 4]] [4] 6 (by decide) (by decide) (by decide)]
  simp only [List.map_cons, List.map_nil, List.sum_cons, List.sum_nil]
  norm_num
  ring

/-- C7 at the example collection and the name `color`, which one of the three tokens holds:
the counts sum to 1, the null placeholder counts the other 2 tokens. -/
theorem C7_frequency_conservation_witness :
    "color" ∈ (NewCollection "My Collection Name" exampleTokens).attributesFrequencyCounts.keys ∧
      (tableSum exampleCollection.attributesFrequencyCounts "color"
          ≤ exampleCollection.TokenTotalSupply ∧
        exampleCollection.ExtractNullAttributes.get? "color"
          = (if exampleCollection.TokenTotalSupply
                - tableSum exampleCollection.attributesFrequencyCounts "color" > 0 then
              some { Attribute := NewStringAttribute "color" "Null",
                     TotalTokens := exampleCollection.TokenTotalSupply
                      - tableSum exampleCollection.attributesFrequencyCounts "color" }
            else none) ∧
        tableSum exampleCollection.attributesFrequencyCounts "color"
            + (match exampleCollection.ExtractNullAttributes.get? "color" with
                | some nullAttr => nullAttr.TotalTokens
                | none => 0)
          = exampleCollection.TokenTotalSupply) :=
  ⟨by decide, C7_frequency_conservation "My Collection Name" exampleTokens "color" (by decide)⟩

/-! ## The combined attributes of a token -/

namespace GoMap

variable {V : Type}

/-- Writing entries with fresh, pairwise distinct keys appends them in order. -/
theorem foldl_set_entries {A : Type} (g : String × A → V) (l : List (String × A))
    (hl : (l.map Prod.fst).Nodup) (acc : GoMap V) (hacc : ∀ k ∈ l.map Prod.fst, k ∉ acc.keys) :
    (l.foldl (fun m e => m.set e.1 (g e)) acc).entries
      = acc.entries ++ l.map fun e => (e.1, g e) := by
  induction l generalizing acc with
  | nil => simp
  | cons e r ih =>
    rw [List.map_cons, List.nodup_cons] at hl
    have hk : e.1 ∉ acc.keys := hacc e.1 (by simp)
    rw [List.foldl_cons, ih hl.2]
    · show setList e.1 _ acc.entries ++ _ = _
      rw [setList_of_not_mem e.1 _ acc.entries hk]
      simp
    · intro k' hk' hmem
      rcases (mem_keys_set _ _ _ _).1 hmem with h | h
      · subst h; exact hl.1 hk'
      · exact hacc k' (by simp [hk']) h

/-- Reading after a run of writes: the written value, or the old one. -/
theorem foldl_set_get? (l : List (String × V)) (hl : (l.map Prod.fst).Nodup) (acc : GoMap V)
    (k : String) :
    (l.foldl (fun m e => m.set e.1 e.2) acc).get? k
      = match getList k l with
        | some v => some v
        | none => acc.get? k := by
  induction l generalizing acc with
  | nil => rfl
  | cons e r ih =>
    obtain ⟨k', v'⟩ := e
    rw [List.map_cons, List.nodup_cons] at hl
    rw [List.foldl_cons, ih hl.2]
    by_cases hk : k' = k
    · subst hk
      have hr : getList k' r = none := (getList_eq_none_iff k' r).2 hl.1
      simp only [hr, getList, if_true, get?_set_self]
    · simp only [getList, if_neg hk, get?_set_ne _ _ _ _ (Ne.symm hk)]

theorem nodup_entries (m : GoMap V) : m.entries.Nodup :=
  List.Nodup.of_map Prod.fst m.nodup

/-- The keys of a map, read back one by one, give its values in iteration order. -/
theorem filterMap_get?_keys (m : GoMap V) :
    m.keys.filterMap (fun k => m.get? k) = m.entries.map Prod.snd := by
  unfold keys
  rw [List.filterMap_map]
  rw [← List.filterMap_eq_map]
  apply List.filterMap_congr
  rintro ⟨k, v⟩ hmem
  exact (get?_eq_some_iff m k v).2 hmem

end GoMap

theorem mergeMap_get? {V : Type} (a b : GoMap V) (k : String) :
    (MergeMap a b).get? k
      = match b.get? k with
        | some v => some v
        | none => a.get? k := by
  unfold MergeMap
  rw [GoMap.foldl_set_get? _ b.nodup, GoMap.foldl_set_get? _ a.nodup]
  cases hb : GoMap.getList k b.entries with
  | some v => simp [GoMap.get?, hb]
  | none =>
    simp only [GoMap.get?, hb]
    cases ha : GoMap.getList k a.entries with
    | some v => rfl
    | none => rfl

/-- The merged map holds the entries of `b` and the entries of `a` whose key `b` lacks. -/
theorem mergeMap_entries_perm {V : Type} (a b : GoMap V) :
    (MergeMap a b).entries.Perm
      (b.entries ++ a.entries.filter fun e => (b.get? e.1).isNone) := by
  rw [List.perm_ext_iff_of_nodup (GoMap.nodup_entries _)]
  · rintro ⟨k, v⟩
    rw [← GoMap.get?_eq_some_iff, mergeMap_get?, List.mem_append, List.mem_filter,
      ← GoMap.get?_eq_some_iff, ← GoMap.get?_eq_some_iff]
    cases hb : b.get? k with
    | some w => simp
    | none => simp
  · refine List.Nodup.append (GoMap.nodup_entries b) ((GoMap.nodup_entries a).filter _) ?_
    rintro ⟨k, v⟩ hb ha
    rw [List.mem_filter] at ha
    rw [(GoMap.get?_eq_some_iff b k v).2 hb] at ha
    simp at ha

theorem convertToCollectionAttributesDict_entries (c : Collection) (t : Token) :
    (convertToCollectionAttributesDict c t).entries
      = t.metadata.stringAttributes.entries.map fun e =>
          (e.1, { Attribute := e.2, TotalTokens := c.TotalTokensWithAttributes e.2 }) := by
  unfold convertToCollectionAttributesDict
  rw [GoMap.foldl_set_entries
    (fun e : String × StringAttribute =>
      ({ Attribute := e.2, TotalTokens := c.TotalTokensWithAttributes e.2 } : CollectionAttribute))
    _ t.metadata.stringAttributes.nodup GoMap.empty
    (by intro k _ h; simp [GoMap.keys, GoMap.empty] at h)]
  rfl

theorem convertToCollectionAttributesDict_get?_isNone (c : Collection) (t : Token)
    (k : String) :
    ((convertToCollectionAttributesDict c t).get? k).isNone = !t.HasAttribute k := by
  unfold Token.HasAttribute TokenMetadata.AttributeExists
  cases h1 : (convertToCollectionAttributesDict c t).get? k with
  | none =>
    have := (GoMap.get?_eq_none_iff _ _).1 h1
    unfold GoMap.keys at this
    rw [convertToCollectionAttributesDict_entries, List.map_map] at this
    have h2 : t.metadata.stringAttributes.get? k = none :=
      (GoMap.get?_eq_none_iff _ _).2 this
    simp [h2]
  | some v =>
    have := (GoMap.mem_keys_iff _ _).2 ⟨v, h1⟩
    unfold GoMap.keys at this
    rw [convertToCollectionAttributesDict_entries, List.map_map] at this
    obtain ⟨w, hw⟩ := (GoMap.mem_keys_iff t.metadata.stringAttributes k).1 this
    simp [hw]

/-- The values of the combined attributes, in the order of the sorted names, are a
permutation of the token's own attributes followed by the null placeholders of the names
the token lacks. -/
theorem sortedAttrs_perm (c : Collection) (t : Token) (nulls : GoMap CollectionAttribute) :
    ((sortSlice (fun a b => decide (a < b))
        (GetMapKeys (MergeMap nulls (convertToCollectionAttributesDict c t)))).filterMap
      fun name => (MergeMap nulls (convertToCollectionAttributesDict c t)).get? name).Perm
      ((t.metadata.stringAttributes.entries.map fun e =>
          ({ Attribute := e.2, TotalTokens := c.TotalTokensWithAttributes e.2 } :
            CollectionAttribute))
        ++ (nulls.entries.filter fun e => !t.HasAttribute e.1).map Prod.snd) := by
  refine ((sortSlice_perm _ _).filterMap _).trans ?_
  unfold GetMapKeys
  rw [GoMap.filterMap_get?_keys]
  refine ((mergeMap_entries_perm _ _).map Prod.snd).trans ?_
  rw [List.map_append, convertToCollectionAttributesDict_entries, List.map_map]
  simp only [convertToCollectionAttributesDict_get?_isNone]
  exact List.Perm.refl _

/-! ## The score of a token -/

/-- The sign handling of `getICScore` (accumulate `log2 (1 / score)`, negate once) gives the
sum of `log2 score` over the combined attributes. -/
theorem getICScore_eq_specIC (log2 : F → F) (hinv : ∀ x : F, log2 (1 / x) = -log2 x)
    (c : Collection) (t : Token) :
    InformationContentScoringHandler.getICScore log2 c t (some c.ExtractNullAttributes)
      = specIC log2 c t := by
  unfold InformationContentScoringHandler.getICScore GetTokenAttributesScoresAndWeights specIC
  simp only []
  rw [foldl_add_eq_sum_field (fun score : F => log2 (1 / score)), zero_add, List.map_map]
  have hperm := sortedAttrs_perm c t c.ExtractNullAttributes
  rw [((hperm.map _).sum_eq)]
  simp only [List.map_append, List.map_map, List.sum_append, Function.comp_def, hinv]
  rw [neg_one_mul]
  have hneg : ∀ {α : Type} (l : List α) (f : α → F),
      (l.map fun x => -f x).sum = -(l.map f).sum := by
    intro α l f
    induction l with
    | nil => simp
    | cons x r ih => simp [ih]; ring
  rw [hneg, hneg]
  ring

theorem getICScore_none (log2 : F → F) (c : Collection) (t : Token) :
    InformationContentScoringHandler.getICScore log2 c t none
      = InformationContentScoringHandler.getICScore log2 c t (some c.ExtractNullAttributes) :=
  rfl

theorem scoreTokensEntropy_ne_zero (log2 : F → F) (c : Collection) :
    InformationContentScoringHandler.scoreTokensEntropy log2 c ≠ 0 := by
  unfold InformationContentScoringHandler.scoreTokensEntropy
  simp only []
  split
  · exact one_ne_zero
  · assumption

/-- The batch path: every score is the information content over the entropy of the
collection, or over 1 when that entropy is 0. -/
theorem scoreTokens_eq (log2 : F → F) (c : Collection) (tokens : List Token) :
    InformationContentScoringHandler.ScoreTokens log2 c tokens
      = tokens.map fun t =>
          InformationContentScoringHandler.getICScore log2 c t (some c.ExtractNullAttributes)
            / (if InformationContentScoringHandler.GetCollectionEntropy log2 c none none = 0
                then 1
                else InformationContentScoringHandler.GetCollectionEntropy log2 c none none) := by
  unfold InformationContentScoringHandler.ScoreTokens
  apply List.map_congr_left
  intro t _
  unfold InformationContentScoringHandler.scoreToken
    InformationContentScoringHandler.scoreTokenDivisor
  simp only [if_neg (scoreTokensEntropy_ne_zero log2 c)]
  rfl

/-- C4: the score that `ScoreTokens` of the information-content handler returns for a token
is `IC / E`: `IC` is the sum, over the token's own string attributes and the null
placeholders of the names it lacks, of `log2 (totalSupply / count)`, and `E` is the
collection entropy, replaced by 1 when it is 0. The sign handling of the code (accumulate
`log2 (1 / score)`, negate once) nets to this sum. -/
theorem C4_score_is_information_content_over_entropy (c : Collection) (tokens : List Token) :
    InformationContentScoringHandler.ScoreTokens (Real.logb 2) c tokens
      = tokens.map fun t =>
          specIC (Real.logb 2) c t
            / (if InformationContentScoringHandler.GetCollectionEntropy (Real.logb 2) c none none
                  = 0 then 1
                else InformationContentScoringHandler.GetCollectionEntropy (Real.logb 2) c
                  none none) := by
  rw [scoreTokens_eq]
  apply List.map_congr_left
  intro t _
  rw [getICScore_eq_specIC (Real.logb 2) (fun x => by rw [one_div, Real.logb_inv]) c t]

/-- C8 (code defect): on a collection whose entropy is 0 the batch path `ScoreTokens`
divides by 1, but the single-token path `ScoreToken` does not: it passes the normalization 0
to `scoreToken`, which recomputes the entropy and divides by it, that is by 0. Here on the
collection of one token with the attribute `hat: cap`. -/
theorem C8_scoreToken_divides_by_zero_entropy :
    InformationContentScoringHandler.GetCollectionEntropy (Real.logb 2) uniformCollection
        none none = 0 ∧
      InformationContentScoringHandler.scoreTokensEntropy (Real.logb 2) uniformCollection = 1 ∧
      InformationContentScoringHandler.scoreTokenDivisor (Real.logb 2) uniformCollection
        none 0 = 0 ∧
      (∀ t : Token,
        InformationContentScoringHandler.ScoreToken (Real.logb 2) uniformCollection t
          = InformationContentScoringHandler.getICScore (Real.logb 2) uniformCollection t none
            / 0) := by
  have hE : InformationContentScoringHandler.GetCollectionEntropy (Real.logb 2)
      uniformCollection none none = 0 := by
    rw [getCollectionEntropy_eq_spec (Real.logb 2) Real.logb_one,
      specEntropy_of_counts (Real.logb 2) uniformCollection [[1], [1]] [] 1
        (by decide) (by decide) (by decide)]
    simp
  have hD : InformationContentScoringHandler.scoreTokenDivisor (Real.logb 2) uniformCollection
      none 0 = 0 := by
    unfold InformationContentScoringHandler.scoreTokenDivisor
    rw [if_pos rfl]
    exact hE
  refine ⟨hE, ?_, hD, ?_⟩
  · unfold InformationContentScoringHandler.scoreTokensEntropy
    exact if_pos hE
  · intro t
    unfold InformationContentScoringHandler.ScoreToken
      InformationContentScoringHandler.scoreToken
    simp only [hD]

/-! ## The example program -/

theorem insertLess_of_all_less {α : Type} (less : α → α → Bool) (x : α) (l : List α)
    (h : ∀ p ∈ l, less x p = true) : insertLess less x l = l ++ [x] := by
  induction l with
  | nil => rfl
  | cons p ps ih =>
    unfold insertLess
    rw [if_pos (h p (List.mem_cons_self _ _)), ih fun q hq => h q (List.mem_cons_of_mem _ hq)]
    rfl

/-- An element that the comparator puts before every other element, appended last, is
sorted to the front. -/
theorem sortSlice_append_of_all_less {α : Type} (less : α → α → Bool) (x : α) (l : List α)
    (h : ∀ p ∈ l, less x p = true) : sortSlice less (l ++ [x]) = x :: sortSlice less l := by
  unfold sortSlice
  rw [List.foldl_append, List.foldl_cons, List.foldl_nil, insertLess_of_all_less]
  · simp
  · intro p hp
    have hperm := sortSlice_perm less l
    unfold sortSlice at hperm
    exact h p (hperm.subset (List.mem_reverse.2 hp))

/-- C3 (end to end): for the collection of the example program, three ERC721 tokens with the
attributes hat cap and shirt blue, hat visor and shirt green, hat visor and shirt blue and
color blue, `ValidateCollection` succeeds, the default scorer returns exactly 3 scores, and
`RankCollection` with the default information-content scorer returns no error, 3 ranked
items, and rank 1 for the token that carries the attribute `color`. -/
theorem C3_example_collection_end_to_end :
    (NewOpenRarityScorer (Real.logb 2)).ValidateCollection exampleCollection = .ok () ∧
      (∃ scores,
        (NewOpenRarityScorer (Real.logb 2)).ScoreTokens exampleCollection
            exampleCollection.Tokens = .ok scores ∧
          scores.length = 3) ∧
      (∃ ranked,
        RankCollection (some exampleCollection) (NewOpenRarityScorer (Real.logb 2)) = .ok ranked ∧
          ranked.length = 3 ∧
          (∃ r ∈ ranked, r.token.HasAttribute "color" = true) ∧
          ∀ r ∈ ranked, r.token.HasAttribute "color" = true → r.rank = 1) := by
  have hnum : exampleCollection.HasNumericAttribute = false := by decide
  have hstd : IsSubset [TokenStandardERC721, TokenStandardMetaplexNonFungible]
      exampleCollection.TokenStandards = true := by decide
  have hval : (NewOpenRarityScorer (Real.logb 2)).ValidateCollection exampleCollection
      = .ok () := by
    show Scorer.ValidateCollection (NewScorer (NewInformationContentScoringHandler (Real.logb 2)))
      exampleCollection = .ok ()
    unfold Scorer.ValidateCollection
    simp [hnum, hstd]
  have hscore : (NewOpenRarityScorer (Real.logb 2)).ScoreTokens exampleCollection
      exampleCollection.Tokens
      = .ok (InformationContentScoringHandler.ScoreTokens (Real.logb 2) exampleCollection
          exampleCollection.Tokens) := by
    show Scorer.ScoreTokens (NewScorer (NewInformationContentScoringHandler (Real.logb 2)))
      exampleCollection exampleCollection.Tokens = _
    unfold Scorer.ScoreTokens
    have hval' : Scorer.ValidateCollection
        (NewScorer (NewInformationContentScoringHandler (Real.logb 2))) exampleCollection
        = .ok () := hval
    rw [hval']
    rfl
  obtain ⟨t1, t2, t3, hT⟩ := List.length_eq_three.1
    (by decide : exampleCollection.Tokens.length = 3)
  have hfacts : exampleCollection.Tokens.map (fun t =>
      (t.HasAttribute "color",
        (ExtractUniqueAttributeCount t exampleCollection).uniqueAttributeCount))
      = [(false, 1), (false, 1), (true, 2)] := by decide
  rw [hT] at hfacts
  simp only [List.map_cons, List.map_nil, List.cons.injEq, Prod.mk.injEq, and_true] at hfacts
  obtain ⟨⟨hc1, hu1⟩, ⟨hc2, hu2⟩, hc3, hu3⟩ := hfacts
  refine ⟨hval, ⟨_, hscore, ?_⟩, ?_⟩
  · unfold InformationContentScoringHandler.ScoreTokens
    rw [List.length_map, hT]
    rfl
  · unfold RankCollection
    simp only [hscore]
    unfold InformationContentScoringHandler.ScoreTokens
    simp only [hT, (rfl : exampleCollection.tokensIsNil = false), Bool.false_eq_true,
      if_false, List.map_cons, List.map_nil,
      List.length_cons, List.length_nil, ne_eq, not_true_eq_false, List.zip_cons_cons,
      List.zip_nil_right, NewTokenRarity]
    -- the three token rarities
    generalize InformationContentScoringHandler.scoreToken (Real.logb 2) exampleCollection t1
      (some exampleCollection.ExtractNullAttributes)
      (InformationContentScoringHandler.scoreTokensEntropy (Real.logb 2) exampleCollection) = s1
    generalize InformationContentScoringHandler.scoreToken (Real.logb 2) exampleCollection t2
      (some exampleCollection.ExtractNullAttributes)
      (InformationContentScoringHandler.scoreTokensEntropy (Real.logb 2) exampleCollection) = s2
    generalize InformationContentScoringHandler.scoreToken (Real.logb 2) exampleCollection t3
      (some exampleCollection.ExtractNullAttributes)
      (InformationContentScoringHandler.scoreTokensEntropy (Real.logb 2) exampleCollection) = s3
    set r1 : TokenRarity ℝ := ⟨s1, ExtractUniqueAttributeCount t1 exampleCollection, t1, 0⟩
      with hr1
    set r2 : TokenRarity ℝ := ⟨s2, ExtractUniqueAttributeCount t2 exampleCollection, t2, 0⟩
      with hr2
    set r3 : TokenRarity ℝ := ⟨s3, ExtractUniqueAttributeCount t3 exampleCollection, t3, 0⟩
      with hr3
    have hless : ∀ p ∈ [r1, r2], rarityLess r3 p = true := by
      have h21 : wrapInt 1 = 1 := by decide
      intro p hp
      simp only [List.mem_cons, List.mem_singleton, List.not_mem_nil, or_false] at hp
      rcases hp with rfl | rfl
      · simp [rarityLess, hr1, hr3, hu1, hu3, h21]
      · simp [rarityLess, hr2, hr3, hu2, hu3, h21]
    have hsort : sortSlice rarityLess [r1, r2, r3] = r3 :: sortSlice rarityLess [r1, r2] :=
      sortSlice_append_of_all_less rarityLess r3 [r1, r2] hless
    obtain ⟨out, hout, hlen, hkey, -, hfirst, -, -⟩ :=
      rankLoop_spec (sortSlice rarityLess [r1, r2, r3]) 0 none (by simp)
    have hlen3 : out.length = 3 := by
      rw [hlen, (sortSlice_perm rarityLess [r1, r2, r3]).length_eq]
      rfl
    refine ⟨out, hout, hlen3, ?_⟩
    rw [hsort] at hkey
    cases out with
    | nil => simp at hlen3
    | cons o rest =>
      simp only [List.map_cons, List.cons.injEq] at hkey
      obtain ⟨ho, hrest⟩ := hkey
      have hotoken : o.token = t3 := by
        have := congrArg TokenRarity.token ho
        simpa [TokenRarity.SetRarityRanks, hr3] using this
      have horank : o.rank = 1 := by
        have := hfirst rfl o (by simp)
        simpa using this
      have hresttoken : ∀ r ∈ rest, r.token.HasAttribute "color" = false := by
        intro r hr
        have h1 : r.token ∈ rest.map fun t => (t.SetRarityRanks 0).token :=
          List.mem_map.2 ⟨r, hr, rfl⟩
        have h2 : (rest.map fun t => (t.SetRarityRanks 0).token)
            = (sortSlice rarityLess [r1, r2]).map fun t => (t.SetRarityRanks 0).token := by
          have := congrArg (List.map TokenRarity.token) hrest
          simpa [List.map_map, Function.comp_def] using this
        rw [h2] at h1
        obtain ⟨q, hq, hqt⟩ := List.mem_map.1 h1
        have hq' := (sortSlice_perm rarityLess [r1, r2]).subset hq
        simp only [List.mem_cons, List.mem_singleton, List.not_mem_nil, or_false] at hq'
        have hqt' : q.token = r.token := hqt
        rcases hq' with rfl | rfl
        · rw [← hqt']; exact hc1
        · rw [← hqt']; exact hc2
      refine ⟨⟨o, List.mem_cons_self _ _, by rw [hotoken]; exact hc3⟩, ?_⟩
      intro r hr hcolor
      rcases List.mem_cons.1 hr with rfl | h
      · exact horank
      · rw [hresttoken r h] at hcolor
        cases hcolor

/-! ## The entries of the frequency table -/

theorem tableCount_eq_getD (T : GoMap (GoMap Int)) (k v : String) :
    tableCount T k v = (tableGet? T k v).getD 0 := by
  unfold tableCount tableGet?
  cases T.get? k <;> rfl

theorem tableGet?_countAttribute (T : GoMap (GoMap Int)) (k : String) (a : StringAttribute)
    (n v : String) :
    tableGet? (countAttribute T k a) n v
      = if k = n ∧ a.value = v then some (tableCount T n v + 1) else tableGet? T n v := by
  unfold countAttribute tableGet? tableCount
  by_cases hn : n = k
  · subst hn
    cases hT : T.get? n with
    | none =>
      simp only [GoMap.get?_set_self, true_and]
      by_cases hv : v = a.value
      · subst hv
        simp [GoMap.get?_set_self]
      · rw [GoMap.get?_set_ne _ _ _ _ hv, if_neg (Ne.symm hv)]
        rfl
    | some inner =>
      simp only [GoMap.get?_set_self, true_and]
      by_cases hv : v = a.value
      · subst hv
        simp [GoMap.get?_set_self]
      · rw [GoMap.get?_set_ne _ _ _ _ hv, if_neg (Ne.symm hv)]
  · have hk : ¬ (k = n ∧ a.value = v) := fun h => hn h.1.symm
    rw [if_neg hk]
    cases hT : T.get? k with
    | none => simp only [GoMap.get?_set_ne _ _ _ _ hn]
    | some inner => simp only [GoMap.get?_set_ne _ _ _ _ hn]

theorem tableGet?_foldl_entries (l : List (String × StringAttribute))
    (hl : (l.map Prod.fst).Nodup) (T : GoMap (GoMap Int)) (n v : String) :
    tableGet? (l.foldl (fun acc e => countAttribute acc e.1 e.2) T) n v
      = match GoMap.getList n l with
        | some a => if a.value = v then some (tableCount T n v + 1) else tableGet? T n v
        | none => tableGet? T n v := by
  induction l generalizing T with
  | nil => simp [GoMap.getList]
  | cons e r ih =>
    obtain ⟨k, a⟩ := e
    rw [List.map_cons, List.nodup_cons] at hl
    rw [List.foldl_cons, ih hl.2]
    by_cases hk : k = n
    · subst hk
      have : GoMap.getList k r = none := (GoMap.getList_eq_none_iff k r).2 hl.1
      simp [GoMap.getList, this, tableGet?_countAttribute]
    · simp only [GoMap.getList, if_neg hk]
      have h1 : tableGet? (countAttribute T k a) n v = tableGet? T n v := by
        rw [tableGet?_countAttribute, if_neg (fun h => hk h.1)]
      have h2 : tableCount (countAttribute T k a) n v = tableCount T n v := by
        rw [tableCount_countAttribute, if_neg (fun h => hk h.1), add_zero]
      rw [h1, h2]

/-- An entry of the frequency table holds the number of tokens with that pair, and there is
an entry exactly for the pairs that some token holds. -/
theorem tableGet?_derive (tokens : List Token) (n v : String) :
    tableGet? (deriveNormalizedAttrsFrequencyCount tokens) n v
      = if tokens.countP (fun t => tokenHoldsValue t n v) = 0 then none
        else some ((tokens.countP fun t => tokenHoldsValue t n v : Nat) : Int) := by
  unfold deriveNormalizedAttrsFrequencyCount
  suffices h : ∀ T : GoMap (GoMap Int),
      tableGet? (tokens.foldl (fun attrsFreqCounts token =>
        token.metadata.stringAttributes.entries.foldl
          (fun acc e => countAttribute acc e.1 e.2) attrsFreqCounts) T) n v
        = if tokens.countP (fun t => tokenHoldsValue t n v) = 0 then tableGet? T n v
          else some (tableCount T n v
            + ((tokens.countP fun t => tokenHoldsValue t n v : Nat) : Int)) by
    rw [h]
    simp [tableGet?, tableCount, GoMap.get?_empty]
  induction tokens with
  | nil => intro T; simp
  | cons t r ih =>
    intro T
    rw [List.foldl_cons, ih, tableGet?_foldl_entries _ t.metadata.stringAttributes.nodup,
      tableCount_foldl_entries _ t.metadata.stringAttributes.nodup, List.countP_cons]
    unfold tokenHoldsValue GoMap.get?
    cases GoMap.getList n t.metadata.stringAttributes.entries with
    | none => simp
    | some a =>
      by_cases hv : a.value = v
      · by_cases hc : List.countP (fun t =>
            match GoMap.getList n t.metadata.stringAttributes.entries with
            | some a => decide (a.value = v)
            | none => false) r = 0
        · simp [hv, hc]
        · simp [hv, hc]
          ring
      · simp [hv]

/-! ## Bounds on the counts, and the sign of the entropy -/

/-- Every count of the frequency table of a built collection lies between 1 and the supply. -/
theorem table_entry_bounds (tokens : List Token) (k : String) (inner : GoMap Int) (v : String)
    (c : Int) (h1 : (k, inner) ∈ (deriveNormalizedAttrsFrequencyCount tokens).entries)
    (h2 : (v, c) ∈ inner.entries) : 1 ≤ c ∧ c ≤ (tokens.length : Int) := by
  have hg : tableGet? (deriveNormalizedAttrsFrequencyCount tokens) k v = some c := by
    unfold tableGet?
    rw [(GoMap.get?_eq_some_iff _ _ _).2 h1]
    exact (GoMap.get?_eq_some_iff _ _ _).2 h2
  rw [tableGet?_derive] at hg
  split at hg
  · cases hg
  · rename_i hne
    simp only [Option.some.injEq] at hg
    subst hg
    constructor
    · have : 0 < tokens.countP (fun t => tokenHoldsValue t k v) := Nat.pos_of_ne_zero hne
      exact_mod_cast this
    · exact_mod_cast List.countP_le_length _

/-- Every null placeholder of a built collection counts between 1 and the supply. -/
theorem null_entry_bounds (name : String) (tokens : List Token) (k : String)
    (na : CollectionAttribute)
    (h : (k, na) ∈ (NewCollection name tokens).ExtractNullAttributes.entries) :
    1 ≤ na.TotalTokens ∧ na.TotalTokens ≤ (NewCollection name tokens).TokenTotalSupply := by
  have hget := (GoMap.get?_eq_some_iff _ _ _).2 h
  rw [extractNullAttributes_get?] at hget
  cases hT : (NewCollection name tokens).attributesFrequencyCounts.get? k with
  | none => rw [hT] at hget; cases hget
  | some inner =>
    rw [hT] at hget
    simp only [] at hget
    split at hget
    · rename_i hd
      simp only [Option.some.injEq] at hget
      subst hget
      have hsum : tableSum (NewCollection name tokens).attributesFrequencyCounts k
          = (((traitCountify tokens).countP fun t => t.HasAttribute k : Nat) : Int) :=
        tableSum_derive (traitCountify tokens) k
      have hts : tableSum (NewCollection name tokens).attributesFrequencyCounts k
          = totalTraitCount inner := by
        unfold tableSum
        rw [hT]
      have hnn : (0 : Int) ≤ totalTraitCount inner := by
        rw [← hts, hsum]
        exact Int.natCast_nonneg _
      constructor
      · show 1 ≤ (NewCollection name tokens).TokenTotalSupply - totalTraitCount inner
        omega
      · show (NewCollection name tokens).TokenTotalSupply - totalTraitCount inner ≤ _
        omega
    · cases hget

theorem mul_logb_nonpos (c N : Int) (h1 : 1 ≤ c) (h2 : c ≤ N) :
    ((c : Int) : ℝ) / ((N : Int) : ℝ) * Real.logb 2 (((c : Int) : ℝ) / ((N : Int) : ℝ)) ≤ 0 := by
  have hc : (0 : ℝ) < ((c : Int) : ℝ) := by exact_mod_cast (by omega : (0 : Int) < c)
  have hN : (0 : ℝ) < ((N : Int) : ℝ) := by exact_mod_cast (by omega : (0 : Int) < N)
  have hcN : ((c : Int) : ℝ) ≤ ((N : Int) : ℝ) := by exact_mod_cast h2
  have hp : 0 < ((c : Int) : ℝ) / ((N : Int) : ℝ) := div_pos hc hN
  have hp1 : ((c : Int) : ℝ) / ((N : Int) : ℝ) ≤ 1 := (div_le_one hN).2 hcN
  exact mul_nonpos_iff.2 (Or.inl ⟨le_of_lt hp, Real.logb_nonpos (by norm_num) (le_of_lt hp) hp1⟩)

theorem list_sum_nonpos {α : Type} (l : List α) (f : α → ℝ) (h : ∀ x ∈ l, f x ≤ 0) :
    (l.map f).sum ≤ 0 := by
  induction l with
  | nil => simp
  | cons x r ih =>
    rw [List.map_cons, List.sum_cons]
    have h1 := h x (List.mem_cons_self _ _)
    have h2 := ih fun y hy => h y (List.mem_cons_of_mem _ hy)
    linarith

/-- The entropy of a built collection is not negative. -/
theorem getCollectionEntropy_nonneg (name : String) (tokens : List Token) :
    0 ≤ InformationContentScoringHandler.GetCollectionEntropy (Real.logb 2)
      (NewCollection name tokens) none none := by
  rw [getCollectionEntropy_eq_spec (Real.logb 2) Real.logb_one]
  unfold specEntropy
  rw [neg_nonneg]
  apply add_nonpos
  · apply list_sum_nonpos
    rintro ⟨k, inner⟩ hk
    apply list_sum_nonpos
    rintro ⟨v, c⟩ hv
    obtain ⟨h1, h2⟩ := table_entry_bounds (traitCountify tokens) k inner v c hk hv
    exact mul_logb_nonpos c _ h1 h2
  · apply list_sum_nonpos
    rintro ⟨k, na⟩ hk
    obtain ⟨h1, h2⟩ := null_entry_bounds name tokens k na hk
    exact mul_logb_nonpos _ _ h1 h2

/-- The divisor of the batch path is positive on a built collection. -/
theorem scoreTokens_divisor_pos (name : String) (tokens : List Token) :
    0 < (if InformationContentScoringHandler.GetCollectionEntropy (Real.logb 2)
          (NewCollection name tokens) none none = 0 then (1 : ℝ)
        else InformationContentScoringHandler.GetCollectionEntropy (Real.logb 2)
          (NewCollection name tokens) none none) := by
  split
  · exact one_pos
  · rename_i hne
    exact lt_of_le_of_ne (getCollectionEntropy_nonneg name tokens) (Ne.symm hne)

/-! ## The combined attributes of a member token -/

theorem sortedAttrs_perm_combined (c : Collection) (t : Token)
    (nulls : GoMap CollectionAttribute) :
    ((sortSlice (fun a b => decide (a < b))
        (GetMapKeys (MergeMap nulls (convertToCollectionAttributesDict c t)))).filterMap
      fun name => (MergeMap nulls (convertToCollectionAttributesDict c t)).get? name).Perm
      ((MergeMap nulls (convertToCollectionAttributesDict c t)).entries.map Prod.snd) := by
  refine ((sortSlice_perm _ _).filterMap _).trans ?_
  unfold GetMapKeys
  rw [GoMap.filterMap_get?_keys]

/-- The information content is the sum of `log2 (totalSupply / count)` over the combined
attributes of the token. -/
theorem getICScore_eq_sum_combined (c : Collection) (t : Token) :
    InformationContentScoringHandler.getICScore (Real.logb 2) c t (some c.ExtractNullAttributes)
      = ((MergeMap c.ExtractNullAttributes (convertToCollectionAttributesDict c t)).entries.map
          fun e => Real.logb 2
            (((c.TokenTotalSupply : Int) : ℝ) / ((e.2.TotalTokens : Int) : ℝ))).sum := by
  unfold InformationContentScoringHandler.getICScore GetTokenAttributesScoresAndWeights
  simp only []
  rw [foldl_add_eq_sum_field (fun score : ℝ => Real.logb 2 (1 / score)), zero_add, List.map_map]
  have hperm := sortedAttrs_perm_combined c t c.ExtractNullAttributes
  rw [((hperm.map _).sum_eq)]
  simp only [List.map_map, Function.comp_def, one_div, Real.logb_inv]
  have hneg : ∀ {α : Type} (l : List α) (f : α → ℝ),
      (l.map fun x => -f x).sum = -(l.map f).sum := by
    intro α l f
    induction l with
    | nil => simp
    | cons x r ih => simp [ih]; ring
  rw [hneg]
  ring

theorem mem_keys_mergeMap {V : Type} (a b : GoMap V) (k : String) :
    k ∈ (MergeMap a b).keys ↔ k ∈ a.keys ∨ k ∈ b.keys := by
  rw [GoMap.mem_keys_iff, GoMap.mem_keys_iff, GoMap.mem_keys_iff]
  simp only [mergeMap_get?]
  cases hb : b.get? k with
  | some v => simp
  | none => simp

theorem mem_keys_convert (c : Collection) (t : Token) (k : String) :
    k ∈ (convertToCollectionAttributesDict c t).keys ↔ t.HasAttribute k = true := by
  unfold GoMap.keys
  rw [convertToCollectionAttributesDict_entries, List.map_map]
  unfold Token.HasAttribute TokenMetadata.AttributeExists
  rw [Option.isSome_iff_exists]
  exact GoMap.mem_keys_iff t.metadata.stringAttributes k

theorem mem_keys_extractNullAttributes (c : Collection) (k : String) :
    k ∈ c.ExtractNullAttributes.keys ↔
      k ∈ c.attributesFrequencyCounts.keys ∧
        c.TokenTotalSupply - tableSum c.attributesFrequencyCounts k > 0 := by
  rw [GoMap.mem_keys_iff, GoMap.mem_keys_iff]
  simp only [extractNullAttributes_get?]
  unfold tableSum
  cases hT : c.attributesFrequencyCounts.get? k with
  | none => simp
  | some inner =>
    simp only []
    by_cases hd : c.TokenTotalSupply - totalTraitCount inner > 0
    · simp [hd]
    · simp [hd]

/-- For a token of a built collection, the names of the combined attributes are exactly
the names of the frequency table. -/
theorem mem_keys_combined_of_member (name : String) (tokens : List Token) (t : Token)
    (ht : t ∈ (NewCollection name tokens).Tokens) (k : String) :
    k ∈ (MergeMap (NewCollection name tokens).ExtractNullAttributes
          (convertToCollectionAttributesDict (NewCollection name tokens) t)).keys
      ↔ k ∈ (NewCollection name tokens).attributesFrequencyCounts.keys := by
  rw [mem_keys_mergeMap, mem_keys_convert, mem_keys_extractNullAttributes]
  have hkeys : ∀ k, k ∈ (NewCollection name tokens).attributesFrequencyCounts.keys
      ↔ ∃ u ∈ traitCountify tokens, k ∈ u.metadata.stringAttributes.keys :=
    mem_keys_derive (traitCountify tokens)
  have hhas : ∀ u : Token, u.HasAttribute k = true ↔ k ∈ u.metadata.stringAttributes.keys := by
    intro u
    unfold Token.HasAttribute TokenMetadata.AttributeExists
    rw [Option.isSome_iff_exists]
    exact (GoMap.mem_keys_iff u.metadata.stringAttributes k).symm
  constructor
  · rintro (h | h)
    · exact h.1
    · exact (hkeys k).2 ⟨t, ht, (hhas t).1 h⟩
  · intro hk
    by_cases hh : t.HasAttribute k = true
    · exact Or.inr hh
    · refine Or.inl ⟨hk, ?_⟩
      have hsum : tableSum (NewCollection name tokens).attributesFrequencyCounts k
          = (((traitCountify tokens).countP fun t => t.HasAttribute k : Nat) : Int) :=
        tableSum_derive (traitCountify tokens) k
      have hlt : (traitCountify tokens).countP (fun t => t.HasAttribute k)
          < (traitCountify tokens).length := by
        apply lt_of_le_of_ne (List.countP_le_length _)
        intro heq
        exact hh ((List.countP_eq_length.1 heq) t ht)
      rw [hsum]
      show (((traitCountify tokens).length : Nat) : Int) - _ > 0
      omega

theorem combined_length_of_member (name : String) (tokens : List Token) (t : Token)
    (ht : t ∈ (NewCollection name tokens).Tokens) :
    (MergeMap (NewCollection name tokens).ExtractNullAttributes
        (convertToCollectionAttributesDict (NewCollection name tokens) t)).entries.length
      = (NewCollection name tokens).attributesFrequencyCounts.keys.length := by
  have hperm : (MergeMap (NewCollection name tokens).ExtractNullAttributes
        (convertToCollectionAttributesDict (NewCollection name tokens) t)).keys.Perm
      (NewCollection name tokens).attributesFrequencyCounts.keys := by
    refine (List.perm_ext_iff_of_nodup ?_ ?_).2 (mem_keys_combined_of_member name tokens t ht)
    · exact GoMap.nodup _
    · exact GoMap.nodup _
  have := hperm.length_eq
  simpa [GoMap.keys] using this

/-- Every token of a built collection carries the trait-count attribute, so the frequency
table has at least one name. -/
theorem table_keys_ne_nil_of_member (name : String) (tokens : List Token) (t : Token)
    (ht : t ∈ (NewCollection name tokens).Tokens) :
    (NewCollection name tokens).attributesFrequencyCounts.keys ≠ [] := by
  obtain ⟨t0, -, rfl⟩ := List.mem_map.1 (show t ∈ tokens.map traitCountifyToken from ht)
  have hk : (NewStringAttribute TraitCountAttributeName "").name
      ∈ (traitCountifyToken t0).metadata.stringAttributes.keys := by
    unfold traitCountifyToken TokenMetadata.AddAttribute
    simp only [Attribute.Name]
    exact (GoMap.mem_keys_set _ _ _ _).2 (Or.inl rfl)
  have := (mem_keys_derive (traitCountify tokens) _).2 ⟨_, ht, hk⟩
  intro hnil
  have hmem : (NewStringAttribute TraitCountAttributeName "").name
      ∈ (NewCollection name tokens).attributesFrequencyCounts.keys := this
  rw [hnil] at hmem
  cases hmem

/-! ## Monotonic rarity -/

theorem list_sum_eq_length_mul {α : Type} (l : List α) (f : α → ℝ) (L : ℝ)
    (h : ∀ x ∈ l, f x = L) : (l.map f).sum = (l.length : ℝ) * L := by
  induction l with
  | nil => simp
  | cons x r ih =>
    rw [List.map_cons, List.sum_cons, h x (List.mem_cons_self _ _),
      ih fun y hy => h y (List.mem_cons_of_mem _ hy)]
    push_cast [List.length_cons]
    ring

theorem list_sum_lt_length_mul {α : Type} (l : List α) (f : α → ℝ) (L : ℝ) (hl : l ≠ [])
    (h : ∀ x ∈ l, f x < L) : (l.map f).sum < (l.length : ℝ) * L := by
  induction l with
  | nil => exact absurd rfl hl
  | cons x r ih =>
    rw [List.map_cons, List.sum_cons]
    have hx := h x (List.mem_cons_self _ _)
    by_cases hr : r = []
    · subst hr
      simpa using hx
    · have := ih hr fun y hy => h y (List.mem_cons_of_mem _ hy)
      push_cast [List.length_cons]
      linarith

theorem scoreTokens_getElem? (c : Collection) (tokens : List Token) (i : Nat) (t : Token)
    (h : tokens[i]? = some t) :
    (InformationContentScoringHandler.ScoreTokens (Real.logb 2) c tokens)[i]?
      = some (InformationContentScoringHandler.getICScore (Real.logb 2) c t
          (some c.ExtractNullAttributes)
        / (if InformationContentScoringHandler.GetCollectionEntropy (Real.logb 2) c none none
              = 0 then 1
            else InformationContentScoringHandler.GetCollectionEntropy (Real.logb 2) c
              none none)) := by
  rw [scoreTokens_eq, List.getElem?_map, h]
  rfl

/-- C10 (monotonic rarity): in a collection built by `NewCollection`, a token all of whose
combined attribute values (own attributes and null placeholders) are held by exactly one
token scores strictly higher, in the list returned by `ScoreTokens`, than any token of the
collection all of whose combined attribute values are held by more than one token. -/
theorem C10_monotonic_rarity (name : String) (tokens : List Token) (i j : Nat) (A B : Token)
    (hA : (NewCollection name tokens).Tokens[i]? = some A)
    (hB : (NewCollection name tokens).Tokens[j]? = some B)
    (hunique : ∀ e ∈ (MergeMap (NewCollection name tokens).ExtractNullAttributes
        (convertToCollectionAttributesDict (NewCollection name tokens) A)).entries,
      e.2.TotalTokens = 1)
    (hshared : ∀ e ∈ (MergeMap (NewCollection name tokens).ExtractNullAttributes
        (convertToCollectionAttributesDict (NewCollection name tokens) B)).entries,
      1 < e.2.TotalTokens) :
    ∃ sA sB : ℝ,
      (InformationContentScoringHandler.ScoreTokens (Real.logb 2) (NewCollection name tokens)
          (NewCollection name tokens).Tokens)[i]? = some sA ∧
        (InformationContentScoringHandler.ScoreTokens (Real.logb 2) (NewCollection name tokens)
          (NewCollection name tokens).Tokens)[j]? = some sB ∧
        sB < sA := by
  have hAmem : A ∈ (NewCollection name tokens).Tokens := List.getElem?_mem hA
  have hBmem : B ∈ (NewCollection name tokens).Tokens := List.getElem?_mem hB
  refine ⟨_, _, scoreTokens_getElem? _ _ i A hA, scoreTokens_getElem? _ _ j B hB, ?_⟩
  apply div_lt_div_of_pos_right _ (scoreTokens_divisor_pos name tokens)
  rw [getICScore_eq_sum_combined, getICScore_eq_sum_combined]
  have hN : (0 : ℝ) < (((NewCollection name tokens).TokenTotalSupply : Int) : ℝ) := by
    have : 0 < (NewCollection name tokens).Tokens.length := List.length_pos_of_mem hAmem
    have h' : (0 : Int) < (NewCollection name tokens).TokenTotalSupply := by
      show (0 : Int) < (((NewCollection name tokens).tokens.length : Nat) : Int)
      exact_mod_cast this
    exact_mod_cast h'
  have hlenA := combined_length_of_member name tokens A hAmem
  have hlenB := combined_length_of_member name tokens B hBmem
  have hne : (MergeMap (NewCollection name tokens).ExtractNullAttributes
      (convertToCollectionAttributesDict (NewCollection name tokens) B)).entries ≠ [] := by
    intro h
    rw [h] at hlenB
    exact table_keys_ne_nil_of_member name tokens B hBmem
      (List.length_eq_zero.1 hlenB.symm)
  have hAsum := list_sum_eq_length_mul
    (MergeMap (NewCollection name tokens).ExtractNullAttributes
      (convertToCollectionAttributesDict (NewCollection name tokens) A)).entries
    (fun e => Real.logb 2
      ((((NewCollection name tokens).TokenTotalSupply : Int) : ℝ) / ((e.2.TotalTokens : Int) : ℝ)))
    (Real.logb 2 ((((NewCollection name tokens).TokenTotalSupply : Int) : ℝ) / 1))
    (by
      intro e he
      simp only [hunique e he]
      norm_num)
  rw [hAsum, hlenA, ← hlenB]
  apply list_sum_lt_length_mul _ _ _ hne
  intro e he
  have h1 : (1 : ℝ) < ((e.2.TotalTokens : Int) : ℝ) := by exact_mod_cast hshared e he
  apply Real.logb_lt_logb (by norm_num) (div_pos hN (by linarith))
  rw [div_one]
  exact div_lt_self hN h1

/-- C10 at `rarityCollection`: the first token holds `x: a`, `y: b` and the trait count 2
alone, the second shares `x: c`, the absence of `y` and the trait count 1 with the third;
the first scores higher. -/
theorem C10_monotonic_rarity_witness :
    (∀ e ∈ (MergeMap rarityCollection.ExtractNullAttributes
        (convertToCollectionAttributesDict rarityCollection
          (traitCountifyToken rareTokenRaw))).entries, e.2.TotalTokens = 1) ∧
      (∀ e ∈ (MergeMap rarityCollection.ExtractNullAttributes
        (convertToCollectionAttributesDict rarityCollection
          (traitCountifyToken (commonTokenRaw 1)))).entries, 1 < e.2.TotalTokens) ∧
      ∃ sA sB : ℝ,
        (InformationContentScoringHandler.ScoreTokens (Real.logb 2) rarityCollection
            rarityCollection.Tokens)[0]? = some sA ∧
          (InformationContentScoringHandler.ScoreTokens (Real.logb 2) rarityCollection
            rarityCollection.Tokens)[1]? = some sB ∧
          sB < sA :=
  ⟨by decide, by decide,
    C10_monotonic_rarity "rarity" [rareTokenRaw, commonTokenRaw 1, commonTokenRaw 2] 0 1
      (traitCountifyToken rareTokenRaw) (traitCountifyToken (commonTokenRaw 1)) rfl rfl
      (by decide) (by decide)⟩

/-! ## Null/empty equivalence: the tokens -/

theorem normalize_none : NormalizeAttributeString "none" = "none" := by decide

theorem normalize_traitCountAttributeName :
    NormalizeAttributeString TraitCountAttributeName = TraitCountAttributeName := by decide

theorem newStringAttribute_none_value (X : String) :
    (NewStringAttribute X "none").value = "none" := normalize_none

theorem traitCount_key (s : String) :
    (NewStringAttribute TraitCountAttributeName s).name = TraitCountAttributeName :=
  normalize_traitCountAttributeName

/-- The string attributes of a token after `traitCountifyToken`. -/
theorem traitCountifyToken_stringAttributes (t : Token) :
    (traitCountifyToken t).metadata.stringAttributes
      = t.metadata.stringAttributes.set TraitCountAttributeName
          (NewStringAttribute TraitCountAttributeName
            (FormatInt (if t.HasAttribute TraitCountAttributeName then t.TraitCount - 1
              else t.TraitCount))) := by
  unfold traitCountifyToken TokenMetadata.AddAttribute
  simp only [Attribute.Name, traitCount_key]

theorem getStringAttributesCount_set_none (sa : GoMap StringAttribute) (k : String)
    (a : StringAttribute) (hk : k ∉ sa.keys) (ha : a.value = "none") :
    GetStringAttributesCount (sa.set k a) = GetStringAttributesCount sa := by
  unfold GetStringAttributesCount
  show List.foldl _ 0 (GoMap.setList k a sa.entries) = _
  rw [GoMap.setList_of_not_mem k a sa.entries hk, List.foldl_append]
  simp [ha, normalize_none]

/-- Setting a lacked attribute to "none" changes neither the trait count nor the presence
of the trait-count attribute. -/
theorem withExplicitNone_traitCount (X : String) (t : Token)
    (hX : (NewStringAttribute X "none").name ≠ TraitCountAttributeName) :
    (withExplicitNone X t).TraitCount = t.TraitCount ∧
      (withExplicitNone X t).HasAttribute TraitCountAttributeName
        = t.HasAttribute TraitCountAttributeName := by
  unfold withExplicitNone
  by_cases h : t.HasAttribute (NewStringAttribute X "none").name = true
  · simp [h]
  · simp only [h, Bool.false_eq_true, if_false]
    have hk : (NewStringAttribute X "none").name ∉ t.metadata.stringAttributes.keys := by
      intro hmem
      apply h
      unfold Token.HasAttribute TokenMetadata.AttributeExists
      rw [Option.isSome_iff_exists]
      exact (GoMap.mem_keys_iff _ _).1 hmem
    constructor
    · unfold Token.TraitCount TokenMetadata.AddAttribute
      simp only [Attribute.Name]
      rw [getStringAttributesCount_set_none _ _ _ hk (newStringAttribute_none_value X)]
    · unfold Token.HasAttribute TokenMetadata.AttributeExists TokenMetadata.AddAttribute
      simp only [Attribute.Name]
      rw [GoMap.get?_set_ne _ _ _ _ (Ne.symm hX)]

/-- The string attributes of the trait-countified token with `X` set to "none", read by
name. -/
theorem withExplicitNone_get? (X : String) (t : Token)
    (hX : (NewStringAttribute X "none").name ≠ TraitCountAttributeName) (k : String) :
    (traitCountifyToken (withExplicitNone X t)).metadata.stringAttributes.get? k
      = if t.HasAttribute (NewStringAttribute X "none").name = false
            ∧ k = (NewStringAttribute X "none").name then
          some (NewStringAttribute X "none")
        else (traitCountifyToken t).metadata.stringAttributes.get? k := by
  obtain ⟨htc, hhas⟩ := withExplicitNone_traitCount X t hX
  rw [traitCountifyToken_stringAttributes, traitCountifyToken_stringAttributes, htc, hhas]
  by_cases h : t.HasAttribute (NewStringAttribute X "none").name = true
  · have hw : withExplicitNone X t = t := by
      unfold withExplicitNone
      simp [h]
    rw [hw]
    simp [h]
  · have hf : t.HasAttribute (NewStringAttribute X "none").name = false := by
      simpa using h
    have hw : (withExplicitNone X t).metadata.stringAttributes
        = t.metadata.stringAttributes.set (NewStringAttribute X "none").name
            (NewStringAttribute X "none") := by
      unfold withExplicitNone TokenMetadata.AddAttribute
      simp [hf, Attribute.Name]
    rw [hw]
    by_cases hk : k = TraitCountAttributeName
    · subst hk
      rw [GoMap.get?_set_self, GoMap.get?_set_self]
      exact (if_neg (fun h2 => hX h2.2.symm)).symm
    · rw [GoMap.get?_set_ne _ _ _ _ hk, GoMap.get?_set_ne _ _ _ _ hk]
      by_cases hkn : k = (NewStringAttribute X "none").name
      · subst hkn
        rw [GoMap.get?_set_self, if_pos ⟨hf, rfl⟩]
      · rw [GoMap.get?_set_ne _ _ _ _ hkn, if_neg (fun h => hkn h.2)]

theorem traitCountifyToken_hasAttribute (t : Token) (k : String)
    (hk : k ≠ TraitCountAttributeName) :
    (traitCountifyToken t).HasAttribute k = t.HasAttribute k := by
  unfold Token.HasAttribute TokenMetadata.AttributeExists
  rw [traitCountifyToken_stringAttributes, GoMap.get?_set_ne _ _ _ _ hk]

theorem traitCountifyToken_get?_of_ne (t : Token) (k : String)
    (hk : k ≠ TraitCountAttributeName) :
    (traitCountifyToken t).metadata.stringAttributes.get? k
      = t.metadata.stringAttributes.get? k := by
  rw [traitCountifyToken_stringAttributes, GoMap.get?_set_ne _ _ _ _ hk]

/-! ## Null/empty equivalence: the frequency table -/

theorem withExplicitNone_holds (X : String) (t : Token)
    (hX : (NewStringAttribute X "none").name ≠ TraitCountAttributeName) (k v : String) :
    tokenHoldsValue (traitCountifyToken (withExplicitNone X t)) k v
      = if t.HasAttribute (NewStringAttribute X "none").name = false
            ∧ k = (NewStringAttribute X "none").name then decide (v = "none")
        else tokenHoldsValue (traitCountifyToken t) k v := by
  unfold tokenHoldsValue
  rw [withExplicitNone_get? X t hX k]
  by_cases h : t.HasAttribute (NewStringAttribute X "none").name = false
      ∧ k = (NewStringAttribute X "none").name
  · simp only [h, and_self, if_true, newStringAttribute_none_value]
    by_cases hv : v = "none"
    · simp [hv]
    · simp [hv, Ne.symm hv]
  · simp only [h, if_false]

theorem withExplicitNone_hasAttribute (X : String) (t : Token)
    (hX : (NewStringAttribute X "none").name ≠ TraitCountAttributeName) (k : String) :
    (traitCountifyToken (withExplicitNone X t)).HasAttribute k
      = if t.HasAttribute (NewStringAttribute X "none").name = false
            ∧ k = (NewStringAttribute X "none").name then true
        else (traitCountifyToken t).HasAttribute k := by
  have h1 : (traitCountifyToken (withExplicitNone X t)).HasAttribute k
      = ((traitCountifyToken (withExplicitNone X t)).metadata.stringAttributes.get? k).isSome :=
    rfl
  rw [h1, withExplicitNone_get? X t hX k]
  by_cases h : t.HasAttribute (NewStringAttribute X "none").name = false
      ∧ k = (NewStringAttribute X "none").name
  · simp only [h, and_self, if_true, Option.isSome_some]
  · simp only [h, if_false]
    rfl

/-- A token that lacks the name does not hold any value under it after trait-count
synthesis. -/
theorem holds_of_lacks (X : String) (t : Token)
    (hX : (NewStringAttribute X "none").name ≠ TraitCountAttributeName)
    (h : t.HasAttribute (NewStringAttribute X "none").name = false) (v : String) :
    tokenHoldsValue (traitCountifyToken t) (NewStringAttribute X "none").name v = false := by
  unfold tokenHoldsValue
  rw [traitCountifyToken_get?_of_ne t _ hX]
  unfold Token.HasAttribute TokenMetadata.AttributeExists at h
  cases hg : t.metadata.stringAttributes.get? (NewStringAttribute X "none").name with
  | none => rfl
  | some a => rw [hg] at h; cases h

/-- The counts of the table with `X` set to "none" on the tokens that lacked it: the count
of the pair (`X`, "none") grows by the number of those tokens, the others stay. -/
theorem countP_holds_withExplicitNone (X : String) (tokens : List Token)
    (hX : (NewStringAttribute X "none").name ≠ TraitCountAttributeName) (k v : String) :
    (traitCountify (tokens.map (withExplicitNone X))).countP (fun t => tokenHoldsValue t k v)
      = (traitCountify tokens).countP (fun t => tokenHoldsValue t k v)
        + if k = (NewStringAttribute X "none").name ∧ v = "none" then
            tokens.countP (fun t => !t.HasAttribute (NewStringAttribute X "none").name)
          else 0 := by
  unfold traitCountify
  induction tokens with
  | nil => simp
  | cons t r ih =>
    simp only [List.map_cons, List.countP_cons, ih, withExplicitNone_holds X t hX k v]
    by_cases hk : k = (NewStringAttribute X "none").name
    · subst hk
      by_cases hh : t.HasAttribute (NewStringAttribute X "none").name = false
      · rw [holds_of_lacks X t hX hh v]
        by_cases hv : v = "none"
        · simp [hh, hv]
          omega
        · simp [hh, hv]
      · have hh' : t.HasAttribute (NewStringAttribute X "none").name = true := by
          simpa using hh
        by_cases hv : v = "none"
        · simp [hh', hv]
          omega
        · simp [hh', hv]
    · simp [hk]

theorem countP_hasAttribute_withExplicitNone (X : String) (tokens : List Token)
    (hX : (NewStringAttribute X "none").name ≠ TraitCountAttributeName) (k : String) :
    (traitCountify (tokens.map (withExplicitNone X))).countP (fun t => t.HasAttribute k)
      = (traitCountify tokens).countP (fun t => t.HasAttribute k)
        + if k = (NewStringAttribute X "none").name then
            tokens.countP (fun t => !t.HasAttribute (NewStringAttribute X "none").name)
          else 0 := by
  unfold traitCountify
  induction tokens with
  | nil => simp
  | cons t r ih =>
    simp only [List.map_cons, List.countP_cons, ih, withExplicitNone_hasAttribute X t hX k]
    by_cases hk : k = (NewStringAttribute X "none").name
    · subst hk
      rw [traitCountifyToken_hasAttribute t _ hX]
      by_cases hh : t.HasAttribute (NewStringAttribute X "none").name = false
      · simp [hh]
        omega
      · have hh' : t.HasAttribute (NewStringAttribute X "none").name = true := by
          simpa using hh
        simp [hh']
        omega
    · simp [hk]

/-- Before the change, the tokens that hold the name and those that lack it make up the
collection. -/
theorem countP_hasAttribute_add_lacking (X : String) (tokens : List Token)
    (hX : (NewStringAttribute X "none").name ≠ TraitCountAttributeName) :
    (traitCountify tokens).countP (fun t => t.HasAttribute (NewStringAttribute X "none").name)
      + tokens.countP (fun t => !t.HasAttribute (NewStringAttribute X "none").name)
      = tokens.length := by
  have h1 : (traitCountify tokens).countP
      (fun t => t.HasAttribute (NewStringAttribute X "none").name)
      = tokens.countP (fun t => t.HasAttribute (NewStringAttribute X "none").name) := by
    unfold traitCountify
    rw [List.countP_map]
    congr 1
    funext t
    exact traitCountifyToken_hasAttribute t _ hX
  rw [h1]
  clear h1
  induction tokens with
  | nil => simp
  | cons t r ih =>
    simp only [List.countP_cons, List.length_cons]
    by_cases hh : t.HasAttribute (NewStringAttribute X "none").name = true
    · simp [hh]
      omega
    · have hh' : t.HasAttribute (NewStringAttribute X "none").name = false := by
        simpa using hh
      simp [hh']
      omega

/-- No token holds the value "none" under the name before the change. -/
theorem countP_holds_none_eq_zero (X : String) (tokens : List Token)
    (hX : (NewStringAttribute X "none").name ≠ TraitCountAttributeName)
    (hnone : ∀ t ∈ tokens, ∀ e ∈ t.metadata.stringAttributes.entries,
      (e.1 = (NewStringAttribute X "none").name ∨ e.2.name = (NewStringAttribute X "none").name)
        → e.2.value ≠ "none") :
    (traitCountify tokens).countP
      (fun t => tokenHoldsValue t (NewStringAttribute X "none").name "none") = 0 := by
  rw [List.countP_eq_zero]
  intro u hu
  obtain ⟨t, ht, rfl⟩ := List.mem_map.1 hu
  unfold tokenHoldsValue
  rw [traitCountifyToken_get?_of_ne t _ hX]
  cases hg : t.metadata.stringAttributes.get? (NewStringAttribute X "none").name with
  | none => simp
  | some a =>
    have hmem := (GoMap.get?_eq_some_iff _ _ _).1 hg
    have := hnone t ht _ hmem (Or.inl rfl)
    simp [this]

/-! ## Sums over the names of two tables that differ at one name -/

theorem GoMap.entries_perm_of_getList {V : Type} (m : GoMap V) (l : List (String × V))
    (hl : (l.map Prod.fst).Nodup) (h : ∀ k, m.get? k = GoMap.getList k l) :
    m.entries.Perm l := by
  refine (List.perm_ext_iff_of_nodup (GoMap.nodup_entries m) (List.Nodup.of_map _ hl)).2 ?_
  rintro ⟨k, v⟩
  rw [← GoMap.get?_eq_some_iff, h, GoMap.getList_eq_some_iff k v l hl]

theorem sum_split_at (n : String) (g : String → ℝ) (l : List String) (hl : l.Nodup) :
    (l.map g).sum
      = ((l.filter fun k => !decide (k = n)).map g).sum + if n ∈ l then g n else 0 := by
  induction l with
  | nil => simp
  | cons x r ih =>
    rw [List.nodup_cons] at hl
    by_cases hx : x = n
    · subst hx
      have hfilter : (r.filter fun k => !decide (k = x)) = r := by
        rw [List.filter_eq_self]
        intro a ha
        have : a ≠ x := fun h => hl.1 (h ▸ ha)
        simpa using this
      simp [List.filter_cons, hfilter]
      ring
    · have hx' : n ≠ x := fun h => hx h.symm
      rw [List.map_cons, List.sum_cons, ih hl.2]
      simp [List.filter_cons, hx, hx']
      ring

/-- Two sums over the names of two tables whose names differ at most by `n` and whose terms
agree away from `n`. -/
theorem sum_keys_change_at (n : String) (P : Prop) (K K' : List String) (hK : K.Nodup)
    (hK' : K'.Nodup) (g g' : String → ℝ) (hmem : ∀ k, k ∈ K' ↔ k ∈ K ∨ (k = n ∧ P))
    (hg : ∀ k, k ≠ n → g' k = g k) [Decidable P] :
    (K'.map g').sum
      = (K.map g).sum - (if n ∈ K then g n else 0) + if n ∈ K ∨ P then g' n else 0 := by
  rw [sum_split_at n g' K' hK', sum_split_at n g K hK]
  have hperm : (K'.filter fun k => !decide (k = n)).Perm (K.filter fun k => !decide (k = n)) := by
    refine (List.perm_ext_iff_of_nodup (hK'.filter _) (hK.filter _)).2 ?_
    intro k
    simp only [List.mem_filter, hmem, Bool.not_eq_true', decide_eq_false_iff_not]
    constructor
    · rintro ⟨h1 | h1, h2⟩
      · exact ⟨h1, h2⟩
      · exact absurd h1.1 h2
    · rintro ⟨h1, h2⟩
      exact ⟨Or.inl h1, h2⟩
  have hsum : ((K'.filter fun k => !decide (k = n)).map g').sum
      = ((K.filter fun k => !decide (k = n)).map g).sum := by
    rw [(hperm.map g').sum_eq]
    congr 1
    apply List.map_congr_left
    intro k hk
    simp only [List.mem_filter, Bool.not_eq_true', decide_eq_false_iff_not] at hk
    exact hg k hk.2
  rw [hsum]
  have hn : n ∈ K' ↔ n ∈ K ∨ P := by
    rw [hmem]
    simp
  by_cases h1 : n ∈ K ∨ P
  · rw [if_pos (hn.2 h1), if_pos h1]
    ring
  · rw [if_neg (fun h => h1 (hn.1 h)), if_neg h1, if_neg (fun h => h1 (Or.inl h))]
    ring

/-- A sum over the entries of a map is a sum over its keys. -/
theorem sum_entries_eq_sum_keys {V : Type} (m : GoMap V) (φ : String × V → ℝ)
    (ψ : String → ℝ) (h : ∀ e ∈ m.entries, φ e = ψ e.1) :
    (m.entries.map φ).sum = (m.keys.map ψ).sum := by
  unfold GoMap.keys
  rw [List.map_map]
  congr 1
  exact List.map_congr_left h

/-! ## Null/empty equivalence: the two collections -/

theorem mem_keys_derive_iff_countP (tokens : List Token) (k : String) :
    k ∈ (deriveNormalizedAttrsFrequencyCount tokens).keys
      ↔ 0 < tokens.countP (fun t => t.HasAttribute k) := by
  rw [mem_keys_derive, List.countP_pos_iff]
  constructor
  · rintro ⟨t, ht, hk⟩
    refine ⟨t, ht, ?_⟩
    unfold Token.HasAttribute TokenMetadata.AttributeExists
    rw [Option.isSome_iff_exists]
    exact (GoMap.mem_keys_iff _ _).1 hk
  · rintro ⟨t, ht, hk⟩
    refine ⟨t, ht, ?_⟩
    unfold Token.HasAttribute TokenMetadata.AttributeExists at hk
    rw [Option.isSome_iff_exists] at hk
    exact (GoMap.mem_keys_iff _ _).2 hk

theorem supply_withExplicitNone (name name' : String) (tokens : List Token) (X : String) :
    (NewCollection name' (tokens.map (withExplicitNone X))).TokenTotalSupply
      = (NewCollection name tokens).TokenTotalSupply := by
  show (((traitCountify (tokens.map (withExplicitNone X))).length : Nat) : Int)
    = (((traitCountify tokens).length : Nat) : Int)
  unfold traitCountify
  simp

theorem supply_eq_length (name : String) (tokens : List Token) :
    (NewCollection name tokens).TokenTotalSupply = (tokens.length : Int) := by
  show (((traitCountify tokens).length : Nat) : Int) = _
  unfold traitCountify
  simp

/-- The entries of the table after the change. -/
theorem tableGet?_withExplicitNone (name name' : String) (tokens : List Token) (X : String)
    (hX : (NewStringAttribute X "none").name ≠ TraitCountAttributeName)
    (hnone : ∀ t ∈ tokens, ∀ e ∈ t.metadata.stringAttributes.entries,
      (e.1 = (NewStringAttribute X "none").name ∨ e.2.name = (NewStringAttribute X "none").name)
        → e.2.value ≠ "none")
    (k v : String) :
    tableGet? (NewCollection name' (tokens.map (withExplicitNone X))).attributesFrequencyCounts
        k v
      = if k = (NewStringAttribute X "none").name ∧ v = "none" then
          (if lackCount X tokens = 0 then none else some ((lackCount X tokens : Nat) : Int))
        else tableGet? (NewCollection name tokens).attributesFrequencyCounts k v := by
  show tableGet? (deriveNormalizedAttrsFrequencyCount
      (traitCountify (tokens.map (withExplicitNone X)))) k v
    = if k = (NewStringAttribute X "none").name ∧ v = "none" then
          (if lackCount X tokens = 0 then none else some ((lackCount X tokens : Nat) : Int))
        else tableGet? (deriveNormalizedAttrsFrequencyCount (traitCountify tokens)) k v
  rw [tableGet?_derive, tableGet?_derive, countP_holds_withExplicitNone X tokens hX]
  by_cases h : k = (NewStringAttribute X "none").name ∧ v = "none"
  · obtain ⟨rfl, rfl⟩ := h
    rw [countP_holds_none_eq_zero X tokens hX hnone]
    simp [lackCount]
  · simp [h]

theorem tableCount_withExplicitNone (name name' : String) (tokens : List Token) (X : String)
    (hX : (NewStringAttribute X "none").name ≠ TraitCountAttributeName)
    (k v : String) :
    tableCount (NewCollection name' (tokens.map (withExplicitNone X))).attributesFrequencyCounts
        k v
      = tableCount (NewCollection name tokens).attributesFrequencyCounts k v
        + if k = (NewStringAttribute X "none").name ∧ v = "none" then
            ((lackCount X tokens : Nat) : Int)
          else 0 := by
  show tableCount (deriveNormalizedAttrsFrequencyCount
      (traitCountify (tokens.map (withExplicitNone X)))) k v
    = tableCount (deriveNormalizedAttrsFrequencyCount (traitCountify tokens)) k v + _
  rw [tableCount_derive, tableCount_derive, countP_holds_withExplicitNone X tokens hX]
  by_cases h : k = (NewStringAttribute X "none").name ∧ v = "none"
  · simp [h, lackCount]
  · simp [h]

theorem tableSum_withExplicitNone (name name' : String) (tokens : List Token) (X : String)
    (hX : (NewStringAttribute X "none").name ≠ TraitCountAttributeName) (k : String) :
    tableSum (NewCollection name' (tokens.map (withExplicitNone X))).attributesFrequencyCounts k
      = tableSum (NewCollection name tokens).attributesFrequencyCounts k
        + if k = (NewStringAttribute X "none").name then ((lackCount X tokens : Nat) : Int)
          else 0 := by
  show tableSum (deriveNormalizedAttrsFrequencyCount
      (traitCountify (tokens.map (withExplicitNone X)))) k
    = tableSum (deriveNormalizedAttrsFrequencyCount (traitCountify tokens)) k + _
  rw [tableSum_derive, tableSum_derive, countP_hasAttribute_withExplicitNone X tokens hX]
  by_cases h : k = (NewStringAttribute X "none").name
  · simp [h, lackCount]
  · simp [h]

/-- Before the change, the counts of the name and the tokens that lack it add up to the
supply. -/
theorem tableSum_add_lackCount (name : String) (tokens : List Token) (X : String)
    (hX : (NewStringAttribute X "none").name ≠ TraitCountAttributeName) :
    tableSum (NewCollection name tokens).attributesFrequencyCounts
        (NewStringAttribute X "none").name
      + ((lackCount X tokens : Nat) : Int)
      = (NewCollection name tokens).TokenTotalSupply := by
  rw [supply_eq_length]
  show tableSum (deriveNormalizedAttrsFrequencyCount (traitCountify tokens)) _ + _ = _
  rw [tableSum_derive]
  have := countP_hasAttribute_add_lacking X tokens hX
  unfold lackCount
  exact_mod_cast this

theorem mem_keys_iff_tableSum_pos (name : String) (tokens : List Token) (k : String) :
    k ∈ (NewCollection name tokens).attributesFrequencyCounts.keys
      ↔ 0 < tableSum (NewCollection name tokens).attributesFrequencyCounts k := by
  show k ∈ (deriveNormalizedAttrsFrequencyCount (traitCountify tokens)).keys
    ↔ 0 < tableSum (deriveNormalizedAttrsFrequencyCount (traitCountify tokens)) k
  rw [mem_keys_derive_iff_countP, tableSum_derive]
  exact Nat.cast_pos.symm

theorem mem_keys_withExplicitNone (name name' : String) (tokens : List Token) (X : String)
    (hX : (NewStringAttribute X "none").name ≠ TraitCountAttributeName) (k : String) :
    k ∈ (NewCollection name' (tokens.map (withExplicitNone X))).attributesFrequencyCounts.keys
      ↔ k ∈ (NewCollection name tokens).attributesFrequencyCounts.keys
        ∨ (k = (NewStringAttribute X "none").name ∧ 0 < lackCount X tokens) := by
  rw [mem_keys_iff_tableSum_pos, mem_keys_iff_tableSum_pos,
    tableSum_withExplicitNone name name' tokens X hX]
  have hnn : 0 ≤ tableSum (NewCollection name tokens).attributesFrequencyCounts k := by
    show 0 ≤ tableSum (deriveNormalizedAttrsFrequencyCount (traitCountify tokens)) k
    rw [tableSum_derive]
    exact Int.natCast_nonneg _
  by_cases h : k = (NewStringAttribute X "none").name
  · simp only [h, if_true, true_and]
    rw [h] at hnn
    constructor
    · intro h1
      by_cases h2 : 0 < lackCount X tokens
      · exact Or.inr h2
      · left; omega
    · rintro (h1 | h1) <;> omega
  · simp [h]

/-! ## The entropy and the information content as sums over the names of the table -/

theorem tableSum_of_mem_entries (T : GoMap (GoMap Int)) (e : String × GoMap Int)
    (he : e ∈ T.entries) : tableSum T e.1 = totalTraitCount e.2 := by
  unfold tableSum
  rw [(GoMap.get?_eq_some_iff T e.1 e.2).2 he]

theorem valueSum_of_mem_entries (φ : Int → ℝ) (T : GoMap (GoMap Int))
    (e : String × GoMap Int) (he : e ∈ T.entries) :
    valueSum φ T e.1 = (e.2.entries.map fun kv => φ kv.2).sum := by
  unfold valueSum
  rw [(GoMap.get?_eq_some_iff T e.1 e.2).2 he]

theorem sum_filter {α : Type} (p : α → Bool) (ψ : α → ℝ) (l : List α) :
    ((l.filter p).map ψ).sum = (l.map fun x => if p x then ψ x else 0).sum := by
  induction l with
  | nil => simp
  | cons x r ih =>
    by_cases hx : p x = true
    · simp [List.filter_cons, hx, ih]
    · simp [List.filter_cons, hx, ih]

/-- The pairs part of the entropy, name by name. -/
theorem pairs_eq_sum_keys (φ : Int → ℝ) (T : GoMap (GoMap Int)) :
    (T.entries.map fun e => (e.2.entries.map fun kv => φ kv.2).sum).sum
      = (T.keys.map (valueSum φ T)).sum :=
  sum_entries_eq_sum_keys T _ _ fun e he => (valueSum_of_mem_entries φ T e he).symm

/-- The null part of the entropy, name by name. -/
theorem nulls_eq_sum_keys (ψ : Int → ℝ) (c : Collection) :
    (c.ExtractNullAttributes.entries.map fun e => ψ e.2.TotalTokens).sum
      = (c.attributesFrequencyCounts.keys.map
          (nullTerm ψ c.TokenTotalSupply c.attributesFrequencyCounts)).sum := by
  rw [extractNullAttributes_entries, sum_filterMap]
  apply sum_entries_eq_sum_keys
  intro e he
  unfold nullTerm
  rw [tableSum_of_mem_entries _ e he]
  by_cases hd : c.TokenTotalSupply - totalTraitCount e.2 > 0
  · simp [hd]
  · simp [hd]

/-- The null part of the information content of a token, name by name. -/
theorem nullPart_eq_sum_keys (ψ : Int → ℝ) (c : Collection) (u : Token) :
    ((c.ExtractNullAttributes.entries.filter fun e => !u.HasAttribute e.1).map
        fun e => ψ e.2.TotalTokens).sum
      = (c.attributesFrequencyCounts.keys.map fun k =>
          if u.HasAttribute k then 0
          else nullTerm ψ c.TokenTotalSupply c.attributesFrequencyCounts k).sum := by
  rw [sum_filter, extractNullAttributes_entries, sum_filterMap]
  apply sum_entries_eq_sum_keys
  intro e he
  unfold nullTerm
  rw [tableSum_of_mem_entries _ e he]
  by_cases hd : c.TokenTotalSupply - totalTraitCount e.2 > 0
  · by_cases hu : u.HasAttribute e.1 = true
    · simp [hd, hu]
    · simp [hd, hu]
  · by_cases hu : u.HasAttribute e.1 = true
    · simp [hd, hu]
    · simp [hd, hu]

/-- The entropy of the specification, name by name. -/
theorem specEntropy_eq_sum_keys (c : Collection) :
    specEntropy (Real.logb 2) c
      = -((c.attributesFrequencyCounts.keys.map
            (valueSum (fun x : Int => ((x : Int) : ℝ) / ((c.TokenTotalSupply : Int) : ℝ)
                * Real.logb 2 (((x : Int) : ℝ) / ((c.TokenTotalSupply : Int) : ℝ)))
              c.attributesFrequencyCounts)).sum
          + (c.attributesFrequencyCounts.keys.map
            (nullTerm (fun x : Int => ((x : Int) : ℝ) / ((c.TokenTotalSupply : Int) : ℝ)
                * Real.logb 2 (((x : Int) : ℝ) / ((c.TokenTotalSupply : Int) : ℝ)))
              c.TokenTotalSupply c.attributesFrequencyCounts)).sum) := by
  unfold specEntropy
  rw [← pairs_eq_sum_keys, ← nulls_eq_sum_keys]

/-! ## The sums of one name in two tables -/

theorem GoMap.getList_append {V : Type} (k : String) (l₁ l₂ : List (String × V)) :
    GoMap.getList k (l₁ ++ l₂)
      = match GoMap.getList k l₁ with
        | some v => some v
        | none => GoMap.getList k l₂ := by
  induction l₁ with
  | nil => rfl
  | cons e r ih =>
    obtain ⟨k', v'⟩ := e
    by_cases h : k' = k
    · simp [GoMap.getList, h]
    · simp [GoMap.getList, h, ih]

/-- Two tables that hold the same counts for a name give the same sum for it. -/
theorem valueSum_congr (φ : Int → ℝ) (T T' : GoMap (GoMap Int)) (k : String)
    (h : ∀ v, tableGet? T' k v = tableGet? T k v)
    (hk : (T'.get? k).isSome = (T.get? k).isSome) :
    valueSum φ T' k = valueSum φ T k := by
  unfold valueSum
  unfold tableGet? at h
  cases hT : T.get? k with
  | none =>
    rw [hT] at hk
    cases hT' : T'.get? k with
    | none => rfl
    | some inner' => rw [hT'] at hk; cases hk
  | some inner =>
    rw [hT] at hk
    cases hT' : T'.get? k with
    | none => rw [hT'] at hk; cases hk
    | some inner' =>
      simp only [hT, hT'] at h
      simp only []
      exact ((GoMap.entries_perm_of_getList inner' inner.entries inner.nodup h).map _).sum_eq

/-- A table that holds one more value for a name than another gives the sum of the other
plus the term of that value. -/
theorem valueSum_add_value (φ : Int → ℝ) (T T' : GoMap (GoMap Int)) (k v₀ : String)
    (c₀ : Int) (h₀ : tableGet? T k v₀ = none)
    (h : ∀ v, tableGet? T' k v = if v = v₀ then some c₀ else tableGet? T k v)
    (hk : (T'.get? k).isSome = true) :
    valueSum φ T' k = valueSum φ T k + φ c₀ := by
  unfold valueSum
  unfold tableGet? at h h₀
  cases hT' : T'.get? k with
  | none => rw [hT'] at hk; cases hk
  | some inner' =>
    simp only [hT'] at h
    simp only []
    cases hT : T.get? k with
    | none =>
      simp only [hT] at h
      have hperm : inner'.entries.Perm [(v₀, c₀)] := by
        apply GoMap.entries_perm_of_getList inner' [(v₀, c₀)] (by simp)
        intro v
        rw [h v]
        by_cases hv : v = v₀
        · simp [GoMap.getList, hv]
        · simp [GoMap.getList, hv, Ne.symm hv]
      rw [(hperm.map _).sum_eq]
      simp
    | some inner =>
      simp only [hT] at h h₀
      have hnot : v₀ ∉ inner.entries.map Prod.fst := (GoMap.get?_eq_none_iff inner v₀).1 h₀
      have hperm : inner'.entries.Perm (inner.entries ++ [(v₀, c₀)]) := by
        apply GoMap.entries_perm_of_getList inner' (inner.entries ++ [(v₀, c₀)])
        · rw [List.map_append, List.nodup_append]
          refine ⟨inner.nodup, by simp, ?_⟩
          intro a ha hb
          simp only [List.map_cons, List.map_nil, List.mem_singleton] at hb
          subst hb
          exact hnot ha
        · intro v
          rw [h v, GoMap.getList_append]
          by_cases hv : v = v₀
          · subst hv
            have : GoMap.getList v inner.entries = none := h₀
            simp [this, GoMap.getList]
          · have hgl : GoMap.getList v [(v₀, c₀)] = none := by
              simp [GoMap.getList, Ne.symm hv]
            simp only [if_neg hv, hgl]
            show GoMap.getList v inner.entries = _
            cases GoMap.getList v inner.entries <;> rfl
      rw [(hperm.map _).sum_eq]
      simp

/-! ## Null/empty equivalence: the entropy -/

theorem GoMap.isSome_get?_eq {V W : Type} (m : GoMap V) (m' : GoMap W) (k : String)
    (h : k ∈ m'.keys ↔ k ∈ m.keys) : (m'.get? k).isSome = (m.get? k).isSome := by
  rw [Bool.eq_iff_iff, Option.isSome_iff_exists, Option.isSome_iff_exists,
    ← GoMap.mem_keys_iff, ← GoMap.mem_keys_iff]
  exact h

theorem tableGet?_none_before (name : String) (tokens : List Token) (X : String)
    (hX : (NewStringAttribute X "none").name ≠ TraitCountAttributeName)
    (hnone : ∀ t ∈ tokens, ∀ e ∈ t.metadata.stringAttributes.entries,
      (e.1 = (NewStringAttribute X "none").name ∨ e.2.name = (NewStringAttribute X "none").name)
        → e.2.value ≠ "none") :
    tableGet? (NewCollection name tokens).attributesFrequencyCounts
      (NewStringAttribute X "none").name "none" = none := by
  show tableGet? (deriveNormalizedAttrsFrequencyCount (traitCountify tokens)) _ _ = none
  rw [tableGet?_derive, countP_holds_none_eq_zero X tokens hX hnone]
  rfl

/-- The sum of the name `X` after the change: the value "none" is added with the number
of tokens that lacked the name. -/
theorem valueSum_withExplicitNone (φ : Int → ℝ) (name name' : String) (tokens : List Token)
    (X : String) (hX : (NewStringAttribute X "none").name ≠ TraitCountAttributeName)
    (hnone : ∀ t ∈ tokens, ∀ e ∈ t.metadata.stringAttributes.entries,
      (e.1 = (NewStringAttribute X "none").name ∨ e.2.name = (NewStringAttribute X "none").name)
        → e.2.value ≠ "none") :
    valueSum φ (NewCollection name' (tokens.map (withExplicitNone X))).attributesFrequencyCounts
        (NewStringAttribute X "none").name
      = valueSum φ (NewCollection name tokens).attributesFrequencyCounts
          (NewStringAttribute X "none").name
        + if 0 < lackCount X tokens then φ ((lackCount X tokens : Nat) : Int) else 0 := by
  by_cases hd : 0 < lackCount X tokens
  · rw [if_pos hd]
    apply valueSum_add_value φ _ _ _ "none" _
      (tableGet?_none_before name tokens X hX hnone)
    · intro v
      rw [tableGet?_withExplicitNone name name' tokens X hX hnone]
      simp [Nat.ne_of_gt hd]
    · rw [Option.isSome_iff_exists, ← GoMap.mem_keys_iff]
      exact (mem_keys_withExplicitNone name name' tokens X hX _).2 (Or.inr ⟨rfl, hd⟩)
  · rw [if_neg hd, add_zero]
    have hd0 : lackCount X tokens = 0 := by omega
    apply valueSum_congr
    · intro v
      rw [tableGet?_withExplicitNone name name' tokens X hX hnone]
      by_cases hv : v = "none"
      · subst hv
        simp [hd0, tableGet?_none_before name tokens X hX hnone]
      · simp [hv]
    · apply GoMap.isSome_get?_eq
      rw [mem_keys_withExplicitNone name name' tokens X hX]
      simp [hd0]

theorem valueSum_withExplicitNone_of_ne (φ : Int → ℝ) (name name' : String)
    (tokens : List Token) (X : String)
    (hX : (NewStringAttribute X "none").name ≠ TraitCountAttributeName)
    (hnone : ∀ t ∈ tokens, ∀ e ∈ t.metadata.stringAttributes.entries,
      (e.1 = (NewStringAttribute X "none").name ∨ e.2.name = (NewStringAttribute X "none").name)
        → e.2.value ≠ "none")
    (k : String) (hk : k ≠ (NewStringAttribute X "none").name) :
    valueSum φ (NewCollection name' (tokens.map (withExplicitNone X))).attributesFrequencyCounts k
      = valueSum φ (NewCollection name tokens).attributesFrequencyCounts k := by
  apply valueSum_congr
  · intro v
    rw [tableGet?_withExplicitNone name name' tokens X hX hnone]
    simp [hk]
  · apply GoMap.isSome_get?_eq
    rw [mem_keys_withExplicitNone name name' tokens X hX]
    simp [hk]

theorem nullTerm_withExplicitNone_of_ne (φ : Int → ℝ) (name name' : String)
    (tokens : List Token) (X : String)
    (hX : (NewStringAttribute X "none").name ≠ TraitCountAttributeName)
    (k : String) (hk : k ≠ (NewStringAttribute X "none").name) :
    nullTerm φ (NewCollection name tokens).TokenTotalSupply
        (NewCollection name' (tokens.map (withExplicitNone X))).attributesFrequencyCounts k
      = nullTerm φ (NewCollection name tokens).TokenTotalSupply
          (NewCollection name tokens).attributesFrequencyCounts k := by
  unfold nullTerm
  rw [tableSum_withExplicitNone name name' tokens X hX, if_neg hk, add_zero]

/-- After the change no token lacks the name: its null placeholder is gone. -/
theorem nullTerm_withExplicitNone (φ : Int → ℝ) (name name' : String)
    (tokens : List Token) (X : String)
    (hX : (NewStringAttribute X "none").name ≠ TraitCountAttributeName) :
    nullTerm φ (NewCollection name tokens).TokenTotalSupply
        (NewCollection name' (tokens.map (withExplicitNone X))).attributesFrequencyCounts
        (NewStringAttribute X "none").name = 0 := by
  unfold nullTerm
  rw [tableSum_withExplicitNone name name' tokens X hX, if_pos rfl,
    tableSum_add_lackCount name tokens X hX, if_neg]
  omega

/-- Before the change the null placeholder of the name counts the tokens that lack it. -/
theorem nullTerm_before (φ : Int → ℝ) (name : String) (tokens : List Token) (X : String)
    (hX : (NewStringAttribute X "none").name ≠ TraitCountAttributeName) :
    nullTerm φ (NewCollection name tokens).TokenTotalSupply
        (NewCollection name tokens).attributesFrequencyCounts (NewStringAttribute X "none").name
      = if 0 < lackCount X tokens then φ ((lackCount X tokens : Nat) : Int) else 0 := by
  unfold nullTerm
  have h := tableSum_add_lackCount name tokens X hX
  have hsub : (NewCollection name tokens).TokenTotalSupply
      - tableSum (NewCollection name tokens).attributesFrequencyCounts
          (NewStringAttribute X "none").name = ((lackCount X tokens : Nat) : Int) := by
    omega
  rw [hsub]
  by_cases hd : 0 < lackCount X tokens
  · rw [if_pos hd, if_pos (by exact_mod_cast hd)]
  · rw [if_neg hd, if_neg (by omega)]

/-- When no token holds the name, all tokens lack it. -/
theorem lackCount_of_not_mem_keys (name : String) (tokens : List Token) (X : String)
    (hX : (NewStringAttribute X "none").name ≠ TraitCountAttributeName)
    (hk : (NewStringAttribute X "none").name
      ∉ (NewCollection name tokens).attributesFrequencyCounts.keys) :
    ((lackCount X tokens : Nat) : Int) = (NewCollection name tokens).TokenTotalSupply := by
  have h := tableSum_add_lackCount name tokens X hX
  rw [mem_keys_iff_tableSum_pos] at hk
  have hnn : 0 ≤ tableSum (NewCollection name tokens).attributesFrequencyCounts
      (NewStringAttribute X "none").name := by
    show 0 ≤ tableSum (deriveNormalizedAttrsFrequencyCount (traitCountify tokens)) _
    rw [tableSum_derive]
    exact Int.natCast_nonneg _
  omega

theorem valueSum_of_not_mem_keys (φ : Int → ℝ) (T : GoMap (GoMap Int)) (k : String)
    (hk : k ∉ T.keys) : valueSum φ T k = 0 := by
  unfold valueSum
  rw [(GoMap.get?_eq_none_iff T k).2 hk]

/-- The entropy is the same in the two collections. -/
theorem entropy_withExplicitNone (name name' : String) (tokens : List Token) (X : String)
    (hX : (NewStringAttribute X "none").name ≠ TraitCountAttributeName)
    (hnone : ∀ t ∈ tokens, ∀ e ∈ t.metadata.stringAttributes.entries,
      (e.1 = (NewStringAttribute X "none").name ∨ e.2.name = (NewStringAttribute X "none").name)
        → e.2.value ≠ "none") :
    InformationContentScoringHandler.GetCollectionEntropy (Real.logb 2)
        (NewCollection name' (tokens.map (withExplicitNone X))) none none
      = InformationContentScoringHandler.GetCollectionEntropy (Real.logb 2)
          (NewCollection name tokens) none none := by
  rw [getCollectionEntropy_eq_spec (Real.logb 2) Real.logb_one,
    getCollectionEntropy_eq_spec (Real.logb 2) Real.logb_one,
    specEntropy_eq_sum_keys, specEntropy_eq_sum_keys,
    supply_withExplicitNone name name' tokens X]
  generalize hφ : (fun x : Int =>
    ((x : Int) : ℝ) / (((NewCollection name tokens).TokenTotalSupply : Int) : ℝ)
      * Real.logb 2 (((x : Int) : ℝ)
        / (((NewCollection name tokens).TokenTotalSupply : Int) : ℝ))) = φ
  have hφN : φ (NewCollection name tokens).TokenTotalSupply = 0 := by
    rw [← hφ]
    simp only []
    by_cases hN : (((NewCollection name tokens).TokenTotalSupply : Int) : ℝ) = 0
    · simp [hN]
    · simp [div_self hN]
  rw [sum_keys_change_at (NewStringAttribute X "none").name (0 < lackCount X tokens)
      (NewCollection name tokens).attributesFrequencyCounts.keys
      (NewCollection name' (tokens.map (withExplicitNone X))).attributesFrequencyCounts.keys
      (GoMap.nodup _) (GoMap.nodup _) _ _
      (mem_keys_withExplicitNone name name' tokens X hX)
      (valueSum_withExplicitNone_of_ne φ name name' tokens X hX hnone),
    sum_keys_change_at (NewStringAttribute X "none").name (0 < lackCount X tokens)
      (NewCollection name tokens).attributesFrequencyCounts.keys
      (NewCollection name' (tokens.map (withExplicitNone X))).attributesFrequencyCounts.keys
      (GoMap.nodup _) (GoMap.nodup _) _ _
      (mem_keys_withExplicitNone name name' tokens X hX)
      (nullTerm_withExplicitNone_of_ne φ name name' tokens X hX),
    valueSum_withExplicitNone φ name name' tokens X hX hnone,
    nullTerm_withExplicitNone φ name name' tokens X hX,
    nullTerm_before φ name tokens X hX]
  by_cases hk : (NewStringAttribute X "none").name
      ∈ (NewCollection name tokens).attributesFrequencyCounts.keys
  · simp only [hk, if_true, true_or]
    ring
  · rw [valueSum_of_not_mem_keys φ _ _ hk]
    by_cases hd : 0 < lackCount X tokens
    · simp only [hk, hd, if_true, if_false, or_true, false_or,
        lackCount_of_not_mem_keys name tokens X hX hk, hφN]
      ring
    · simp only [hk, hd, if_false, or_self]
      ring

/-! ## Null/empty equivalence: the information content -/

theorem GoMap.mem_setList {V : Type} (k : String) (v : V) (l : List (String × V))
    (e : String × V) (he : e ∈ GoMap.setList k v l) : e = (k, v) ∨ e ∈ l := by
  induction l with
  | nil =>
    simp only [GoMap.setList, List.mem_singleton] at he
    exact Or.inl he
  | cons x r ih =>
    obtain ⟨k', v'⟩ := x
    by_cases h : k' = k
    · simp only [GoMap.setList, if_pos h, List.mem_cons] at he
      rcases he with he | he
      · exact Or.inl he
      · exact Or.inr (List.mem_cons_of_mem _ he)
    · simp only [GoMap.setList, if_neg h, List.mem_cons] at he
      rcases he with he | he
      · exact Or.inr (he ▸ List.mem_cons_self _ _)
      · rcases ih he with h1 | h1
        · exact Or.inl h1
        · exact Or.inr (List.mem_cons_of_mem _ h1)

/-- The own attributes of the token after the change: those before, and the attribute
`X` = "none" when the token lacked the name. -/
theorem withExplicitNone_entries_perm (X : String) (t : Token)
    (hX : (NewStringAttribute X "none").name ≠ TraitCountAttributeName) :
    (traitCountifyToken (withExplicitNone X t)).metadata.stringAttributes.entries.Perm
      ((traitCountifyToken t).metadata.stringAttributes.entries
        ++ if t.HasAttribute (NewStringAttribute X "none").name = false then
            [((NewStringAttribute X "none").name, NewStringAttribute X "none")]
          else []) := by
  have hhas := traitCountifyToken_hasAttribute t (NewStringAttribute X "none").name hX
  apply GoMap.entries_perm_of_getList
  · by_cases h : t.HasAttribute (NewStringAttribute X "none").name = false
    · rw [if_pos h, List.map_append, List.nodup_append]
      refine ⟨GoMap.nodup _, by simp, ?_⟩
      intro a ha hb
      simp only [List.map_cons, List.map_nil, List.mem_singleton] at hb
      subst hb
      rw [h] at hhas
      unfold Token.HasAttribute TokenMetadata.AttributeExists at hhas
      obtain ⟨v, hv⟩ := (GoMap.mem_keys_iff _ _).1 ha
      rw [hv] at hhas
      cases hhas
    · rw [if_neg h, List.append_nil]
      exact GoMap.nodup _
  · intro k
    rw [withExplicitNone_get? X t hX k, GoMap.getList_append]
    by_cases h : t.HasAttribute (NewStringAttribute X "none").name = false
    · by_cases hk : k = (NewStringAttribute X "none").name
      · subst hk
        rw [h] at hhas
        unfold Token.HasAttribute TokenMetadata.AttributeExists at hhas
        have hg : GoMap.getList (NewStringAttribute X "none").name
            (traitCountifyToken t).metadata.stringAttributes.entries = none := by
          cases hg : (traitCountifyToken t).metadata.stringAttributes.get?
              (NewStringAttribute X "none").name with
          | none => exact hg
          | some v => rw [hg] at hhas; cases hhas
        simp [h, hg, GoMap.getList]
      · have hgl : GoMap.getList k
            [((NewStringAttribute X "none").name, NewStringAttribute X "none")] = none := by
          simp [GoMap.getList, Ne.symm hk]
        simp only [h, hk, and_false, if_false, if_true, hgl]
        show GoMap.getList k _ = _
        cases GoMap.getList k (traitCountifyToken t).metadata.stringAttributes.entries <;> rfl
    · simp only [h, false_and, if_false]
      show GoMap.getList k _ = _
      cases GoMap.getList k (traitCountifyToken t).metadata.stringAttributes.entries <;> rfl

/-- The counts of the own attributes of a token do not change. -/
theorem totalTokensWithAttributes_withExplicitNone (name name' : String) (tokens : List Token)
    (X : String) (hX : (NewStringAttribute X "none").name ≠ TraitCountAttributeName)
    (hnone : ∀ t ∈ tokens, ∀ e ∈ t.metadata.stringAttributes.entries,
      (e.1 = (NewStringAttribute X "none").name ∨ e.2.name = (NewStringAttribute X "none").name)
        → e.2.value ≠ "none")
    (t : Token) (ht : t ∈ tokens) (e : String × StringAttribute)
    (he : e ∈ (traitCountifyToken t).metadata.stringAttributes.entries) :
    (NewCollection name' (tokens.map (withExplicitNone X))).TotalTokensWithAttributes e.2
      = (NewCollection name tokens).TotalTokensWithAttributes e.2 := by
  unfold Collection.TotalTokensWithAttributes
  rw [tableCount_withExplicitNone name name' tokens X hX, if_neg, add_zero]
  rintro ⟨h1, h2⟩
  rw [traitCountifyToken_stringAttributes] at he
  rcases GoMap.mem_setList _ _ _ e he with h | h
  · rw [h] at h1
    exact hX (h1.symm.trans (traitCount_key _))
  · exact hnone t ht e h (Or.inr h1) h2

/-- The count of the attribute `X` = "none" after the change: the tokens that lacked it. -/
theorem totalTokensWithAttributes_none (name name' : String) (tokens : List Token)
    (X : String) (hX : (NewStringAttribute X "none").name ≠ TraitCountAttributeName)
    (hnone : ∀ t ∈ tokens, ∀ e ∈ t.metadata.stringAttributes.entries,
      (e.1 = (NewStringAttribute X "none").name ∨ e.2.name = (NewStringAttribute X "none").name)
        → e.2.value ≠ "none") :
    (NewCollection name' (tokens.map (withExplicitNone X))).TotalTokensWithAttributes
        (NewStringAttribute X "none")
      = ((lackCount X tokens : Nat) : Int) := by
  unfold Collection.TotalTokensWithAttributes
  rw [tableCount_withExplicitNone name name' tokens X hX,
    if_pos ⟨rfl, newStringAttribute_none_value X⟩, newStringAttribute_none_value,
    tableCount_eq_getD, tableGet?_none_before name tokens X hX hnone]
  simp

/-- The information content of a token is the same in the two collections. -/
theorem specIC_withExplicitNone (name name' : String) (tokens : List Token)
    (X : String) (hX : (NewStringAttribute X "none").name ≠ TraitCountAttributeName)
    (hnone : ∀ t ∈ tokens, ∀ e ∈ t.metadata.stringAttributes.entries,
      (e.1 = (NewStringAttribute X "none").name ∨ e.2.name = (NewStringAttribute X "none").name)
        → e.2.value ≠ "none")
    (t : Token) (ht : t ∈ tokens) :
    specIC (Real.logb 2) (NewCollection name' (tokens.map (withExplicitNone X)))
        (traitCountifyToken (withExplicitNone X t))
      = specIC (Real.logb 2) (NewCollection name tokens) (traitCountifyToken t) := by
  unfold specIC
  rw [nullPart_eq_sum_keys (fun x : Int => Real.logb 2
      ((((NewCollection name' (tokens.map (withExplicitNone X))).TokenTotalSupply : Int) : ℝ)
        / ((x : Int) : ℝ))),
    nullPart_eq_sum_keys (fun x : Int => Real.logb 2
      ((((NewCollection name tokens).TokenTotalSupply : Int) : ℝ) / ((x : Int) : ℝ))),
    supply_withExplicitNone name name' tokens X]
  generalize hψ : (fun x : Int => Real.logb 2
      ((((NewCollection name tokens).TokenTotalSupply : Int) : ℝ) / ((x : Int) : ℝ))) = ψ
  have hψN : ψ (NewCollection name tokens).TokenTotalSupply = 0 := by
    rw [← hψ]
    simp only []
    by_cases hN : (((NewCollection name tokens).TokenTotalSupply : Int) : ℝ) = 0
    · simp [hN]
    · simp [div_self hN]
  -- the own attributes
  have hown : ((traitCountifyToken (withExplicitNone X t)).metadata.stringAttributes.entries.map
        fun e => Real.logb 2
          ((((NewCollection name tokens).TokenTotalSupply : Int) : ℝ)
            / (((NewCollection name' (tokens.map (withExplicitNone X))).TotalTokensWithAttributes
                e.2 : Int) : ℝ))).sum
      = ((traitCountifyToken t).metadata.stringAttributes.entries.map
          fun e => Real.logb 2
            ((((NewCollection name tokens).TokenTotalSupply : Int) : ℝ)
              / (((NewCollection name tokens).TotalTokensWithAttributes e.2 : Int) : ℝ))).sum
        + if t.HasAttribute (NewStringAttribute X "none").name = false then
            ψ ((lackCount X tokens : Nat) : Int)
          else 0 := by
    rw [((withExplicitNone_entries_perm X t hX).map _).sum_eq, List.map_append, List.sum_append]
    congr 1
    · congr 1
      apply List.map_congr_left
      intro e he
      rw [totalTokensWithAttributes_withExplicitNone name name' tokens X hX hnone t ht e he]
    · by_cases h : t.HasAttribute (NewStringAttribute X "none").name = false
      · simp only [h, if_true, List.map_cons, List.map_nil, List.sum_cons, List.sum_nil,
          add_zero, totalTokensWithAttributes_none name name' tokens X hX hnone]
        rw [← hψ]
      · rw [if_neg h, if_neg h]
        simp
  rw [hown]
  -- the null placeholders
  rw [sum_keys_change_at (NewStringAttribute X "none").name (0 < lackCount X tokens)
      (NewCollection name tokens).attributesFrequencyCounts.keys
      (NewCollection name' (tokens.map (withExplicitNone X))).attributesFrequencyCounts.keys
      (GoMap.nodup _) (GoMap.nodup _)
      (fun k => if (traitCountifyToken t).HasAttribute k = true then 0
        else nullTerm ψ (NewCollection name tokens).TokenTotalSupply
          (NewCollection name tokens).attributesFrequencyCounts k)
      (fun k => if (traitCountifyToken (withExplicitNone X t)).HasAttribute k = true then 0
        else nullTerm ψ (NewCollection name tokens).TokenTotalSupply
          (NewCollection name' (tokens.map (withExplicitNone X))).attributesFrequencyCounts k)
      (mem_keys_withExplicitNone name name' tokens X hX)
      (by
        intro k hk
        have hne : ¬(t.HasAttribute (NewStringAttribute X "none").name = false
            ∧ k = (NewStringAttribute X "none").name) := fun h => hk h.2
        simp only []
        rw [withExplicitNone_hasAttribute X t hX k, if_neg hne,
          nullTerm_withExplicitNone_of_ne ψ name name' tokens X hX k hk])]
  rw [nullTerm_withExplicitNone ψ name name' tokens X hX,
    nullTerm_before ψ name tokens X hX,
    traitCountifyToken_hasAttribute t _ hX]
  by_cases h : t.HasAttribute (NewStringAttribute X "none").name = true
  · simp [h]
  · have hf : t.HasAttribute (NewStringAttribute X "none").name = false := by simpa using h
    have hd : 0 < lackCount X tokens := by
      unfold lackCount
      rw [List.countP_pos_iff]
      exact ⟨t, ht, by simp [hf]⟩
    by_cases hk : (NewStringAttribute X "none").name
        ∈ (NewCollection name tokens).attributesFrequencyCounts.keys
    · simp [hf, hd, hk]
    · simp [hf, hd, hk, lackCount_of_not_mem_keys name tokens X hX hk, hψN]

/-! ## Null/empty equivalence -/

/-- Null/empty equivalence away from the reserved name: for every list of tokens and every
attribute name `X` other than the reserved trait-count name, such that no token holds the
value "none" under the key `X` or in an attribute named `X`, let `C` be the collection built
from the tokens and `C'` the collection built from the same tokens with `X` explicitly set
to the literal "none" on exactly the tokens that lacked it. `ScoreTokens` gives every token
the same score in `C` and in `C'`. -/
theorem nullEmptyEquivalence_of_ne_traitCount (name name' : String) (tokens : List Token) (X : String)
    (hX : (NewStringAttribute X "none").name ≠ TraitCountAttributeName)
    (hnone : ∀ t ∈ tokens, ∀ e ∈ t.metadata.stringAttributes.entries,
      (e.1 = (NewStringAttribute X "none").name ∨ e.2.name = (NewStringAttribute X "none").name)
        → e.2.value ≠ "none") :
    InformationContentScoringHandler.ScoreTokens (Real.logb 2) (NewCollection name tokens)
        (NewCollection name tokens).Tokens
      = InformationContentScoringHandler.ScoreTokens (Real.logb 2)
          (NewCollection name' (tokens.map (withExplicitNone X)))
          (NewCollection name' (tokens.map (withExplicitNone X))).Tokens := by
  rw [scoreTokens_eq, scoreTokens_eq, entropy_withExplicitNone name name' tokens X hX hnone]
  show (tokens.map traitCountifyToken).map _
    = ((tokens.map (withExplicitNone X)).map traitCountifyToken).map _
  rw [List.map_map, List.map_map, List.map_map]
  apply List.map_congr_left
  intro t ht
  simp only [Function.comp_def]
  rw [getICScore_eq_specIC (Real.logb 2) (fun x => by rw [one_div, Real.logb_inv]),
    getICScore_eq_specIC (Real.logb 2) (fun x => by rw [one_div, Real.logb_inv]),
    specIC_withExplicitNone name name' tokens X hX hnone t ht]

/-- The equivalence at the 5-token collections of the test: `special` is present only on
token 0 in `collectionWithNull`, and set to "none" on the other four in
`collectionWithoutNull`. -/
theorem nullEmptyEquivalence_test_collections :
    InformationContentScoringHandler.ScoreTokens (Real.logb 2) collectionWithNull
        collectionWithNull.Tokens
      = InformationContentScoringHandler.ScoreTokens (Real.logb 2) collectionWithoutNull
          collectionWithoutNull.Tokens :=
  nullEmptyEquivalence_of_ne_traitCount "My Collection" "My Collection" (generatedTokens traitsWithNull)
    "special" (by decide) (by decide)

/-! ## Evaluating the scores of a concrete collection -/

/-- The scores of `ScoreTokens` from the counts alone: per token the counts of its own
attributes and of the null placeholders of the names it lacks, and for the entropy the
counts of the table and of all null placeholders. -/
theorem scoreTokens_of_counts (c : Collection) (perToken : List (List Int × List Int))
    (counts : List (List Int)) (nulls : List Int) (N : Int)
    (hp : c.Tokens.map (fun t =>
        (t.metadata.stringAttributes.entries.map fun e => c.TotalTokensWithAttributes e.2,
          (c.ExtractNullAttributes.entries.filter fun e => !t.HasAttribute e.1).map
            fun e => e.2.TotalTokens)) = perToken)
    (hc : c.attributesFrequencyCounts.entries.map (fun e => e.2.entries.map Prod.snd) = counts)
    (hn : c.ExtractNullAttributes.entries.map (fun e => e.2.TotalTokens) = nulls)
    (hN : c.TokenTotalSupply = N) (E : ℝ)
    (hE : -((counts.map fun cs =>
            (cs.map fun k => ((k : Int) : ℝ) / ((N : Int) : ℝ)
              * Real.logb 2 (((k : Int) : ℝ) / ((N : Int) : ℝ))).sum).sum
          + (nulls.map fun k => ((k : Int) : ℝ) / ((N : Int) : ℝ)
              * Real.logb 2 (((k : Int) : ℝ) / ((N : Int) : ℝ))).sum) = E) :
    InformationContentScoringHandler.ScoreTokens (Real.logb 2) c c.Tokens
      = perToken.map fun p =>
          ((p.1.map fun k => Real.logb 2 (((N : Int) : ℝ) / ((k : Int) : ℝ))).sum
            + (p.2.map fun k => Real.logb 2 (((N : Int) : ℝ) / ((k : Int) : ℝ))).sum)
          / (if E = 0 then 1 else E) := by
  rw [scoreTokens_eq, getCollectionEntropy_eq_spec (Real.logb 2) Real.logb_one,
    specEntropy_of_counts (Real.logb 2) c counts nulls N hc hn hN, hE, ← hp, List.map_map]
  apply List.map_congr_left
  intro t _
  rw [getICScore_eq_specIC (Real.logb 2) (fun x => by rw [one_div, Real.logb_inv])]
  simp only [Function.comp_def, specIC, hN, List.map_map]

/-- C9 (null/empty equivalence) at `X` the reserved trait-count name. Of two tokens with
the attribute `a: 1`, the first carries a trait-count attribute `5` before the collection is
built and the second lacks the name, and no token holds it with the value "none". Built as
they are, both tokens get the trait count 1 and score 0; with the name set to "none" on the
second token, `traitCountify` decrements for an attribute that `TraitCount` did not count
and gives it the trait count 0, and both tokens score 1. -/
theorem C9_null_empty_reserved_name_differs :
    (∃ t ∈ reservedNameTokens, t.HasAttribute TraitCountAttributeName = false) ∧
      (∀ t ∈ reservedNameTokens, ∀ e ∈ t.metadata.stringAttributes.entries,
        (e.1 = (NewStringAttribute TraitCountAttributeName "none").name
          ∨ e.2.name = (NewStringAttribute TraitCountAttributeName "none").name)
          → e.2.value ≠ "none") ∧
      InformationContentScoringHandler.ScoreTokens (Real.logb 2)
          (NewCollection "c" reservedNameTokens)
          (NewCollection "c" reservedNameTokens).Tokens = [0, 0] ∧
      InformationContentScoringHandler.ScoreTokens (Real.logb 2)
          (NewCollection "c" (reservedNameTokens.map (withExplicitNone TraitCountAttributeName)))
          (NewCollection "c"
            (reservedNameTokens.map (withExplicitNone TraitCountAttributeName))).Tokens
        = [1, 1] := by
  have h2 : Real.logb 2 2 = 1 := Real.logb_self_eq_one (by norm_num)
  refine ⟨?_, by decide, ?_, ?_⟩
  · have h : reservedNameTokens.any
        (fun t => !t.HasAttribute TraitCountAttributeName) = true := by decide
    obtain ⟨t, ht, hh⟩ := List.any_eq_true.1 h
    exact ⟨t, ht, by simpa using hh⟩
  · rw [scoreTokens_of_counts (NewCollection "c" reservedNameTokens)
      [([2, 2], []), ([2, 2], [])] [[2], [2]] [] 2 (by decide) (by decide) (by decide)
      (by decide) 0 (by simp)]
    simp
  · rw [scoreTokens_of_counts
      (NewCollection "c" (reservedNameTokens.map (withExplicitNone TraitCountAttributeName)))
      [([2, 1], []), ([2, 1], [])] [[2], [1, 1]] [] 2 (by decide) (by decide) (by decide)
      (by decide) 1 (by
        have h3 : Real.logb 2 (1 / 2) = -1 := by rw [one_div, Real.logb_inv, h2]
        simp only [List.map_cons, List.map_nil, List.sum_cons, List.sum_nil]
        norm_num [h3])]
    simp [h2]

/-! ## Validation -/

set_option linter.unusedSectionVars false

theorem mem_foldl_add {T α : Type} [DecidableEq T] (f : α → T) (l : List α) :
    ∀ (s : DedupSet T) (x : T),
      x ∈ (l.foldl (fun acc a => acc.Add (f a)) s).data ↔ x ∈ s.data ∨ ∃ a ∈ l, f a = x := by
  induction l with
  | nil => intro s x; simp
  | cons a r ih =>
    intro s x
    rw [List.foldl_cons, ih]
    unfold DedupSet.Add
    by_cases h : f a ∈ s.data
    · rw [if_pos h]
      constructor
      · rintro (h1 | ⟨b, hb, rfl⟩)
        · exact Or.inl h1
        · exact Or.inr ⟨b, List.mem_cons_of_mem _ hb, rfl⟩
      · rintro (h1 | ⟨b, hb, rfl⟩)
        · exact Or.inl h1
        · rcases List.mem_cons.1 hb with rfl | hb
          · exact Or.inl h
          · exact Or.inr ⟨b, hb, rfl⟩
    · rw [if_neg h]
      simp only [List.mem_append, List.mem_singleton]
      constructor
      · rintro ((h1 | rfl) | ⟨b, hb, rfl⟩)
        · exact Or.inl h1
        · exact Or.inr ⟨a, List.mem_cons_self _ _, rfl⟩
        · exact Or.inr ⟨b, List.mem_cons_of_mem _ hb, rfl⟩
      · rintro (h1 | ⟨b, hb, rfl⟩)
        · exact Or.inl (Or.inl h1)
        · rcases List.mem_cons.1 hb with rfl | hb
          · exact Or.inl (Or.inr rfl)
          · exact Or.inr ⟨b, hb, rfl⟩

/-- The standards of a collection are the standards of its tokens. -/
theorem mem_tokenStandards (c : Collection) (x : TokenStandard) :
    x ∈ c.TokenStandards ↔ ∃ t ∈ c.Tokens, t.tokenStandard = x := by
  unfold Collection.TokenStandards DedupSet.List
  rw [mem_foldl_add (fun t : Token => t.tokenStandard)]
  simp [NewSet]

theorem hasNumericAttribute_iff (c : Collection) :
    c.HasNumericAttribute = true ↔
      ∃ t ∈ c.Tokens, t.metadata.numericAttributes.entries ≠ []
        ∨ t.metadata.dateAttributes.entries ≠ [] := by
  unfold Collection.HasNumericAttribute Collection.Tokens GoMap.len
  simp only [List.any_eq_true, Bool.or_eq_true, decide_eq_true_eq, gt_iff_lt, Nat.cast_pos,
    List.length_pos]

theorem isSubset_allowed_iff (c : Collection) :
    IsSubset [TokenStandardERC721, TokenStandardMetaplexNonFungible] c.TokenStandards = false ↔
      ∃ t ∈ c.Tokens, t.tokenStandard ≠ TokenStandardERC721
        ∧ t.tokenStandard ≠ TokenStandardMetaplexNonFungible := by
  unfold IsSubset
  rw [← Bool.not_eq_true, List.all_eq_true]
  simp only [decide_eq_true_eq, List.mem_cons, List.mem_singleton, List.not_mem_nil, or_false,
    not_forall, not_or]
  constructor
  · rintro ⟨x, hx, h1, h2⟩
    obtain ⟨t, ht, rfl⟩ := (mem_tokenStandards c x).1 hx
    exact ⟨t, ht, h1, h2⟩
  · rintro ⟨t, ht, h1, h2⟩
    exact ⟨t.tokenStandard, (mem_tokenStandards c _).2 ⟨t, ht, rfl⟩, h1, h2⟩

/-- The three outcomes of `ValidateCollection`, in the order of its checks. -/
theorem validateCollection_eq (s : Scorer F) (collection : Collection) :
    s.ValidateCollection collection =
      if ∃ t ∈ collection.Tokens, t.metadata.numericAttributes.entries ≠ []
          ∨ t.metadata.dateAttributes.entries ≠ [] then
        .error ("OpenRarity currently does not support collections with " ++
          "numeric or date traits")
      else if ∃ t ∈ collection.Tokens, t.tokenStandard ≠ TokenStandardERC721
          ∧ t.tokenStandard ≠ TokenStandardMetaplexNonFungible then
        .error "OpenRarity currently only supports ERC721/Non-fungible standards"
      else .ok () := by
  unfold Scorer.ValidateCollection
  by_cases h1 : collection.HasNumericAttribute = true
  · rw [if_pos h1, if_pos ((hasNumericAttribute_iff collection).1 h1)]
  · rw [if_neg h1, if_neg (fun h => h1 ((hasNumericAttribute_iff collection).2 h))]
    by_cases h2 : IsSubset [TokenStandardERC721, TokenStandardMetaplexNonFungible]
        collection.TokenStandards = false
    · simp only [h2, Bool.not_false, if_true]
      rw [if_pos ((isSubset_allowed_iff collection).1 h2)]
    · rw [if_neg (fun h => h2 ((isSubset_allowed_iff collection).2 h))]
      rw [Bool.not_eq_false] at h2
      simp [h2]

/-- C11: `ValidateCollection` returns the numeric/date-unsupported error if some token carries
a non-empty numeric or date attribute map; otherwise the unsupported-token-standard error if
the standard of some token is neither `erc721` nor `metaplex_non_fungible`; otherwise no
error. A collection without tokens is valid, and the ten ERC1155 tokens of the test give the
unsupported-token-standard error. -/
theorem C11_validateCollection_cases (s : Scorer F) :
    (∀ collection : Collection,
      s.ValidateCollection collection =
        if ∃ t ∈ collection.Tokens, t.metadata.numericAttributes.entries ≠ []
            ∨ t.metadata.dateAttributes.entries ≠ [] then
          .error ("OpenRarity currently does not support collections with " ++
            "numeric or date traits")
        else if ∃ t ∈ collection.Tokens, t.tokenStandard ≠ TokenStandardERC721
            ∧ t.tokenStandard ≠ TokenStandardMetaplexNonFungible then
          .error "OpenRarity currently only supports ERC721/Non-fungible standards"
        else .ok ()) ∧
      (∀ name : String, s.ValidateCollection (NewCollection name []) = .ok ()) ∧
      s.ValidateCollection erc1155Collection
        = .error "OpenRarity currently only supports ERC721/Non-fungible standards" := by
  refine ⟨validateCollection_eq s, ?_, ?_⟩
  · intro name
    rw [validateCollection_eq]
    simp [NewCollection, traitCountify, Collection.Tokens]
  · rw [validateCollection_eq, if_neg (by decide), if_pos (by decide)]

/-! ## Scoring after a failed validation -/

/-- C12: when `ValidateCollection` fails on a collection, `Scorer.ScoreToken`, `ScoreTokens`
and `ScoreCollection` return that error and no score, and they do so with every scoring
handler `handler'` in the place of the scorer's own: the result does not depend on the
handler, which is not consulted. -/
theorem C12_validation_failure_returns_no_scores (handler : IScoreHandler F)
    (collection : Collection) (err : String)
    (h : (NewScorer handler).ValidateCollection collection = .error err)
    (handler' : IScoreHandler F) (token : Token) (tokens : List Token) :
    (NewScorer handler').ScoreToken collection token = .error err ∧
      (NewScorer handler').ScoreTokens collection tokens = .error err ∧
      (NewScorer handler').ScoreCollection collection = .error err := by
  have h' : (NewScorer handler').ValidateCollection collection = .error err := h
  unfold Scorer.ScoreToken Scorer.ScoreTokens Scorer.ScoreCollection
  rw [h']
  exact ⟨rfl, rfl, rfl⟩

/-- C12 at the collection of `test_score_collection_with_numeric_attribute_errors`, whose
last token holds numeric attributes, with the information-content handler. -/
theorem C12_validation_failure_returns_no_scores_witness :
    (NewScorer (NewInformationContentScoringHandler (Real.logb 2))).ValidateCollection
          collectionWithNumeric
        = .error ("OpenRarity currently does not support collections with " ++
            "numeric or date traits") ∧
      ((NewScorer (NewInformationContentScoringHandler (Real.logb 2))).ScoreToken
            collectionWithNumeric rareTokenRaw
          = .error ("OpenRarity currently does not support collections with " ++
              "numeric or date traits") ∧
        (NewScorer (NewInformationContentScoringHandler (Real.logb 2))).ScoreTokens
            collectionWithNumeric collectionWithNumeric.Tokens
          = .error ("OpenRarity currently does not support collections with " ++
              "numeric or date traits") ∧
        (NewScorer (NewInformationContentScoringHandler (Real.logb 2))).ScoreCollection
            collectionWithNumeric
          = .error ("OpenRarity currently does not support collections with " ++
              "numeric or date traits")) :=
  have h : (NewScorer (NewInformationContentScoringHandler (Real.logb 2))).ValidateCollection
        collectionWithNumeric
      = .error ("OpenRarity currently does not support collections with " ++
          "numeric or date traits") := by
    rw [validateCollection_eq, if_pos (by decide)]
  ⟨h, C12_validation_failure_returns_no_scores _ collectionWithNumeric _ h _ rareTokenRaw
    collectionWithNumeric.Tokens⟩

/-! ## Scoring several collections -/

theorem scoreCollectionsLoop_eq (log2 : F → F) (collections : List Collection) :
    ∀ allScores : List (List F),
      (NewScorer (NewInformationContentScoringHandler log2)).scoreCollectionsLoop allScores
          collections
        = match collections.findSome?
            (validationError? (NewScorer (NewInformationContentScoringHandler log2))) with
          | some err => .error err
          | none => .ok (allScores ++ collections.map fun c =>
              InformationContentScoringHandler.ScoreTokens log2 c c.Tokens) := by
  induction collections with
  | nil => intro allScores; simp [Scorer.scoreCollectionsLoop]
  | cons c rest ih =>
    intro allScores
    unfold Scorer.scoreCollectionsLoop
    rw [List.findSome?_cons]
    unfold validationError? Scorer.ScoreTokens
    cases hv : (NewScorer (NewInformationContentScoringHandler log2)).ValidateCollection c with
    | error e => rfl
    | ok u =>
      simp only [NewScorer, NewInformationContentScoringHandler]
      have := ih (allScores ++ [InformationContentScoringHandler.ScoreTokens log2 c c.Tokens])
      simp only [NewScorer, NewInformationContentScoringHandler, List.append_assoc,
        List.singleton_append] at this
      rw [this]
      simp only [List.map_cons]
      rfl

/-- C13: with the default scorer, `ScoreCollections` returns the validation error of the
first collection of the list that fails validation, and no score list; when every collection
is valid it returns the score lists of the collections, one per collection, in input order.
For the list of a valid collection, the collection with numeric attributes and the ERC1155
collection the result is the numeric/date error alone. -/
theorem C13_scoreCollections_fail_fast (log2 : F → F) :
    (∀ collections : List Collection,
      (NewOpenRarityScorer log2).ScoreCollections collections
        = match collections.findSome?
            (validationError? (NewScorer (NewInformationContentScoringHandler log2))) with
          | some err => .error err
          | none => .ok (collections.map fun c =>
              InformationContentScoringHandler.ScoreTokens log2 c c.Tokens)) ∧
      (NewOpenRarityScorer log2).ScoreCollections
          [collectionStringOnly, collectionWithNumeric, erc1155Collection]
        = .error ("OpenRarity currently does not support collections with " ++
            "numeric or date traits") := by
  have main : ∀ collections : List Collection,
      (NewOpenRarityScorer log2).ScoreCollections collections
        = match collections.findSome?
            (validationError? (NewScorer (NewInformationContentScoringHandler log2))) with
          | some err => .error err
          | none => .ok (collections.map fun c =>
              InformationContentScoringHandler.ScoreTokens log2 c c.Tokens) := by
    intro collections
    show (NewScorer (NewInformationContentScoringHandler log2)).scoreCollectionsLoop []
      collections = _
    rw [scoreCollectionsLoop_eq]
    simp
  refine ⟨main, ?_⟩
  rw [main]
  have h1 : validationError? (NewScorer (NewInformationContentScoringHandler log2))
      collectionStringOnly = none := by
    unfold validationError?
    rw [validateCollection_eq, if_neg (by decide), if_neg (by decide)]
  have h2 : validationError? (NewScorer (NewInformationContentScoringHandler log2))
      collectionWithNumeric
        = some ("OpenRarity currently does not support collections with " ++
            "numeric or date traits") := by
    unfold validationError?
    rw [validateCollection_eq, if_pos (by decide)]
  simp only [List.findSome?_cons, h1, h2]

/-! ## Ranking a collection -/

/-- `SetRarityRanks` never fails: it returns the sorted input with ranks that are all at
least 1. -/
theorem setRarityRanks_ok (l : List (TokenRarity F)) :
    ∃ out, SetRarityRanks l = .ok out ∧ out.length = l.length ∧
      out.map (fun t => t.SetRarityRanks 0)
        = (sortSlice rarityLess l).map (fun t => t.SetRarityRanks 0) ∧
      ∀ t ∈ out, 1 ≤ t.rank := by
  obtain ⟨out, hout, hlen, hkey, -, hfirst, -, hpair⟩ :=
    rankLoop_spec (sortSlice rarityLess l) 0 none (by simp)
  refine ⟨out, hout, by rw [hlen, (sortSlice_perm rarityLess l).length_eq], hkey, ?_⟩
  have hidx : ∀ (j : Nat) (t : TokenRarity F), out[j]? = some t → 1 ≤ t.rank := by
    intro j
    induction j with
    | zero =>
      intro t ht
      rw [hfirst rfl t ht]
      simp
    | succ j ih =>
      intro t ht
      have hj : j < out.length := by
        have := (List.getElem?_eq_some_iff.1 ht).1
        omega
      have hp : out[j]? = some out[j] := List.getElem?_eq_getElem hj
      rw [hpair j out[j] t hp ht]
      split
      · exact ih _ hp
      · push_cast
        omega
  intro t ht
  obtain ⟨j, hj⟩ := List.getElem?_of_mem ht
  exact hidx j t hj

/-- The method `RankCollection` on a collection that is not nil. -/
theorem rankCollection_some (collection : Collection) (scorer : IScorer F) :
    RankCollection (some collection) scorer
      = if collection.tokensIsNil then .ok []
        else
          match scorer.ScoreTokens collection collection.Tokens with
          | .error err => .error err
          | .ok scores =>
            if collection.Tokens.length ≠ scores.length then
              .error "dimension of scores doesn't match dimension of tokens"
            else
              SetRarityRanks
                ((collection.Tokens.zip scores).map fun ts =>
                  NewTokenRarity ts.1 ts.2 (ExtractUniqueAttributeCount ts.1 collection)) :=
  rfl

/-- C14: for a valid collection and the default scorer, `RankCollection` returns no error
and as many ranked items as the collection has tokens. The items, ranks apart, are a
permutation of the tokens in collection order, each paired with the score that `ScoreTokens`
computed at its index and with the unique-attribute count extracted for it, and every rank
is at least 1. (The collection is a value: `RankCollection` sorts the slice of ranked items
that it builds, and returns nothing else.) -/
theorem C14_rankCollection_ranks_every_token (log2 : F → F) (collection : Collection)
    (hvalid : (NewOpenRarityScorer log2).ValidateCollection collection = .ok ()) :
    ∃ ranked, RankCollection (some collection) (NewOpenRarityScorer log2) = .ok ranked ∧
      ranked.length = collection.Tokens.length ∧
      (ranked.map fun r => (r.token, r.score, r.tokenFeatures)).Perm
        ((collection.Tokens.zip
            (InformationContentScoringHandler.ScoreTokens log2 collection collection.Tokens)).map
          fun ts => (ts.1, ts.2, ExtractUniqueAttributeCount ts.1 collection)) ∧
      ∀ r ∈ ranked, 1 ≤ r.rank := by
  have hscore : (NewOpenRarityScorer log2).ScoreTokens collection collection.Tokens
      = .ok (InformationContentScoringHandler.ScoreTokens log2 collection collection.Tokens) := by
    show Scorer.ScoreTokens (NewScorer (NewInformationContentScoringHandler log2)) collection
      collection.Tokens = _
    unfold Scorer.ScoreTokens
    have hv : (NewScorer (NewInformationContentScoringHandler log2)).ValidateCollection
        collection = .ok () := hvalid
    rw [hv]
    rfl
  have hlen : collection.Tokens.length
      = (InformationContentScoringHandler.ScoreTokens log2 collection
          collection.Tokens).length := by
    simp [InformationContentScoringHandler.ScoreTokens]
  rw [rankCollection_some]
  by_cases he : collection.tokensIsNil = true
  · rw [if_pos he]
    have h0 : collection.Tokens = [] := collection.nil_empty he
    exact ⟨[], rfl, by simp [h0], by simp [h0], by simp⟩
  · rw [if_neg he]
    simp only [hscore]
    rw [if_neg (by simpa using hlen)]
    obtain ⟨out, hout, hl, hkey, hpos⟩ := setRarityRanks_ok
      ((collection.Tokens.zip
          (InformationContentScoringHandler.ScoreTokens log2 collection collection.Tokens)).map
        fun ts => NewTokenRarity ts.1 ts.2 (ExtractUniqueAttributeCount ts.1 collection))
    refine ⟨out, hout, ?_, ?_, hpos⟩
    · rw [hl, List.length_map, List.length_zip, ← hlen, Nat.min_self]
    · have h1 : out.map (fun r => (r.token, r.score, r.tokenFeatures))
          = (out.map (fun t => t.SetRarityRanks 0)).map
              (fun r => (r.token, r.score, r.tokenFeatures)) := by
        rw [List.map_map]
        rfl
      rw [h1, hkey, List.map_map]
      have h2 := (sortSlice_perm rarityLess
        ((collection.Tokens.zip
            (InformationContentScoringHandler.ScoreTokens log2 collection
              collection.Tokens)).map
          fun ts => NewTokenRarity ts.1 ts.2 (ExtractUniqueAttributeCount ts.1 collection))).map
        ((fun r : TokenRarity F => (r.token, r.score, r.tokenFeatures))
          ∘ fun t => t.SetRarityRanks 0)
      rw [List.map_map] at h2
      exact h2

/-- C14 at the collection of the example program. -/
theorem C14_rankCollection_ranks_every_token_witness :
    (NewOpenRarityScorer (Real.logb 2)).ValidateCollection exampleCollection = .ok () ∧
      ∃ ranked, RankCollection (some exampleCollection) (NewOpenRarityScorer (Real.logb 2))
          = .ok ranked ∧
        ranked.length = exampleCollection.Tokens.length ∧
        (ranked.map fun r => (r.token, r.score, r.tokenFeatures)).Perm
          ((exampleCollection.Tokens.zip
              (InformationContentScoringHandler.ScoreTokens (Real.logb 2) exampleCollection
                exampleCollection.Tokens)).map
            fun ts => (ts.1, ts.2, ExtractUniqueAttributeCount ts.1 exampleCollection)) ∧
        ∀ r ∈ ranked, 1 ≤ r.rank :=
  have h : (NewOpenRarityScorer (Real.logb 2)).ValidateCollection exampleCollection
      = .ok () := by
    show Scorer.ValidateCollection (NewScorer (NewInformationContentScoringHandler
      (Real.logb 2))) exampleCollection = _
    rw [validateCollection_eq, if_neg (by decide), if_neg (by decide)]
  ⟨h, C14_rankCollection_ranks_every_token (Real.logb 2) exampleCollection h⟩

/-- C15 (as amended): for every collection whose token slice is not nil (it may be empty) and
every scorer, `RankCollection` returns the error of the scorer's `ScoreTokens` when that call
fails, and the dimension-mismatch error when the call returns a number of scores different
from the number of tokens; an error result carries no ranked item. -/
theorem C15_rankCollection_errors (collection : Collection) (scorer : IScorer F)
    (hnil : collection.tokensIsNil = false) :
    (∀ err, scorer.ScoreTokens collection collection.Tokens = .error err →
        RankCollection (some collection) scorer = .error err) ∧
      (∀ scores, scorer.ScoreTokens collection collection.Tokens = .ok scores →
        scores.length ≠ collection.Tokens.length →
        RankCollection (some collection) scorer
          = .error "dimension of scores doesn't match dimension of tokens") := by
  have he : ¬ collection.tokensIsNil = true := by simp [hnil]
  constructor
  · intro err h
    rw [rankCollection_some, if_neg he]
    simp only [h]
  · intro scores h hlen
    rw [rankCollection_some, if_neg he]
    simp only [h]
    rw [if_pos (fun h' => hlen h'.symm)]

/-- C15 at the collection of the example program, with a scorer whose handler always fails
(the error of the handler comes back) and with a scorer whose handler returns no score for
the three tokens (the dimension-mismatch error comes back); and at the collection of an empty
token slice that is not nil, where the error of the failing handler comes back as well. -/
theorem C15_rankCollection_errors_witness :
    exampleCollection.tokensIsNil = false ∧ exampleCollection.Tokens.length = 3 ∧
      (NewScorer (failingHandler : IScoreHandler ℝ)).toIScorer.ScoreTokens
          exampleCollection exampleCollection.Tokens = .error "handler failed" ∧
      RankCollection (some exampleCollection)
          (NewScorer (failingHandler : IScoreHandler ℝ)).toIScorer = .error "handler failed" ∧
      (NewScorer (shortHandler : IScoreHandler ℝ)).toIScorer.ScoreTokens
          exampleCollection exampleCollection.Tokens = .ok [] ∧
      RankCollection (some exampleCollection)
          (NewScorer (shortHandler : IScoreHandler ℝ)).toIScorer
        = .error "dimension of scores doesn't match dimension of tokens" ∧
      emptyTokensCollection.tokensIsNil = false ∧ emptyTokensCollection.Tokens = [] ∧
      RankCollection (some emptyTokensCollection)
          (NewScorer (failingHandler : IScoreHandler ℝ)).toIScorer
        = .error "handler failed" := by
  have hfail : ∀ c : Collection,
      (∀ t ∈ c.Tokens, t.metadata.numericAttributes.entries = []
        ∧ t.metadata.dateAttributes.entries = []) →
      (∀ t ∈ c.Tokens, t.tokenStandard = TokenStandardERC721) →
      ∀ h : IScoreHandler ℝ, (NewScorer h).toIScorer.ScoreTokens c c.Tokens
        = h.ScoreTokens c c.Tokens := by
    intro c h1 h2 h
    show Scorer.ScoreTokens (NewScorer h) c c.Tokens = _
    unfold Scorer.ScoreTokens
    rw [validateCollection_eq, if_neg, if_neg]
    · rfl
    · rintro ⟨t, ht, h3, -⟩
      exact h3 (h2 t ht)
    · rintro ⟨t, ht, h3 | h3⟩
      · exact h3 (h1 t ht).1
      · exact h3 (h1 t ht).2
  have hex1 : ∀ t ∈ exampleCollection.Tokens, t.metadata.numericAttributes.entries = []
      ∧ t.metadata.dateAttributes.entries = [] := by decide
  have hex2 : ∀ t ∈ exampleCollection.Tokens, t.tokenStandard = TokenStandardERC721 := by
    decide
  have hem1 : ∀ t ∈ emptyTokensCollection.Tokens, t.metadata.numericAttributes.entries = []
      ∧ t.metadata.dateAttributes.entries = [] := by decide
  have hem2 : ∀ t ∈ emptyTokensCollection.Tokens, t.tokenStandard = TokenStandardERC721 := by
    decide
  have h1 := hfail exampleCollection hex1 hex2 failingHandler
  have h2 := hfail exampleCollection hex1 hex2 shortHandler
  have h3 := hfail emptyTokensCollection hem1 hem2 failingHandler
  have hlen : exampleCollection.Tokens.length = 3 := by decide
  refine ⟨rfl, hlen, h1, ?_, h2, ?_, rfl, rfl, ?_⟩
  · exact (C15_rankCollection_errors exampleCollection _ rfl).1 _ h1
  · exact (C15_rankCollection_errors exampleCollection _ rfl).2 [] h2 (by rw [hlen]; decide)
  · exact (C15_rankCollection_errors emptyTokensCollection _ rfl).1 _ h3

/-- C15 (counterexample): for the collection with a nil token slice, the `ScoreTokens` of a
scorer whose handler always fails returns an error, and `RankCollection` with that scorer
returns no error (and no ranked item): its guard returns before the scorer is called. -/
theorem C15_nil_tokens_counterexample :
    nilTokensCollection.tokensIsNil = true ∧
      (NewScorer (failingHandler : IScoreHandler ℝ)).toIScorer.ScoreTokens nilTokensCollection
          nilTokensCollection.Tokens = .error "handler failed" ∧
      RankCollection (some nilTokensCollection)
          (NewScorer (failingHandler : IScoreHandler ℝ)).toIScorer = .ok [] := by
  refine ⟨rfl, ?_, rfl⟩
  show Scorer.ScoreTokens (NewScorer failingHandler) nilTokensCollection
    nilTokensCollection.Tokens = _
  unfold Scorer.ScoreTokens
  rw [validateCollection_eq, if_neg (by decide), if_neg (by decide)]
  rfl

/-! ## The unique-attribute count -/

/-- A counting loop returns the number of elements that pass its test. -/
theorem foldl_count_eq_countP {α : Type} (p : α → Prop) [DecidablePred p] (l : List α) :
    ∀ z : Int, l.foldl (fun n e => if p e then n + 1 else n) z
      = z + ((l.countP fun e => decide (p e) : Nat) : Int) := by
  induction l with
  | nil => intro z; simp
  | cons a r ih =>
    intro z
    rw [List.foldl_cons, ih, List.countP_cons]
    by_cases h : p a
    · simp only [if_pos h, decide_eq_true h, if_true]
      push_cast
      ring
    · simp only [if_neg h, decide_eq_false h]
      simp

/-- C16: `ExtractUniqueAttributeCount` returns the number of the string attributes of the
token whose (name, value) pair has frequency exactly 1 in the frequency table of the
collection. In a collection built by `NewCollection` that frequency is the number of tokens
holding the pair, so the result is the number of string attributes of the token (for a
member token, the synthetic trait-count attribute among them) whose pair exactly one token of
the collection holds. The 6-token collection of the test gives 1, 0, 0, 0, 1, 2. -/
theorem C16_unique_attribute_count (collection : Collection) (name : String)
    (tokens : List Token) (token : Token) :
    (ExtractUniqueAttributeCount token collection).uniqueAttributeCount
        = ((token.metadata.stringAttributes.entries.countP fun e =>
            decide (collection.TotalTokensWithAttributes e.2 = 1) : Nat) : Int) ∧
      (ExtractUniqueAttributeCount token (NewCollection name tokens)).uniqueAttributeCount
        = ((token.metadata.stringAttributes.entries.countP fun e =>
            decide ((NewCollection name tokens).Tokens.countP
              (fun t => tokenHoldsValue t e.2.name e.2.value) = 1) : Nat) : Int) ∧
      collectionFeatureExtractor.Tokens.map
          (fun t => (ExtractUniqueAttributeCount t collectionFeatureExtractor).uniqueAttributeCount)
        = [1, 0, 0, 0, 1, 2] := by
  have main : ∀ c : Collection, (ExtractUniqueAttributeCount token c).uniqueAttributeCount
      = ((token.metadata.stringAttributes.entries.countP fun e =>
          decide (c.TotalTokensWithAttributes e.2 = 1) : Nat) : Int) := by
    intro c
    unfold ExtractUniqueAttributeCount NewTokenRankingFeatures
    simp only []
    rw [foldl_count_eq_countP (fun e : String × StringAttribute =>
      c.TotalTokensWithAttributes e.2 = 1)]
    simp
  refine ⟨main collection, ?_, by decide⟩
  rw [main]
  congr 2
  funext e
  have h : (NewCollection name tokens).TotalTokensWithAttributes e.2
      = (((NewCollection name tokens).Tokens.countP
          fun t => tokenHoldsValue t e.2.name e.2.value : Nat) : Int) :=
    tableCount_derive _ _ _
  rw [h]
  norm_cast

/-! ## Decimal strings -/

theorem digitChar_isDigit (d : Nat) (h : d < 10) : (Nat.digitChar d).isDigit = true := by
  interval_cases d <;> decide

theorem toDigitsCore_all (fuel : Nat) :
    ∀ (n : Nat) (ds : List Char), (∀ c ∈ ds, c.isDigit = true) →
      ∀ c ∈ Nat.toDigitsCore 10 fuel n ds, c.isDigit = true := by
  induction fuel with
  | zero => intro n ds h; simpa [Nat.toDigitsCore] using h
  | succ fuel ih =>
    intro n ds h
    have hd : ∀ c ∈ Nat.digitChar (n % 10) :: ds, c.isDigit = true := by
      intro c hc
      rcases List.mem_cons.1 hc with rfl | hc
      · exact digitChar_isDigit _ (Nat.mod_lt _ (by decide))
      · exact h c hc
    unfold Nat.toDigitsCore
    simp only []
    split
    · exact hd
    · exact ih _ _ hd

theorem toDigitsCore_ne_nil (fuel : Nat) :
    ∀ (n : Nat) (ds : List Char), ds ≠ [] → Nat.toDigitsCore 10 fuel n ds ≠ [] := by
  induction fuel with
  | zero => intro n ds h; simpa [Nat.toDigitsCore] using h
  | succ fuel ih =>
    intro n ds _
    unfold Nat.toDigitsCore
    simp only []
    split
    · exact List.cons_ne_nil _ _
    · exact ih _ _ (List.cons_ne_nil _ _)

theorem toDigits_ne_nil (n : Nat) : Nat.toDigits 10 n ≠ [] := by
  unfold Nat.toDigits Nat.toDigitsCore
  simp only []
  split
  · exact List.cons_ne_nil _ _
  · exact toDigitsCore_ne_nil _ _ _ (List.cons_ne_nil _ _)

/-- The decimal string of an integer is not empty and consists of digits and the minus
sign. -/
theorem formatInt_data (i : Int) :
    (FormatInt i).data ≠ [] ∧ ∀ c ∈ (FormatInt i).data, c.isDigit = true ∨ c = '-' := by
  cases i with
  | ofNat m =>
    have h : (FormatInt (Int.ofNat m)).data = Nat.toDigits 10 m := rfl
    rw [h]
    exact ⟨toDigits_ne_nil m, fun c hc => Or.inl (toDigitsCore_all _ _ _ (by simp) c hc)⟩
  | negSucc m =>
    have h : (FormatInt (Int.negSucc m)).data = '-' :: Nat.toDigits 10 (m + 1) := rfl
    rw [h]
    refine ⟨List.cons_ne_nil _ _, fun c hc => ?_⟩
    rcases List.mem_cons.1 hc with rfl | hc
    · exact Or.inr rfl
    · exact Or.inl (toDigitsCore_all _ _ _ (by simp) c hc)

theorem decimalChar_fixed (c : Char) (h : c.isDigit = true ∨ c = '-') :
    isSpaceRune c = false ∧ toLowerRune c = c := by
  rcases h with h | rfl
  · have h1 : 48 ≤ c.toNat ∧ c.toNat ≤ 57 := by
      simp only [Char.isDigit, Bool.and_eq_true, decide_eq_true_eq, ge_iff_le, UInt32.le_def,
        BitVec.le_def] at h
      exact h
    constructor
    · unfold isSpaceRune
      obtain ⟨ha, hb⟩ := h1
      generalize c.toNat = k at ha hb
      interval_cases k <;> decide
    · unfold toLowerRune toLowerCode
      rw [if_pos (by omega), if_neg (by omega), Char.ofNat_toNat]
  · exact ⟨by decide, by decide⟩

theorem dropWhile_of_all_false {α : Type} (p : α → Bool) (l : List α)
    (h : ∀ x ∈ l, p x = false) : l.dropWhile p = l := by
  cases l with
  | nil => rfl
  | cons a r => simp [List.dropWhile, h a (List.mem_cons_self _ _)]

/-- Normalization leaves a decimal string as it is. -/
theorem normalize_formatInt (i : Int) : NormalizeAttributeString (FormatInt i) = FormatInt i := by
  have hc := (formatInt_data i).2
  unfold NormalizeAttributeString trimSpace
  have h1 : (FormatInt i).data.map toLowerRune = (FormatInt i).data := by
    conv_rhs => rw [← List.map_id (FormatInt i).data]
    exact List.map_congr_left fun c hcm => (decimalChar_fixed c (hc c hcm)).2
  rw [h1, dropWhile_of_all_false _ _ (fun c hcm => (decimalChar_fixed c (hc c hcm)).1),
    dropWhile_of_all_false _ _ (fun c hcm =>
      (decimalChar_fixed c (hc c (List.mem_reverse.1 hcm))).1), List.reverse_reverse]

/-- A decimal string is neither empty nor the literal "none". -/
theorem formatInt_counted (i : Int) :
    ¬ (NormalizeAttributeString (FormatInt i) = ""
      ∨ NormalizeAttributeString (FormatInt i) = "none") := by
  rw [normalize_formatInt]
  obtain ⟨h1, h2⟩ := formatInt_data i
  rintro (h | h)
  · rw [h] at h1
    exact h1 rfl
  · rw [h] at h2
    rcases h2 'n' (by decide) with h3 | h3
    · exact absurd h3 (by decide)
    · exact absurd h3 (by decide)

/-! ## The synthetic trait-count attribute -/

theorem getStringAttributesCount_eq_countP (sa : GoMap StringAttribute) :
    GetStringAttributesCount sa
      = ((sa.entries.countP fun e =>
          decide (¬ (NormalizeAttributeString e.2.value = ""
            ∨ NormalizeAttributeString e.2.value = "none")) : Nat) : Int) := by
  have h := foldl_count_eq_countP
    (fun e : String × StringAttribute =>
      ¬ (NormalizeAttributeString e.2.value = "" ∨ NormalizeAttributeString e.2.value = "none"))
    sa.entries 0
  simp only [ite_not, zero_add] at h
  exact h

/-- In a map, the entries that pass a test are those under other keys than `k` that pass
it, and the entry of `k` when it passes. -/
theorem countP_split_key {V : Type} (q : V → Prop) [DecidablePred q] (k : String)
    (l : List (String × V)) (hnd : (l.map Prod.fst).Nodup) :
    l.countP (fun e => decide (q e.2))
      = l.countP (fun e => decide (e.1 ≠ k ∧ q e.2))
        + (match GoMap.getList k l with
          | some a => if q a then 1 else 0
          | none => 0) := by
  induction l with
  | nil => rfl
  | cons e r ih =>
    obtain ⟨k', v⟩ := e
    rw [List.map_cons, List.nodup_cons] at hnd
    rw [List.countP_cons, List.countP_cons]
    by_cases hk : k' = k
    · subst hk
      have hr : r.countP (fun e => decide (q e.2))
          = r.countP (fun e => decide (e.1 ≠ k' ∧ q e.2)) := by
        apply List.countP_congr
        intro e he
        have hne : e.1 ≠ k' := fun h => hnd.1 (List.mem_map.2 ⟨e, he, h⟩)
        simp [hne]
      simp only [GoMap.getList, if_true, hr, ne_eq, not_true_eq_false, false_and,
        decide_False, Bool.false_eq_true, if_false, add_zero, decide_eq_true_eq]
    · have hg : GoMap.getList k ((k', v) :: r) = GoMap.getList k r := by
        simp [GoMap.getList, hk]
      rw [hg, ih hnd.2]
      simp only [ne_eq, hk, not_false_eq_true, true_and, decide_eq_true_eq]
      omega

/-- Where the token lacks the reserved name, or holds under it a value that `TraitCount`
counts, the count that `traitCountify` writes leaves the synthetic attribute out. -/
theorem traitCount_sub_has (t : Token)
    (h : ∀ a, t.metadata.stringAttributes.get? TraitCountAttributeName = some a →
      ¬ (NormalizeAttributeString a.value = "" ∨ NormalizeAttributeString a.value = "none")) :
    (if t.HasAttribute TraitCountAttributeName then t.TraitCount - 1 else t.TraitCount)
      = traitCountWithoutSynthetic t := by
  unfold Token.TraitCount traitCountWithoutSynthetic Token.HasAttribute
    TokenMetadata.AttributeExists
  rw [getStringAttributesCount_eq_countP,
    countP_split_key (fun a : StringAttribute =>
      ¬ (NormalizeAttributeString a.value = "" ∨ NormalizeAttributeString a.value = "none"))
      TraitCountAttributeName _ t.metadata.stringAttributes.nodup]
  cases hg : t.metadata.stringAttributes.get? TraitCountAttributeName with
  | none =>
    have hg' : GoMap.getList TraitCountAttributeName t.metadata.stringAttributes.entries
        = none := hg
    rw [hg']
    simp
  | some a =>
    have hg' : GoMap.getList TraitCountAttributeName t.metadata.stringAttributes.entries
        = some a := hg
    rw [hg']
    simp only [Option.isSome_some, if_true, if_pos (h a hg)]
    push_cast
    ring

/-- The attribute that `traitCountify` writes, under the condition of `traitCount_sub_has`. -/
theorem traitCountifyToken_eq_of_counted (t : Token)
    (h : ∀ a, t.metadata.stringAttributes.get? TraitCountAttributeName = some a →
      ¬ (NormalizeAttributeString a.value = "" ∨ NormalizeAttributeString a.value = "none")) :
    traitCountifyToken t
      = { t with
          metadata := t.metadata.AddAttribute
            (.string ⟨TraitCountAttributeName, FormatInt (traitCountWithoutSynthetic t)⟩) } := by
  unfold traitCountifyToken
  simp only []
  rw [traitCount_sub_has t h]
  unfold NewStringAttribute
  rw [normalize_traitCountAttributeName, normalize_formatInt]

/-- The trait-count attribute after `NewCollection`: where every token lacks the reserved
name, or holds under it a value that is neither empty nor "none", every token of the
collection holds under the reserved name the attribute of that name whose value is the
decimal string of its trait count without the synthetic attribute. -/
theorem newCollection_traitCount_of_counted (name : String) (tokens : List Token)
    (h : ∀ t ∈ tokens, ∀ a,
      t.metadata.stringAttributes.get? TraitCountAttributeName = some a →
      ¬ (NormalizeAttributeString a.value = "" ∨ NormalizeAttributeString a.value = "none")) :
    (NewCollection name tokens).Tokens.map
        (fun t => t.metadata.stringAttributes.get? TraitCountAttributeName)
      = tokens.map fun t =>
          some ⟨TraitCountAttributeName, FormatInt (traitCountWithoutSynthetic t)⟩ := by
  show (tokens.map traitCountifyToken).map _ = _
  rw [List.map_map]
  apply List.map_congr_left
  intro t ht
  simp only [Function.comp_def]
  rw [traitCountifyToken_eq_of_counted t (h t ht)]
  exact GoMap.get?_set_self _ _ _

/-- C17 at a token that holds the value "none" under the reserved name before the
collection is built: its trait count without the synthetic attribute is 1 (the attribute
`a: 1`), and `NewCollection` writes the value "0", because `traitCountify` decrements for an
attribute that `TraitCount` did not count. -/
theorem C17_trait_count_none_valued :
    noneTraitCountTokens.map (fun t => FormatInt (traitCountWithoutSynthetic t)) = ["1"] ∧
      (NewCollection "c" noneTraitCountTokens).Tokens.map
          (fun t => t.metadata.stringAttributes.get? TraitCountAttributeName)
        = [some ⟨TraitCountAttributeName, "0"⟩] := by
  decide

/-! ## Building a collection twice -/

theorem GoMap.setList_setList {V : Type} (k : String) (v : V) (l : List (String × V)) :
    GoMap.setList k v (GoMap.setList k v l) = GoMap.setList k v l := by
  induction l with
  | nil => simp [GoMap.setList]
  | cons e r ih =>
    obtain ⟨k', v'⟩ := e
    by_cases hk : k' = k
    · simp [GoMap.setList, hk]
    · simp [GoMap.setList, hk, ih]

theorem GoMap.set_set {V : Type} (m : GoMap V) (k : String) (v : V) :
    (m.set k v).set k v = m.set k v := by
  unfold GoMap.set
  congr 1
  exact GoMap.setList_setList k v m.entries

theorem countP_others_setList {V : Type} (q : V → Prop) [DecidablePred q] (k : String) (v : V)
    (l : List (String × V)) :
    (GoMap.setList k v l).countP (fun e => decide (e.1 ≠ k ∧ q e.2))
      = l.countP (fun e => decide (e.1 ≠ k ∧ q e.2)) := by
  induction l with
  | nil => simp [GoMap.setList]
  | cons e r ih =>
    obtain ⟨k', v'⟩ := e
    by_cases hk : k' = k
    · simp [GoMap.setList, hk, List.countP_cons]
    · simp only [GoMap.setList, if_neg hk, List.countP_cons, ih]

theorem traitCountWithoutSynthetic_addAttribute (t : Token) (s : String) :
    traitCountWithoutSynthetic
        { t with
          metadata := t.metadata.AddAttribute (.string ⟨TraitCountAttributeName, s⟩) }
      = traitCountWithoutSynthetic t := by
  unfold traitCountWithoutSynthetic TokenMetadata.AddAttribute
  simp only [Attribute.Name, GoMap.set]
  rw [countP_others_setList (fun a : StringAttribute =>
    ¬ (NormalizeAttributeString a.value = "" ∨ NormalizeAttributeString a.value = "none"))]

/-- Where the token lacks the reserved name, or holds under it a value that `TraitCount`
counts, a second pass of `traitCountify` changes nothing. -/
theorem traitCountifyToken_idem (t : Token)
    (h : ∀ a, t.metadata.stringAttributes.get? TraitCountAttributeName = some a →
      ¬ (NormalizeAttributeString a.value = "" ∨ NormalizeAttributeString a.value = "none")) :
    traitCountifyToken (traitCountifyToken t) = traitCountifyToken t := by
  have h1 := traitCountifyToken_eq_of_counted t h
  have h2 : ∀ a, (traitCountifyToken t).metadata.stringAttributes.get?
      TraitCountAttributeName = some a →
      ¬ (NormalizeAttributeString a.value = "" ∨ NormalizeAttributeString a.value = "none") := by
    intro a ha
    rw [h1] at ha
    have hs : (t.metadata.AddAttribute
        (.string ⟨TraitCountAttributeName, FormatInt (traitCountWithoutSynthetic t)⟩)
        ).stringAttributes.get? TraitCountAttributeName
        = some ⟨TraitCountAttributeName, FormatInt (traitCountWithoutSynthetic t)⟩ :=
      GoMap.get?_set_self _ _ _
    rw [hs] at ha
    cases ha
    exact formatInt_counted _
  rw [traitCountifyToken_eq_of_counted _ h2, h1, traitCountWithoutSynthetic_addAttribute]
  simp only [TokenMetadata.AddAttribute, Attribute.Name, GoMap.set_set]

/-- Reconstruction is idempotent where every token lacks the reserved trait-count name, or
holds under it a value that is neither empty nor "none": the second collection has the
tokens and the frequency table of the first. -/
theorem newCollection_idempotent_of_counted (name name' : String) (tokens : List Token)
    (h : ∀ t ∈ tokens, ∀ a,
      t.metadata.stringAttributes.get? TraitCountAttributeName = some a →
      ¬ (NormalizeAttributeString a.value = "" ∨ NormalizeAttributeString a.value = "none")) :
    (NewCollection name' (NewCollection name tokens).Tokens).Tokens
        = (NewCollection name tokens).Tokens ∧
      (NewCollection name' (NewCollection name tokens).Tokens).attributesFrequencyCounts
        = (NewCollection name tokens).attributesFrequencyCounts := by
  have ht : (tokens.map traitCountifyToken).map traitCountifyToken
      = tokens.map traitCountifyToken := by
    rw [List.map_map]
    apply List.map_congr_left
    intro t ht
    exact traitCountifyToken_idem t (h t ht)
  constructor
  · exact ht
  · show deriveNormalizedAttrsFrequencyCount
        ((tokens.map traitCountifyToken).map traitCountifyToken)
      = deriveNormalizedAttrsFrequencyCount (tokens.map traitCountifyToken)
    rw [ht]

/-- C18 at a token that holds the value "none" under the reserved name before the first
collection is built: the first construction writes the trait count "0", the second
construction from the same tokens overwrites it with "1", and the pair of the reserved name
and "0" has frequency 1 in the first table and 0 in the second. -/
theorem C18_rebuild_changes_trait_count :
    (NewCollection "c" noneTraitCountTokens).Tokens.map
          (fun t => t.metadata.stringAttributes.get? TraitCountAttributeName)
        = [some ⟨TraitCountAttributeName, "0"⟩] ∧
      (NewCollection "c" (NewCollection "c" noneTraitCountTokens).Tokens).Tokens.map
          (fun t => t.metadata.stringAttributes.get? TraitCountAttributeName)
        = [some ⟨TraitCountAttributeName, "1"⟩] ∧
      (NewCollection "c" noneTraitCountTokens).TotalTokensWithAttributes
          ⟨TraitCountAttributeName, "0"⟩ = 1 ∧
      (NewCollection "c" (NewCollection "c" noneTraitCountTokens).Tokens
        ).TotalTokensWithAttributes ⟨TraitCountAttributeName, "0"⟩ = 0 := by
  decide

/-! ## The entropy of one attribute name -/

theorem sum_map_neg_add {α : Type} (f g : α → ℝ) (l : List α) :
    (l.map fun k => -(f k + g k)).sum = -((l.map f).sum + (l.map g).sum) := by
  induction l with
  | nil => simp
  | cons a r ih =>
    simp only [List.map_cons, List.sum_cons, ih]
    ring

/-- The entropy of a collection is the sum of the contributions of its attribute names. -/
theorem getCollectionEntropy_eq_sum_attributeEntropy (c : Collection) :
    InformationContentScoringHandler.GetCollectionEntropy (Real.logb 2) c none none
      = (c.attributesFrequencyCounts.keys.map (attributeEntropy (Real.logb 2) c)).sum := by
  rw [getCollectionEntropy_eq_spec (Real.logb 2) Real.logb_one, specEntropy_eq_sum_keys,
    ← sum_map_neg_add]
  rfl

theorem neg_mul_logb_le (c N : Int) (h1 : 1 ≤ c) (h2 : c ≤ N) :
    -(((c : Int) : ℝ) / ((N : Int) : ℝ) * Real.logb 2 (((c : Int) : ℝ) / ((N : Int) : ℝ)))
      ≤ ((c : Int) : ℝ) / ((N : Int) : ℝ) * Real.logb 2 ((N : Int) : ℝ) := by
  have hc : (1 : ℝ) ≤ ((c : Int) : ℝ) := by exact_mod_cast h1
  have hN : (0 : ℝ) < ((N : Int) : ℝ) := by exact_mod_cast (by omega : (0 : Int) < N)
  have hc0 : (0 : ℝ) < ((c : Int) : ℝ) := by linarith
  rw [Real.logb_div hc0.ne' hN.ne']
  have hl : 0 ≤ Real.logb 2 ((c : Int) : ℝ) := Real.logb_nonneg (by norm_num) hc
  have hp : 0 ≤ ((c : Int) : ℝ) / ((N : Int) : ℝ) := by positivity
  nlinarith [mul_nonneg hp hl]

theorem neg_sum_terms_le (l : List (String × Int)) (N : Int)
    (hl : ∀ e ∈ l, 1 ≤ e.2 ∧ e.2 ≤ N) :
    -(l.map fun kv => ((kv.2 : Int) : ℝ) / ((N : Int) : ℝ)
          * Real.logb 2 (((kv.2 : Int) : ℝ) / ((N : Int) : ℝ))).sum
      ≤ (((l.map Prod.snd).sum : Int) : ℝ) / ((N : Int) : ℝ) * Real.logb 2 ((N : Int) : ℝ) := by
  induction l with
  | nil => simp
  | cons a r ih =>
    have h1 := neg_mul_logb_le a.2 N (hl a (List.mem_cons_self _ _)).1
      (hl a (List.mem_cons_self _ _)).2
    have h2 := ih fun e he => hl e (List.mem_cons_of_mem _ he)
    simp only [List.map_cons, List.sum_cons]
    rw [Int.cast_add, add_div, add_mul]
    linarith

theorem neg_sum_terms_eq (l : List (String × Int)) (N : Int) (hl : ∀ e ∈ l, e.2 = 1) :
    -(l.map fun kv => ((kv.2 : Int) : ℝ) / ((N : Int) : ℝ)
          * Real.logb 2 (((kv.2 : Int) : ℝ) / ((N : Int) : ℝ))).sum
      = (((l.map Prod.snd).sum : Int) : ℝ) / ((N : Int) : ℝ) * Real.logb 2 ((N : Int) : ℝ) := by
  induction l with
  | nil => simp
  | cons a r ih =>
    have h2 := ih fun e he => hl e (List.mem_cons_of_mem _ he)
    simp only [List.map_cons, List.sum_cons]
    rw [Int.cast_add, add_div, add_mul, ← h2, hl a (List.mem_cons_self _ _), Int.cast_one, one_div,
      Real.logb_inv]
    ring

theorem length_le_sum_of_pos (l : List (String × Int)) (hl : ∀ e ∈ l, 1 ≤ e.2) :
    (l.length : Int) ≤ (l.map Prod.snd).sum := by
  induction l with
  | nil => simp
  | cons a r ih =>
    have h1 := hl a (List.mem_cons_self _ _)
    have h2 := ih fun e he => hl e (List.mem_cons_of_mem _ he)
    simp only [List.length_cons, List.map_cons, List.sum_cons]
    push_cast
    omega

/-- A list of positive counts that holds the count `N` and sums to at most `N` holds
nothing else. -/
theorem eq_singleton_of_sum_le (l : List (String × Int)) (v : String) (N : Int)
    (hmem : (v, N) ∈ l) (hl : ∀ e ∈ l, 1 ≤ e.2) (hsum : (l.map Prod.snd).sum ≤ N) :
    l = [(v, N)] := by
  obtain ⟨l1, l2, rfl⟩ := List.append_of_mem hmem
  have h1 := length_le_sum_of_pos l1 fun e he => hl e (List.mem_append_left _ he)
  have h2 := length_le_sum_of_pos l2 fun e he =>
    hl e (List.mem_append_right _ (List.mem_cons_of_mem _ he))
  simp only [List.map_append, List.map_cons, List.sum_append, List.sum_cons] at hsum
  have e1 : l1 = [] := List.length_eq_zero.1 (by omega)
  have e2 : l2 = [] := List.length_eq_zero.1 (by omega)
  rw [e1, e2]
  rfl

/-- C19: the entropy that `GetCollectionEntropy` returns for a collection (built by
`NewCollection`, the only constructor) is greater than or equal to 0, both when the two
attribute maps are nil and when they are the collection's own. -/
theorem C19_collection_entropy_nonneg (name : String) (tokens : List Token) :
    0 ≤ InformationContentScoringHandler.GetCollectionEntropy (Real.logb 2)
        (NewCollection name tokens) none none ∧
      0 ≤ InformationContentScoringHandler.GetCollectionEntropy (Real.logb 2)
        (NewCollection name tokens) (some (NewCollection name tokens).ExtractCollectionAttributes)
        (some (NewCollection name tokens).ExtractNullAttributes) :=
  ⟨getCollectionEntropy_nonneg name tokens, getCollectionEntropy_nonneg name tokens⟩

/-- The facts on one attribute name of the frequency table of a token list: its counts lie
between 1 and the number of tokens and sum to at most that number. -/
theorem table_name_facts (ts : List Token) (k : String)
    (hk : k ∈ (deriveNormalizedAttrsFrequencyCount ts).keys) :
    ∃ inner, (deriveNormalizedAttrsFrequencyCount ts).get? k = some inner ∧
      (∀ e ∈ inner.entries, 1 ≤ e.2 ∧ e.2 ≤ (ts.length : Int)) ∧
      tableSum (deriveNormalizedAttrsFrequencyCount ts) k = (inner.entries.map Prod.snd).sum ∧
      0 ≤ tableSum (deriveNormalizedAttrsFrequencyCount ts) k ∧
      tableSum (deriveNormalizedAttrsFrequencyCount ts) k ≤ (ts.length : Int) ∧
      (1 : Int) ≤ (ts.length : Int) := by
  obtain ⟨inner, hinner⟩ := (GoMap.mem_keys_iff _ k).1 hk
  have hmem := (GoMap.get?_eq_some_iff _ k inner).1 hinner
  refine ⟨inner, hinner, fun e he => table_entry_bounds ts k inner e.1 e.2 hmem he, ?_, ?_, ?_, ?_⟩
  · unfold tableSum
    rw [hinner]
    exact totalTraitCount_eq_sum inner
  · rw [tableSum_derive]
    exact Int.natCast_nonneg _
  · rw [tableSum_derive]
    exact_mod_cast List.countP_le_length _
  · obtain ⟨t, ht, -⟩ := (mem_keys_derive ts k).1 hk
    have := List.length_pos_of_mem ht
    omega

/-- C20: in a collection of `N` tokens the entropy is the sum of the contributions of the
attribute names of the frequency table, and for every such name the contribution is 0 when
every token holds one and the same value under the name, is at most `log2 N`, and is
`log2 N` when every token holds the name and no value is held by two tokens. -/
theorem C20_attribute_entropy_bounds (name : String) (tokens : List Token) :
    InformationContentScoringHandler.GetCollectionEntropy (Real.logb 2)
          (NewCollection name tokens) none none
        = ((NewCollection name tokens).attributesFrequencyCounts.keys.map
            (attributeEntropy (Real.logb 2) (NewCollection name tokens))).sum ∧
      ∀ k ∈ (NewCollection name tokens).attributesFrequencyCounts.keys,
        ((∃ v, ∀ t ∈ (NewCollection name tokens).Tokens, tokenHoldsValue t k v = true) →
          attributeEntropy (Real.logb 2) (NewCollection name tokens) k = 0) ∧
        attributeEntropy (Real.logb 2) (NewCollection name tokens) k
          ≤ Real.logb 2 (((NewCollection name tokens).TokenTotalSupply : Int) : ℝ) ∧
        ((∀ t ∈ (NewCollection name tokens).Tokens, t.HasAttribute k = true) →
          (∀ v, (NewCollection name tokens).Tokens.countP
            (fun t => tokenHoldsValue t k v) ≤ 1) →
          attributeEntropy (Real.logb 2) (NewCollection name tokens) k
            = Real.logb 2 (((NewCollection name tokens).TokenTotalSupply : Int) : ℝ)) := by
  refine ⟨getCollectionEntropy_eq_sum_attributeEntropy _, ?_⟩
  intro k hk
  -- the collection, by its token list
  generalize hts : traitCountify tokens = ts
  have hc : NewCollection name tokens
      = { name := name, tokens := ts,
          attributesFrequencyCounts := deriveNormalizedAttrsFrequencyCount ts } := by
    rw [← hts]
    rfl
  rw [hc] at hk ⊢
  simp only [Collection.Tokens, Collection.TokenTotalSupply, attributeEntropy] at hk ⊢
  obtain ⟨inner, hinner, hb, hsum, hS0, hSN, hN1⟩ := table_name_facts ts k hk
  have hNr : (0 : ℝ) < ((ts.length : Int) : ℝ) := by
    have h0 : (0 : Int) < (ts.length : Int) := by omega
    exact_mod_cast h0
  have hvs : valueSum
      (fun x : Int => ((x : Int) : ℝ) / ((ts.length : Int) : ℝ)
        * Real.logb 2 (((x : Int) : ℝ) / ((ts.length : Int) : ℝ)))
      (deriveNormalizedAttrsFrequencyCount ts) k
      = (inner.entries.map fun kv => ((kv.2 : Int) : ℝ) / ((ts.length : Int) : ℝ)
          * Real.logb 2 (((kv.2 : Int) : ℝ) / ((ts.length : Int) : ℝ))).sum := by
    unfold valueSum
    rw [hinner]
  rw [hvs]
  unfold nullTerm
  refine ⟨?_, ?_, ?_⟩
  · rintro ⟨v, hv⟩
    have hcount : ts.countP (fun t => tokenHoldsValue t k v) = ts.length :=
      List.countP_eq_length.2 hv
    have hget := tableGet?_derive ts k v
    rw [hcount, if_neg (by omega)] at hget
    unfold tableGet? at hget
    rw [hinner] at hget
    have hmem := (GoMap.get?_eq_some_iff inner v _).1 hget
    have hone := eq_singleton_of_sum_le inner.entries v _ hmem (fun e he => (hb e he).1)
      (by rw [← hsum]; exact hSN)
    have hS : tableSum (deriveNormalizedAttrsFrequencyCount ts) k = (ts.length : Int) := by
      rw [hsum, hone]
      simp
    rw [hone, hS, if_neg (by omega)]
    simp only [List.map_cons, List.map_nil, List.sum_cons, List.sum_nil, div_self hNr.ne',
      Real.logb_one, mul_zero, add_zero, neg_zero]
  · have h1 := neg_sum_terms_le inner.entries (ts.length : Int) hb
    rw [← hsum] at h1
    by_cases hm : (ts.length : Int) - tableSum (deriveNormalizedAttrsFrequencyCount ts) k > 0
    · rw [if_pos hm]
      have h2 := neg_mul_logb_le
        ((ts.length : Int) - tableSum (deriveNormalizedAttrsFrequencyCount ts) k)
        (ts.length : Int) (by omega) (by omega)
      have h3 : ((tableSum (deriveNormalizedAttrsFrequencyCount ts) k : Int) : ℝ)
            / ((ts.length : Int) : ℝ) * Real.logb 2 ((ts.length : Int) : ℝ)
          + ((((ts.length : Int) - tableSum (deriveNormalizedAttrsFrequencyCount ts) k : Int)
              : Int) : ℝ)
            / ((ts.length : Int) : ℝ) * Real.logb 2 ((ts.length : Int) : ℝ)
          = Real.logb 2 ((ts.length : Int) : ℝ) := by
        rw [Int.cast_sub, ← add_mul, ← add_div]
        have e : ((tableSum (deriveNormalizedAttrsFrequencyCount ts) k : Int) : ℝ)
            + (((ts.length : Int) : ℝ)
              - ((tableSum (deriveNormalizedAttrsFrequencyCount ts) k : Int) : ℝ))
            = ((ts.length : Int) : ℝ) := by ring
        rw [e, div_self hNr.ne', one_mul]
      linarith
    · rw [if_neg hm]
      have hS : tableSum (deriveNormalizedAttrsFrequencyCount ts) k = (ts.length : Int) := by
        omega
      rw [hS, div_self hNr.ne', one_mul] at h1
      linarith
  · intro hall hdistinct
    have hS : tableSum (deriveNormalizedAttrsFrequencyCount ts) k = (ts.length : Int) := by
      rw [tableSum_derive, List.countP_eq_length.2 hall]
    have hones : ∀ e ∈ inner.entries, e.2 = 1 := by
      intro e he
      have hget : tableGet? (deriveNormalizedAttrsFrequencyCount ts) k e.1 = some e.2 := by
        unfold tableGet?
        rw [hinner]
        exact (GoMap.get?_eq_some_iff inner e.1 e.2).2 he
      rw [tableGet?_derive] at hget
      have hd := hdistinct e.1
      have hlow := (hb e he).1
      split at hget
      · exact absurd hget (by simp)
      · simp only [Option.some.injEq] at hget
        omega
    have h1 := neg_sum_terms_eq inner.entries (ts.length : Int) hones
    rw [← hsum, hS, div_self hNr.ne', one_mul] at h1
    rw [hS, if_neg (by omega)]
    linarith

/-- A token holds a value under a key when the attribute stored under that key has the
value. -/
theorem tokenHoldsValue_eq_decide (u : Token) (k v : String) :
    tokenHoldsValue u k v
      = decide ((u.metadata.stringAttributes.get? k).map (fun a => a.value) = some v) := by
  unfold tokenHoldsValue
  cases u.metadata.stringAttributes.get? k <;> simp

/-- C20 at the collection of `distinctIdTokens` (3 tokens): the value `cat` of `kind` is held
by all tokens and `kind` adds 0 to the entropy; every token holds `id` and no two tokens the
same value, and `id` adds `log2 3`, the bound; the entropy is the sum over the three names of
the table. -/
theorem C20_attribute_entropy_bounds_witness :
    (NewCollection "ids" distinctIdTokens).TokenTotalSupply = 3 ∧
      (NewCollection "ids" distinctIdTokens).attributesFrequencyCounts.keys
        = ["id", "kind", TraitCountAttributeName] ∧
      (∃ v, ∀ t ∈ (NewCollection "ids" distinctIdTokens).Tokens,
        tokenHoldsValue t "kind" v = true) ∧
      attributeEntropy (Real.logb 2) (NewCollection "ids" distinctIdTokens) "kind" = 0 ∧
      (∀ t ∈ (NewCollection "ids" distinctIdTokens).Tokens, t.HasAttribute "id" = true) ∧
      (∀ v, (NewCollection "ids" distinctIdTokens).Tokens.countP
        (fun t => tokenHoldsValue t "id" v) ≤ 1) ∧
      attributeEntropy (Real.logb 2) (NewCollection "ids" distinctIdTokens) "id"
        = Real.logb 2 ((3 : Int) : ℝ) ∧
      attributeEntropy (Real.logb 2) (NewCollection "ids" distinctIdTokens)
          TraitCountAttributeName
        ≤ Real.logb 2 ((3 : Int) : ℝ) ∧
      InformationContentScoringHandler.GetCollectionEntropy (Real.logb 2)
          (NewCollection "ids" distinctIdTokens) none none
        = (["id", "kind", TraitCountAttributeName].map
            (attributeEntropy (Real.logb 2) (NewCollection "ids" distinctIdTokens))).sum := by
  have hN : (NewCollection "ids" distinctIdTokens).TokenTotalSupply = 3 := by decide
  have hkeys : (NewCollection "ids" distinctIdTokens).attributesFrequencyCounts.keys
      = ["id", "kind", TraitCountAttributeName] := by decide
  have hkind : ∃ v, ∀ t ∈ (NewCollection "ids" distinctIdTokens).Tokens,
      tokenHoldsValue t "kind" v = true := ⟨"cat", by decide⟩
  have hall : ∀ t ∈ (NewCollection "ids" distinctIdTokens).Tokens,
      t.HasAttribute "id" = true := by decide
  have hvals : (NewCollection "ids" distinctIdTokens).Tokens.map
      (fun t => (t.metadata.stringAttributes.get? "id").map (fun a => a.value))
      = [some "1", some "2", some "3"] := by decide
  have hdist : ∀ v, (NewCollection "ids" distinctIdTokens).Tokens.countP
      (fun t => tokenHoldsValue t "id" v) ≤ 1 := by
    intro v
    have h : (NewCollection "ids" distinctIdTokens).Tokens.countP
        (fun t => tokenHoldsValue t "id" v)
        = ((NewCollection "ids" distinctIdTokens).Tokens.map
            (fun t => (t.metadata.stringAttributes.get? "id").map (fun a => a.value))).countP
          (fun o => decide (o = some v)) := by
      rw [List.countP_map]
      congr 1
      funext t
      exact tokenHoldsValue_eq_decide t "id" v
    rw [h, hvals]
    have h12 : ("1" : String) ≠ "2" := by decide
    have h13 : ("1" : String) ≠ "3" := by decide
    have h23 : ("2" : String) ≠ "3" := by decide
    simp only [List.countP_cons, List.countP_nil, Option.some.injEq, decide_eq_true_eq]
    by_cases e1 : "1" = v
    · subst e1
      simp [h12.symm, h13.symm]
    · by_cases e2 : "2" = v
      · subst e2
        simp [h12, h23.symm]
      · by_cases e3 : "3" = v
        · subst e3
          simp [h13, h23]
        · simp [e1, e2, e3]
  have hC := C20_attribute_entropy_bounds "ids" distinctIdTokens
  rw [hkeys] at hC
  rw [hN] at hC
  exact ⟨hN, hkeys, hkind, ((hC.2 "kind" (by decide)).1 hkind), hall, hdist,
    (hC.2 "id" (by decide)).2.2 hall hdist,
    (hC.2 TraitCountAttributeName (by decide)).2.1, hC.1⟩

/-! ## Scoring a valid collection -/

theorem findSome?_validationError_of_valid (s : Scorer F) (collections : List Collection)
    (h : ∀ c ∈ collections, s.ValidateCollection c = .ok ()) :
    collections.findSome? (validationError? s) = none := by
  rw [List.findSome?_eq_none_iff]
  intro c hc
  unfold validationError?
  rw [h c hc]

/-! ## Tokens and their metadata -/

/-- C25: `TraitCount` is the number of string attributes of the token whose normalized value
is neither the empty string nor "none", plus the number of its numeric attributes, plus the
number of its date attributes. -/
theorem C25_traitCount (token : Token) :
    token.TraitCount
      = ((token.metadata.stringAttributes.entries.countP fun e =>
            decide (¬ (NormalizeAttributeString e.2.value = ""
              ∨ NormalizeAttributeString e.2.value = "none")) : Nat) : Int)
        + (token.metadata.numericAttributes.entries.length : Int)
        + (token.metadata.dateAttributes.entries.length : Int) := by
  unfold Token.TraitCount GoMap.len
  rw [getStringAttributesCount_eq_countP]

/-- C29: `AddAttribute` with a string attribute sets the entry of the attribute's name in
the string map to that attribute, whatever the entry was, and changes no other entry of the
string map and nothing in the numeric and date maps; with a numeric or a date attribute it
leaves the metadata as it is. -/
theorem C29_addAttribute_frame (md : TokenMetadata) :
    (∀ a : StringAttribute,
      (md.AddAttribute (.string a)).stringAttributes.get? a.name = some a ∧
        (∀ k, k ≠ a.name →
          (md.AddAttribute (.string a)).stringAttributes.get? k = md.stringAttributes.get? k) ∧
        (md.AddAttribute (.string a)).numericAttributes = md.numericAttributes ∧
        (md.AddAttribute (.string a)).dateAttributes = md.dateAttributes) ∧
      (∀ a : NumericAttribute, md.AddAttribute (.numeric a) = md) ∧
      (∀ a : DateAttribute, md.AddAttribute (.date a) = md) := by
  refine ⟨fun a => ⟨?_, ?_, rfl, rfl⟩, fun _ => rfl, fun _ => rfl⟩
  · exact GoMap.get?_set_self _ _ _
  · intro k hk
    exact GoMap.get?_set_ne _ _ _ _ hk

/-- C30: `AttributeExists` reports exactly the keys of the string-attribute map. The
metadata of the raw mapping `level: 3` holds `level` as a numeric attribute, and
`AttributeExists` reports that name as not existing. -/
theorem C30_attributeExists_string_only (md : TokenMetadata) (name : String) :
    (md.AttributeExists name = true ↔ name ∈ md.stringAttributes.keys) ∧
      (mustMetadata (NewTokenMetadataFromAttributes
          (GoMap.ofList [("level", RawValue.int 3)]))).numericAttributes.keys = ["level"] ∧
      (mustMetadata (NewTokenMetadataFromAttributes
          (GoMap.ofList [("level", RawValue.int 3)]))).AttributeExists "level" = false := by
  refine ⟨?_, by decide, by decide⟩
  unfold TokenMetadata.AttributeExists
  rw [GoMap.mem_keys_iff, Option.isSome_iff_exists]

/-! ## Normalization -/

theorem lowerCaseRanges_checked : lowerCaseRanges.all caseRangeChecked = true := by decide!

theorem isSpaceRune_iff (c : Char) : isSpaceRune c = true ↔ c.toNat ∈ spaceCodes := by
  unfold isSpaceRune spaceCodes
  generalize c.toNat = n
  simp only [Bool.or_eq_true, List.contains_cons, List.contains_nil, Bool.and_eq_true,
    decide_eq_true_eq, beq_iff_eq, Bool.or_false, List.mem_cons, List.mem_singleton,
    List.not_mem_nil, or_false]
  omega

theorem toNat_ofNat_of_valid (m : Nat) (h : m.isValidChar) : (Char.ofNat m).toNat = m := by
  unfold Char.ofNat
  rw [dif_pos h]
  rfl

/-- Lower-casing a code point either leaves it alone, or maps a code point that is no white
space to a rune that is no white space and that lower-casing leaves alone. -/
theorem toLowerCode_spec (n : Nat) :
    toLowerCode n = n ∨
      ((toLowerCode n).isValidChar ∧ toLowerCode (toLowerCode n) = toLowerCode n ∧
        toLowerCode n ∉ spaceCodes ∧ n ∉ spaceCodes) := by
  by_cases h : n ≤ 127
  · by_cases h2 : 65 ≤ n ∧ n ≤ 90
    · right
      obtain ⟨ha, hb⟩ := h2
      interval_cases n <;> decide
    · left
      unfold toLowerCode
      rw [if_pos h, if_neg h2]
  · cases hf : lowerCaseRanges.find? fun cr =>
        decide (cr.1 ≤ n) && decide (n ≤ cr.2.1) && decide ((n - cr.1) % cr.2.2.1 = 0) with
    | none =>
      left
      unfold toLowerCode
      rw [if_neg h, hf]
    | some cr =>
      right
      have hval : toLowerCode n = cr.2.2.2 + (n - cr.1) := by
        unfold toLowerCode
        rw [if_neg h, hf]
      have hmem := List.mem_of_find?_eq_some hf
      have hp := List.find?_some hf
      simp only [Bool.and_eq_true, decide_eq_true_eq] at hp
      obtain ⟨⟨h1, h2⟩, h3⟩ := hp
      have hc := List.all_eq_true.1 lowerCaseRanges_checked cr hmem
      unfold caseRangeChecked at hc
      simp only [Bool.and_eq_true, Bool.or_eq_true, decide_eq_true_eq, List.all_eq_true] at hc
      obtain ⟨⟨hvalid, hspace⟩, himg⟩ := hc
      rw [hval]
      obtain ⟨lo, hi, st, t⟩ := cr
      simp only at h1 h2 h3 hvalid hspace himg ⊢
      refine ⟨?_, ?_, ?_, ?_⟩
      · unfold Nat.isValidChar
        omega
      · by_cases h127 : t + (hi - lo) ≤ 127
        · rw [if_pos h127] at himg
          simp only [Bool.or_eq_true, decide_eq_true_eq] at himg
          unfold toLowerCode
          rw [if_pos (by omega), if_neg (by omega)]
        · rw [if_neg h127] at himg
          simp only [Bool.and_eq_true, decide_eq_true_eq, List.all_eq_true] at himg
          obtain ⟨ht, hall⟩ := himg
          have hnone : (lowerCaseRanges.find? fun cq =>
              decide (cq.1 ≤ t + (n - lo)) && decide (t + (n - lo) ≤ cq.2.1)
                && decide ((t + (n - lo) - cq.1) % cq.2.2.1 = 0)) = none := by
            rw [List.find?_eq_none]
            intro cq hcq
            have hq := hall cq hcq
            unfold imageOutside at hq
            simp only [Bool.and_eq_true, Bool.or_eq_true, decide_eq_true_eq] at hq
            obtain ⟨qlo, qhi, qst, qt⟩ := cq
            simp only at hq ⊢
            simp only [Bool.and_eq_true, decide_eq_true_eq, not_and]
            intro ha hb
            rcases hq with (hq | hq) | ⟨⟨⟨hq1, hq2⟩, hq3⟩, hq4⟩
            · omega
            · omega
            · subst hq1
              rcases hq4 with hq4 | hq4
              · omega
              · subst hq4
                omega
          unfold toLowerCode
          rw [if_neg (by omega), hnone]
      · intro hs
        have := (hspace _ hs).1
        omega
      · intro hs
        have := (hspace _ hs).2
        omega

theorem toLowerRune_facts (c : Char) :
    toLowerRune (toLowerRune c) = toLowerRune c
      ∧ isSpaceRune (toLowerRune c) = isSpaceRune c := by
  unfold toLowerRune
  rcases toLowerCode_spec c.toNat with h | ⟨hv, hfix, hsp, hs⟩
  · rw [h, Char.ofNat_toNat, h, Char.ofNat_toNat]
    exact ⟨rfl, rfl⟩
  · rw [toNat_ofNat_of_valid _ hv, hfix]
    refine ⟨rfl, ?_⟩
    have h1 : isSpaceRune (Char.ofNat (toLowerCode c.toNat)) = false := by
      rw [← Bool.not_eq_true, isSpaceRune_iff, toNat_ofNat_of_valid _ hv]
      exact hsp
    have h2 : isSpaceRune c = false := by
      rw [← Bool.not_eq_true, isSpaceRune_iff]
      exact hs
    rw [h1, h2]

/-- Trimming a trimmed list changes nothing. -/
theorem trimSpace_idem (l : List Char) : trimSpace (trimSpace l) = trimSpace l := by
  unfold trimSpace
  have h1 : List.dropWhile isSpaceRune
      (List.dropWhile isSpaceRune (l.dropWhile isSpaceRune).reverse).reverse
      = (List.dropWhile isSpaceRune (l.dropWhile isSpaceRune).reverse).reverse := by
    rw [List.dropWhile_eq_self_iff]
    intro hl
    -- the list is a prefix of `l.dropWhile isSpaceRune`, whose head is not a space
    have hpre : (List.dropWhile isSpaceRune (l.dropWhile isSpaceRune).reverse).reverse
        <+: l.dropWhile isSpaceRune := by
      rw [← List.reverse_reverse (l.dropWhile isSpaceRune), List.reverse_prefix,
        List.reverse_reverse]
      exact List.dropWhile_suffix _
    obtain ⟨t, ht⟩ := hpre
    generalize hB : (List.dropWhile isSpaceRune (l.dropWhile isSpaceRune).reverse).reverse
      = B at hl ht ⊢
    cases B with
    | nil => simp at hl
    | cons x r =>
      have hne : l.dropWhile isSpaceRune ≠ [] := by
        rw [← ht]
        simp
      have hh := List.head_dropWhile_not isSpaceRune l hne
      have hx : (l.dropWhile isSpaceRune).head hne = x := by
        simp only [← ht, List.cons_append, List.head_cons]
      rw [hx] at hh
      simp [hh]
  rw [h1, List.reverse_reverse, List.dropWhile_idempotent]

/-- Trimming commutes with a rune-wise map that keeps white space white space and
everything else something else. -/
theorem trimSpace_map (f : Char → Char) (hs : ∀ c, isSpaceRune (f c) = isSpaceRune c)
    (l : List Char) : trimSpace (l.map f) = (trimSpace l).map f := by
  have hcomp : (isSpaceRune ∘ f) = isSpaceRune := funext hs
  unfold trimSpace
  rw [List.dropWhile_map, hcomp, ← List.map_reverse, List.dropWhile_map, hcomp,
    List.map_reverse]

/-- Normalization with any rune-wise lower-casing `f` that is idempotent and keeps white
space apart: normalizing twice is normalizing once. -/
theorem trimSpace_map_idem (f : Char → Char) (hf : ∀ c, f (f c) = f c)
    (hs : ∀ c, isSpaceRune (f c) = isSpaceRune c) (l : List Char) :
    trimSpace ((trimSpace (l.map f)).map f) = trimSpace (l.map f) := by
  rw [trimSpace_map f hs l, List.map_map]
  have hff : f ∘ f = f := funext hf
  rw [hff, ← trimSpace_map f hs, trimSpace_idem]

/-- Normalizing a normalized string changes nothing. -/
theorem normalizeAttributeString_idem (s : String) :
    NormalizeAttributeString (NormalizeAttributeString s) = NormalizeAttributeString s := by
  unfold NormalizeAttributeString
  simp only []
  rw [trimSpace_map_idem toLowerRune (fun c => (toLowerRune_facts c).1)
    (fun c => (toLowerRune_facts c).2)]

/-- Normalization lowers the letters outside ASCII as well, and trims white space outside
ASCII (here a no-break space). -/
theorem normalizeAttributeString_examples :
    NormalizeAttributeString " ÉCOLE " = "école" ∧
      NormalizeAttributeString "\u00a0Straße ΑΒΓ\t" = "straße αβγ" ∧
      NormalizeAttributeString "İK" = "ik" := by decide

/-- C28: normalization is idempotent, and `NewStringAttribute` applied to the name and the
value of an attribute that `NewStringAttribute` made returns that attribute. -/
theorem C28_normalize_idempotent :
    (∀ s : String,
      NormalizeAttributeString (NormalizeAttributeString s) = NormalizeAttributeString s) ∧
      ∀ name value : String,
        NewStringAttribute (NewStringAttribute name value).name
            (NewStringAttribute name value).value
          = NewStringAttribute name value := by
  refine ⟨normalizeAttributeString_idem, fun name value => ?_⟩
  unfold NewStringAttribute
  simp only [normalizeAttributeString_idem]

/-! ## The metadata of a raw attribute mapping -/

/-- One iteration of the loop of `NewTokenMetadataFromAttributes`: it fails exactly on a
value of another type, and otherwise stores the entry under its normalized name, in the
map of its kind, and leaves every other entry of the three maps as it is. -/
theorem addRawAttribute_spec (md : TokenMetadata) (k : String) (v : RawValue) :
    (v.kind = 3 → ∃ err, addRawAttribute md k v = .error err) ∧
      (v.kind ≠ 3 → ∃ md1, addRawAttribute md k v = .ok md1 ∧
        storesRawEntry md1 k v ∧
        (∀ n, n ≠ NormalizeAttributeString k →
          md1.stringAttributes.get? n = md.stringAttributes.get? n ∧
          md1.numericAttributes.get? n = md.numericAttributes.get? n ∧
          md1.dateAttributes.get? n = md.dateAttributes.get? n) ∧
        (∀ n, (n ∈ md1.stringAttributes.keys ↔
            n ∈ md.stringAttributes.keys ∨ (n = NormalizeAttributeString k ∧ v.kind = 0)) ∧
          (n ∈ md1.numericAttributes.keys ↔
            n ∈ md.numericAttributes.keys ∨ (n = NormalizeAttributeString k ∧ v.kind = 1)) ∧
          (n ∈ md1.dateAttributes.keys ↔
            n ∈ md.dateAttributes.keys ∨ (n = NormalizeAttributeString k ∧ v.kind = 2)))) := by
  cases v with
  | string s =>
    refine ⟨fun h => by simp [RawValue.kind] at h, fun _ => ⟨_, rfl, ?_, ?_, ?_⟩⟩
    · show GoMap.get? (GoMap.set _ _ _) _ = _
      rw [GoMap.get?_set_self]
      simp only [NewStringAttribute, normalizeAttributeString_idem]
    · intro n hn
      exact ⟨GoMap.get?_set_ne _ _ _ _ hn, rfl, rfl⟩
    · intro n
      refine ⟨?_, ?_, ?_⟩
      · show n ∈ (GoMap.set _ _ _).keys ↔ _
        rw [GoMap.mem_keys_set]
        simp [RawValue.kind, or_comm]
      · simp [RawValue.kind]
      · simp [RawValue.kind]
  | float64 x =>
    refine ⟨fun h => by simp [RawValue.kind] at h, fun _ => ⟨_, rfl, ?_, ?_, ?_⟩⟩
    · show GoMap.get? (GoMap.set _ _ _) _ = _
      rw [GoMap.get?_set_self]
      simp only [NewNumericAttribute, normalizeAttributeString_idem]
    · intro n hn
      exact ⟨rfl, GoMap.get?_set_ne _ _ _ _ hn, rfl⟩
    · intro n
      refine ⟨?_, ?_, ?_⟩
      · simp [RawValue.kind]
      · show n ∈ (GoMap.set _ _ _).keys ↔ _
        rw [GoMap.mem_keys_set]
        simp [RawValue.kind, or_comm]
      · simp [RawValue.kind]
  | int64 x =>
    refine ⟨fun h => by simp [RawValue.kind] at h, fun _ => ⟨_, rfl, ?_, ?_, ?_⟩⟩
    · show GoMap.get? (GoMap.set _ _ _) _ = _
      rw [GoMap.get?_set_self]
      simp only [NewNumericAttribute, normalizeAttributeString_idem]
    · intro n hn
      exact ⟨rfl, GoMap.get?_set_ne _ _ _ _ hn, rfl⟩
    · intro n
      refine ⟨?_, ?_, ?_⟩
      · simp [RawValue.kind]
      · show n ∈ (GoMap.set _ _ _).keys ↔ _
        rw [GoMap.mem_keys_set]
        simp [RawValue.kind, or_comm]
      · simp [RawValue.kind]
  | int x =>
    refine ⟨fun h => by simp [RawValue.kind] at h, fun _ => ⟨_, rfl, ?_, ?_, ?_⟩⟩
    · show GoMap.get? (GoMap.set _ _ _) _ = _
      rw [GoMap.get?_set_self]
      simp only [NewNumericAttribute, normalizeAttributeString_idem]
    · intro n hn
      exact ⟨rfl, GoMap.get?_set_ne _ _ _ _ hn, rfl⟩
    · intro n
      refine ⟨?_, ?_, ?_⟩
      · simp [RawValue.kind]
      · show n ∈ (GoMap.set _ _ _).keys ↔ _
        rw [GoMap.mem_keys_set]
        simp [RawValue.kind, or_comm]
      · simp [RawValue.kind]
  | time u =>
    refine ⟨fun h => by simp [RawValue.kind] at h, fun _ => ⟨_, rfl, ?_, ?_, ?_⟩⟩
    · show GoMap.get? (GoMap.set _ _ _) _ = _
      rw [GoMap.get?_set_self]
      simp only [NewDateAttribute, normalizeAttributeString_idem]
    · intro n hn
      exact ⟨rfl, rfl, GoMap.get?_set_ne _ _ _ _ hn⟩
    · intro n
      refine ⟨?_, ?_, ?_⟩
      · simp [RawValue.kind]
      · simp [RawValue.kind]
      · show n ∈ (GoMap.set _ _ _).keys ↔ _
        rw [GoMap.mem_keys_set]
        simp [RawValue.kind, or_comm]
  | other tn =>
    exact ⟨fun _ => ⟨_, rfl⟩, fun h => absurd rfl h⟩

theorem addRawAttributes_cons_ok (md md1 : TokenMetadata) (k : String) (v : RawValue)
    (rest : List (String × RawValue)) (h : addRawAttribute md k v = .ok md1) :
    addRawAttributes md ((k, v) :: rest) = addRawAttributes md1 rest := by
  simp only [addRawAttributes, h]

theorem addRawAttributes_cons_error (md : TokenMetadata) (k : String) (v : RawValue)
    (rest : List (String × RawValue)) (err : String) (h : addRawAttribute md k v = .error err) :
    addRawAttributes md ((k, v) :: rest) = .error err := by
  simp only [addRawAttributes, h]

/-- The loop fails exactly when some value is of another type. -/
theorem addRawAttributes_error_iff (l : List (String × RawValue)) :
    ∀ md : TokenMetadata,
      (∃ err, addRawAttributes md l = .error err) ↔ ∃ e ∈ l, e.2.kind = 3 := by
  induction l with
  | nil =>
    intro md
    simp [addRawAttributes]
  | cons e rest ih =>
    intro md
    obtain ⟨k, v⟩ := e
    by_cases hv : v.kind = 3
    · obtain ⟨err, herr⟩ := (addRawAttribute_spec md k v).1 hv
      rw [addRawAttributes_cons_error md k v rest err herr]
      exact ⟨fun _ => ⟨(k, v), List.mem_cons_self _ _, hv⟩, fun _ => ⟨err, rfl⟩⟩
    · obtain ⟨md1, hmd1, -⟩ := (addRawAttribute_spec md k v).2 hv
      rw [addRawAttributes_cons_ok md md1 k v rest hmd1, ih md1]
      constructor
      · rintro ⟨e, he, hk⟩
        exact ⟨e, List.mem_cons_of_mem _ he, hk⟩
      · rintro ⟨e, he, hk⟩
        rcases List.mem_cons.1 he with rfl | he
        · exact absurd hk hv
        · exact ⟨e, he, hk⟩

/-- The loop leaves the entries of the names that it does not meet. -/
theorem addRawAttributes_frame (l : List (String × RawValue)) :
    ∀ md md' : TokenMetadata, addRawAttributes md l = .ok md' →
      ∀ n, (∀ e ∈ l, NormalizeAttributeString e.1 ≠ n) →
        md'.stringAttributes.get? n = md.stringAttributes.get? n ∧
        md'.numericAttributes.get? n = md.numericAttributes.get? n ∧
        md'.dateAttributes.get? n = md.dateAttributes.get? n := by
  induction l with
  | nil =>
    intro md md' h n _
    simp only [addRawAttributes, Except.ok.injEq] at h
    subst h
    exact ⟨rfl, rfl, rfl⟩
  | cons e rest ih =>
    intro md md' h n hn
    obtain ⟨k, v⟩ := e
    by_cases hv : v.kind = 3
    · obtain ⟨err, herr⟩ := (addRawAttribute_spec md k v).1 hv
      rw [addRawAttributes_cons_error md k v rest err herr] at h
      cases h
    · obtain ⟨md1, hmd1, -, hframe, -⟩ := (addRawAttribute_spec md k v).2 hv
      rw [addRawAttributes_cons_ok md md1 k v rest hmd1] at h
      have h1 := ih md1 md' h n fun e he => hn e (List.mem_cons_of_mem _ he)
      have h2 := hframe n (fun hx => hn (k, v) (List.mem_cons_self _ _) hx.symm)
      exact ⟨h1.1.trans h2.1, h1.2.1.trans h2.2.1, h1.2.2.trans h2.2.2⟩

theorem storesRawEntry_congr (md md' : TokenMetadata) (k : String) (v : RawValue)
    (h : md'.stringAttributes.get? (NormalizeAttributeString k)
          = md.stringAttributes.get? (NormalizeAttributeString k) ∧
        md'.numericAttributes.get? (NormalizeAttributeString k)
          = md.numericAttributes.get? (NormalizeAttributeString k) ∧
        md'.dateAttributes.get? (NormalizeAttributeString k)
          = md.dateAttributes.get? (NormalizeAttributeString k))
    (hs : storesRawEntry md k v) : storesRawEntry md' k v := by
  cases v <;> simp only [storesRawEntry] at hs ⊢
  · rw [h.1]; exact hs
  · rw [h.2.1]; exact hs
  · rw [h.2.1]; exact hs
  · rw [h.2.1]; exact hs
  · rw [h.2.2]; exact hs

/-- The loop stores every entry whose normalized name no other key of the list shares. -/
theorem addRawAttributes_stores (l : List (String × RawValue)) :
    ∀ md md' : TokenMetadata, (l.map Prod.fst).Nodup → addRawAttributes md l = .ok md' →
      ∀ e ∈ l, (∀ e' ∈ l, NormalizeAttributeString e'.1 = NormalizeAttributeString e.1 →
        e'.1 = e.1) → storesRawEntry md' e.1 e.2 := by
  induction l with
  | nil => intro md md' _ _ e he; cases he
  | cons x rest ih =>
    intro md md' hnd h e he hone
    obtain ⟨k, v⟩ := x
    rw [List.map_cons, List.nodup_cons] at hnd
    by_cases hv : v.kind = 3
    · obtain ⟨err, herr⟩ := (addRawAttribute_spec md k v).1 hv
      rw [addRawAttributes_cons_error md k v rest err herr] at h
      cases h
    · obtain ⟨md1, hmd1, hstore, -, -⟩ := (addRawAttribute_spec md k v).2 hv
      rw [addRawAttributes_cons_ok md md1 k v rest hmd1] at h
      rcases List.mem_cons.1 he with rfl | he
      · refine storesRawEntry_congr md1 md' k v
          (addRawAttributes_frame rest md1 md' h _ ?_) hstore
        intro e' he' hx
        have := hone e' (List.mem_cons_of_mem _ he') hx
        exact hnd.1 (List.mem_map.2 ⟨e', he', this⟩)
      · exact ih md1 md' hnd.2 h e he fun e' he' hx =>
          hone e' (List.mem_cons_of_mem _ he') hx

/-- The keys of the three maps after the loop. -/
theorem addRawAttributes_keys (l : List (String × RawValue)) :
    ∀ md md' : TokenMetadata, addRawAttributes md l = .ok md' →
      ∀ n, (n ∈ md'.stringAttributes.keys ↔ n ∈ md.stringAttributes.keys
            ∨ ∃ e ∈ l, NormalizeAttributeString e.1 = n ∧ e.2.kind = 0) ∧
        (n ∈ md'.numericAttributes.keys ↔ n ∈ md.numericAttributes.keys
            ∨ ∃ e ∈ l, NormalizeAttributeString e.1 = n ∧ e.2.kind = 1) ∧
        (n ∈ md'.dateAttributes.keys ↔ n ∈ md.dateAttributes.keys
            ∨ ∃ e ∈ l, NormalizeAttributeString e.1 = n ∧ e.2.kind = 2) := by
  induction l with
  | nil =>
    intro md md' h n
    simp only [addRawAttributes, Except.ok.injEq] at h
    subst h
    simp
  | cons x rest ih =>
    intro md md' h n
    obtain ⟨k, v⟩ := x
    by_cases hv : v.kind = 3
    · obtain ⟨err, herr⟩ := (addRawAttribute_spec md k v).1 hv
      rw [addRawAttributes_cons_error md k v rest err herr] at h
      cases h
    · obtain ⟨md1, hmd1, -, -, hkeys⟩ := (addRawAttribute_spec md k v).2 hv
      rw [addRawAttributes_cons_ok md md1 k v rest hmd1] at h
      obtain ⟨h1, h2, h3⟩ := ih md1 md' h n
      obtain ⟨k1, k2, k3⟩ := hkeys n
      rw [h1, h2, h3, k1, k2, k3]
      have e : ∀ m : String, n = m ↔ m = n := fun m => eq_comm
      simp only [List.mem_cons, exists_eq_or_imp, e]
      exact ⟨or_assoc, or_assoc, or_assoc⟩

theorem rawValue_kind_eq_three (v : RawValue) :
    v.kind = 3 ↔ ∃ typeName, v = .other typeName := by
  cases v <;> simp [RawValue.kind]

/-- One iteration of the loop writes to the map of the kind of its value only. -/
theorem addRawAttribute_other_kinds (md md1 : TokenMetadata) (k : String) (v : RawValue)
    (h : addRawAttribute md k v = .ok md1) :
    (v.kind ≠ 0 → md1.stringAttributes = md.stringAttributes) ∧
      (v.kind ≠ 1 → md1.numericAttributes = md.numericAttributes) ∧
      (v.kind ≠ 2 → md1.dateAttributes = md.dateAttributes) := by
  cases v <;> simp only [addRawAttribute, Except.ok.injEq, reduceCtorEq] at h <;> subst h <;>
    simp [RawValue.kind]

/-- Whether a metadata value stores a raw entry depends on the map of the kind of the value
only. -/
theorem storesRawEntry_of_kind (md md' : TokenMetadata) (k : String) (v : RawValue)
    (h0 : v.kind = 0 → md'.stringAttributes = md.stringAttributes)
    (h1 : v.kind = 1 → md'.numericAttributes = md.numericAttributes)
    (h2 : v.kind = 2 → md'.dateAttributes = md.dateAttributes)
    (hs : storesRawEntry md k v) : storesRawEntry md' k v := by
  cases v <;> simp only [storesRawEntry] at hs ⊢
  · rw [h0 rfl]; exact hs
  · rw [h1 rfl]; exact hs
  · rw [h1 rfl]; exact hs
  · rw [h1 rfl]; exact hs
  · rw [h2 rfl]; exact hs

/-- The loop keeps a stored entry as long as it meets no entry of the same kind with the
same normalized name. -/
theorem addRawAttributes_keeps (k : String) (v : RawValue) (l : List (String × RawValue)) :
    ∀ md md' : TokenMetadata, addRawAttributes md l = .ok md' →
      (∀ e ∈ l, NormalizeAttributeString e.1 = NormalizeAttributeString k →
        e.2.kind ≠ v.kind) →
      storesRawEntry md k v → storesRawEntry md' k v := by
  induction l with
  | nil =>
    intro md md' h _ hs
    simp only [addRawAttributes, Except.ok.injEq] at h
    subst h
    exact hs
  | cons x rest ih =>
    intro md md' h hl hs
    obtain ⟨k', v'⟩ := x
    by_cases hv : v'.kind = 3
    · obtain ⟨err, herr⟩ := (addRawAttribute_spec md k' v').1 hv
      rw [addRawAttributes_cons_error md k' v' rest err herr] at h
      cases h
    · obtain ⟨md1, hmd1, -, hframe, -⟩ := (addRawAttribute_spec md k' v').2 hv
      rw [addRawAttributes_cons_ok md md1 k' v' rest hmd1] at h
      refine ih md1 md' h (fun e he => hl e (List.mem_cons_of_mem _ he)) ?_
      by_cases hn : NormalizeAttributeString k' = NormalizeAttributeString k
      · have hk := hl (k', v') (List.mem_cons_self _ _) hn
        obtain ⟨o0, o1, o2⟩ := addRawAttribute_other_kinds md md1 k' v' hmd1
        exact storesRawEntry_of_kind md md1 k v
          (fun h0 => o0 (fun h' => hk (h'.trans h0.symm)))
          (fun h1 => o1 (fun h' => hk (h'.trans h1.symm)))
          (fun h2 => o2 (fun h' => hk (h'.trans h2.symm))) hs
      · exact storesRawEntry_congr md md1 k v (hframe _ (fun hx => hn hx.symm)) hs

/-- The loop stores every entry after which no entry of the same kind with the same
normalized name is visited. -/
theorem addRawAttributes_stores_last (pre : List (String × RawValue)) :
    ∀ (md md' : TokenMetadata) (e : String × RawValue) (post : List (String × RawValue)),
      addRawAttributes md (pre ++ e :: post) = .ok md' →
      (∀ e' ∈ post, NormalizeAttributeString e'.1 = NormalizeAttributeString e.1 →
        e'.2.kind ≠ e.2.kind) →
      storesRawEntry md' e.1 e.2 := by
  induction pre with
  | nil =>
    intro md md' e post h hpost
    obtain ⟨k, v⟩ := e
    rw [List.nil_append] at h
    by_cases hv : v.kind = 3
    · obtain ⟨err, herr⟩ := (addRawAttribute_spec md k v).1 hv
      rw [addRawAttributes_cons_error md k v post err herr] at h
      cases h
    · obtain ⟨md1, hmd1, hstore, -, -⟩ := (addRawAttribute_spec md k v).2 hv
      rw [addRawAttributes_cons_ok md md1 k v post hmd1] at h
      exact addRawAttributes_keeps k v post md1 md' h hpost hstore
  | cons x rest ih =>
    intro md md' e post h hpost
    obtain ⟨k', v'⟩ := x
    rw [List.cons_append] at h
    by_cases hv : v'.kind = 3
    · obtain ⟨err, herr⟩ := (addRawAttribute_spec md k' v').1 hv
      rw [addRawAttributes_cons_error md k' v' _ err herr] at h
      cases h
    · obtain ⟨md1, hmd1, -⟩ := (addRawAttribute_spec md k' v').2 hv
      rw [addRawAttributes_cons_ok md md1 k' v' _ hmd1] at h
      exact ih md1 md' e post h hpost

/-- C26 (as amended): `NewTokenMetadataFromAttributes` fails, returning an error and no
metadata, if and only if some value of the raw mapping is not a string, int, int64, float64
or timestamp. When it succeeds, an entry is stored under its normalized name (a string value
as a string attribute, an int, int64 or float64 value as a numeric attribute, a timestamp as a
date attribute with its unix seconds) if no entry of the same kind with the same normalized
name is visited after it: of the entries of one kind with one normalized name, the one
visited last is kept. The keys of the three maps are the normalized names of the entries of
their kind. -/
theorem C26_newTokenMetadataFromAttributes (attributes : GoMap RawValue) :
    ((∃ err, NewTokenMetadataFromAttributes attributes = .error err) ↔
        ∃ e ∈ attributes.entries, ∃ typeName, e.2 = .other typeName) ∧
      ∀ md, NewTokenMetadataFromAttributes attributes = .ok md →
        (∀ pre e post, attributes.entries = pre ++ e :: post →
          (∀ e' ∈ post, NormalizeAttributeString e'.1 = NormalizeAttributeString e.1 →
            e'.2.kind ≠ e.2.kind) →
          storesRawEntry md e.1 e.2) ∧
        ∀ n, (n ∈ md.stringAttributes.keys ↔
              ∃ e ∈ attributes.entries, NormalizeAttributeString e.1 = n ∧ e.2.kind = 0) ∧
          (n ∈ md.numericAttributes.keys ↔
              ∃ e ∈ attributes.entries, NormalizeAttributeString e.1 = n ∧ e.2.kind = 1) ∧
          (n ∈ md.dateAttributes.keys ↔
              ∃ e ∈ attributes.entries, NormalizeAttributeString e.1 = n ∧ e.2.kind = 2) := by
  constructor
  · unfold NewTokenMetadataFromAttributes
    rw [addRawAttributes_error_iff]
    simp only [rawValue_kind_eq_three]
  · intro md hmd
    constructor
    · intro pre e post hsplit hpost
      unfold NewTokenMetadataFromAttributes at hmd
      rw [hsplit] at hmd
      exact addRawAttributes_stores_last pre _ md e post hmd hpost
    · intro n
      have hkeys := addRawAttributes_keys attributes.entries _ md hmd n
      have hempty : ∀ (V : Type) (n : String), n ∉ (GoMap.empty : GoMap V).keys := by
        intro V n
        simp [GoMap.keys, GoMap.empty]
      simpa only [hempty, false_or] using hkeys

/-- C26 at a raw mapping with a string, a number and a timestamp: the string is stored
under the normalized name `hat` with the normalized value `cap`; and at the raw mapping with
the keys `École` and `école`, visited in this order: the value of the key visited last is
stored under `école`. -/
theorem C26_newTokenMetadataFromAttributes_witness :
    NewTokenMetadataFromAttributes rawOneOfEach
        = .ok (mustMetadata (NewTokenMetadataFromAttributes rawOneOfEach)) ∧
      (mustMetadata (NewTokenMetadataFromAttributes rawOneOfEach)).stringAttributes.get? "hat"
        = some ⟨"hat", "cap"⟩ ∧
      (mustMetadata (NewTokenMetadataFromAttributes rawOneOfEach)).numericAttributes.get?
          "level" = some ⟨"level", .int 3⟩ ∧
      (mustMetadata (NewTokenMetadataFromAttributes rawOneOfEach)).dateAttributes.get? "born"
        = some ⟨"born", 86400⟩ ∧
      NewTokenMetadataFromAttributes rawEcoleTwice
        = .ok (mustMetadata (NewTokenMetadataFromAttributes rawEcoleTwice)) ∧
      (mustMetadata (NewTokenMetadataFromAttributes rawEcoleTwice)).stringAttributes.get?
          "école" = some ⟨"école", "b"⟩ :=
  ⟨rfl,
    ((C26_newTokenMetadataFromAttributes rawOneOfEach).2 _ rfl).1 []
      ("Hat", RawValue.string " Cap ") _ rfl (by decide),
    ((C26_newTokenMetadataFromAttributes rawOneOfEach).2 _ rfl).1
      [("Hat", RawValue.string " Cap ")] ("level", RawValue.int 3) _ rfl (by decide),
    ((C26_newTokenMetadataFromAttributes rawOneOfEach).2 _ rfl).1
      [("Hat", RawValue.string " Cap "), ("level", RawValue.int 3)]
      ("born", RawValue.time 86400) [] rfl (by decide),
    rfl,
    ((C26_newTokenMetadataFromAttributes rawEcoleTwice).2 _ rfl).1
      [("École", RawValue.string "a")] ("école", RawValue.string "b") [] rfl (by decide)⟩

/-- C26 (counterexample): the raw mapping with the string values `Hat: a` and `hat: b`. The
construction succeeds and the string map holds one attribute, under `hat`: in the one
iteration order the value `a` is not stored, in the other the value `b` is not. -/
theorem C26_shared_name_counterexample :
    (∃ md, NewTokenMetadataFromAttributes rawHatTwice = .ok md ∧
        md.stringAttributes.entries = [("hat", ⟨"hat", "b"⟩)] ∧
        ¬ storesRawEntry md "Hat" (.string "a")) ∧
      ∃ md, NewTokenMetadataFromAttributes rawHatTwiceReversed = .ok md ∧
        md.stringAttributes.entries = [("hat", ⟨"hat", "a"⟩)] ∧
        ¬ storesRawEntry md "hat" (.string "b") := by
  refine ⟨⟨_, rfl, by decide, ?_⟩, ⟨_, rfl, by decide, ?_⟩⟩
  · simp only [storesRawEntry]
    decide
  · simp only [storesRawEntry]
    decide

/-! ## The three maps of a metadata value -/

theorem entry_eq_of_key_eq {V : Type} (m : GoMap V) (e e' : String × V)
    (he : e ∈ m.entries) (he' : e' ∈ m.entries) (h : e.1 = e'.1) : e = e' := by
  have h1 := (GoMap.get?_eq_some_iff m e.1 e.2).2 he
  have h2 := (GoMap.get?_eq_some_iff m e'.1 e'.2).2 he'
  rw [h, h2] at h1
  exact Prod.ext h (Option.some.inj h1).symm

/-- After `NewTokenMetadataFromAttributes` on a raw mapping in which two keys with the same
normalized name have values of the same kind, no name is a key of two maps. -/
theorem newTokenMetadata_keysInAtMostOneMapping (attributes : GoMap RawValue)
    (md : TokenMetadata)
    (hnames : ∀ e ∈ attributes.entries, ∀ e' ∈ attributes.entries,
      NormalizeAttributeString e.1 = NormalizeAttributeString e'.1 → e.2.kind = e'.2.kind)
    (hmd : NewTokenMetadataFromAttributes attributes = .ok md) :
    keysInAtMostOneMapping md := by
  have hkeys := addRawAttributes_keys attributes.entries _ md hmd
  have hempty : ∀ (V : Type) (n : String), n ∉ (GoMap.empty : GoMap V).keys := by
    intro V n
    simp [GoMap.keys, GoMap.empty]
  have key : ∀ (i j : Nat), i ≠ j → ∀ n,
      ¬ ((∃ e ∈ attributes.entries, NormalizeAttributeString e.1 = n ∧ e.2.kind = i) ∧
        ∃ e ∈ attributes.entries, NormalizeAttributeString e.1 = n ∧ e.2.kind = j) := by
    rintro i j hij n ⟨⟨e, he, hn, hi⟩, ⟨e', he', hn', hj⟩⟩
    have h1 := hnames e he e' he' (hn.trans hn'.symm)
    exact hij (hi.symm.trans (h1.trans hj))
  intro k
  obtain ⟨h1, h2, h3⟩ := hkeys k
  simp only [hempty, false_or] at h1 h2 h3
  rw [h1, h2, h3]
  exact ⟨key 0 1 (by decide) k, key 0 2 (by decide) k, key 1 2 (by decide) k⟩

/-- A sequence of `AddAttribute` calls leaves the numeric and date maps as they are, and
every key of the string map was a key before or is the name of an added string attribute. -/
theorem foldl_addAttribute (added : List Attribute) :
    ∀ md : TokenMetadata,
      (added.foldl TokenMetadata.AddAttribute md).numericAttributes = md.numericAttributes ∧
      (added.foldl TokenMetadata.AddAttribute md).dateAttributes = md.dateAttributes ∧
      ∀ n, n ∈ (added.foldl TokenMetadata.AddAttribute md).stringAttributes.keys →
        n ∈ md.stringAttributes.keys ∨ ∃ s, Attribute.string s ∈ added ∧ s.name = n := by
  induction added with
  | nil => intro md; exact ⟨rfl, rfl, fun n hn => Or.inl hn⟩
  | cons a rest ih =>
    intro md
    rw [List.foldl_cons]
    obtain ⟨h1, h2, h3⟩ := ih (md.AddAttribute a)
    cases a with
    | string s =>
      refine ⟨h1, h2, fun n hn => ?_⟩
      rcases h3 n hn with h | ⟨s', hs', rfl⟩
      · rcases (GoMap.mem_keys_set _ _ _ _).1 h with rfl | h
        · exact Or.inr ⟨s, List.mem_cons_self _ _, rfl⟩
        · exact Or.inl h
      · exact Or.inr ⟨s', List.mem_cons_of_mem _ hs', rfl⟩
    | numeric x =>
      refine ⟨h1, h2, fun n hn => ?_⟩
      rcases h3 n hn with h | ⟨s', hs', rfl⟩
      · exact Or.inl h
      · exact Or.inr ⟨s', List.mem_cons_of_mem _ hs', rfl⟩
    | date x =>
      refine ⟨h1, h2, fun n hn => ?_⟩
      rcases h3 n hn with h | ⟨s', hs', rfl⟩
      · exact Or.inl h
      · exact Or.inr ⟨s', List.mem_cons_of_mem _ hs', rfl⟩

/-- C27 (as amended): for every metadata value that `NewTokenMetadataFromAttributes` makes
from a raw mapping in which two keys with the same normalized name have values of the same
kind (two strings, two numbers or two timestamps), and that is then modified by any sequence
of `AddAttribute` calls in which no string attribute has the name of a numeric or date
attribute of the metadata, each name is a key of at most one of the three mappings. -/
theorem C27_keys_in_at_most_one_mapping (attributes : GoMap RawValue) (md : TokenMetadata)
    (hnames : ∀ e ∈ attributes.entries, ∀ e' ∈ attributes.entries,
      NormalizeAttributeString e.1 = NormalizeAttributeString e'.1 → e.2.kind = e'.2.kind)
    (hmd : NewTokenMetadataFromAttributes attributes = .ok md)
    (added : List Attribute)
    (hadded : ∀ s, Attribute.string s ∈ added →
      s.name ∉ md.numericAttributes.keys ∧ s.name ∉ md.dateAttributes.keys) :
    keysInAtMostOneMapping (added.foldl TokenMetadata.AddAttribute md) := by
  have h0 := newTokenMetadata_keysInAtMostOneMapping attributes md hnames hmd
  obtain ⟨h1, h2, h3⟩ := foldl_addAttribute added md
  intro k
  rw [h1, h2]
  refine ⟨?_, ?_, (h0 k).2.2⟩
  · rintro ⟨hs, hn⟩
    rcases h3 k hs with h | ⟨s, hs', rfl⟩
    · exact (h0 k).1 ⟨h, hn⟩
    · exact (hadded s hs').1 hn
  · rintro ⟨hs, hd⟩
    rcases h3 k hs with h | ⟨s, hs', rfl⟩
    · exact (h0 k).2.1 ⟨h, hd⟩
    · exact (hadded s hs').2 hd

/-- C27 at the raw mapping with the keys `École` and `école`, both with string values, and
the key `level` with a number, followed by the addition of the string attribute `color: red`
and of a numeric attribute. -/
theorem C27_keys_in_at_most_one_mapping_witness :
    (∀ e ∈ rawEcoleLevel.entries, ∀ e' ∈ rawEcoleLevel.entries,
        NormalizeAttributeString e.1 = NormalizeAttributeString e'.1 →
        e.2.kind = e'.2.kind) ∧
      NormalizeAttributeString "École" = NormalizeAttributeString "école" ∧
      keysInAtMostOneMapping
        ([Attribute.string (NewStringAttribute "color" "red"),
            Attribute.numeric (NewNumericAttribute "hat" (.int 1))].foldl
          TokenMetadata.AddAttribute
          (mustMetadata (NewTokenMetadataFromAttributes rawEcoleLevel))) :=
  have h : ∀ e ∈ rawEcoleLevel.entries, ∀ e' ∈ rawEcoleLevel.entries,
      NormalizeAttributeString e.1 = NormalizeAttributeString e'.1 →
      e.2.kind = e'.2.kind := by decide
  ⟨h, by decide,
    C27_keys_in_at_most_one_mapping rawEcoleLevel _ h rfl _ (by
      intro s hs
      simp only [List.mem_cons, Attribute.string.injEq, List.mem_singleton, reduceCtorEq,
        or_false, List.not_mem_nil] at hs
      subst hs
      decide)⟩

/-- C27 (counterexample): the metadata of the raw mapping `Hat: cap`, `hat: 3` holds the
name `hat` as a key of the string map and of the numeric map (in either iteration order,
the two values going to different maps), and so does, for the name `é`, the metadata of the
raw mapping `É: a`, `é: 3`; and on the metadata of `level: 3` the call `AddAttribute` with
the string attribute `level: high` makes `level` a key of both maps. -/
theorem C27_two_mappings_counterexample :
    (∃ md, NewTokenMetadataFromAttributes rawHatMixed = .ok md ∧
        "hat" ∈ md.stringAttributes.keys ∧ "hat" ∈ md.numericAttributes.keys ∧
        ¬ keysInAtMostOneMapping (([] : List Attribute).foldl TokenMetadata.AddAttribute md)) ∧
      (∃ md, NewTokenMetadataFromAttributes
          (GoMap.ofList [("É", RawValue.string "a"), ("é", RawValue.int 3)]) = .ok md ∧
        "é" ∈ md.stringAttributes.keys ∧ "é" ∈ md.numericAttributes.keys) ∧
      ∃ md, NewTokenMetadataFromAttributes (GoMap.ofList [("level", RawValue.int 3)]) = .ok md ∧
        ¬ keysInAtMostOneMapping
          ([Attribute.string (NewStringAttribute "level" "high")].foldl
            TokenMetadata.AddAttribute md) := by
  refine ⟨⟨_, rfl, by decide, by decide, fun h => (h "hat").1 ⟨by decide, by decide⟩⟩,
    ⟨_, rfl, by decide, by decide⟩,
    ⟨_, rfl, fun h => (h "level").1 ⟨by decide, by decide⟩⟩⟩

/-! ## Equal scores and ranks -/

/-! ## Collections of uniform rarity -/

/-- The single-token path of the handler: the information content over the entropy of the
collection (without the replacement of a zero entropy by 1 that the batch path makes). -/
theorem scoreToken_single_eq (log2 : F → F) (c : Collection) (t : Token) :
    InformationContentScoringHandler.ScoreToken log2 c t
      = InformationContentScoringHandler.getICScore log2 c t (some c.ExtractNullAttributes)
        / InformationContentScoringHandler.GetCollectionEntropy log2 c none none := by
  unfold InformationContentScoringHandler.ScoreToken
    InformationContentScoringHandler.scoreToken
    InformationContentScoringHandler.scoreTokenDivisor
  rw [getICScore_none, if_pos rfl]
  rfl

theorem neg_sum_terms_const (l : List (String × Int)) (N c : Int)
    (hl : ∀ e ∈ l, e.2 = c) :
    -(l.map fun kv => ((kv.2 : Int) : ℝ) / ((N : Int) : ℝ)
          * Real.logb 2 (((kv.2 : Int) : ℝ) / ((N : Int) : ℝ))).sum
      = (((l.map Prod.snd).sum : Int) : ℝ) / ((N : Int) : ℝ)
        * Real.logb 2 (((N : Int) : ℝ) / ((c : Int) : ℝ)) := by
  have hinv : Real.logb 2 (((c : Int) : ℝ) / ((N : Int) : ℝ))
      = -Real.logb 2 (((N : Int) : ℝ) / ((c : Int) : ℝ)) := by
    rw [← Real.logb_inv, inv_div]
  induction l with
  | nil => simp
  | cons a r ih =>
    have h2 := ih fun e he => hl e (List.mem_cons_of_mem _ he)
    simp only [List.map_cons, List.sum_cons]
    rw [Int.cast_add, add_div, add_mul, ← h2, hl a (List.mem_cons_self _ _), hinv]
    ring

theorem sum_const (l : List (String × Int)) (c : Int) (hl : ∀ e ∈ l, e.2 = c) :
    (l.map Prod.snd).sum = (l.length : Int) * c := by
  induction l with
  | nil => simp
  | cons a r ih =>
    have h2 := ih fun e he => hl e (List.mem_cons_of_mem _ he)
    simp only [List.map_cons, List.sum_cons, List.length_cons, h2, hl a (List.mem_cons_self _ _)]
    push_cast
    ring

/-- The contribution of a name that every token holds and all of whose values are held by
the same number `cnt` of tokens is `log2 (N / cnt)`. -/
theorem attributeEntropy_of_equal_counts (name : String) (ts : List Token) (k : String)
    (inner : GoMap Int) (cnt : Int)
    (hinner : (deriveNormalizedAttrsFrequencyCount ts).get? k = some inner)
    (hall : ∀ t ∈ ts, t.HasAttribute k = true)
    (hsame : ∀ y ∈ inner.entries, y.2 = cnt) :
    attributeEntropy (Real.logb 2)
        { name := name, tokens := ts,
          attributesFrequencyCounts := deriveNormalizedAttrsFrequencyCount ts } k
      = Real.logb 2 (((ts.length : Int) : ℝ) / ((cnt : Int) : ℝ)) := by
  have hk : k ∈ (deriveNormalizedAttrsFrequencyCount ts).keys :=
    (GoMap.mem_keys_iff _ k).2 ⟨inner, hinner⟩
  obtain ⟨inner', hinner', -, hsum, -, -, hN1⟩ := table_name_facts ts k hk
  rw [hinner] at hinner'
  cases hinner'
  have hS : tableSum (deriveNormalizedAttrsFrequencyCount ts) k = (ts.length : Int) := by
    rw [tableSum_derive, List.countP_eq_length.2 hall]
  have hNr : (0 : ℝ) < ((ts.length : Int) : ℝ) := by
    have h0 : (0 : Int) < (ts.length : Int) := by omega
    exact_mod_cast h0
  simp only [attributeEntropy, Collection.TokenTotalSupply]
  have hvs : valueSum
      (fun x : Int => ((x : Int) : ℝ) / ((ts.length : Int) : ℝ)
        * Real.logb 2 (((x : Int) : ℝ) / ((ts.length : Int) : ℝ)))
      (deriveNormalizedAttrsFrequencyCount ts) k
      = (inner.entries.map fun kv => ((kv.2 : Int) : ℝ) / ((ts.length : Int) : ℝ)
          * Real.logb 2 (((kv.2 : Int) : ℝ) / ((ts.length : Int) : ℝ))).sum := by
    unfold valueSum
    rw [hinner]
  have h1 := neg_sum_terms_const inner.entries (ts.length : Int) cnt hsame
  rw [← hsum, hS, div_self hNr.ne', one_mul] at h1
  unfold nullTerm
  rw [hvs, hS, if_neg (by omega), add_zero]
  exact h1

/-- The facts on a name that every token holds and all of whose values are held by the same
number of tokens: that number lies between 1 and `N`, as many values as the name has times
that number is `N`, and the contribution of the name is `log2 (N / number)`. -/
theorem uniform_name_facts (name : String) (ts : List Token) (k : String) (inner : GoMap Int)
    (hinner : (deriveNormalizedAttrsFrequencyCount ts).get? k = some inner)
    (hall : ∀ t ∈ ts, t.HasAttribute k = true)
    (hsame : ∀ x ∈ inner.entries, ∀ y ∈ inner.entries, y.2 = x.2) :
    ∃ cnt : Int, 1 ≤ cnt ∧ cnt ≤ (ts.length : Int) ∧ (∀ y ∈ inner.entries, y.2 = cnt) ∧
      (inner.entries.length : Int) * cnt = (ts.length : Int) ∧
      attributeEntropy (Real.logb 2)
          { name := name, tokens := ts,
            attributesFrequencyCounts := deriveNormalizedAttrsFrequencyCount ts } k
        = Real.logb 2 (((ts.length : Int) : ℝ) / ((cnt : Int) : ℝ)) := by
  have hk : k ∈ (deriveNormalizedAttrsFrequencyCount ts).keys :=
    (GoMap.mem_keys_iff _ k).2 ⟨inner, hinner⟩
  obtain ⟨inner', hinner', hb, hsum, -, -, hN1⟩ := table_name_facts ts k hk
  rw [hinner] at hinner'
  cases hinner'
  have hS : tableSum (deriveNormalizedAttrsFrequencyCount ts) k = (ts.length : Int) := by
    rw [tableSum_derive, List.countP_eq_length.2 hall]
  have hne : inner.entries ≠ [] := by
    intro h0
    rw [hsum, h0] at hS
    simp at hS
    omega
  obtain ⟨x, hx⟩ := List.exists_mem_of_ne_nil _ hne
  refine ⟨x.2, (hb x hx).1, (hb x hx).2, hsame x hx, ?_,
    attributeEntropy_of_equal_counts name ts k inner x.2 hinner hall (hsame x hx)⟩
  rw [← sum_const inner.entries x.2 (hsame x hx), ← hsum, hS]

theorem list_sum_pos_of_mem {α : Type} (l : List α) (f : α → ℝ) (h0 : ∀ x ∈ l, 0 ≤ f x)
    (a : α) (ha : a ∈ l) (hpos : 0 < f a) : 0 < (l.map f).sum := by
  induction l with
  | nil => cases ha
  | cons b r ih =>
    simp only [List.map_cons, List.sum_cons]
    have hr : 0 ≤ (r.map f).sum :=
      List.sum_nonneg fun y hy => by
        obtain ⟨z, hz, rfl⟩ := List.mem_map.1 hy
        exact h0 z (List.mem_cons_of_mem _ hz)
    rcases List.mem_cons.1 ha with rfl | ha
    · linarith
    · have := ih (fun y hy => h0 y (List.mem_cons_of_mem _ hy)) ha
      have := h0 b (List.mem_cons_self _ _)
      linarith

/-- In a collection of uniform rarity the information content of a member token is the
entropy of the collection, and the entropy is positive. -/
theorem uniform_ic_eq_entropy (name : String) (ts : List Token)
    (hkeys : ∀ t ∈ ts, ∀ e ∈ t.metadata.stringAttributes.entries, e.2.name = e.1)
    (hall : ∀ k ∈ (deriveNormalizedAttrsFrequencyCount ts).keys,
      ∀ t ∈ ts, t.HasAttribute k = true)
    (hsame : ∀ e ∈ (deriveNormalizedAttrsFrequencyCount ts).entries,
      ∀ x ∈ e.2.entries, ∀ y ∈ e.2.entries, y.2 = x.2)
    (htwo : ∃ e ∈ (deriveNormalizedAttrsFrequencyCount ts).entries, 2 ≤ e.2.entries.length)
    (t : Token) (ht : t ∈ ts) :
    specIC (Real.logb 2)
        { name := name, tokens := ts,
          attributesFrequencyCounts := deriveNormalizedAttrsFrequencyCount ts } t
      = InformationContentScoringHandler.GetCollectionEntropy (Real.logb 2)
          { name := name, tokens := ts,
            attributesFrequencyCounts := deriveNormalizedAttrsFrequencyCount ts } none none ∧
      0 < InformationContentScoringHandler.GetCollectionEntropy (Real.logb 2)
          { name := name, tokens := ts,
            attributesFrequencyCounts := deriveNormalizedAttrsFrequencyCount ts } none none := by
  obtain ⟨c, hc⟩ : ∃ c : Collection,
      ({ name := name, tokens := ts,
          attributesFrequencyCounts := deriveNormalizedAttrsFrequencyCount ts } : Collection)
        = c := ⟨_, rfl⟩
  rw [hc]
  have hT : c.attributesFrequencyCounts = deriveNormalizedAttrsFrequencyCount ts := by
    rw [← hc]
  have hN : c.TokenTotalSupply = (ts.length : Int) := by rw [← hc]; rfl
  have hN1 : (1 : Int) ≤ (ts.length : Int) := by
    have := List.length_pos_of_mem ht
    omega
  -- the facts on every name of the table
  have hfacts : ∀ k inner, (deriveNormalizedAttrsFrequencyCount ts).get? k = some inner →
      ∃ cnt : Int, 1 ≤ cnt ∧ cnt ≤ (ts.length : Int) ∧ (∀ y ∈ inner.entries, y.2 = cnt) ∧
        (inner.entries.length : Int) * cnt = (ts.length : Int) ∧
        attributeEntropy (Real.logb 2) c k
          = Real.logb 2 (((ts.length : Int) : ℝ) / ((cnt : Int) : ℝ)) := by
    intro k inner hinner
    have hk : k ∈ (deriveNormalizedAttrsFrequencyCount ts).keys :=
      (GoMap.mem_keys_iff _ k).2 ⟨inner, hinner⟩
    rw [← hc]
    exact uniform_name_facts name ts k inner hinner (hall k hk)
      (hsame (k, inner) ((GoMap.get?_eq_some_iff _ k inner).1 hinner))
  -- the entropy, name by name
  have hE := getCollectionEntropy_eq_sum_attributeEntropy c
  rw [hT] at hE
  -- the information content, attribute by attribute
  have hnull : (c.ExtractNullAttributes.entries.filter fun e => !t.HasAttribute e.1) = [] := by
    rw [List.filter_eq_nil_iff]
    intro e he
    have hk : e.1 ∈ c.ExtractNullAttributes.keys := List.mem_map_of_mem Prod.fst he
    rw [mem_keys_extractNullAttributes, hT] at hk
    simp [hall e.1 hk.1 t ht]
  have hown : ∀ e ∈ t.metadata.stringAttributes.entries,
      Real.logb 2 (((c.TokenTotalSupply : Int) : ℝ)
          / ((c.TotalTokensWithAttributes e.2 : Int) : ℝ))
        = attributeEntropy (Real.logb 2) c e.1 := by
    intro e he
    have hk : e.1 ∈ (deriveNormalizedAttrsFrequencyCount ts).keys :=
      (mem_keys_derive ts e.1).2 ⟨t, ht, List.mem_map_of_mem Prod.fst he⟩
    obtain ⟨inner, hinner⟩ := (GoMap.mem_keys_iff _ e.1).1 hk
    obtain ⟨cnt, -, -, hcnt, -, hent⟩ := hfacts e.1 inner hinner
    have hhold : tokenHoldsValue t e.1 e.2.value = true := by
      unfold tokenHoldsValue
      rw [(GoMap.get?_eq_some_iff _ e.1 e.2).2 he]
      simp
    have hpos : 0 < ts.countP (fun t => tokenHoldsValue t e.1 e.2.value) :=
      List.countP_pos_iff.2 ⟨t, ht, hhold⟩
    have hget := tableGet?_derive ts e.1 e.2.value
    rw [if_neg (by omega)] at hget
    have hcount : c.TotalTokensWithAttributes e.2
        = ((ts.countP fun t => tokenHoldsValue t e.1 e.2.value : Nat) : Int) := by
      unfold Collection.TotalTokensWithAttributes
      rw [hT, hkeys t ht e he, tableCount_eq_getD, hget]
      rfl
    have hmem : (e.2.value, ((ts.countP fun t => tokenHoldsValue t e.1 e.2.value : Nat) : Int))
        ∈ inner.entries := by
      unfold tableGet? at hget
      rw [hinner] at hget
      exact (GoMap.get?_eq_some_iff inner _ _).1 hget
    rw [hent, hN, hcount, ← hcnt _ hmem]
  have hIC : specIC (Real.logb 2) c t
      = (t.metadata.stringAttributes.keys.map (attributeEntropy (Real.logb 2) c)).sum := by
    unfold specIC
    rw [hnull, List.map_nil, List.sum_nil, add_zero, List.map_congr_left hown]
    unfold GoMap.keys
    rw [List.map_map]
    rfl
  have hperm : t.metadata.stringAttributes.keys.Perm
      (deriveNormalizedAttrsFrequencyCount ts).keys := by
    refine (List.perm_ext_iff_of_nodup t.metadata.stringAttributes.nodup
      (deriveNormalizedAttrsFrequencyCount ts).nodup).2 fun k => ?_
    constructor
    · intro hk
      exact (mem_keys_derive ts k).2 ⟨t, ht, hk⟩
    · intro hk
      have := hall k hk t ht
      unfold Token.HasAttribute TokenMetadata.AttributeExists at this
      exact (GoMap.mem_keys_iff _ k).2 (Option.isSome_iff_exists.1 this)
  refine ⟨?_, ?_⟩
  · rw [hIC, hE]
    exact (hperm.map _).sum_eq
  · rw [hE]
    obtain ⟨e0, he0, hlen⟩ := htwo
    have hk0 : e0.1 ∈ (deriveNormalizedAttrsFrequencyCount ts).keys :=
      List.mem_map_of_mem Prod.fst he0
    have hnonneg : ∀ k ∈ (deriveNormalizedAttrsFrequencyCount ts).keys,
        0 ≤ attributeEntropy (Real.logb 2) c k := by
      intro k hk
      obtain ⟨inner, hinner⟩ := (GoMap.mem_keys_iff _ k).1 hk
      obtain ⟨cnt, h1, h2, -, -, hent⟩ := hfacts k inner hinner
      rw [hent]
      have hcr : (0 : ℝ) < ((cnt : Int) : ℝ) := by
        have : (0 : Int) < cnt := by omega
        exact_mod_cast this
      have hle : ((cnt : Int) : ℝ) ≤ ((ts.length : Int) : ℝ) := by exact_mod_cast h2
      exact Real.logb_nonneg (by norm_num) ((one_le_div hcr).2 hle)
    refine list_sum_pos_of_mem _ _ hnonneg e0.1 hk0 ?_
    obtain ⟨cnt, h1, h2, -, hmul, hent⟩ := hfacts e0.1 e0.2
      ((GoMap.get?_eq_some_iff _ e0.1 e0.2).2 he0)
    rw [hent]
    have hcr : (0 : ℝ) < ((cnt : Int) : ℝ) := by
      have : (0 : Int) < cnt := by omega
      exact_mod_cast this
    have hlt : cnt < (ts.length : Int) := by
      have hl2 : (2 : Int) ≤ (e0.2.entries.length : Int) := by exact_mod_cast hlen
      nlinarith
    have hltr : ((cnt : Int) : ℝ) < ((ts.length : Int) : ℝ) := by exact_mod_cast hlt
    exact Real.logb_pos (by norm_num) ((one_lt_div hcr).2 hltr)

/-- C21 (as amended): in a collection whose tokens hold every string attribute under its own
name, in which every attribute name of the frequency table is held by every token and,
within each name, all values are held by the same number of tokens, with at least one name
having two or more values, the score that `ScoreToken` of the information-content handler
gives to every token of the collection is 1 in exact arithmetic: the information content of
the token and the entropy of the collection are the same real number. (In `float64` the two
are rounded sums of different lengths, and the quotient is 1 up to rounding only.) -/
theorem C21_uniform_collection_scores_one (name : String) (tokens : List Token)
    (hkeys : ∀ t ∈ (NewCollection name tokens).Tokens,
      ∀ e ∈ t.metadata.stringAttributes.entries, e.2.name = e.1)
    (hall : ∀ k ∈ (NewCollection name tokens).attributesFrequencyCounts.keys,
      ∀ t ∈ (NewCollection name tokens).Tokens, t.HasAttribute k = true)
    (hsame : ∀ e ∈ (NewCollection name tokens).attributesFrequencyCounts.entries,
      ∀ x ∈ e.2.entries, ∀ y ∈ e.2.entries, y.2 = x.2)
    (htwo : ∃ e ∈ (NewCollection name tokens).attributesFrequencyCounts.entries,
      2 ≤ e.2.entries.length) :
    ∀ t ∈ (NewCollection name tokens).Tokens,
      InformationContentScoringHandler.ScoreToken (Real.logb 2) (NewCollection name tokens) t
        = 1 := by
  intro t ht
  obtain ⟨h1, h2⟩ := uniform_ic_eq_entropy name (traitCountify tokens) hkeys hall hsame htwo t ht
  rw [scoreToken_single_eq,
    getICScore_eq_specIC (Real.logb 2) (fun x => by rw [one_div, Real.logb_inv])]
  have h1' : specIC (Real.logb 2) (NewCollection name tokens) t
      = InformationContentScoringHandler.GetCollectionEntropy (Real.logb 2)
          (NewCollection name tokens) none none := h1
  have h2' : 0 < InformationContentScoringHandler.GetCollectionEntropy (Real.logb 2)
      (NewCollection name tokens) none none := h2
  rw [h1', div_self h2'.ne']

/-- C21 at `UniformRarityTokens` with 3 attributes, 5 values per attribute and 10 tokens
(the test takes 10000 attributes): the collection has 10 tokens and a frequency table of 4
names (the trait count and the 3 attributes), and every token has the score 1 in exact
arithmetic. -/
theorem C21_uniform_collection_scores_one_witness :
    (NewCollection "" (UniformRarityTokens 3 5 10)).Tokens.length = 10 ∧
      (NewCollection "" (UniformRarityTokens 3 5 10)).attributesFrequencyCounts.keys.length
        = 4 ∧
      ∀ t ∈ (NewCollection "" (UniformRarityTokens 3 5 10)).Tokens,
        InformationContentScoringHandler.ScoreToken (Real.logb 2)
          (NewCollection "" (UniformRarityTokens 3 5 10)) t = 1 :=
  ⟨by decide, by decide,
    C21_uniform_collection_scores_one "" (UniformRarityTokens 3 5 10) (by decide) (by decide)
      (by decide) (by decide)⟩

/-- Keys that are not the names: two tokens whose string-attribute maps hold, under the key `A`,
attributes of the normalized name `a`, with the values `x` and `y`. Every name of the
frequency table (`A` and the trait count) is held by both tokens, the values of a name are
held by the same number of tokens, and `A` has two values. The table is keyed by `A`, and
`TotalTokensWithAttributes` looks the attribute up under its name `a`: the count is 0, the
code divides the supply by it (in `float64` the score is infinite), and the score is not 1
(in the embedding, where a division by 0 gives 0, the score is 0). -/
theorem uniform_key_mismatch_scores :
    (∀ k ∈ (NewCollection "c" mismatchedKeyTokens).attributesFrequencyCounts.keys,
        ∀ t ∈ (NewCollection "c" mismatchedKeyTokens).Tokens, t.HasAttribute k = true) ∧
      (∀ e ∈ (NewCollection "c" mismatchedKeyTokens).attributesFrequencyCounts.entries,
        ∀ x ∈ e.2.entries, ∀ y ∈ e.2.entries, y.2 = x.2) ∧
      (∃ e ∈ (NewCollection "c" mismatchedKeyTokens).attributesFrequencyCounts.entries,
        2 ≤ e.2.entries.length) ∧
      ∀ t ∈ (NewCollection "c" mismatchedKeyTokens).Tokens,
        t.metadata.stringAttributes.entries.map
            (fun e => (NewCollection "c" mismatchedKeyTokens).TotalTokensWithAttributes e.2)
          = [0, 2] ∧
        InformationContentScoringHandler.ScoreToken (Real.logb 2)
            (NewCollection "c" mismatchedKeyTokens) t ≠ 1 := by
  refine ⟨by decide, by decide, by decide, ?_⟩
  have hcounts : ∀ t ∈ (NewCollection "c" mismatchedKeyTokens).Tokens,
      t.metadata.stringAttributes.entries.map
          (fun e => (NewCollection "c" mismatchedKeyTokens).TotalTokensWithAttributes e.2)
        = [0, 2] ∧
      ((NewCollection "c" mismatchedKeyTokens).ExtractNullAttributes.entries.filter
        fun e => !t.HasAttribute e.1) = [] := by decide
  have hN : (NewCollection "c" mismatchedKeyTokens).TokenTotalSupply = 2 := by decide
  intro t ht
  obtain ⟨h1, h2⟩ := hcounts t ht
  refine ⟨h1, ?_⟩
  rw [scoreToken_single_eq,
    getICScore_eq_specIC (Real.logb 2) (fun x => by rw [one_div, Real.logb_inv])]
  have hic : specIC (Real.logb 2) (NewCollection "c" mismatchedKeyTokens) t = 0 := by
    unfold specIC
    have hmap : (t.metadata.stringAttributes.entries.map fun e =>
        Real.logb 2 ((((NewCollection "c" mismatchedKeyTokens).TokenTotalSupply : Int) : ℝ)
          / (((NewCollection "c" mismatchedKeyTokens).TotalTokensWithAttributes e.2 : Int) : ℝ)))
        = ([0, 2] : List Int).map fun k => Real.logb 2 (((2 : Int) : ℝ) / ((k : Int) : ℝ)) := by
      rw [← h1, List.map_map, hN]
      rfl
    rw [hmap, h2]
    simp
  rw [hic, zero_div]
  exact zero_ne_one

/-! ## Order of tied tokens -/

/-- Insertion keeps the order within a class of elements none of which sorts before
another. -/
theorem insertLess_filter {α : Type} (less : α → α → Bool) (P : α → Bool)
    (hP : ∀ x y, P x = true → P y = true → less x y = false) (x : α) (l : List α) :
    (insertLess less x l).filter P = (x :: l).filter P := by
  induction l with
  | nil => rfl
  | cons p ps ih =>
    simp only [insertLess]
    split
    · rename_i h
      rw [List.filter_cons, ih]
      cases hx : P x
      · simp [List.filter_cons, hx]
      · cases hp : P p
        · simp [List.filter_cons, hx, hp]
        · rw [hP x p hx hp] at h
          cases h
    · rfl

/-- The insertion sort keeps the order within a class of elements none of which sorts before
another. -/
theorem sortSlice_filter {α : Type} (less : α → α → Bool) (P : α → Bool)
    (hP : ∀ x y, P x = true → P y = true → less x y = false) (l : List α) :
    (sortSlice less l).filter P = l.filter P := by
  have key : ∀ (l acc : List α),
      (l.foldl (fun prefixRev x => insertLess less x prefixRev) acc).filter P
        = (l.filter P).reverse ++ acc.filter P := by
    intro l
    induction l with
    | nil => intro acc; rfl
    | cons x xs ih =>
      intro acc
      rw [List.foldl_cons, ih, insertLess_filter less P hP]
      cases hx : P x <;> simp [List.filter_cons, hx]
  unfold sortSlice
  rw [List.filter_reverse, key]
  simp

/-- Rarities of one unique-attribute count and one score: none sorts before another. -/
theorem rarityLess_same_class (count : Int) (score : F) (x y : TokenRarity F)
    (hx : decide (x.tokenFeatures.uniqueAttributeCount = count ∧ x.score = score) = true)
    (hy : decide (y.tokenFeatures.uniqueAttributeCount = count ∧ y.score = score) = true) :
    rarityLess x y = false := by
  simp only [decide_eq_true_eq] at hx hy
  simp [rarityLess, hx.1, hx.2, hy.1, hy.2, wrapInt]

/-- A class by count and score does not look at the rank. -/
theorem filter_class_map_reset (count : Int) (score : F) (l : List (TokenRarity F)) :
    (l.filter fun r =>
        decide (r.tokenFeatures.uniqueAttributeCount = count ∧ r.score = score)).map
        (fun r => r.SetRarityRanks 0)
      = (l.map fun r => r.SetRarityRanks 0).filter fun r =>
        decide (r.tokenFeatures.uniqueAttributeCount = count ∧ r.score = score) := by
  rw [List.filter_map]
  rfl

/-- With the insertion sort, the ranking keeps the order of the rarities of one count and one
score. -/
theorem setRarityRanks_stable (l : List (TokenRarity F)) :
    ∃ out, SetRarityRanks l = .ok out ∧ specStableOrder l out := by
  obtain ⟨out, hout, -, hkey, -⟩ := setRarityRanks_ok l
  refine ⟨out, hout, ?_⟩
  intro count score
  rw [filter_class_map_reset, hkey, ← filter_class_map_reset,
    sortSlice_filter rarityLess _ (rarityLess_same_class count score)]

/-! ## Ties -/

/-- C33: the tie test of `SetRarityRanks` looks at the predecessor only. With equal
unique-attribute counts and the scores 1, 1 - 0.9e-9 and 1 - 1.8e-9 all three items get
the rank 1, although the first and the third score differ by more than 1e-9 and
`IsFloat64Close` does not hold between them. -/
theorem C33_sequential_tie_detection :
    ∀ (u : Int) (tk : Token),
      SetRarityRanks
          [(⟨1, ⟨u⟩, tk, 0⟩ : TokenRarity F), ⟨1 - 9 / 10 ^ 10, ⟨u⟩, tk, 0⟩,
            ⟨1 - 18 / 10 ^ 10, ⟨u⟩, tk, 0⟩]
        = .ok [⟨1, ⟨u⟩, tk, 1⟩, ⟨1 - 9 / 10 ^ 10, ⟨u⟩, tk, 1⟩,
            ⟨1 - 18 / 10 ^ 10, ⟨u⟩, tk, 1⟩] ∧
      IsFloat64Close (1 : F) (1 - 18 / 10 ^ 10) = false ∧
      1 / 10 ^ 9 < |(1 : F) - (1 - 18 / 10 ^ 10)| := by
  intro u tk
  have e1 : ¬ ((1 : F) < 1 - 9 / 10 ^ 10) := by norm_num
  have e2 : ¬ ((1 - 9 / 10 ^ 10 : F) < 1 - 18 / 10 ^ 10) := by norm_num
  have e3 : ¬ ((1 : F) < 1 - 18 / 10 ^ 10) := by norm_num
  have c1 : |(1 - 9 / 10 ^ 10 : F) - 1| ≤ 1 / 10 ^ 9 := by
    rw [abs_le]; constructor <;> norm_num
  have c2 : |(1 - 18 / 10 ^ 10 : F) - (1 - 9 / 10 ^ 10)| ≤ 1 / 10 ^ 9 := by
    rw [abs_le]; constructor <;> norm_num
  have c3 : 1 / 10 ^ 9 < |(1 : F) - (1 - 18 / 10 ^ 10)| := by
    rw [lt_abs]; left; norm_num
  refine ⟨?_, ?_, c3⟩
  · simp only [SetRarityRanks, sortSlice, List.foldl, insertLess, rarityLess_same_count,
      e1, e2, e3, decide_False, Bool.false_eq_true, if_false,
      List.reverse_cons, List.reverse_nil, List.nil_append, List.cons_append, rankLoop,
      IsFloat64Close, TokenRarity.SetRarityRanks, c1, c2, decide_True, Bool.or_true,
      if_true]
    norm_num
  · rw [← Bool.not_eq_true, isFloat64Close_iff]
    exact not_le.2 c3

/-- C34: `SetRarityRanks` returns a ranked list for every list of token rarities, whatever
their ranks and scores at the call, and every rank in it is at least 1; so it returns no
error, and not the error on a predecessor of rank zero. More generally the ranking loop,
started at any index with a predecessor of non-zero rank, returns a list. -/
theorem C34_rank_zero_error_unreachable :
    (∀ tokenRarities : List (TokenRarity F),
      (∃ out, SetRarityRanks tokenRarities = .ok out ∧ ∀ t ∈ out, 1 ≤ t.rank) ∧
        (∀ err, SetRarityRanks tokenRarities ≠ .error err) ∧
        SetRarityRanks tokenRarities ≠ .error "preview token rarity rank is zero") ∧
      ∀ (l : List (TokenRarity F)) (i : Nat) (prev : TokenRarity F), prev.rank ≠ 0 →
        ∃ out, rankLoop i (some prev) l = .ok out := by
  constructor
  · intro tokenRarities
    obtain ⟨out, hout, -, -, hrank⟩ := setRarityRanks_ok tokenRarities
    refine ⟨⟨out, hout, hrank⟩, ?_, ?_⟩
    · intro err h
      rw [hout] at h
      cases h
    · intro h
      rw [hout] at h
      cases h
  · intro l i prev hprev
    obtain ⟨out, hout, -⟩ := rankLoop_spec l i (some prev) (by
      intro p hp
      cases hp
      exact hprev)
    exact ⟨out, hout⟩

/-! ## The shape of the ranks -/

/-- In a list ranked by one pass (the first rank is 1, each later rank is the one of the
predecessor when the two scores are close and the 1-based position otherwise), the rank of
an item is the 1-based position of the first item of its run of consecutively close
scores. -/
theorem rank_run_start (out : List (TokenRarity F))
    (hfirst : ∀ t, out[0]? = some t → t.rank = 1)
    (hpair : ∀ (j : Nat) (p t : TokenRarity F), out[j]? = some p → out[j + 1]? = some t →
      t.rank = if |t.score - p.score| ≤ 1 / 10 ^ 9 then p.rank else (j : Int) + 2) :
    ∀ (j : Nat) (t : TokenRarity F), out[j]? = some t →
      ∃ i : Nat, i ≤ j ∧ t.rank = (i : Int) + 1 ∧
        (∀ m, i ≤ m → m < j → ∀ p q, out[m]? = some p → out[m + 1]? = some q →
          |q.score - p.score| ≤ 1 / 10 ^ 9) ∧
        (∀ i', i = i' + 1 → ∀ p q, out[i']? = some p → out[i]? = some q →
          ¬ |q.score - p.score| ≤ 1 / 10 ^ 9) := by
  intro j
  induction j with
  | zero =>
    intro t ht
    refine ⟨0, le_refl _, by simpa using hfirst t ht, ?_, ?_⟩
    · intro m _ hm
      omega
    · intro i' hi'
      omega
  | succ j ih =>
    intro t ht
    have hj : j < out.length := by
      have := (List.getElem?_eq_some_iff.1 ht).1
      omega
    have hp : out[j]? = some out[j] := List.getElem?_eq_getElem hj
    have hrank := hpair j out[j] t hp ht
    by_cases hc : |t.score - out[j].score| ≤ 1 / 10 ^ 9
    · rw [if_pos hc] at hrank
      obtain ⟨i, hi, hr, hchain, hstart⟩ := ih out[j] hp
      refine ⟨i, by omega, by rw [hrank, hr], ?_, hstart⟩
      intro m hm1 hm2 p q hp' hq'
      by_cases hmj : m = j
      · subst hmj
        rw [hp] at hp'
        rw [ht] at hq'
        cases hp'
        cases hq'
        exact hc
      · exact hchain m hm1 (by omega) p q hp' hq'
    · rw [if_neg hc] at hrank
      refine ⟨j + 1, le_refl _, by rw [hrank]; push_cast; ring, ?_, ?_⟩
      · intro m hm1 hm2
        omega
      · intro i' hi' p q hp' hq'
        have : i' = j := by omega
        subst this
        rw [hp] at hp'
        rw [ht] at hq'
        cases hp'
        cases hq'
        exact hc

/-- In a list ranked by one pass the ranks do not decrease along the list. -/
theorem rank_mono (out : List (TokenRarity F))
    (hfirst : ∀ t, out[0]? = some t → t.rank = 1)
    (hpair : ∀ (j : Nat) (p t : TokenRarity F), out[j]? = some p → out[j + 1]? = some t →
      t.rank = if |t.score - p.score| ≤ 1 / 10 ^ 9 then p.rank else (j : Int) + 2) :
    ∀ (d i : Nat) (a b : TokenRarity F), out[i]? = some a → out[i + d]? = some b →
      a.rank ≤ b.rank := by
  intro d
  induction d with
  | zero =>
    intro i a b ha hb
    rw [Nat.add_zero, ha] at hb
    cases hb
    exact le_refl _
  | succ d ih =>
    intro i a b ha hb
    have hj : i + d < out.length := by
      have := (List.getElem?_eq_some_iff.1 hb).1
      omega
    have hp : out[i + d]? = some out[i + d] := List.getElem?_eq_getElem hj
    have h1 := ih i a out[i + d] ha hp
    have hrank := hpair (i + d) out[i + d] b hp hb
    obtain ⟨k, hk, hr, -⟩ := rank_run_start out hfirst hpair (i + d) out[i + d] hp
    by_cases hc : |b.score - out[i + d].score| ≤ 1 / 10 ^ 9
    · rw [if_pos hc] at hrank
      rw [hrank]
      exact h1
    · rw [if_neg hc] at hrank
      rw [hrank]
      have : out[i + d].rank ≤ ((i + d : Nat) : Int) + 2 := by
        rw [hr]
        omega
      exact le_trans h1 this

/-- The shape of the ranks that `SetRarityRanks` returns. -/
theorem setRarityRanks_shape (l : List (TokenRarity F)) :
    ∃ out, SetRarityRanks l = .ok out ∧ out.length = l.length ∧
      (∀ (j : Nat) (p t : TokenRarity F), out[j]? = some p → out[j + 1]? = some t →
        p.rank ≤ t.rank) ∧
      (∀ t, out[0]? = some t → t.rank = 1) ∧
      (∀ (j : Nat) (t : TokenRarity F), out[j]? = some t → t.rank ≤ (j : Int) + 1) ∧
      (∀ (j : Nat) (t : TokenRarity F), out[j]? = some t →
        ∃ i : Nat, i ≤ j ∧ t.rank = (i : Int) + 1 ∧
          (∀ m, i ≤ m → m < j → ∀ p q, out[m]? = some p → out[m + 1]? = some q →
            |q.score - p.score| ≤ 1 / 10 ^ 9) ∧
          (∀ i', i = i' + 1 → ∀ p q, out[i']? = some p → out[i]? = some q →
            ¬ |q.score - p.score| ≤ 1 / 10 ^ 9)) ∧
      (∀ (i j : Nat) (a b : TokenRarity F), i ≤ j → out[i]? = some a → out[j]? = some b →
        a.rank ≤ b.rank) := by
  obtain ⟨out, hout, hlen, -, -, hfirst, -, hpair⟩ :=
    rankLoop_spec (sortSlice rarityLess l) 0 none (by simp)
  have hfirst' : ∀ t, out[0]? = some t → t.rank = 1 := by
    intro t ht
    simpa using hfirst rfl t ht
  have hpair' : ∀ (j : Nat) (p t : TokenRarity F), out[j]? = some p → out[j + 1]? = some t →
      t.rank = if |t.score - p.score| ≤ 1 / 10 ^ 9 then p.rank else (j : Int) + 2 := by
    intro j p t hp ht
    simpa using hpair j p t hp ht
  refine ⟨out, hout, by rw [hlen, (sortSlice_perm rarityLess l).length_eq], ?_, hfirst', ?_,
    rank_run_start out hfirst' hpair', ?_⟩
  · intro j p t hp ht
    exact rank_mono out hfirst' hpair' 1 j p t hp ht
  · intro j t ht
    obtain ⟨i, hi, hr, -⟩ := rank_run_start out hfirst' hpair' j t ht
    rw [hr]
    omega
  · intro i j a b hij ha hb
    obtain ⟨d, rfl⟩ := Nat.exists_eq_add_of_le hij
    exact rank_mono out hfirst' hpair' d i a b ha hb

/-- When the unique-attribute counts lie in `[0, 2 ^ 63)`, an item with a greater count gets
a rank that is not larger than the one of an item with a smaller count. -/
theorem setRarityRanks_count_order (l : List (TokenRarity F))
    (h : ∀ t ∈ l,
      0 ≤ t.tokenFeatures.uniqueAttributeCount ∧ t.tokenFeatures.uniqueAttributeCount < 2 ^ 63) :
    ∃ out, SetRarityRanks l = .ok out ∧
      ∀ a ∈ out, ∀ b ∈ out,
        b.tokenFeatures.uniqueAttributeCount < a.tokenFeatures.uniqueAttributeCount →
        a.rank ≤ b.rank := by
  obtain ⟨out, hout, -, hs⟩ := setRarityRanks_sorted_perm l h
  obtain ⟨out', hout', -, -, -, -, -, hmono⟩ := setRarityRanks_shape l
  rw [hout] at hout'
  cases hout'
  refine ⟨out, hout, ?_⟩
  intro a ha b hb hab
  obtain ⟨i, hi, rfl⟩ := List.getElem_of_mem ha
  obtain ⟨j, hj, rfl⟩ := List.getElem_of_mem hb
  rcases Nat.lt_or_ge j i with hji | hij
  · have := List.pairwise_iff_getElem.1 hs j i hj hi hji
    rcases this with h1 | ⟨h1, -⟩
    · omega
    · omega
  · exact hmono i j _ _ hij (List.getElem?_eq_getElem hi) (List.getElem?_eq_getElem hj)

/-- When the unique-attribute counts lie in `[0, 2 ^ 63)`, items with the same count and the
same score get the same rank. -/
theorem setRarityRanks_same_key_rank (l : List (TokenRarity F))
    (h : ∀ t ∈ l,
      0 ≤ t.tokenFeatures.uniqueAttributeCount ∧ t.tokenFeatures.uniqueAttributeCount < 2 ^ 63) :
    ∃ out, SetRarityRanks l = .ok out ∧
      ∀ a ∈ out, ∀ b ∈ out,
        a.tokenFeatures.uniqueAttributeCount = b.tokenFeatures.uniqueAttributeCount →
        a.score = b.score → a.rank = b.rank := by
  obtain ⟨out, hout, -, hs⟩ := setRarityRanks_sorted_perm l h
  obtain ⟨out', hout', -, -, -, -, -, hpair⟩ :=
    rankLoop_spec (sortSlice rarityLess l) 0 none (by simp)
  have hout'' : SetRarityRanks l = .ok out' := hout'
  rw [hout] at hout''
  cases hout''
  have hidx := List.pairwise_iff_getElem.1 hs
  -- along the list, from an item to a later item of the same count and score
  have key : ∀ (d i : Nat) (hi : i < out.length) (hj : i + d < out.length),
      out[i].tokenFeatures.uniqueAttributeCount = out[i + d].tokenFeatures.uniqueAttributeCount →
      out[i].score = out[i + d].score → out[i].rank = out[i + d].rank := by
    intro d
    induction d with
    | zero =>
      intro i hi hj _ _
      rfl
    | succ d ih =>
      intro i hi hj hc hsc
      have hm : i + d < out.length := by omega
      have h2 := hidx (i + d) (i + d + 1) hm hj (by omega)
      have hcm : out[i].tokenFeatures.uniqueAttributeCount
            = out[i + d].tokenFeatures.uniqueAttributeCount ∧ out[i].score = out[i + d].score := by
        rcases Nat.eq_zero_or_pos d with hd | hd
        · subst hd
          exact ⟨rfl, rfl⟩
        · have h1 := hidx i (i + d) hi hm (by omega)
          have hc' : out[i].tokenFeatures.uniqueAttributeCount
              = out[i + (d + 1)].tokenFeatures.uniqueAttributeCount := hc
          have hsc' : out[i].score = out[i + (d + 1)].score := hsc
          have e : out[i + (d + 1)] = out[i + d + 1] := rfl
          rw [e] at hc' hsc'
          rcases h1 with h1 | ⟨h1, h1'⟩ <;> rcases h2 with h2 | ⟨h2, h2'⟩
          · omega
          · omega
          · omega
          · exact ⟨h1, le_antisymm (by rw [hsc']; exact h2') h1'⟩
      have hrank := hpair (i + d) out[i + d] out[i + d + 1] (List.getElem?_eq_getElem hm)
        (List.getElem?_eq_getElem hj)
      have hclose : |out[i + d + 1].score - out[i + d].score| ≤ 1 / 10 ^ 9 := by
        have : out[i + d + 1].score = out[i + d].score := by
          rw [← hcm.2]
          exact hsc.symm
        rw [this, sub_self, abs_zero]
        positivity
      rw [if_pos hclose] at hrank
      have := ih i hi hm hcm.1 hcm.2
      rw [this]
      exact hrank.symm
  refine ⟨out, hout, ?_⟩
  intro a ha b hb hc hsc
  obtain ⟨i, hi, rfl⟩ := List.getElem_of_mem ha
  obtain ⟨j, hj, rfl⟩ := List.getElem_of_mem hb
  rcases Nat.le_total i j with hij | hji
  · obtain ⟨d, rfl⟩ := Nat.exists_eq_add_of_le hij
    exact key d i hi hj hc hsc
  · obtain ⟨d, rfl⟩ := Nat.exists_eq_add_of_le hji
    exact (key d j hj hi hc.symm hsc.symm).symm

/-! ## Ranks and the order of the input -/

/-- The ranking loop looks at the scores only: on two lists with the same scores and the same
unique-attribute counts, item by item, it assigns the same ranks. -/
theorem rankLoop_triples (l : List (TokenRarity F)) :
    ∀ (l' : List (TokenRarity F)) (i : Nat) (prev prev' : Option (TokenRarity F))
      (out out' : List (TokenRarity F)),
      l.map (fun r => (r.tokenFeatures.uniqueAttributeCount, r.score))
        = l'.map (fun r => (r.tokenFeatures.uniqueAttributeCount, r.score)) →
      prev.map (fun p => (p.score, p.rank)) = prev'.map (fun p => (p.score, p.rank)) →
      rankLoop i prev l = .ok out → rankLoop i prev' l' = .ok out' →
      out.map (fun r => (r.tokenFeatures.uniqueAttributeCount, r.score, r.rank))
        = out'.map (fun r => (r.tokenFeatures.uniqueAttributeCount, r.score, r.rank)) := by
  induction l with
  | nil =>
    intro l' i prev prev' out out' hl _ h1 h2
    cases l' with
    | nil =>
      simp only [rankLoop, Except.ok.injEq] at h1 h2
      subst h1 h2
      rfl
    | cons y r' => simp at hl
  | cons x r ih =>
    intro l' i prev prev' out out' hl hp h1 h2
    cases l' with
    | nil => simp at hl
    | cons y r' =>
      simp only [List.map_cons, List.cons.injEq, Prod.mk.injEq] at hl
      obtain ⟨⟨hc, hs⟩, hr⟩ := hl
      -- once the rank of the head is known, the rest follows by induction
      have tail : ∀ rank : Int,
          (match rankLoop (i + 1) (some (x.SetRarityRanks rank)) r with
            | .error err => (Except.error err : Except String (List (TokenRarity F)))
            | .ok ranked => .ok (x.SetRarityRanks rank :: ranked)) = .ok out →
          (match rankLoop (i + 1) (some (y.SetRarityRanks rank)) r' with
            | .error err => (Except.error err : Except String (List (TokenRarity F)))
            | .ok ranked => .ok (y.SetRarityRanks rank :: ranked)) = .ok out' →
          out.map (fun r => (r.tokenFeatures.uniqueAttributeCount, r.score, r.rank))
            = out'.map (fun r => (r.tokenFeatures.uniqueAttributeCount, r.score, r.rank)) := by
        intro rank h1 h2
        cases hx : rankLoop (i + 1) (some (x.SetRarityRanks rank)) r with
        | error e => rw [hx] at h1; cases h1
        | ok o =>
          cases hy : rankLoop (i + 1) (some (y.SetRarityRanks rank)) r' with
          | error e => rw [hy] at h2; cases h2
          | ok o' =>
            rw [hx] at h1
            rw [hy] at h2
            simp only [Except.ok.injEq] at h1 h2
            subst h1 h2
            have := ih r' (i + 1) _ _ o o' hr (by
              simp only [Option.map_some', TokenRarity.SetRarityRanks, hs]) hx hy
            simp only [List.map_cons, this, TokenRarity.SetRarityRanks, hc, hs]
      cases prev with
      | none =>
        cases prev' with
        | none =>
          simp only [rankLoop] at h1 h2
          exact tail _ h1 h2
        | some q => simp at hp
      | some p =>
        cases prev' with
        | none => simp at hp
        | some q =>
          simp only [Option.map_some', Option.some.injEq, Prod.mk.injEq] at hp
          simp only [rankLoop, hs, hp.1, hp.2] at h1 h2
          by_cases hclose : IsFloat64Close y.score q.score = true
          · by_cases hz : q.rank = 0
            · simp only [hclose, hz, if_true] at h1
              cases h1
            · simp only [hclose, hz, if_true, if_false] at h1 h2
              exact tail _ h1 h2
          · simp only [hclose, if_false] at h1 h2
            exact tail _ h1 h2

/-- The output of `SetRarityRanks` as triples of unique-attribute count, score and rank is
the same for two inputs that are permutations of each other, when the unique-attribute
counts lie in `[0, 2 ^ 63)`; and an item of the one output has the rank of every item of
the other output that has its count and its score. -/
theorem setRarityRanks_perm_invariant (l1 l2 : List (TokenRarity F)) (hperm : l1.Perm l2)
    (h : ∀ t ∈ l1,
      0 ≤ t.tokenFeatures.uniqueAttributeCount ∧ t.tokenFeatures.uniqueAttributeCount < 2 ^ 63) :
    ∃ out1 out2, SetRarityRanks l1 = .ok out1 ∧ SetRarityRanks l2 = .ok out2 ∧
      out1.map (fun r => (r.tokenFeatures.uniqueAttributeCount, r.score, r.rank))
        = out2.map (fun r => (r.tokenFeatures.uniqueAttributeCount, r.score, r.rank)) ∧
      ∀ a ∈ out1, ∀ b ∈ out2,
        a.tokenFeatures.uniqueAttributeCount = b.tokenFeatures.uniqueAttributeCount →
        a.score = b.score → a.rank = b.rank := by
  have h2 : ∀ t ∈ l2,
      0 ≤ t.tokenFeatures.uniqueAttributeCount ∧ t.tokenFeatures.uniqueAttributeCount < 2 ^ 63 :=
    fun t ht => h t (hperm.symm.subset ht)
  -- the sorted lists have the same keys, item by item
  set R : Int × F → Int × F → Prop := fun a b => b.1 < a.1 ∨ (a.1 = b.1 ∧ b.2 ≤ a.2) with hR
  have hanti : IsAntisymm (Int × F) R := ⟨by
    rintro ⟨a1, a2⟩ ⟨b1, b2⟩ hab hba
    simp only [hR] at hab hba
    rcases hab with h1 | ⟨h1, h1'⟩ <;> rcases hba with h3 | ⟨h3, h3'⟩
    · omega
    · omega
    · omega
    · rw [h1, le_antisymm h1' h3']⟩
  have hsorted : ∀ l : List (TokenRarity F), (∀ t ∈ l,
      0 ≤ t.tokenFeatures.uniqueAttributeCount ∧ t.tokenFeatures.uniqueAttributeCount < 2 ^ 63) →
      ((sortSlice rarityLess l).map
        (fun r => (r.tokenFeatures.uniqueAttributeCount, r.score))).Sorted R := by
    intro l hl
    obtain ⟨out, hout, -, hs⟩ := setRarityRanks_sorted_perm l hl
    obtain ⟨out', hout', -, hkey, -⟩ := setRarityRanks_ok l
    rw [hout] at hout'
    cases hout'
    have hmap : (sortSlice rarityLess l).map
        (fun r => (r.tokenFeatures.uniqueAttributeCount, r.score))
        = out.map (fun r => (r.tokenFeatures.uniqueAttributeCount, r.score)) := by
      have := congrArg
        (List.map fun r : TokenRarity F => (r.tokenFeatures.uniqueAttributeCount, r.score)) hkey
      simp only [List.map_map] at this
      exact this.symm
    rw [hmap]
    unfold List.Sorted
    rw [List.pairwise_map]
    exact hs
  have hkeys : (sortSlice rarityLess l1).map
      (fun r => (r.tokenFeatures.uniqueAttributeCount, r.score))
      = (sortSlice rarityLess l2).map
        (fun r => (r.tokenFeatures.uniqueAttributeCount, r.score)) := by
    refine @List.eq_of_perm_of_sorted _ R hanti _ _ ?_ (hsorted l1 h) (hsorted l2 h2)
    exact (((sortSlice_perm rarityLess l1).trans hperm).trans
      (sortSlice_perm rarityLess l2).symm).map _
  obtain ⟨out1, hout1, -⟩ := setRarityRanks_ok l1
  obtain ⟨out2, hout2, -⟩ := setRarityRanks_ok l2
  have htriples := rankLoop_triples _ _ 0 none none out1 out2 hkeys rfl hout1 hout2
  refine ⟨out1, out2, hout1, hout2, htriples, ?_⟩
  obtain ⟨out2', hout2', hsame⟩ := setRarityRanks_same_key_rank l2 h2
  rw [hout2] at hout2'
  cases hout2'
  intro a ha b hb hc hsc
  obtain ⟨i, hi, rfl⟩ := List.getElem_of_mem ha
  have hlen : out1.length = out2.length := by
    have := congrArg List.length htriples
    simpa using this
  have hi2 : i < out2.length := by omega
  have hi' : (out1.map (fun r => (r.tokenFeatures.uniqueAttributeCount, r.score, r.rank)))[i]?
      = (out2.map (fun r => (r.tokenFeatures.uniqueAttributeCount, r.score, r.rank)))[i]? := by
    rw [htriples]
  simp only [List.getElem?_map, List.getElem?_eq_getElem hi, List.getElem?_eq_getElem hi2,
    Option.map_some', Option.some.injEq, Prod.mk.injEq] at hi'
  obtain ⟨e1, e2, e3⟩ := hi'
  rw [e3]
  exact hsame _ (List.getElem_mem hi2) b hb (by rw [← e1]; exact hc) (by rw [← e2]; exact hsc)

/-! ## The two paths of the handler -/

/-- The entropy of `uniformCollection` is 0. -/
theorem uniformCollection_entropy :
    InformationContentScoringHandler.GetCollectionEntropy (Real.logb 2) uniformCollection
      none none = 0 := by
  rw [getCollectionEntropy_eq_spec (Real.logb 2) Real.logb_one,
    specEntropy_of_counts (Real.logb 2) uniformCollection [[1], [1]] [] 1
      (by decide) (by decide) (by decide)]
  simp

/-- C31 (code defect): on a collection whose entropy is not 0, `ScoreToken` returns the only
element of `ScoreTokens` on the one token. On a collection whose entropy is 0 the two paths
divide the same information content by different numbers: `ScoreTokens` by 1, `ScoreToken`
by the entropy, that is by 0. Here on the collection of one token with the attribute
`hat: cap`. -/
theorem C31_single_and_batch_paths :
    (∀ (log2 : F → F) (c : Collection) (t : Token),
      InformationContentScoringHandler.GetCollectionEntropy log2 c none none ≠ 0 →
      InformationContentScoringHandler.ScoreTokens log2 c [t]
        = [InformationContentScoringHandler.ScoreToken log2 c t]) ∧
      InformationContentScoringHandler.GetCollectionEntropy (Real.logb 2) uniformCollection
        none none = 0 ∧
      ∀ t : Token,
        InformationContentScoringHandler.ScoreTokens (Real.logb 2) uniformCollection [t]
            = [InformationContentScoringHandler.getICScore (Real.logb 2) uniformCollection t
                (some uniformCollection.ExtractNullAttributes) / 1] ∧
          InformationContentScoringHandler.ScoreToken (Real.logb 2) uniformCollection t
            = InformationContentScoringHandler.getICScore (Real.logb 2) uniformCollection t
                (some uniformCollection.ExtractNullAttributes) / 0 := by
  refine ⟨?_, uniformCollection_entropy, ?_⟩
  · intro log2 c t h
    rw [scoreTokens_eq, scoreToken_single_eq, if_neg h]
    rfl
  · intro t
    constructor
    · rw [scoreTokens_eq, if_pos uniformCollection_entropy]
      rfl
    · rw [scoreToken_single_eq, uniformCollection_entropy]

/-! ## The scores of the attributes of a token -/

theorem getList_map_snd {A B : Type} (g : A → B) (k : String) (l : List (String × A)) :
    GoMap.getList k (l.map fun e => (e.1, g e.2)) = (GoMap.getList k l).map g := by
  induction l with
  | nil => rfl
  | cons e r ih =>
    obtain ⟨k', v⟩ := e
    by_cases h : k' = k
    · simp [GoMap.getList, h]
    · simp only [List.map_cons, GoMap.getList, if_neg h, ih]

/-- The entry of a name in the map of `convertToCollectionAttributesDict`: the attribute of
the token under that name, with the count `TotalTokensWithAttributes` of that attribute. -/
theorem convertToCollectionAttributesDict_get? (c : Collection) (t : Token) (k : String) :
    (convertToCollectionAttributesDict c t).get? k
      = (t.metadata.stringAttributes.get? k).map fun a =>
          ({ Attribute := a, TotalTokens := c.TotalTokensWithAttributes a } :
            CollectionAttribute) := by
  unfold GoMap.get?
  rw [convertToCollectionAttributesDict_entries]
  exact getList_map_snd
    (fun a => ({ Attribute := a, TotalTokens := c.TotalTokensWithAttributes a } :
      CollectionAttribute)) k _

/-- The sort of a list of distinct strings by `<` is strictly ascending. -/
theorem sortSlice_strings (l : List String) (hl : l.Nodup) :
    (sortSlice (fun a b : String => decide (a < b)) l).Pairwise (fun a b => a < b) := by
  have h1 := sortSlice_pairwise (fun a b : String => decide (a < b)) (fun _ => True)
    (by
      intro a b _ _ hab
      simp only [decide_eq_true_eq, decide_eq_false_iff_not] at hab ⊢
      exact lt_asymm hab)
    (by
      intro a b c _ _ _ hab hbc
      simp only [decide_eq_false_iff_not, not_lt] at hab hbc ⊢
      exact le_trans hbc hab)
    l (fun _ _ => trivial)
  have h2 : (sortSlice (fun a b : String => decide (a < b)) l).Nodup :=
    (sortSlice_perm _ l).nodup_iff.2 hl
  have h3 := h1.and h2
  refine h3.imp ?_
  intro a b hab
  simp only [decide_eq_false_iff_not, not_lt] at hab
  exact lt_of_le_of_ne hab.1 hab.2

/-- The scores of `GetTokenAttributesScoresAndWeights`: one score per name of the combined
attributes, in strictly ascending order of the names. -/
theorem attributeScores_eq (c : Collection) (t : Token) (normalized : Bool) :
    ∃ names : List String,
      names.Pairwise (fun a b => a < b) ∧
      (∀ n, n ∈ names ↔
        n ∈ t.metadata.stringAttributes.keys ∨ n ∈ c.ExtractNullAttributes.keys) ∧
      (GetTokenAttributesScoresAndWeights c t normalized none : List F × List F).1
        = names.map fun n =>
            ((c.TokenTotalSupply : Int) : F) / ((specCombinedCount c t n : Int) : F) := by
  refine ⟨sortSlice (fun a b => decide (a < b))
    (GetMapKeys (MergeMap c.ExtractNullAttributes (convertToCollectionAttributesDict c t))),
    sortSlice_strings _ (GoMap.nodup _), ?_, ?_⟩
  · intro n
    rw [(sortSlice_perm _ _).mem_iff]
    unfold GetMapKeys
    rw [mem_keys_mergeMap, mem_keys_convert]
    have : t.HasAttribute n = true ↔ n ∈ t.metadata.stringAttributes.keys := by
      unfold Token.HasAttribute TokenMetadata.AttributeExists
      rw [GoMap.mem_keys_iff, Option.isSome_iff_exists]
    rw [this]
    exact or_comm
  · have hget : ∀ n ∈ sortSlice (fun a b => decide (a < b))
        (GetMapKeys (MergeMap c.ExtractNullAttributes (convertToCollectionAttributesDict c t))),
        ∃ v, (MergeMap c.ExtractNullAttributes (convertToCollectionAttributesDict c t)).get? n
            = some v ∧ v.TotalTokens = specCombinedCount c t n := by
      intro n hn
      rw [(sortSlice_perm _ _).mem_iff] at hn
      obtain ⟨v, hv⟩ := (GoMap.mem_keys_iff _ n).1 hn
      refine ⟨v, hv, ?_⟩
      rw [mergeMap_get?, convertToCollectionAttributesDict_get?] at hv
      unfold specCombinedCount
      cases hown : t.metadata.stringAttributes.get? n with
      | some a =>
        rw [hown] at hv
        simp only [Option.map_some', Option.some.injEq] at hv
        rw [← hv]
      | none =>
        rw [hown] at hv
        simp only [Option.map_none'] at hv
        rw [hv]
    have hscores : (GetTokenAttributesScoresAndWeights c t normalized none : List F × List F).1
        = ((sortSlice (fun a b => decide (a < b))
            (GetMapKeys (MergeMap c.ExtractNullAttributes
              (convertToCollectionAttributesDict c t)))).filterMap
            fun name => (MergeMap c.ExtractNullAttributes
              (convertToCollectionAttributesDict c t)).get? name).map
          fun attr => ((c.TokenTotalSupply : Int) : F) / ((attr.TotalTokens : Int) : F) := rfl
    rw [hscores]
    generalize sortSlice (fun a b => decide (a < b))
        (GetMapKeys (MergeMap c.ExtractNullAttributes (convertToCollectionAttributesDict c t)))
      = names at hget
    induction names with
    | nil => rfl
    | cons n r ih =>
      obtain ⟨v, hv, hcount⟩ := hget n (List.mem_cons_self _ _)
      simp only [List.filterMap_cons, hv, List.map_cons, hcount]
      rw [ih fun m hm => hget m (List.mem_cons_of_mem _ hm)]

/-- C32: `GetTokenAttributesScoresAndWeights` returns one score per attribute name in the
union of the names of the string attributes of the token and of the names of the null
placeholders of the collection, in strictly ascending order of the names. The score of a name
that the token holds is the supply over the number of tokens with the token's own value, also
when the name has a null placeholder; the score of a name that the token lacks is the supply
over the count of the null placeholder. The number of tokens with a value is
`TotalTokensWithAttributes`, which in a collection built by `NewCollection` counts the tokens
of the collection that hold the value under the name of the attribute. -/
theorem C32_attribute_scores (c : Collection) (t : Token) (normalized : Bool) :
    (∃ names : List String,
      names.Pairwise (fun a b => a < b) ∧
      (∀ n, n ∈ names ↔
        n ∈ t.metadata.stringAttributes.keys ∨ n ∈ c.ExtractNullAttributes.keys) ∧
      (GetTokenAttributesScoresAndWeights c t normalized none : List F × List F).1
        = (names.map fun n =>
            ((c.TokenTotalSupply : Int) : F) / ((specCombinedCount c t n : Int) : F)) ∧
      (GetTokenAttributesScoresAndWeights c t normalized (some c.ExtractNullAttributes) :
          List F × List F).1
        = names.map fun n =>
            ((c.TokenTotalSupply : Int) : F) / ((specCombinedCount c t n : Int) : F)) ∧
      (∀ (n : String) (a : StringAttribute), t.metadata.stringAttributes.get? n = some a →
        specCombinedCount c t n = c.TotalTokensWithAttributes a) ∧
      (∀ (n : String) (nullAttr : CollectionAttribute),
        t.metadata.stringAttributes.get? n = none →
        c.ExtractNullAttributes.get? n = some nullAttr →
        specCombinedCount c t n = nullAttr.TotalTokens) ∧
      ∀ (name : String) (tokens : List Token) (a : StringAttribute),
        (NewCollection name tokens).TotalTokensWithAttributes a
          = (((NewCollection name tokens).Tokens.countP fun u =>
              tokenHoldsValue u a.name a.value : Nat) : Int) := by
  refine ⟨?_, ?_, ?_, fun name tokens a => tableCount_derive _ _ _⟩
  · obtain ⟨names, h1, h2, h3⟩ := @attributeScores_eq F _ c t normalized
    refine ⟨names, h1, h2, h3, ?_⟩
    rw [← h3]
    rfl
  · intro n a h
    unfold specCombinedCount
    rw [h]
  · intro n nullAttr h1 h2
    unfold specCombinedCount
    rw [h1, h2]

/-! ## The counts behind the score of a member token -/

/-- The trait-count pass keeps the keys of the string attributes equal to their names. -/
theorem traitCountify_keys_names (tokens : List Token)
    (hkeys : ∀ t ∈ tokens, ∀ e ∈ t.metadata.stringAttributes.entries, e.2.name = e.1) :
    ∀ t ∈ traitCountify tokens, ∀ e ∈ t.metadata.stringAttributes.entries, e.2.name = e.1 := by
  intro t ht e he
  unfold traitCountify at ht
  obtain ⟨u, hu, rfl⟩ := List.mem_map.1 ht
  rw [traitCountifyToken_stringAttributes] at he
  rcases GoMap.mem_setList _ _ _ e he with h | h
  · rw [h]
    exact traitCount_key _
  · exact hkeys u hu e h

/-- The count of a combined attribute of a token is the count of the specification. -/
theorem merged_get?_count (c : Collection) (t : Token) (n : String) (v : CollectionAttribute)
    (hv : (MergeMap c.ExtractNullAttributes (convertToCollectionAttributesDict c t)).get? n
      = some v) :
    v.TotalTokens = specCombinedCount c t n := by
  rw [mergeMap_get?, convertToCollectionAttributesDict_get?] at hv
  unfold specCombinedCount
  cases hown : t.metadata.stringAttributes.get? n with
  | some a =>
    rw [hown] at hv
    simp only [Option.map_some', Option.some.injEq] at hv
    rw [← hv]
  | none =>
    rw [hown] at hv
    simp only [Option.map_none'] at hv
    rw [hv]

/-- For a token of a built collection that holds its string attributes under their names,
the count behind the score of a name of the frequency table is the number of tokens of the
collection that share the value of the token for the name, or its absence of the name; it
lies between 1 and the supply. -/
theorem member_count_eq_shared (name : String) (tokens : List Token) (t : Token)
    (ht : t ∈ (NewCollection name tokens).Tokens)
    (hkeys : ∀ e ∈ t.metadata.stringAttributes.entries, e.2.name = e.1) (k : String)
    (hk : k ∈ (NewCollection name tokens).attributesFrequencyCounts.keys) :
    specCombinedCount (NewCollection name tokens) t k
        = ((specSharedCount (NewCollection name tokens).Tokens t k : Nat) : Int) ∧
      1 ≤ specSharedCount (NewCollection name tokens).Tokens t k ∧
      specSharedCount (NewCollection name tokens).Tokens t k
        ≤ (NewCollection name tokens).Tokens.length := by
  have hT : (NewCollection name tokens).attributesFrequencyCounts
      = deriveNormalizedAttrsFrequencyCount (traitCountify tokens) := rfl
  have hTs : (NewCollection name tokens).Tokens = traitCountify tokens := rfl
  have hN : (NewCollection name tokens).TokenTotalSupply
      = (((traitCountify tokens).length : Nat) : Int) := rfl
  rw [hTs] at ht ⊢
  unfold specCombinedCount specSharedCount
  cases hown : t.metadata.stringAttributes.get? k with
  | some a =>
    have he : (k, a) ∈ t.metadata.stringAttributes.entries :=
      (GoMap.get?_eq_some_iff _ k a).1 hown
    have hname : a.name = k := hkeys _ he
    have hhold : tokenHoldsValue t k a.value = true := by
      unfold tokenHoldsValue
      rw [hown]
      simp
    refine ⟨?_, ?_, List.countP_le_length _⟩
    · show (NewCollection name tokens).TotalTokensWithAttributes a = _
      unfold Collection.TotalTokensWithAttributes
      rw [hT, tableCount_derive, hname]
    · exact List.countP_pos_iff.2 ⟨t, ht, hhold⟩
  | none =>
    have hlack : t.HasAttribute k = false := by
      unfold Token.HasAttribute TokenMetadata.AttributeExists
      rw [hown]
      rfl
    obtain ⟨inner, hinner⟩ := (GoMap.mem_keys_iff _ k).1 hk
    have hsum : totalTraitCount inner
        = (((traitCountify tokens).countP fun t => t.HasAttribute k : Nat) : Int) := by
      rw [← tableSum_derive (traitCountify tokens) k, ← hT]
      unfold tableSum
      rw [hinner]
    have hsplit := List.length_eq_countP_add_countP (fun u : Token => u.HasAttribute k)
      (traitCountify tokens)
    have hnot : (traitCountify tokens).countP (fun u => decide ¬ (u.HasAttribute k = true))
        = (traitCountify tokens).countP (fun u => !u.HasAttribute k) := by
      apply List.countP_congr
      intro u _
      simp
    rw [hnot] at hsplit
    have hpos : 0 < (traitCountify tokens).countP (fun u => !u.HasAttribute k) :=
      List.countP_pos_iff.2 ⟨t, ht, by simp [hlack]⟩
    refine ⟨?_, hpos, List.countP_le_length _⟩
    simp only
    rw [extractNullAttributes_get?, hinner]
    simp only
    rw [hN, hsum]
    have hgt : (((traitCountify tokens).length : Nat) : Int)
        - (((traitCountify tokens).countP fun t => t.HasAttribute k : Nat) : Int) > 0 := by
      omega
    rw [if_pos hgt]
    simp only
    omega

/-! ## The information content, name by name -/

/-- For a token of a built collection that holds its string attributes under their names,
the information content is the sum, over the names of the frequency table, of
`log2 (totalSupply / count)` with the number of tokens that share the value of the token for
the name, or its absence of the name. -/
theorem member_ic_by_names (name : String) (tokens : List Token) (t : Token)
    (ht : t ∈ (NewCollection name tokens).Tokens)
    (hkeys : ∀ e ∈ t.metadata.stringAttributes.entries, e.2.name = e.1) :
    InformationContentScoringHandler.getICScore (Real.logb 2) (NewCollection name tokens) t
        (some (NewCollection name tokens).ExtractNullAttributes)
      = ((NewCollection name tokens).attributesFrequencyCounts.keys.map fun k =>
          Real.logb 2 ((((NewCollection name tokens).TokenTotalSupply : Int) : ℝ)
            / ((specSharedCount (NewCollection name tokens).Tokens t k : Nat) : ℝ))).sum := by
  rw [getICScore_eq_sum_combined,
    sum_entries_eq_sum_keys _ _
      (fun k => Real.logb 2 ((((NewCollection name tokens).TokenTotalSupply : Int) : ℝ)
        / ((specCombinedCount (NewCollection name tokens) t k : Int) : ℝ)))
      (fun e he => by
        rw [merged_get?_count _ t e.1 e.2 ((GoMap.get?_eq_some_iff _ e.1 e.2).2 he)])]
  have hperm : (MergeMap (NewCollection name tokens).ExtractNullAttributes
      (convertToCollectionAttributesDict (NewCollection name tokens) t)).keys.Perm
      (NewCollection name tokens).attributesFrequencyCounts.keys :=
    (List.perm_ext_iff_of_nodup (GoMap.nodup _) (GoMap.nodup _)).2
      (mem_keys_combined_of_member name tokens t ht)
  rw [(hperm.map _).sum_eq]
  congr 1
  apply List.map_congr_left
  intro k hk
  rw [(member_count_eq_shared name tokens t ht hkeys k hk).1, Int.cast_natCast]

/-! ## Sums over tokens, value by value -/

theorem sum_indicator (h : String → ℝ) (v0 : String) (vs : List String) (hvs : vs.Nodup) :
    (vs.map fun v => (if v0 = v then (1 : ℝ) else 0) * h v).sum
      = if v0 ∈ vs then h v0 else 0 := by
  induction vs with
  | nil => simp
  | cons a r ih =>
    rw [List.nodup_cons] at hvs
    rw [List.map_cons, List.sum_cons, ih hvs.2]
    by_cases ha : v0 = a
    · subst ha
      simp [hvs.1]
    · have : ¬ a = v0 := fun h' => ha h'.symm
      simp [ha, this]

/-- A sum over a list whose terms depend on an optional value of the element, grouped by
the value. -/
theorem sum_by_value {α : Type} (val : α → Option String) (h : String → ℝ) (d : ℝ)
    (vs : List String) (hvs : vs.Nodup) (l : List α)
    (hl : ∀ t ∈ l, ∀ v, val t = some v → v ∈ vs) :
    (l.map fun t =>
        match val t with
        | some v => h v
        | none => d).sum
      = (vs.map fun v => ((l.countP fun t => decide (val t = some v) : Nat) : ℝ) * h v).sum
        + ((l.countP fun t => (val t).isNone : Nat) : ℝ) * d := by
  induction l with
  | nil => simp
  | cons t r ih =>
    have ih' := ih fun u hu => hl u (List.mem_cons_of_mem _ hu)
    rw [List.map_cons, List.sum_cons, ih']
    cases hv : val t with
    | none =>
      have e1 : ∀ v, (t :: r).countP (fun t => decide (val t = some v))
          = r.countP (fun t => decide (val t = some v)) := by
        intro v
        rw [List.countP_cons]
        simp [hv]
      have e2 : (t :: r).countP (fun t => (val t).isNone)
          = r.countP (fun t => (val t).isNone) + 1 := by
        rw [List.countP_cons]
        simp [hv]
      simp only [e1, e2]
      push_cast
      ring
    | some v0 =>
      have hv0 : v0 ∈ vs := hl t (List.mem_cons_self _ _) v0 hv
      have e1 : ∀ v, (((t :: r).countP (fun t => decide (val t = some v)) : Nat) : ℝ)
          = ((r.countP (fun t => decide (val t = some v)) : Nat) : ℝ)
            + if v0 = v then 1 else 0 := by
        intro v
        rw [List.countP_cons]
        by_cases hvv : v0 = v
        · simp [hv, hvv]
        · simp [hv, hvv]
      have e2 : (t :: r).countP (fun t => (val t).isNone)
          = r.countP (fun t => (val t).isNone) := by
        rw [List.countP_cons]
        simp [hv]
      simp only [e1, e2, add_mul]
      rw [sum_map_add, sum_indicator h v0 vs hvs, if_pos hv0]
      ring

theorem sum_comm_lists {α β : Type} (l1 : List α) (l2 : List β) (f : α → β → ℝ) :
    (l1.map fun a => (l2.map fun b => f a b).sum).sum
      = (l2.map fun b => (l1.map fun a => f a b).sum).sum := by
  induction l1 with
  | nil => simp
  | cons a r ih =>
    simp only [List.map_cons, List.sum_cons, ih]
    rw [sum_map_add]

theorem sum_map_div_const {α : Type} (l : List α) (f : α → ℝ) (H : ℝ) :
    (l.map fun a => f a / H).sum = (l.map f).sum / H := by
  induction l with
  | nil => simp
  | cons a r ih =>
    simp only [List.map_cons, List.sum_cons, ih]
    ring

theorem sum_map_mul_const {α : Type} (l : List α) (f : α → ℝ) (N : ℝ) :
    (l.map fun a => N * f a).sum = N * (l.map f).sum := by
  induction l with
  | nil => simp
  | cons a r ih =>
    simp only [List.map_cons, List.sum_cons, ih]
    ring

/-! ## Expected information content -/

theorem count_mul_logb (N x : ℝ) (hN : N ≠ 0) :
    x * Real.logb 2 (N / x) = -N * (x / N * Real.logb 2 (x / N)) := by
  have : Real.logb 2 (N / x) = -Real.logb 2 (x / N) := by
    rw [← Real.logb_inv, inv_div]
  rw [this]
  field_simp
  ring

/-- Over the tokens of a built collection, the terms `log2 (totalSupply / count)` of one
name of the frequency table add up to the supply times the contribution of the name to the
entropy. -/
theorem sum_tokens_at_name (name : String) (tokens : List Token) (k : String)
    (hk : k ∈ (NewCollection name tokens).attributesFrequencyCounts.keys) :
    ((NewCollection name tokens).Tokens.map fun t =>
        Real.logb 2 ((((NewCollection name tokens).TokenTotalSupply : Int) : ℝ)
          / ((specSharedCount (NewCollection name tokens).Tokens t k : Nat) : ℝ))).sum
      = (((NewCollection name tokens).TokenTotalSupply : Int) : ℝ)
        * attributeEntropy (Real.logb 2) (NewCollection name tokens) k := by
  have hT : (NewCollection name tokens).attributesFrequencyCounts
      = deriveNormalizedAttrsFrequencyCount (traitCountify tokens) := rfl
  have hTs : (NewCollection name tokens).Tokens = traitCountify tokens := rfl
  have hN : (NewCollection name tokens).TokenTotalSupply
      = (((traitCountify tokens).length : Nat) : Int) := rfl
  obtain ⟨inner, hinner⟩ := (GoMap.mem_keys_iff _ k).1 hk
  rw [hT] at hinner
  obtain ⟨u0, hu0, -⟩ := (mem_keys_derive (traitCountify tokens) k).1 hk
  have hlen : 0 < (traitCountify tokens).length := List.length_pos_of_mem hu0
  have hNr : ((((traitCountify tokens).length : Nat) : Int) : ℝ) ≠ 0 := by
    have : (0 : ℝ) < ((((traitCountify tokens).length : Nat) : Int) : ℝ) := by
      exact_mod_cast hlen
    exact this.ne'
  rw [hTs, hN]
  generalize hts : traitCountify tokens = ts at *
  -- the value of a token under the name
  set val : Token → Option String :=
    fun t => (t.metadata.stringAttributes.get? k).map fun a => a.value with hval
  have hholds : ∀ (u : Token) (v : String),
      tokenHoldsValue u k v = decide (val u = some v) := by
    intro u v
    have h : ∀ o : Option StringAttribute,
        (match o with
          | some a => decide (a.value = v)
          | none => false)
        = decide (o.map (fun a => a.value) = some v) := by
      intro o
      cases o <;> simp
    exact h _
  have hlacks : ∀ u : Token, (!u.HasAttribute k) = (val u).isNone := by
    intro u
    have h : ∀ o : Option StringAttribute,
        (!o.isSome) = (o.map (fun a => a.value)).isNone := by
      intro o
      cases o <;> rfl
    exact h _
  have hcnt : ∀ v, ts.countP (fun u => tokenHoldsValue u k v)
      = ts.countP (fun u => decide (val u = some v)) := by
    intro v
    apply List.countP_congr
    intro u _
    rw [hholds]
  have hcntL : ts.countP (fun u => !u.HasAttribute k) = ts.countP (fun u => (val u).isNone) := by
    apply List.countP_congr
    intro u _
    rw [hlacks]
  -- the entries of the table for the name
  have hentry : ∀ e ∈ inner.entries,
      e.2 = ((ts.countP (fun u => decide (val u = some e.1)) : Nat) : Int) := by
    intro e he
    have h1 := tableCount_derive ts k e.1
    unfold tableCount at h1
    rw [hinner] at h1
    simp only [(GoMap.get?_eq_some_iff inner e.1 e.2).2 he, Option.getD_some] at h1
    rw [← hcnt]
    exact h1
  have hvals : ∀ t ∈ ts, ∀ v, val t = some v → v ∈ inner.keys := by
    intro t ht v hv
    have hpos : 0 < ts.countP (fun u => tokenHoldsValue u k v) :=
      List.countP_pos_iff.2 ⟨t, ht, by rw [hholds, hv]; simp⟩
    have hget := tableGet?_derive ts k v
    rw [if_neg (by omega)] at hget
    unfold tableGet? at hget
    rw [hinner] at hget
    exact (GoMap.mem_keys_iff inner v).2 ⟨_, hget⟩
  -- the sum over the tokens, by value
  have hterm : ∀ t ∈ ts,
      Real.logb 2 ((((ts.length : Nat) : Int) : ℝ) / ((specSharedCount ts t k : Nat) : ℝ))
        = match val t with
          | some v => Real.logb 2 ((((ts.length : Nat) : Int) : ℝ)
              / ((ts.countP (fun u => decide (val u = some v)) : Nat) : ℝ))
          | none => Real.logb 2 ((((ts.length : Nat) : Int) : ℝ)
              / ((ts.countP (fun u => (val u).isNone) : Nat) : ℝ)) := by
    intro t _
    unfold specSharedCount
    simp only [hval]
    cases hg : t.metadata.stringAttributes.get? k with
    | some a =>
      simp only [Option.map_some']
      rw [hcnt]
    | none =>
      simp only [Option.map_none']
      rw [hcntL]
  rw [List.map_congr_left hterm,
    sum_by_value val
      (fun v => Real.logb 2 ((((ts.length : Nat) : Int) : ℝ)
        / ((ts.countP (fun u => decide (val u = some v)) : Nat) : ℝ)))
      _ inner.keys inner.nodup ts hvals]
  -- the two parts of the contribution of the name
  have hvalue : (inner.keys.map fun v =>
        ((ts.countP (fun t => decide (val t = some v)) : Nat) : ℝ)
          * Real.logb 2 ((((ts.length : Nat) : Int) : ℝ)
            / ((ts.countP (fun u => decide (val u = some v)) : Nat) : ℝ))).sum
      = -((((ts.length : Nat) : Int) : ℝ))
        * valueSum (fun x : Int => ((x : Int) : ℝ) / (((ts.length : Nat) : Int) : ℝ)
            * Real.logb 2 (((x : Int) : ℝ) / (((ts.length : Nat) : Int) : ℝ)))
          (deriveNormalizedAttrsFrequencyCount ts) k := by
    unfold valueSum
    rw [hinner]
    simp only
    rw [← sum_map_mul_const]
    unfold GoMap.keys
    rw [List.map_map]
    congr 1
    apply List.map_congr_left
    intro e he
    simp only [Function.comp]
    rw [hentry e he, Int.cast_natCast]
    exact count_mul_logb _ _ hNr
  have hsumk : tableSum (deriveNormalizedAttrsFrequencyCount ts) k
      = ((ts.countP (fun u => u.HasAttribute k) : Nat) : Int) := tableSum_derive ts k
  have hsplit := List.length_eq_countP_add_countP (fun u : Token => u.HasAttribute k) ts
  have hnot : ts.countP (fun u => decide ¬ (u.HasAttribute k = true))
      = ts.countP (fun u => (val u).isNone) := by
    rw [← hcntL]
    apply List.countP_congr
    intro u _
    simp
  rw [hnot] at hsplit
  have hnull : ((ts.countP (fun t => (val t).isNone) : Nat) : ℝ)
        * Real.logb 2 ((((ts.length : Nat) : Int) : ℝ)
          / ((ts.countP (fun u => (val u).isNone) : Nat) : ℝ))
      = -((((ts.length : Nat) : Int) : ℝ))
        * nullTerm (fun x : Int => ((x : Int) : ℝ) / (((ts.length : Nat) : Int) : ℝ)
            * Real.logb 2 (((x : Int) : ℝ) / (((ts.length : Nat) : Int) : ℝ)))
          ((ts.length : Nat) : Int) (deriveNormalizedAttrsFrequencyCount ts) k := by
    unfold nullTerm
    rw [hsumk]
    have hL : (((ts.length : Nat) : Int)) - ((ts.countP (fun u => u.HasAttribute k) : Nat) : Int)
        = ((ts.countP (fun u => (val u).isNone) : Nat) : Int) := by omega
    rw [hL]
    by_cases h0 : ts.countP (fun u => (val u).isNone) = 0
    · rw [h0]
      simp
    · have hgt : ((ts.countP (fun u => (val u).isNone) : Nat) : Int) > 0 := by omega
      rw [if_pos hgt, Int.cast_natCast]
      exact count_mul_logb _ _ hNr
  rw [hvalue, hnull]
  unfold attributeEntropy
  rw [hT, hN]
  ring

/-- The information contents of the tokens of a built collection that hold their string
attributes under their names add up to the supply times the entropy. -/
theorem sum_ic_eq_supply_mul_entropy (name : String) (tokens : List Token)
    (hkeys : ∀ t ∈ (NewCollection name tokens).Tokens,
      ∀ e ∈ t.metadata.stringAttributes.entries, e.2.name = e.1) :
    ((NewCollection name tokens).Tokens.map fun t =>
        InformationContentScoringHandler.getICScore (Real.logb 2) (NewCollection name tokens) t
          (some (NewCollection name tokens).ExtractNullAttributes)).sum
      = (((NewCollection name tokens).TokenTotalSupply : Int) : ℝ)
        * InformationContentScoringHandler.GetCollectionEntropy (Real.logb 2)
            (NewCollection name tokens) none none := by
  rw [List.map_congr_left fun t ht => member_ic_by_names name tokens t ht (hkeys t ht),
    sum_comm_lists,
    List.map_congr_left fun k hk => sum_tokens_at_name name tokens k hk,
    sum_map_mul_const, getCollectionEntropy_eq_sum_attributeEntropy]

/-- C37 (as amended): for a non-empty collection of non-zero entropy, built by `NewCollection`
from tokens that hold their string attributes under their names, the scores of its tokens
add up to the number of tokens in exact arithmetic: the scores that `ScoreTokens` returns
for the tokens of the collection, and the scores that `ScoreToken` returns token by token.
(In `float64` the sum is the number of tokens up to rounding only.) -/
theorem C37_mean_score_is_one (name : String) (tokens : List Token)
    (hkeys : ∀ t ∈ tokens, ∀ e ∈ t.metadata.stringAttributes.entries, e.2.name = e.1)
    (hne : tokens ≠ [])
    (hentropy : InformationContentScoringHandler.GetCollectionEntropy (Real.logb 2)
      (NewCollection name tokens) none none ≠ 0) :
    (NewCollection name tokens).Tokens.length = tokens.length ∧
      0 < tokens.length ∧
      (InformationContentScoringHandler.ScoreTokens (Real.logb 2) (NewCollection name tokens)
          (NewCollection name tokens).Tokens).sum = (tokens.length : ℝ) ∧
      ((NewCollection name tokens).Tokens.map fun t =>
          InformationContentScoringHandler.ScoreToken (Real.logb 2)
            (NewCollection name tokens) t).sum = (tokens.length : ℝ) := by
  have hlen : (NewCollection name tokens).Tokens.length = tokens.length := by
    show (traitCountify tokens).length = _
    unfold traitCountify
    rw [List.length_map]
  have hsum := sum_ic_eq_supply_mul_entropy name tokens
    (traitCountify_keys_names tokens hkeys)
  have hN : (((NewCollection name tokens).TokenTotalSupply : Int) : ℝ) = (tokens.length : ℝ) := by
    rw [supply_eq_length, Int.cast_natCast]
  refine ⟨hlen, List.length_pos.2 hne, ?_, ?_⟩
  · rw [scoreTokens_eq, if_neg hentropy, sum_map_div_const, hsum, hN,
      mul_div_assoc, div_self hentropy, mul_one]
  · rw [List.map_congr_left fun t _ => scoreToken_single_eq (Real.logb 2) _ t,
      sum_map_div_const, hsum, hN, mul_div_assoc, div_self hentropy, mul_one]

/-! ## Collections of non-zero entropy -/

theorem list_sum_neg_of_mem {α : Type} (l : List α) (f : α → ℝ) (h0 : ∀ x ∈ l, f x ≤ 0)
    (a : α) (ha : a ∈ l) (hneg : f a < 0) : (l.map f).sum < 0 := by
  induction l with
  | nil => cases ha
  | cons x r ih =>
    rw [List.map_cons, List.sum_cons]
    have hr : (r.map f).sum ≤ 0 := list_sum_nonpos r f fun y hy => h0 y (List.mem_cons_of_mem _ hy)
    rcases List.mem_cons.1 ha with h | h
    · subst h
      linarith
    · have := ih (fun y hy => h0 y (List.mem_cons_of_mem _ hy)) h
      have hx := h0 x (List.mem_cons_self _ _)
      linarith

theorem mul_logb_neg (c N : Int) (h1 : 1 ≤ c) (h2 : c < N) :
    ((c : Int) : ℝ) / ((N : Int) : ℝ) * Real.logb 2 (((c : Int) : ℝ) / ((N : Int) : ℝ)) < 0 := by
  have hc : (0 : ℝ) < ((c : Int) : ℝ) := by exact_mod_cast (by omega : (0 : Int) < c)
  have hN : (0 : ℝ) < ((N : Int) : ℝ) := by exact_mod_cast (by omega : (0 : Int) < N)
  have hcN : ((c : Int) : ℝ) < ((N : Int) : ℝ) := by exact_mod_cast h2
  have hp : 0 < ((c : Int) : ℝ) / ((N : Int) : ℝ) := div_pos hc hN
  have hp1 : ((c : Int) : ℝ) / ((N : Int) : ℝ) < 1 := (div_lt_one hN).2 hcN
  exact mul_neg_of_pos_of_neg hp (Real.logb_neg (by norm_num) hp hp1)

/-- The entropy of a built collection is positive when some value of some attribute name is
held by fewer tokens than the collection has. -/
theorem entropy_pos_of_count_lt (name : String) (tokens : List Token)
    (h : ∃ e ∈ (NewCollection name tokens).attributesFrequencyCounts.entries,
      ∃ kv ∈ e.2.entries, kv.2 < (NewCollection name tokens).TokenTotalSupply) :
    0 < InformationContentScoringHandler.GetCollectionEntropy (Real.logb 2)
      (NewCollection name tokens) none none := by
  obtain ⟨e, he, kv, hkv, hlt⟩ := h
  rw [getCollectionEntropy_eq_spec (Real.logb 2) Real.logb_one]
  unfold specEntropy
  rw [neg_pos]
  have hN : (NewCollection name tokens).TokenTotalSupply
      = (((traitCountify tokens).length : Nat) : Int) := rfl
  have hA : ((NewCollection name tokens).attributesFrequencyCounts.entries.map fun e =>
      (e.2.entries.map fun kv =>
        ((kv.2 : Int) : ℝ) / (((NewCollection name tokens).TokenTotalSupply : Int) : ℝ)
          * Real.logb 2 (((kv.2 : Int) : ℝ)
            / (((NewCollection name tokens).TokenTotalSupply : Int) : ℝ))).sum).sum < 0 := by
    refine list_sum_neg_of_mem _ _ ?_ e he ?_
    · rintro ⟨k, inner⟩ hk
      apply list_sum_nonpos
      rintro ⟨v, c⟩ hv
      obtain ⟨h1, h2⟩ := table_entry_bounds (traitCountify tokens) k inner v c hk hv
      exact mul_logb_nonpos c _ h1 h2
    · refine list_sum_neg_of_mem _ _ ?_ kv hkv ?_
      · rintro ⟨v, c⟩ hv
        obtain ⟨h1, h2⟩ := table_entry_bounds (traitCountify tokens) e.1 e.2 v c he hv
        exact mul_logb_nonpos c _ h1 h2
      · obtain ⟨h1, -⟩ := table_entry_bounds (traitCountify tokens) e.1 e.2 kv.1 kv.2 he hkv
        exact mul_logb_neg kv.2 _ h1 hlt
  have hB : ((NewCollection name tokens).ExtractNullAttributes.entries.map fun e =>
      ((e.2.TotalTokens : Int) : ℝ) / (((NewCollection name tokens).TokenTotalSupply : Int) : ℝ)
        * Real.logb 2 (((e.2.TotalTokens : Int) : ℝ)
          / (((NewCollection name tokens).TokenTotalSupply : Int) : ℝ))).sum ≤ 0 := by
    apply list_sum_nonpos
    rintro ⟨k, na⟩ hk
    obtain ⟨h1, h2⟩ := null_entry_bounds name tokens k na hk
    exact mul_logb_nonpos _ _ h1 h2
  linarith

/-- C37 at the 6-token collection of `test_information_content_null_value_attribute`: in
exact arithmetic the six scores add up to 6. -/
theorem C37_mean_score_is_one_witness :
    (NewCollection "My Collection" (generatedTokens traitsWithEmpty)).Tokens.length = 6 ∧
      (InformationContentScoringHandler.ScoreTokens (Real.logb 2)
          (NewCollection "My Collection" (generatedTokens traitsWithEmpty))
          (NewCollection "My Collection" (generatedTokens traitsWithEmpty)).Tokens).sum
        = 6 :=
  have h := C37_mean_score_is_one "My Collection" (generatedTokens traitsWithEmpty)
    (by decide) (List.length_pos.1 (by decide))
    (entropy_pos_of_count_lt _ _ (by decide)).ne'
  have h6 : (generatedTokens traitsWithEmpty).length = 6 := by decide
  ⟨by rw [h.1, h6], by rw [h.2.2.1, h6]; norm_num⟩

/-! ## The scores of a member token -/

/-- The counts of the combined attributes of a member token lie between 1 and the supply. -/
theorem member_combined_bounds (name : String) (tokens : List Token) (t : Token)
    (ht : t ∈ (NewCollection name tokens).Tokens)
    (hkeys : ∀ e ∈ t.metadata.stringAttributes.entries, e.2.name = e.1) (k : String)
    (hk : k ∈ (NewCollection name tokens).attributesFrequencyCounts.keys) :
    1 ≤ specCombinedCount (NewCollection name tokens) t k ∧
      specCombinedCount (NewCollection name tokens) t k
        ≤ (NewCollection name tokens).TokenTotalSupply := by
  obtain ⟨h1, h2, h3⟩ := member_count_eq_shared name tokens t ht hkeys k hk
  have hN : (NewCollection name tokens).TokenTotalSupply
      = (((NewCollection name tokens).Tokens.length : Nat) : Int) := rfl
  rw [h1, hN]
  omega

/-- The information content of a member token is not negative. -/
theorem member_ic_nonneg (name : String) (tokens : List Token) (t : Token)
    (ht : t ∈ (NewCollection name tokens).Tokens)
    (hkeys : ∀ e ∈ t.metadata.stringAttributes.entries, e.2.name = e.1) :
    0 ≤ InformationContentScoringHandler.getICScore (Real.logb 2) (NewCollection name tokens) t
      (some (NewCollection name tokens).ExtractNullAttributes) := by
  rw [member_ic_by_names name tokens t ht hkeys]
  apply List.sum_nonneg
  intro x hx
  obtain ⟨k, hk, rfl⟩ := List.mem_map.1 hx
  obtain ⟨-, h2, h3⟩ := member_count_eq_shared name tokens t ht hkeys k hk
  have hN : (NewCollection name tokens).TokenTotalSupply
      = (((NewCollection name tokens).Tokens.length : Nat) : Int) := rfl
  rw [hN, Int.cast_natCast]
  have hpos : (0 : ℝ) < ((specSharedCount (NewCollection name tokens).Tokens t k : Nat) : ℝ) := by
    exact_mod_cast h2
  have hle : ((specSharedCount (NewCollection name tokens).Tokens t k : Nat) : ℝ)
      ≤ (((NewCollection name tokens).Tokens.length : Nat) : ℝ) := by exact_mod_cast h3
  exact Real.logb_nonneg (by norm_num) ((one_le_div hpos).2 hle)

/-- C38: for a collection built by `NewCollection` from tokens that hold their string
attributes under their names, and a token of the collection: every combined attribute has a
count between 1 and the supply; every attribute score, the supply over the count, lies
between 1 and the supply; the names of the combined attributes are the names of the
frequency table; and the information content and the score of the token, from `ScoreTokens`
and, on a collection of non-zero entropy, from `ScoreToken`, are not negative. -/
theorem C38_member_scores_in_range (name : String) (tokens : List Token)
    (hkeys : ∀ t ∈ tokens, ∀ e ∈ t.metadata.stringAttributes.entries, e.2.name = e.1)
    (t : Token) (ht : t ∈ (NewCollection name tokens).Tokens) (normalized : Bool) :
    (∀ e ∈ (MergeMap (NewCollection name tokens).ExtractNullAttributes
        (convertToCollectionAttributesDict (NewCollection name tokens) t)).entries,
      1 ≤ e.2.TotalTokens ∧ e.2.TotalTokens ≤ (NewCollection name tokens).TokenTotalSupply) ∧
      (∀ s ∈ (GetTokenAttributesScoresAndWeights (NewCollection name tokens) t normalized none :
          List ℝ × List ℝ).1,
        1 ≤ s ∧ s ≤ (((NewCollection name tokens).TokenTotalSupply : Int) : ℝ)) ∧
      (GetTokenAttributesScoresAndWeights (NewCollection name tokens) t normalized none :
          List ℝ × List ℝ).1.length
        = (NewCollection name tokens).attributesFrequencyCounts.keys.length ∧
      (∀ k, k ∈ (MergeMap (NewCollection name tokens).ExtractNullAttributes
            (convertToCollectionAttributesDict (NewCollection name tokens) t)).keys
        ↔ k ∈ (NewCollection name tokens).attributesFrequencyCounts.keys) ∧
      0 ≤ InformationContentScoringHandler.getICScore (Real.logb 2) (NewCollection name tokens)
        t (some (NewCollection name tokens).ExtractNullAttributes) ∧
      (∀ s ∈ InformationContentScoringHandler.ScoreTokens (Real.logb 2)
        (NewCollection name tokens) [t], 0 ≤ s) ∧
      (InformationContentScoringHandler.GetCollectionEntropy (Real.logb 2)
          (NewCollection name tokens) none none ≠ 0 →
        0 ≤ InformationContentScoringHandler.ScoreToken (Real.logb 2)
          (NewCollection name tokens) t) := by
  have hk' := traitCountify_keys_names tokens hkeys t ht
  have hmem := mem_keys_combined_of_member name tokens t ht
  have hic := member_ic_nonneg name tokens t ht hk'
  refine ⟨?_, ?_, ?_, hmem, hic, ?_, ?_⟩
  · intro e he
    have hk : e.1 ∈ (NewCollection name tokens).attributesFrequencyCounts.keys :=
      (hmem e.1).1 (List.mem_map_of_mem Prod.fst he)
    rw [merged_get?_count _ t e.1 e.2 ((GoMap.get?_eq_some_iff _ e.1 e.2).2 he)]
    exact member_combined_bounds name tokens t ht hk' e.1 hk
  · obtain ⟨names, -, hnames, hscores⟩ :=
      @attributeScores_eq ℝ _ (NewCollection name tokens) t normalized
    rw [hscores]
    intro s hs
    obtain ⟨n, hn, rfl⟩ := List.mem_map.1 hs
    have hk : n ∈ (NewCollection name tokens).attributesFrequencyCounts.keys := by
      rcases (hnames n).1 hn with h | h
      · exact (mem_keys_derive (traitCountify tokens) n).2 ⟨t, ht, h⟩
      · exact ((mem_keys_extractNullAttributes _ n).1 h).1
    obtain ⟨h1, h2⟩ := member_combined_bounds name tokens t ht hk' n hk
    have hpos : (0 : ℝ) < ((specCombinedCount (NewCollection name tokens) t n : Int) : ℝ) := by
      exact_mod_cast (by omega : (0 : Int) < specCombinedCount (NewCollection name tokens) t n)
    have h1r : (1 : ℝ) ≤ ((specCombinedCount (NewCollection name tokens) t n : Int) : ℝ) := by
      exact_mod_cast h1
    have h2r : ((specCombinedCount (NewCollection name tokens) t n : Int) : ℝ)
        ≤ (((NewCollection name tokens).TokenTotalSupply : Int) : ℝ) := by exact_mod_cast h2
    constructor
    · exact (one_le_div hpos).2 h2r
    · exact div_le_self (le_trans (le_of_lt hpos) h2r) h1r
  · obtain ⟨names, hsorted, hnames, hscores⟩ :=
      @attributeScores_eq ℝ _ (NewCollection name tokens) t normalized
    rw [hscores, List.length_map]
    have hnd : names.Nodup := hsorted.imp fun h => ne_of_lt h
    refine ((List.perm_ext_iff_of_nodup hnd (GoMap.nodup _)).2 fun n => ?_).length_eq
    rw [hnames n]
    constructor
    · rintro (h | h)
      · exact (mem_keys_derive (traitCountify tokens) n).2 ⟨t, ht, h⟩
      · exact ((mem_keys_extractNullAttributes _ n).1 h).1
    · intro h
      have := (hmem n).2 h
      rw [mem_keys_mergeMap, mem_keys_convert] at this
      rcases this with h' | h'
      · exact Or.inr h'
      · left
        unfold Token.HasAttribute TokenMetadata.AttributeExists at h'
        exact (GoMap.mem_keys_iff _ n).2 (Option.isSome_iff_exists.1 h')
  · intro s hs
    rw [scoreTokens_eq] at hs
    simp only [List.map_cons, List.map_nil, List.mem_singleton] at hs
    rw [hs]
    exact div_nonneg hic (le_of_lt (scoreTokens_divisor_pos name tokens))
  · intro _
    rw [scoreToken_single_eq]
    exact div_nonneg hic (getCollectionEntropy_nonneg name tokens)

/-- C38 at the collection `rarityCollection` and its first token: three combined attributes
(`x`, `y` and the trait count of the token; no null placeholder), each score between 1 and
3. -/
theorem C38_member_scores_in_range_witness :
    rarityCollection.attributesFrequencyCounts.keys.length = 3 ∧
      rarityCollection.TokenTotalSupply = 3 ∧
      (∀ s ∈ (GetTokenAttributesScoresAndWeights rarityCollection
          (traitCountifyToken rareTokenRaw) false none : List ℝ × List ℝ).1,
        1 ≤ s ∧ s ≤ ((rarityCollection.TokenTotalSupply : Int) : ℝ)) ∧
      ∀ s ∈ InformationContentScoringHandler.ScoreTokens (Real.logb 2) rarityCollection
        [traitCountifyToken rareTokenRaw], 0 ≤ s :=
  have h := C38_member_scores_in_range "rarity"
    [rareTokenRaw, commonTokenRaw 1, commonTokenRaw 2] (by decide)
    (traitCountifyToken rareTokenRaw) (List.mem_cons_self _ _) false
  ⟨by decide, by decide, h.2.1, h.2.2.2.2.2.1⟩

/-! ## The order of the scores -/

theorem logb_prod_nat (l : List Nat) (hl : ∀ x ∈ l, 1 ≤ x) :
    Real.logb 2 ((l.prod : Nat) : ℝ) = (l.map fun x => Real.logb 2 ((x : Nat) : ℝ)).sum := by
  induction l with
  | nil => simp
  | cons a r ih =>
    have ha : ((a : Nat) : ℝ) ≠ 0 := by
      have := hl a (List.mem_cons_self _ _)
      exact_mod_cast (by omega : a ≠ 0)
    have hr : ((r.prod : Nat) : ℝ) ≠ 0 := by
      have : 0 < r.prod :=
        List.prod_pos fun x hx => by
          have := hl x (List.mem_cons_of_mem _ hx)
          omega
      exact_mod_cast this.ne'
    rw [List.prod_cons, Nat.cast_mul, Real.logb_mul ha hr,
      ih fun x hx => hl x (List.mem_cons_of_mem _ hx), List.map_cons, List.sum_cons]

/-- The information content of a member token, from the product of its counts. -/
theorem member_ic_eq_sub_logb_prod (name : String) (tokens : List Token) (t : Token)
    (ht : t ∈ (NewCollection name tokens).Tokens)
    (hkeys : ∀ e ∈ t.metadata.stringAttributes.entries, e.2.name = e.1) :
    InformationContentScoringHandler.getICScore (Real.logb 2) (NewCollection name tokens) t
        (some (NewCollection name tokens).ExtractNullAttributes)
      = ((NewCollection name tokens).attributesFrequencyCounts.keys.length : ℝ)
          * Real.logb 2 (((NewCollection name tokens).TokenTotalSupply : Int) : ℝ)
        - Real.logb 2
          ((((NewCollection name tokens).attributesFrequencyCounts.keys.map fun k =>
            specSharedCount (NewCollection name tokens).Tokens t k).prod : Nat) : ℝ) := by
  have hN : (NewCollection name tokens).TokenTotalSupply
      = (((NewCollection name tokens).Tokens.length : Nat) : Int) := rfl
  have hNr : (((NewCollection name tokens).TokenTotalSupply : Int) : ℝ) ≠ 0 := by
    rw [hN, Int.cast_natCast]
    exact_mod_cast (List.length_pos_of_mem ht).ne'
  have hpos : ∀ x ∈ (NewCollection name tokens).attributesFrequencyCounts.keys.map fun k =>
      specSharedCount (NewCollection name tokens).Tokens t k, 1 ≤ x := by
    intro x hx
    obtain ⟨k, hk, rfl⟩ := List.mem_map.1 hx
    exact (member_count_eq_shared name tokens t ht hkeys k hk).2.1
  rw [member_ic_by_names name tokens t ht hkeys, logb_prod_nat _ hpos, List.map_map]
  have hterm : ∀ k ∈ (NewCollection name tokens).attributesFrequencyCounts.keys,
      Real.logb 2 ((((NewCollection name tokens).TokenTotalSupply : Int) : ℝ)
          / ((specSharedCount (NewCollection name tokens).Tokens t k : Nat) : ℝ))
        = Real.logb 2 (((NewCollection name tokens).TokenTotalSupply : Int) : ℝ)
          + -Real.logb 2 ((specSharedCount (NewCollection name tokens).Tokens t k : Nat) : ℝ) := by
    intro k hk
    have h1 := (member_count_eq_shared name tokens t ht hkeys k hk).2.1
    have hs : ((specSharedCount (NewCollection name tokens).Tokens t k : Nat) : ℝ) ≠ 0 := by
      exact_mod_cast (by omega : specSharedCount (NewCollection name tokens).Tokens t k ≠ 0)
    rw [Real.logb_div hNr hs, sub_eq_add_neg]
  rw [List.map_congr_left hterm, sum_map_add, list_sum_eq_length_mul _ _ _ fun _ _ => rfl]
  have hneg : ∀ l : List String,
      (l.map fun k =>
        -Real.logb 2 ((specSharedCount (NewCollection name tokens).Tokens t k : Nat) : ℝ)).sum
      = -(l.map ((fun x : Nat => Real.logb 2 ((x : Nat) : ℝ)) ∘ fun k =>
        specSharedCount (NewCollection name tokens).Tokens t k)).sum := by
    intro l
    induction l with
    | nil => simp
    | cons a r ih =>
      simp only [List.map_cons, List.sum_cons, ih, Function.comp]
      ring
  rw [hneg]
  ring

/-- C39 (as amended): in a collection of non-zero entropy, built by `NewCollection` from
tokens that hold their string attributes under their names, and in exact arithmetic, a token
A of the collection scores higher than a token B of the collection if and only if the
product, over the names of the frequency table, of the number of tokens that share the value
of A for the name (or its absence of the name) is smaller than the same product for B. The
scores are those of `ScoreToken`, which are those of `ScoreTokens` on such a collection. (In
`float64` tokens with equal products can get scores that differ in the last digit.) -/
theorem C39_score_order_is_inverse_product_order (name : String) (tokens : List Token)
    (hkeys : ∀ t ∈ tokens, ∀ e ∈ t.metadata.stringAttributes.entries, e.2.name = e.1)
    (hentropy : InformationContentScoringHandler.GetCollectionEntropy (Real.logb 2)
      (NewCollection name tokens) none none ≠ 0)
    (A B : Token) (hA : A ∈ (NewCollection name tokens).Tokens)
    (hB : B ∈ (NewCollection name tokens).Tokens) :
    (InformationContentScoringHandler.ScoreToken (Real.logb 2) (NewCollection name tokens) B
        < InformationContentScoringHandler.ScoreToken (Real.logb 2) (NewCollection name tokens) A
      ↔ ((NewCollection name tokens).attributesFrequencyCounts.keys.map fun k =>
            specSharedCount (NewCollection name tokens).Tokens A k).prod
          < ((NewCollection name tokens).attributesFrequencyCounts.keys.map fun k =>
            specSharedCount (NewCollection name tokens).Tokens B k).prod) ∧
      InformationContentScoringHandler.ScoreTokens (Real.logb 2) (NewCollection name tokens)
          [A, B]
        = [InformationContentScoringHandler.ScoreToken (Real.logb 2)
            (NewCollection name tokens) A,
          InformationContentScoringHandler.ScoreToken (Real.logb 2)
            (NewCollection name tokens) B] := by
  have hH : 0 < InformationContentScoringHandler.GetCollectionEntropy (Real.logb 2)
      (NewCollection name tokens) none none :=
    lt_of_le_of_ne (getCollectionEntropy_nonneg name tokens) (Ne.symm hentropy)
  have hk' := traitCountify_keys_names tokens hkeys
  have hprod : ∀ t ∈ (NewCollection name tokens).Tokens,
      0 < ((NewCollection name tokens).attributesFrequencyCounts.keys.map fun k =>
        specSharedCount (NewCollection name tokens).Tokens t k).prod := by
    intro t ht
    apply List.prod_pos
    intro x hx
    obtain ⟨k, hk, rfl⟩ := List.mem_map.1 hx
    exact (member_count_eq_shared name tokens t ht (hk' t ht) k hk).2.1
  constructor
  · rw [scoreToken_single_eq, scoreToken_single_eq, div_lt_div_iff_of_pos_right hH,
      member_ic_eq_sub_logb_prod name tokens A hA (hk' A hA),
      member_ic_eq_sub_logb_prod name tokens B hB (hk' B hB), sub_lt_sub_iff_left,
      Real.logb_lt_logb_iff (by norm_num) (by exact_mod_cast hprod A hA)
        (by exact_mod_cast hprod B hB)]
    exact Nat.cast_lt
  · rw [scoreTokens_eq, if_neg hentropy, scoreToken_single_eq, scoreToken_single_eq]
    rfl

/-- C39 at the 6-token collection of `test_information_content_null_value_attribute`: in
exact arithmetic the token at index 5 (product 1 * 3 * 4 * 4) scores higher than the token at
index 2 (product 2 * 2 * 4 * 4). -/
theorem C39_score_order_is_inverse_product_order_witness :
    ∃ A B : Token,
      (NewCollection "My Collection" (generatedTokens traitsWithEmpty)).Tokens[5]? = some A ∧
      (NewCollection "My Collection" (generatedTokens traitsWithEmpty)).Tokens[2]? = some B ∧
      ((NewCollection "My Collection"
          (generatedTokens traitsWithEmpty)).attributesFrequencyCounts.keys.map fun k =>
        specSharedCount (NewCollection "My Collection"
          (generatedTokens traitsWithEmpty)).Tokens A k).prod = 1 * 3 * 4 * 4 ∧
      ((NewCollection "My Collection"
          (generatedTokens traitsWithEmpty)).attributesFrequencyCounts.keys.map fun k =>
        specSharedCount (NewCollection "My Collection"
          (generatedTokens traitsWithEmpty)).Tokens B k).prod = 2 * 2 * 4 * 4 ∧
      InformationContentScoringHandler.ScoreToken (Real.logb 2)
          (NewCollection "My Collection" (generatedTokens traitsWithEmpty)) B
        < InformationContentScoringHandler.ScoreToken (Real.logb 2)
          (NewCollection "My Collection" (generatedTokens traitsWithEmpty)) A :=
  ⟨(NewCollection "My Collection" (generatedTokens traitsWithEmpty)).Tokens.get ⟨5, by decide⟩,
    (NewCollection "My Collection" (generatedTokens traitsWithEmpty)).Tokens.get ⟨2, by decide⟩,
    List.getElem?_eq_getElem _, List.getElem?_eq_getElem _, by decide, by decide,
    (C39_score_order_is_inverse_product_order "My Collection" (generatedTokens traitsWithEmpty)
      (by decide) (entropy_pos_of_count_lt _ _ (by decide)).ne' _ _
      (List.get_mem _ _ _) (List.get_mem _ _ _)).1.2 (by decide)⟩

/-- Keys that are not the names: three tokens whose string-attribute maps hold, under the key
`A`, attributes of the normalized name `a`, with the values `x`, `x` and `y`. The entropy of the
collection is not 0. The third token shares its value with no other token and its trait
count with all three (product 1 * 3), the first shares its value with the second (product
2 * 3), yet the third does not score higher: `TotalTokensWithAttributes` looks the
attributes up under the name `a`, finds the count 0 for all three, and the three scores are
equal (infinite in `float64`; 0 in the embedding, where a division by 0 gives 0). -/
theorem member_key_mismatch_scores :
    ∃ A B : Token,
      (NewCollection "c" sharedKeyTokens).Tokens[2]? = some A ∧
      (NewCollection "c" sharedKeyTokens).Tokens[0]? = some B ∧
      InformationContentScoringHandler.GetCollectionEntropy (Real.logb 2)
        (NewCollection "c" sharedKeyTokens) none none ≠ 0 ∧
      ((NewCollection "c" sharedKeyTokens).attributesFrequencyCounts.keys.map fun k =>
        specSharedCount (NewCollection "c" sharedKeyTokens).Tokens A k).prod = 1 * 3 ∧
      ((NewCollection "c" sharedKeyTokens).attributesFrequencyCounts.keys.map fun k =>
        specSharedCount (NewCollection "c" sharedKeyTokens).Tokens B k).prod = 2 * 3 ∧
      A.metadata.stringAttributes.entries.map
          (fun e => (NewCollection "c" sharedKeyTokens).TotalTokensWithAttributes e.2)
        = [0, 3] ∧
      B.metadata.stringAttributes.entries.map
          (fun e => (NewCollection "c" sharedKeyTokens).TotalTokensWithAttributes e.2)
        = [0, 3] ∧
      ¬ (InformationContentScoringHandler.ScoreToken (Real.logb 2)
          (NewCollection "c" sharedKeyTokens) B
        < InformationContentScoringHandler.ScoreToken (Real.logb 2)
          (NewCollection "c" sharedKeyTokens) A) := by
  have hN : (NewCollection "c" sharedKeyTokens).TokenTotalSupply = 3 := by decide
  have hzero : ∀ t : Token,
      t.metadata.stringAttributes.entries.map
          (fun e => (NewCollection "c" sharedKeyTokens).TotalTokensWithAttributes e.2)
        = [0, 3] →
      ((NewCollection "c" sharedKeyTokens).ExtractNullAttributes.entries.filter
        fun e => !t.HasAttribute e.1) = [] →
      InformationContentScoringHandler.ScoreToken (Real.logb 2)
        (NewCollection "c" sharedKeyTokens) t = 0 := by
    intro t h1 h2
    rw [scoreToken_single_eq,
      getICScore_eq_specIC (Real.logb 2) (fun x => by rw [one_div, Real.logb_inv])]
    have hic : specIC (Real.logb 2) (NewCollection "c" sharedKeyTokens) t = 0 := by
      unfold specIC
      have hmap : (t.metadata.stringAttributes.entries.map fun e =>
          Real.logb 2 ((((NewCollection "c" sharedKeyTokens).TokenTotalSupply : Int) : ℝ)
            / (((NewCollection "c" sharedKeyTokens).TotalTokensWithAttributes e.2 : Int) : ℝ)))
          = ([0, 3] : List Int).map fun k => Real.logb 2 (((3 : Int) : ℝ) / ((k : Int) : ℝ)) := by
        rw [← h1, List.map_map, hN]
        rfl
      rw [hmap, h2]
      simp
    rw [hic, zero_div]
  refine ⟨(NewCollection "c" sharedKeyTokens).Tokens.get ⟨2, by decide⟩,
    (NewCollection "c" sharedKeyTokens).Tokens.get ⟨0, by decide⟩,
    List.getElem?_eq_getElem _, List.getElem?_eq_getElem _,
    (entropy_pos_of_count_lt _ _ (by decide)).ne', by decide, by decide, by decide, by decide,
    ?_⟩
  rw [hzero _ (by decide) (by decide), hzero _ (by decide) (by decide)]
  exact lt_irrefl _

/-! ## The order of the ranked list -/

/-- The ranking of `mixedRarities`: the two items of count 2 first, by score, then the two
items of count 1 and score 5, which share the rank 3. -/
theorem setRarityRanks_mixedRarities :
    SetRarityRanks mixedRarities
      = .ok [⟨8, ⟨2⟩, commonTokenRaw 3, 1⟩, ⟨7, ⟨2⟩, commonTokenRaw 1, 2⟩,
          ⟨5, ⟨1⟩, commonTokenRaw 0, 3⟩, ⟨5, ⟨1⟩, commonTokenRaw 2, 3⟩] := by
  have w0 : wrapInt (2 - 1) = 1 := by decide
  have w1 : wrapInt (1 - 2) = -1 := by decide
  have w2 : wrapInt (1 - 1) = 0 := by decide
  have w3 : wrapInt (2 - 2) = 0 := by decide
  simp only [mixedRarities, NewTokenRarity, NewTokenRankingFeatures, SetRarityRanks, sortSlice,
    List.foldl, insertLess, rarityLess, w0, w1, w2, w3]
  norm_num [List.reverse_cons, rankLoop, IsFloat64Close, TokenRarity.SetRarityRanks, abs_le,
    insertLess]

/-- The count that `ExtractUniqueAttributeCount` returns lies between 0 and the number of
string attributes of the token. -/
theorem extractUniqueAttributeCount_bounds (token : Token) (collection : Collection) :
    0 ≤ (ExtractUniqueAttributeCount token collection).uniqueAttributeCount ∧
      (ExtractUniqueAttributeCount token collection).uniqueAttributeCount
        ≤ (token.metadata.stringAttributes.entries.length : Int) := by
  have h : (ExtractUniqueAttributeCount token collection).uniqueAttributeCount
      = ((token.metadata.stringAttributes.entries.countP fun e =>
          decide (collection.TotalTokensWithAttributes e.2 = 1) : Nat) : Int) := by
    unfold ExtractUniqueAttributeCount NewTokenRankingFeatures
    simp only
    rw [foldl_count_eq_countP (fun e : String × StringAttribute =>
      collection.TotalTokensWithAttributes e.2 = 1)]
    simp
  rw [h]
  have := List.countP_le_length (fun e : String × StringAttribute =>
    decide (collection.TotalTokensWithAttributes e.2 = 1))
    (l := token.metadata.stringAttributes.entries)
  omega

/-- C2: for every list of token rarities whose unique-attribute counts lie in `[0, 2 ^ 63)`,
the range of the counts that `ExtractUniqueAttributeCount` makes, `SetRarityRanks` returns a
permutation of the input (ranks apart) in descending lexicographic order of (unique-attribute
count, score): an item has, against every later item and so against the next one, the
greater count, or the same count and a score that is not smaller. -/
theorem C2_setRarityRanks_sorted_permutation (tokenRarities : List (TokenRarity F))
    (hcounts : ∀ t ∈ tokenRarities,
      0 ≤ t.tokenFeatures.uniqueAttributeCount ∧ t.tokenFeatures.uniqueAttributeCount < 2 ^ 63) :
    (∃ out, SetRarityRanks tokenRarities = .ok out ∧
      (out.map (fun t => t.SetRarityRanks 0)).Perm
        (tokenRarities.map (fun t => t.SetRarityRanks 0)) ∧
      out.Pairwise (fun a b =>
        b.tokenFeatures.uniqueAttributeCount < a.tokenFeatures.uniqueAttributeCount ∨
          (a.tokenFeatures.uniqueAttributeCount = b.tokenFeatures.uniqueAttributeCount ∧
            b.score ≤ a.score)) ∧
      ∀ (j : Nat) (a b : TokenRarity F), out[j]? = some a → out[j + 1]? = some b →
        b.tokenFeatures.uniqueAttributeCount < a.tokenFeatures.uniqueAttributeCount ∨
          (a.tokenFeatures.uniqueAttributeCount = b.tokenFeatures.uniqueAttributeCount ∧
            b.score ≤ a.score)) ∧
      ∀ (token : Token) (collection : Collection),
        0 ≤ (ExtractUniqueAttributeCount token collection).uniqueAttributeCount := by
  refine ⟨?_, fun token collection => (extractUniqueAttributeCount_bounds token collection).1⟩
  obtain ⟨out, hout, hperm, hs⟩ := setRarityRanks_sorted_perm tokenRarities hcounts
  refine ⟨out, hout, hperm, hs, ?_⟩
  intro j a b ha hb
  have hj := (List.getElem?_eq_some_iff.1 ha).1
  have hj1 := (List.getElem?_eq_some_iff.1 hb).1
  have := List.pairwise_iff_getElem.1 hs j (j + 1) hj hj1 (by omega)
  rw [(List.getElem?_eq_some_iff.1 ha).2, (List.getElem?_eq_some_iff.1 hb).2] at this
  exact this

/-- C2 at `mixedRarities`, four items with the counts and scores (1, 5), (2, 7), (1, 5),
(2, 8): the output is in the order (2, 8), (2, 7), (1, 5), (1, 5). -/
theorem C2_setRarityRanks_sorted_permutation_witness :
    (∀ t ∈ mixedRarities,
      0 ≤ t.tokenFeatures.uniqueAttributeCount ∧ t.tokenFeatures.uniqueAttributeCount < 2 ^ 63) ∧
    mixedRarities.map (fun r => (r.tokenFeatures.uniqueAttributeCount, r.score))
      = [(1, 5), (2, 7), (1, 5), (2, 8)] ∧
    ∃ out, SetRarityRanks mixedRarities = .ok out ∧
      out.map (fun r => (r.tokenFeatures.uniqueAttributeCount, r.score))
        = [(2, 8), (2, 7), (1, 5), (1, 5)] ∧
      (out.map (fun t => t.SetRarityRanks 0)).Perm
        (mixedRarities.map (fun t => t.SetRarityRanks 0)) ∧
      out.Pairwise (fun a b =>
        b.tokenFeatures.uniqueAttributeCount < a.tokenFeatures.uniqueAttributeCount ∨
          (a.tokenFeatures.uniqueAttributeCount = b.tokenFeatures.uniqueAttributeCount ∧
            b.score ≤ a.score)) := by
  have hr : ∀ t ∈ mixedRarities,
      0 ≤ t.tokenFeatures.uniqueAttributeCount ∧ t.tokenFeatures.uniqueAttributeCount < 2 ^ 63 := by
    decide
  obtain ⟨⟨out, hout, hperm, hs, -⟩, -⟩ := C2_setRarityRanks_sorted_permutation mixedRarities hr
  refine ⟨hr, by decide, out, hout, ?_, hperm, hs⟩
  rw [setRarityRanks_mixedRarities] at hout
  cases hout
  rfl

/-- Outside the range of the counts that the code makes, the comparator of `SetRarityRanks`
does not order the counts: it decides on the sign of the 64-bit difference of the two
counts, which wraps around for the counts `-1` and `2 ^ 63 - 1`, and the pass leaves these
two items in the order of the input. -/
theorem setRarityRanks_outside_count_range :
    ∀ tk : Token,
      SetRarityRanks [(⟨2, ⟨-1⟩, tk, 0⟩ : TokenRarity F), ⟨1, ⟨2 ^ 63 - 1⟩, tk, 0⟩]
        = .ok [⟨2, ⟨-1⟩, tk, 1⟩, ⟨1, ⟨2 ^ 63 - 1⟩, tk, 2⟩] := by
  intro tk
  have h1 : wrapInt (2 ^ 63 - 1 - -1) = -2 ^ 63 := by decide
  have h2 : (-2 ^ 63 : Int) ≠ 0 := by decide
  have h3 : ¬ ((-2 ^ 63 : Int) > 0) := by decide
  have c1 : ¬ (|(1 : F) - 2| ≤ 1 / 10 ^ 9) := by norm_num [abs_le]
  have c2 : ¬ ((1 : F) = 2) := by norm_num
  simp only [SetRarityRanks, sortSlice, List.foldl, insertLess, rarityLess, h1, h2, h3,
    ne_eq, not_false_eq_true, if_true, decide_False, Bool.false_eq_true, if_false,
    List.reverse_cons, List.reverse_nil, List.nil_append, List.cons_append, rankLoop,
    IsFloat64Close, TokenRarity.SetRarityRanks, c1, c2, Bool.or_false]
  norm_num

/-! ## Equal scores and equal ranks -/

/-- In a list ranked by one pass, two items between which every item has a score within
`1e-9` of the score of its predecessor have the same rank. -/
theorem rank_eq_of_close_chain (out : List (TokenRarity F))
    (hpair : ∀ (j : Nat) (p t : TokenRarity F), out[j]? = some p → out[j + 1]? = some t →
      t.rank = if |t.score - p.score| ≤ 1 / 10 ^ 9 then p.rank else (j : Int) + 2) :
    ∀ (d i : Nat) (a b : TokenRarity F), out[i]? = some a → out[i + d]? = some b →
      (∀ m, i ≤ m → m < i + d → ∀ p q, out[m]? = some p → out[m + 1]? = some q →
        |q.score - p.score| ≤ 1 / 10 ^ 9) →
      a.rank = b.rank := by
  intro d
  induction d with
  | zero =>
    intro i a b ha hb _
    rw [Nat.add_zero, ha] at hb
    cases hb
    rfl
  | succ d ih =>
    intro i a b ha hb hchain
    have hj : i + d < out.length := by
      have := (List.getElem?_eq_some_iff.1 hb).1
      omega
    have hp : out[i + d]? = some out[i + d] := List.getElem?_eq_getElem hj
    have h1 := ih i a out[i + d] ha hp fun m hm1 hm2 => hchain m hm1 (by omega)
    have hrank := hpair (i + d) out[i + d] b hp hb
    rw [if_pos (hchain (i + d) (by omega) (by omega) _ _ hp hb)] at hrank
    rw [h1, hrank]

/-- C22 (as amended): in the list that `SetRarityRanks` returns, two token rarities between
which every item has a score within `1e-9` of the score of its predecessor get the same
rank; so do, when the unique-attribute counts lie in `[0, 2 ^ 63)`, any two token rarities
with the same unique-attribute count and the same score. -/
theorem C22_same_rank_within_a_run (tokenRarities : List (TokenRarity F)) :
    ∃ out, SetRarityRanks tokenRarities = .ok out ∧
      (∀ (i j : Nat) (a b : TokenRarity F), i ≤ j → out[i]? = some a → out[j]? = some b →
        (∀ m, i ≤ m → m < j → ∀ p q, out[m]? = some p → out[m + 1]? = some q →
          |q.score - p.score| ≤ 1 / 10 ^ 9) →
        a.rank = b.rank) ∧
      ((∀ t ∈ tokenRarities, 0 ≤ t.tokenFeatures.uniqueAttributeCount ∧
          t.tokenFeatures.uniqueAttributeCount < 2 ^ 63) →
        ∀ a ∈ out, ∀ b ∈ out,
          a.tokenFeatures.uniqueAttributeCount = b.tokenFeatures.uniqueAttributeCount →
          a.score = b.score → a.rank = b.rank) := by
  obtain ⟨out, hout, -, -, -, -, -, hpair⟩ :=
    rankLoop_spec (sortSlice rarityLess tokenRarities) 0 none (by simp)
  have hpair' : ∀ (j : Nat) (p t : TokenRarity F), out[j]? = some p → out[j + 1]? = some t →
      t.rank = if |t.score - p.score| ≤ 1 / 10 ^ 9 then p.rank else (j : Int) + 2 := by
    intro j p t hp ht
    simpa using hpair j p t hp ht
  refine ⟨out, hout, ?_, ?_⟩
  · intro i j a b hij ha hb hchain
    obtain ⟨d, rfl⟩ := Nat.exists_eq_add_of_le hij
    exact rank_eq_of_close_chain out hpair' d i a b ha hb hchain
  · intro hcounts
    obtain ⟨out', hout', hsame⟩ := setRarityRanks_same_key_rank tokenRarities hcounts
    have hout'' : SetRarityRanks tokenRarities = .ok out := hout
    rw [hout''] at hout'
    cases hout'
    exact hsame

/-- C22 at `mixedRarities`: the items at the 0-based positions 2 and 3 of the output, which
have the count 1 and the score 5, share the rank 3. -/
theorem C22_same_rank_within_a_run_witness :
    ∃ out a b, SetRarityRanks mixedRarities = .ok out ∧
      out[2]? = some a ∧ out[3]? = some b ∧
      a.tokenFeatures.uniqueAttributeCount = b.tokenFeatures.uniqueAttributeCount ∧
      a.score = b.score ∧ a.rank = 3 ∧ a.rank = b.rank := by
  obtain ⟨out, hout, h1, h2⟩ := C22_same_rank_within_a_run mixedRarities
  have hout' := hout
  rw [setRarityRanks_mixedRarities] at hout'
  cases hout'
  exact ⟨_, _, _, hout, rfl, rfl, rfl, rfl, rfl,
    h2 (by decide) _ (List.mem_cons_of_mem _ (List.mem_cons_of_mem _ (List.mem_cons_self _ _)))
      _ (List.mem_cons_of_mem _ (List.mem_cons_of_mem _ (List.mem_cons_of_mem _
        (List.mem_cons_self _ _)))) rfl rfl⟩

/-- Three token rarities, the first with the unique-attribute count 2 and the score 5, the
second with the count 1 and the score 7, the third with the count 1 and the score 5, get the
ranks 1, 2 and 3 in this order, whatever the tokens and the arithmetic. -/
theorem separated_scores_ranks (t1 t2 t3 : Token) :
    SetRarityRanks [(⟨5, ⟨2⟩, t1, 0⟩ : TokenRarity F), ⟨7, ⟨1⟩, t2, 0⟩, ⟨5, ⟨1⟩, t3, 0⟩]
      = .ok [⟨5, ⟨2⟩, t1, 1⟩, ⟨7, ⟨1⟩, t2, 2⟩, ⟨5, ⟨1⟩, t3, 3⟩] := by
  have h1 : wrapInt (1 - 2) = -1 := by decide
  have h2 : wrapInt (1 - 1) = 0 := by decide
  have h3 : ¬ ((-1 : Int) > 0) := by decide
  have h4 : (-1 : Int) ≠ 0 := by decide
  have e1 : ¬ ((5 : F) > 7) := by norm_num
  have c1 : ¬ (|(7 : F) - 5| ≤ 1 / 10 ^ 9) := by norm_num [abs_le]
  have c2 : ¬ (|(5 : F) - 7| ≤ 1 / 10 ^ 9) := by norm_num [abs_le]
  have c3 : ¬ ((7 : F) = 5) := by norm_num
  have c4 : ¬ ((5 : F) = 7) := by norm_num
  simp only [SetRarityRanks, sortSlice, List.foldl, insertLess, rarityLess, h1, h2, h3, h4,
    e1, ne_eq, not_false_eq_true, not_true_eq_false, if_true, decide_False,
    Bool.false_eq_true, if_false, List.reverse_cons, List.reverse_nil, List.nil_append,
    List.cons_append, rankLoop, IsFloat64Close, TokenRarity.SetRarityRanks, c1, c2, c3, c4,
    Bool.or_false]
  norm_num

/-- C22 (counterexample): three token rarities, the first with the unique-attribute count 2
and the score 5, the second with the count 1 and the score 7, the third with the count 1 and
the score 5. The sort puts the higher count first and leaves the order; the second item
separates the two items of score 5, which get the ranks 1 and 3. -/
theorem C22_separated_scores_counterexample :
    SetRarityRanks [(⟨5, ⟨2⟩, commonTokenRaw 1, 0⟩ : TokenRarity ℚ),
        ⟨7, ⟨1⟩, commonTokenRaw 2, 0⟩, ⟨5, ⟨1⟩, commonTokenRaw 3, 0⟩]
      = .ok [⟨5, ⟨2⟩, commonTokenRaw 1, 1⟩, ⟨7, ⟨1⟩, commonTokenRaw 2, 2⟩,
        ⟨5, ⟨1⟩, commonTokenRaw 3, 3⟩] :=
  separated_scores_ranks (commonTokenRaw 1) (commonTokenRaw 2) (commonTokenRaw 3)

/-! ## The tolerance of the tie test -/

/-- C35 (as amended): `IsFloat64Close a b` holds exactly when `|a - b| ≤ 1e-9`, which is
`math.isclose(a, b, rel_tol=0, abs_tol=1e-9)`. -/
theorem C35_isFloat64Close_absolute_tolerance (a b : F) :
    (IsFloat64Close a b = true ↔ |a - b| ≤ 1 / 10 ^ 9) ∧
      IsFloat64Close a b = specIsCloseTol 0 (1 / 10 ^ 9) a b ∧
      specIsClose a b = specIsCloseTol (1 / 10 ^ 9) 0 a b := by
  have h0 : (0 : F) ≤ 1 / 10 ^ 9 := by positivity
  refine ⟨isFloat64Close_iff a b, ?_, ?_⟩
  · rw [Bool.eq_iff_iff, isFloat64Close_iff]
    unfold specIsCloseTol
    rw [decide_eq_true_eq, zero_mul, max_eq_right h0]
  · unfold specIsClose specIsCloseTol
    rw [max_eq_left (mul_nonneg h0 (le_max_of_le_left (abs_nonneg a)))]

/-- The absolute test of `IsFloat64Close` against the relative test of `math.isclose` with
its default parameters, in any exact arithmetic: 0.1 and 0.1 + 5e-10 pass the first and fail
the second, 5 and 5 + 3e-9 fail the first and pass the second. -/
theorem isFloat64Close_against_default_isclose :
    IsFloat64Close (1 / 10 : F) (1 / 10 + 5 / 10 ^ 10) = true ∧
      specIsClose (1 / 10 : F) (1 / 10 + 5 / 10 ^ 10) = false ∧
      IsFloat64Close (5 : F) (5 + 3 / 10 ^ 9) = false ∧
      specIsClose (5 : F) (5 + 3 / 10 ^ 9) = true := by
  have a1 : |(1 / 10 : F) - (1 / 10 + 5 / 10 ^ 10)| = 5 / 10 ^ 10 := by
    rw [abs_sub_comm, add_sub_cancel_left, abs_of_pos (by positivity)]
  have a2 : |(5 : F) - (5 + 3 / 10 ^ 9)| = 3 / 10 ^ 9 := by
    rw [abs_sub_comm, add_sub_cancel_left, abs_of_pos (by positivity)]
  have m1 : max |(1 / 10 : F)| |(1 / 10 + 5 / 10 ^ 10 : F)| = 1 / 10 + 5 / 10 ^ 10 := by
    rw [abs_of_pos (by positivity), abs_of_pos (by positivity), max_eq_right (by norm_num)]
  have m2 : max |(5 : F)| |(5 + 3 / 10 ^ 9 : F)| = 5 + 3 / 10 ^ 9 := by
    rw [abs_of_pos (by positivity), abs_of_pos (by positivity), max_eq_right (by norm_num)]
  refine ⟨?_, ?_, ?_, ?_⟩
  · rw [isFloat64Close_iff, a1]
    norm_num
  · unfold specIsClose
    rw [a1, m1, decide_eq_false_iff_not]
    norm_num
  · rw [← Bool.not_eq_true, isFloat64Close_iff, a2]
    norm_num
  · unfold specIsClose
    rw [a2, m2, decide_eq_true_eq]
    norm_num

/-- C35 (counterexample): the absolute test of `IsFloat64Close` is not the relative test of
`math.isclose` with its default parameters. Below 1 it accepts pairs that `math.isclose`
rejects (0.1 and 0.1 + 5e-10), above 1 it rejects pairs that `math.isclose` accepts
(5 and 5 + 3e-9). -/
theorem C35_default_isclose_counterexample :
    IsFloat64Close (1 / 10 : ℚ) (1 / 10 + 5 / 10 ^ 10) = true ∧
      specIsClose (1 / 10 : ℚ) (1 / 10 + 5 / 10 ^ 10) = false ∧
      IsFloat64Close (5 : ℚ) (5 + 3 / 10 ^ 9) = false ∧
      specIsClose (5 : ℚ) (5 + 3 / 10 ^ 9) = true :=
  isFloat64Close_against_default_isclose

/-! ## Ranks and the order of the input: the claims -/

/-- C36: for two lists of token rarities that are permutations of each other, with
unique-attribute counts in `[0, 2 ^ 63)`, the range of the counts that the code makes,
`SetRarityRanks` returns the same list of triples of unique-attribute count, score and rank
(so the same multiset of triples), and a token rarity gets the same rank in both outputs. -/
theorem C36_ranks_independent_of_input_order (l1 l2 : List (TokenRarity F))
    (hperm : l1.Perm l2)
    (hcounts : ∀ t ∈ l1,
      0 ≤ t.tokenFeatures.uniqueAttributeCount ∧ t.tokenFeatures.uniqueAttributeCount < 2 ^ 63) :
    ∃ out1 out2, SetRarityRanks l1 = .ok out1 ∧ SetRarityRanks l2 = .ok out2 ∧
      out1.map (fun r => (r.tokenFeatures.uniqueAttributeCount, r.score, r.rank))
        = out2.map (fun r => (r.tokenFeatures.uniqueAttributeCount, r.score, r.rank)) ∧
      (out1.map (fun r => (r.tokenFeatures.uniqueAttributeCount, r.score, r.rank))).Perm
        (out2.map (fun r => (r.tokenFeatures.uniqueAttributeCount, r.score, r.rank))) ∧
      ∀ a ∈ out1, ∀ b ∈ out2,
        a.tokenFeatures.uniqueAttributeCount = b.tokenFeatures.uniqueAttributeCount →
        a.score = b.score → a.rank = b.rank := by
  obtain ⟨out1, out2, h1, h2, h3, h4⟩ := setRarityRanks_perm_invariant l1 l2 hperm hcounts
  exact ⟨out1, out2, h1, h2, h3, by rw [h3], h4⟩

/-- C36 at `mixedRarities` and its reverse: both give the triples (2, 8, 1), (2, 7, 2),
(1, 5, 3), (1, 5, 3). -/
theorem C36_ranks_independent_of_input_order_witness :
    mixedRarities.Perm mixedRarities.reverse ∧
    ∃ out1 out2, SetRarityRanks mixedRarities = .ok out1 ∧
      SetRarityRanks mixedRarities.reverse = .ok out2 ∧
      out1.map (fun r => (r.tokenFeatures.uniqueAttributeCount, r.score, r.rank))
        = [(2, 8, 1), (2, 7, 2), (1, 5, 3), (1, 5, 3)] ∧
      out2.map (fun r => (r.tokenFeatures.uniqueAttributeCount, r.score, r.rank))
        = [(2, 8, 1), (2, 7, 2), (1, 5, 3), (1, 5, 3)] := by
  obtain ⟨out1, out2, h1, h2, h3, -⟩ :=
    C36_ranks_independent_of_input_order mixedRarities mixedRarities.reverse
      (List.reverse_perm _).symm (by decide)
  have h1' := h1
  rw [setRarityRanks_mixedRarities] at h1'
  cases h1'
  exact ⟨(List.reverse_perm _).symm, _, out2, h1, h2, rfl, by rw [← h3]; rfl⟩

/-- C40: for every non-empty list of token rarities, the ranks that `SetRarityRanks` returns
do not decrease along the output, the first rank is 1, the rank of an item is at most its
1-based position, and it is the 1-based position of the first item of its maximal run of
consecutively close scores; and, the unique-attribute counts being in `[0, 2 ^ 63)`, the
range of the counts that the code makes, an item with a greater unique-attribute count never
gets a larger rank than an item with a smaller count. -/
theorem C40_rank_shape_and_count_order (tokenRarities : List (TokenRarity F))
    (hne : tokenRarities ≠ []) :
    ∃ out, SetRarityRanks tokenRarities = .ok out ∧ out ≠ [] ∧
      (∀ (j : Nat) (p t : TokenRarity F), out[j]? = some p → out[j + 1]? = some t →
        p.rank ≤ t.rank) ∧
      (∀ t, out[0]? = some t → t.rank = 1) ∧
      (∀ (j : Nat) (t : TokenRarity F), out[j]? = some t → t.rank ≤ (j : Int) + 1) ∧
      (∀ (j : Nat) (t : TokenRarity F), out[j]? = some t →
        ∃ i : Nat, i ≤ j ∧ t.rank = (i : Int) + 1 ∧
          (∀ m, i ≤ m → m < j → ∀ p q, out[m]? = some p → out[m + 1]? = some q →
            |q.score - p.score| ≤ 1 / 10 ^ 9) ∧
          (∀ i', i = i' + 1 → ∀ p q, out[i']? = some p → out[i]? = some q →
            ¬ |q.score - p.score| ≤ 1 / 10 ^ 9)) ∧
      ((∀ t ∈ tokenRarities, 0 ≤ t.tokenFeatures.uniqueAttributeCount ∧
          t.tokenFeatures.uniqueAttributeCount < 2 ^ 63) →
        ∀ a ∈ out, ∀ b ∈ out,
          b.tokenFeatures.uniqueAttributeCount < a.tokenFeatures.uniqueAttributeCount →
          a.rank ≤ b.rank) := by
  obtain ⟨out, hout, hlen, h1, h2, h3, h4, -⟩ := setRarityRanks_shape tokenRarities
  refine ⟨out, hout, ?_, h1, h2, h3, h4, ?_⟩
  · intro h
    rw [h] at hlen
    exact hne (List.length_eq_zero.1 hlen.symm)
  · intro hcounts
    obtain ⟨out', hout', h5⟩ := setRarityRanks_count_order tokenRarities hcounts
    rw [hout] at hout'
    cases hout'
    exact h5

/-- C40 at `mixedRarities`: the ranks along the output are 1, 2, 3, 3; the item at the
position 4 has the rank 3 of the first item of its run, and the items of count 2 have smaller
ranks than the items of count 1. -/
theorem C40_rank_shape_and_count_order_witness :
    mixedRarities ≠ [] ∧
    (∀ t ∈ mixedRarities, 0 ≤ t.tokenFeatures.uniqueAttributeCount ∧
      t.tokenFeatures.uniqueAttributeCount < 2 ^ 63) ∧
    ∃ out, SetRarityRanks mixedRarities = .ok out ∧
      out.map (fun r => (r.tokenFeatures.uniqueAttributeCount, r.score, r.rank))
        = [(2, 8, 1), (2, 7, 2), (1, 5, 3), (1, 5, 3)] ∧
      (∀ (j : Nat) (p t : TokenRarity ℚ), out[j]? = some p → out[j + 1]? = some t →
        p.rank ≤ t.rank) ∧
      (∀ (j : Nat) (t : TokenRarity ℚ), out[j]? = some t → t.rank ≤ (j : Int) + 1) ∧
      ∀ a ∈ out, ∀ b ∈ out,
        b.tokenFeatures.uniqueAttributeCount < a.tokenFeatures.uniqueAttributeCount →
        a.rank ≤ b.rank := by
  have hne : mixedRarities ≠ [] := List.length_pos.1 (by decide)
  have hc : ∀ t ∈ mixedRarities, 0 ≤ t.tokenFeatures.uniqueAttributeCount ∧
      t.tokenFeatures.uniqueAttributeCount < 2 ^ 63 := by decide
  obtain ⟨out, hout, -, h1, -, h3, -, h5⟩ :=
    C40_rank_shape_and_count_order mixedRarities hne
  have hout' := hout
  rw [setRarityRanks_mixedRarities] at hout'
  cases hout'
  exact ⟨hne, hc, _, hout, rfl, h1, h3, h5 hc⟩

/-! ## Ties under any implementation of sort.Slice -/

/-- With any implementation of `sort.Slice` that leaves a sorted permutation, and
unique-attribute counts in `[0, 2 ^ 63)`, the ranking returns the same triples of
unique-attribute count, score and rank, position by position, as with the insertion sort,
and the same token rarities, ranks apart, as the input holds. -/
theorem setRarityRanksWith_triples
    (sortSliceImpl : (TokenRarity F → TokenRarity F → Bool) → List (TokenRarity F)
      → List (TokenRarity F))
    (l : List (TokenRarity F))
    (h : ∀ t ∈ l,
      0 ≤ t.tokenFeatures.uniqueAttributeCount ∧ t.tokenFeatures.uniqueAttributeCount < 2 ^ 63)
    (hperm : (sortSliceImpl rarityLess l).Perm l)
    (hsorted : (sortSliceImpl rarityLess l).Pairwise (fun a b => rarityLess b a = false)) :
    ∃ out out0, SetRarityRanksWith sortSliceImpl l = .ok out ∧ SetRarityRanks l = .ok out0 ∧
      out.map (fun r => (r.tokenFeatures.uniqueAttributeCount, r.score, r.rank))
        = out0.map (fun r => (r.tokenFeatures.uniqueAttributeCount, r.score, r.rank)) ∧
      (out.map (fun t => t.SetRarityRanks 0)).Perm (l.map (fun t => t.SetRarityRanks 0)) := by
  set R : Int × F → Int × F → Prop := fun a b => b.1 < a.1 ∨ (a.1 = b.1 ∧ b.2 ≤ a.2) with hR
  have hanti : IsAntisymm (Int × F) R := ⟨by
    rintro ⟨a1, a2⟩ ⟨b1, b2⟩ hab hba
    simp only [hR] at hab hba
    rcases hab with h1 | ⟨h1, h1'⟩ <;> rcases hba with h3 | ⟨h3, h3'⟩
    · omega
    · omega
    · omega
    · rw [h1, le_antisymm h1' h3']⟩
  -- the keys of the insertion sort
  have hs0 : ((sortSlice rarityLess l).map
      (fun r => (r.tokenFeatures.uniqueAttributeCount, r.score))).Sorted R := by
    obtain ⟨out, hout, -, hs⟩ := setRarityRanks_sorted_perm l h
    obtain ⟨out', hout', -, hkey, -⟩ := setRarityRanks_ok l
    rw [hout] at hout'
    cases hout'
    have hmap : (sortSlice rarityLess l).map
        (fun r => (r.tokenFeatures.uniqueAttributeCount, r.score))
        = out.map (fun r => (r.tokenFeatures.uniqueAttributeCount, r.score)) := by
      have := congrArg
        (List.map fun r : TokenRarity F => (r.tokenFeatures.uniqueAttributeCount, r.score)) hkey
      simp only [List.map_map] at this
      exact this.symm
    rw [hmap]
    unfold List.Sorted
    rw [List.pairwise_map]
    exact hs
  -- the keys of the other sort
  have hs1 : ((sortSliceImpl rarityLess l).map
      (fun r => (r.tokenFeatures.uniqueAttributeCount, r.score))).Sorted R := by
    unfold List.Sorted
    rw [List.pairwise_map]
    have hmem : ∀ t ∈ sortSliceImpl rarityLess l, t ∈ l := fun t ht => hperm.subset ht
    refine (List.pairwise_iff_forall_sublist.2 ?_)
    intro a b hab
    have hab' := List.pairwise_iff_forall_sublist.1 hsorted hab
    have ha := h a (hmem a (hab.subset (List.mem_cons_self _ _)))
    have hb := h b (hmem b (hab.subset (List.mem_cons_of_mem _ (List.mem_singleton_self _))))
    have hn : ¬ rarityLess b a = true := by simp [hab']
    rw [rarityLess_iff b a hb ha] at hn
    push_neg at hn
    simp only [hR]
    rcases lt_trichotomy a.tokenFeatures.uniqueAttributeCount
      b.tokenFeatures.uniqueAttributeCount with hlt | heq | hgt
    · exact absurd hlt (not_lt.2 hn.1)
    · exact Or.inr ⟨heq, hn.2 heq.symm⟩
    · exact Or.inl hgt
  have hkeys : (sortSliceImpl rarityLess l).map
      (fun r => (r.tokenFeatures.uniqueAttributeCount, r.score))
      = (sortSlice rarityLess l).map
        (fun r => (r.tokenFeatures.uniqueAttributeCount, r.score)) := by
    refine @List.eq_of_perm_of_sorted _ R hanti _ _ ?_ hs1 hs0
    exact (hperm.trans (sortSlice_perm rarityLess l).symm).map _
  obtain ⟨out, hout, -, hreset, -⟩ :=
    rankLoop_spec (sortSliceImpl rarityLess l) 0 none (by simp)
  obtain ⟨out0, hout0, -⟩ := setRarityRanks_ok l
  refine ⟨out, out0, hout, hout0, ?_, ?_⟩
  · exact rankLoop_triples _ _ 0 none none out out0 hkeys rfl hout hout0
  · rw [hreset]
    exact hperm.map _

section

set_option maxRecDepth 100000

/-- The steps of `sort.Slice` on 13 elements leave a permutation of `thirteenRarities`: the
rarities at the indices 3, 6, 2, 1, 4, 5, 0, 7, ..., 12, in this order. -/
theorem sortSliceThirteen_thirteenRarities_perm :
    (sortSliceThirteen rarityLess thirteenRarities).Perm thirteenRarities := by
  have e : sortSliceThirteen rarityLess thirteenRarities
      = [3, 6, 2, 1, 4, 5, 0, 7, 8, 9, 10, 11, 12].map fun (i : Nat) =>
          NewTokenRarity (commonTokenRaw (i : Int)) (if i = 3 then 2 else 1)
            (NewTokenRankingFeatures 0) := by rfl
  rw [e]
  unfold thirteenRarities
  exact List.Perm.map _ (by decide)

end

/-- C23 (as amended): with any implementation of `sort.Slice` that leaves a sorted
permutation, which is all that the library promises, and unique-attribute counts in
`[0, 2 ^ 63)`: `SetRarityRanks` returns the token rarities of the input, ranks apart; the
unique-attribute counts, scores and ranks along the output are those that the stable
insertion sort gives; and token rarities with the same count and the same score get the
same rank. (Their order in the output is the one that `sort.Slice` leaves.) -/
theorem C23_ties_share_rank_in_any_order
    (sortSliceImpl : (TokenRarity F → TokenRarity F → Bool) → List (TokenRarity F)
      → List (TokenRarity F))
    (tokenRarities : List (TokenRarity F))
    (hcounts : ∀ t ∈ tokenRarities,
      0 ≤ t.tokenFeatures.uniqueAttributeCount ∧ t.tokenFeatures.uniqueAttributeCount < 2 ^ 63)
    (hperm : (sortSliceImpl rarityLess tokenRarities).Perm tokenRarities)
    (hsorted : (sortSliceImpl rarityLess tokenRarities).Pairwise
      (fun a b => rarityLess b a = false)) :
    SetRarityRanks tokenRarities = SetRarityRanksWith sortSlice tokenRarities ∧
      ∃ out stable, SetRarityRanksWith sortSliceImpl tokenRarities = .ok out ∧
        SetRarityRanksWith sortSlice tokenRarities = .ok stable ∧
        specStableOrder tokenRarities stable ∧
        (out.map (fun t => t.SetRarityRanks 0)).Perm
          (tokenRarities.map (fun t => t.SetRarityRanks 0)) ∧
        out.map (fun r => (r.tokenFeatures.uniqueAttributeCount, r.score, r.rank))
          = stable.map (fun r => (r.tokenFeatures.uniqueAttributeCount, r.score, r.rank)) ∧
        ∀ a ∈ out, ∀ b ∈ out,
          a.tokenFeatures.uniqueAttributeCount = b.tokenFeatures.uniqueAttributeCount →
          a.score = b.score → a.rank = b.rank := by
  refine ⟨rfl, ?_⟩
  obtain ⟨out, out0, hout, hout0, htriples, hp⟩ :=
    setRarityRanksWith_triples sortSliceImpl tokenRarities hcounts hperm hsorted
  obtain ⟨out1, hout1, hstable⟩ := setRarityRanks_stable tokenRarities
  rw [hout0] at hout1
  cases hout1
  obtain ⟨out2, hout2, hsame⟩ := setRarityRanks_same_key_rank tokenRarities hcounts
  rw [hout0] at hout2
  cases hout2
  refine ⟨out, out0, hout, hout0, hstable, hp, htriples, ?_⟩
  have hlen : out.length = out0.length := by
    have := congrArg List.length htriples
    simpa using this
  have key : ∀ a ∈ out, ∃ a0 ∈ out0,
      a0.tokenFeatures.uniqueAttributeCount = a.tokenFeatures.uniqueAttributeCount ∧
      a0.score = a.score ∧ a0.rank = a.rank := by
    intro a ha
    obtain ⟨i, hi, rfl⟩ := List.getElem_of_mem ha
    have hi2 : i < out0.length := by omega
    have hi' : (out.map (fun r => (r.tokenFeatures.uniqueAttributeCount, r.score, r.rank)))[i]?
        = (out0.map (fun r => (r.tokenFeatures.uniqueAttributeCount, r.score, r.rank)))[i]? := by
      rw [htriples]
    simp only [List.getElem?_map, List.getElem?_eq_getElem hi, List.getElem?_eq_getElem hi2,
      Option.map_some', Option.some.injEq, Prod.mk.injEq] at hi'
    obtain ⟨e1, e2, e3⟩ := hi'
    exact ⟨out0[i], List.getElem_mem hi2, e1.symm, e2.symm, e3.symm⟩
  intro a ha b hb hc hsc
  obtain ⟨a0, ha0, ac, as, ar⟩ := key a ha
  obtain ⟨b0, hb0, bc, bs, br⟩ := key b hb
  rw [← ar, ← br]
  exact hsame a0 ha0 b0 hb0 (by rw [ac, bc, hc]) (by rw [as, bs, hsc])

/-- C23 at `thirteenRarities` with the steps of `sort.Slice` on 13 elements: they leave a
sorted permutation, and the thirteen rarities, which have the count 0, get the ranks 1 (the
score 2) and 2 (the score 1), as with the insertion sort. -/
theorem C23_ties_share_rank_in_any_order_witness :
    (∀ t ∈ thirteenRarities, 0 ≤ t.tokenFeatures.uniqueAttributeCount ∧
        t.tokenFeatures.uniqueAttributeCount < 2 ^ 63) ∧
      (sortSliceThirteen rarityLess thirteenRarities).Perm thirteenRarities ∧
      (sortSliceThirteen rarityLess thirteenRarities).Pairwise
        (fun a b => rarityLess b a = false) ∧
      ∃ out, SetRarityRanksWith sortSliceThirteen thirteenRarities = .ok out ∧
        out.map (fun r => (r.tokenFeatures.uniqueAttributeCount, r.score, r.rank))
          = [(0, 2, 1), (0, 1, 2), (0, 1, 2), (0, 1, 2), (0, 1, 2), (0, 1, 2), (0, 1, 2),
             (0, 1, 2), (0, 1, 2), (0, 1, 2), (0, 1, 2), (0, 1, 2), (0, 1, 2)] ∧
        ∀ a ∈ out, ∀ b ∈ out,
          a.tokenFeatures.uniqueAttributeCount = b.tokenFeatures.uniqueAttributeCount →
          a.score = b.score → a.rank = b.rank := by
  have hc : ∀ t ∈ thirteenRarities, 0 ≤ t.tokenFeatures.uniqueAttributeCount ∧
      t.tokenFeatures.uniqueAttributeCount < 2 ^ 63 := by decide
  have hp := sortSliceThirteen_thirteenRarities_perm
  have hs : (sortSliceThirteen rarityLess thirteenRarities).Pairwise
      (fun a b => rarityLess b a = false) := by decide
  obtain ⟨-, out, stable, hout, hstable, -, -, htriples, hsame⟩ :=
    C23_ties_share_rank_in_any_order sortSliceThirteen thirteenRarities hc hp hs
  refine ⟨hc, hp, hs, out, hout, ?_, hsame⟩
  rw [htriples]
  have hev : (match SetRarityRanksWith sortSlice thirteenRarities with
      | .ok l => l.map (fun r => (r.tokenFeatures.uniqueAttributeCount, r.score, r.rank))
      | .error _ => [])
      = [(0, 2, 1), (0, 1, 2), (0, 1, 2), (0, 1, 2), (0, 1, 2), (0, 1, 2), (0, 1, 2),
         (0, 1, 2), (0, 1, 2), (0, 1, 2), (0, 1, 2), (0, 1, 2), (0, 1, 2)] := by decide!
  rw [hstable] at hev
  exact hev

/-- C23 (counterexample): `thirteenRarities` are 13 rarities of the count 0 that all have
the score 1 but the one at index 3. With the steps of `sort.Slice` on 13 elements (Go 1.19
and later), which leave a sorted permutation, `SetRarityRanks` partitions around the element
at index 6, which moves to the front of the rarities of the score 1, and the element at
index 0 moves behind those at 1, 2, 4 and 5: the tokens come back in the order 3, 6, 2, 1, 4,
5, 0, 7, ..., 12, which is not the order of the input among the tokens of the count 0 and
the score 1. -/
theorem C23_thirteen_rarities_counterexample :
    thirteenRarities.length = 13 ∧
    thirteenRarities.map (fun r => (r.tokenFeatures.uniqueAttributeCount, r.score))
      = [(0, 1), (0, 1), (0, 1), (0, 2), (0, 1), (0, 1), (0, 1), (0, 1), (0, 1), (0, 1),
         (0, 1), (0, 1), (0, 1)] ∧
    thirteenRarities.map (fun r => r.token.tokenIdentifier)
      = (List.range 13).map (fun (i : Nat) => (commonTokenRaw (i : Int)).tokenIdentifier) ∧
    (sortSliceThirteen rarityLess thirteenRarities).Perm thirteenRarities ∧
    (sortSliceThirteen rarityLess thirteenRarities).Pairwise
      (fun a b => rarityLess b a = false) ∧
    ∃ out, SetRarityRanksWith sortSliceThirteen thirteenRarities = .ok out ∧
      out.map (fun r => r.token.tokenIdentifier)
        = [3, 6, 2, 1, 4, 5, 0, 7, 8, 9, 10, 11, 12].map
            (fun (i : Int) => (commonTokenRaw i).tokenIdentifier) ∧
      ¬ specStableOrder thirteenRarities out := by
  have hp := sortSliceThirteen_thirteenRarities_perm
  refine ⟨by decide, by decide, by decide, hp, by decide, ?_⟩
  obtain ⟨out, hout, -, hkey, -⟩ :=
    rankLoop_spec (sortSliceThirteen rarityLess thirteenRarities) 0 none (by simp)
  have hids : ∀ l : List (TokenRarity ℚ),
      (l.map fun r => r.SetRarityRanks 0).map (fun r => r.token.tokenIdentifier)
        = l.map (fun r => r.token.tokenIdentifier) := by
    intro l
    rw [List.map_map]
    rfl
  refine ⟨out, hout, ?_, ?_⟩
  · rw [← hids out, hkey, hids]
    decide
  · intro hstable
    have h := congrArg (List.map fun r => r.token.tokenIdentifier) (hstable 0 1)
    rw [filter_class_map_reset, hkey, ← filter_class_map_reset, hids, hids] at h
    revert h
    decide

/-! ## Scores in any arithmetic -/

section AnyArithmetic

variable {G : Type} [Zero G] [One G] [Add G] [Mul G] [Neg G] [Div G] [IntCast G]
  [DecidableEq G]

/-- The entropy, in any arithmetic, is the sum that the code accumulates over the list of
probabilities, negated. -/
theorem getCollectionEntropy_eq_foldl (log2 : G → G) (c : Collection) :
    InformationContentScoringHandler.GetCollectionEntropy log2 c none none
      = (collectionProbabilities c).foldl (fun acc item => acc + item * log2 item) 0 * -1 :=
  rfl

/-- The single-token path, in any arithmetic: the negated sum over the attribute scores,
divided by the entropy. -/
theorem scoreToken_eq_foldl (log2 : G → G) (c : Collection) (t : Token) :
    InformationContentScoringHandler.ScoreToken log2 c t
      = (-1) * (GetTokenAttributesScoresAndWeights c t false none).1.foldl
            (fun result score => result + log2 (1 / score)) 0
          / ((collectionProbabilities c).foldl (fun acc item => acc + item * log2 item) 0
              * -1) := by
  unfold InformationContentScoringHandler.ScoreToken
    InformationContentScoringHandler.scoreToken
    InformationContentScoringHandler.scoreTokenDivisor
  rw [if_pos rfl]
  rfl

/-- The batch path, in any arithmetic in which 1 is not 0: every score is the information
content over the entropy of the collection, or over 1 when that entropy is 0. -/
theorem scoreTokens_eq_of_one_ne_zero (h10 : (1 : G) ≠ 0) (log2 : G → G) (c : Collection)
    (tokens : List Token) :
    InformationContentScoringHandler.ScoreTokens log2 c tokens
      = tokens.map fun t =>
          InformationContentScoringHandler.getICScore log2 c t (some c.ExtractNullAttributes)
            / (if InformationContentScoringHandler.GetCollectionEntropy log2 c none none = 0
                then 1
                else InformationContentScoringHandler.GetCollectionEntropy log2 c none none) := by
  unfold InformationContentScoringHandler.ScoreTokens
  apply List.map_congr_left
  intro t _
  unfold InformationContentScoringHandler.scoreToken
    InformationContentScoringHandler.scoreTokenDivisor
  have hne : InformationContentScoringHandler.scoreTokensEntropy log2 c ≠ 0 := by
    unfold InformationContentScoringHandler.scoreTokensEntropy
    simp only []
    split
    · exact h10
    · assumption
  simp only [if_neg hne]
  rfl

/-- The batch path, in any arithmetic in which 1 is not 0, from the lists of attribute
scores of the tokens and the list of probabilities. -/
theorem scoreTokens_eq_foldl (h10 : (1 : G) ≠ 0) (log2 : G → G) (c : Collection)
    (tokens : List Token) :
    InformationContentScoringHandler.ScoreTokens log2 c tokens
      = (tokens.map fun t => (GetTokenAttributesScoresAndWeights c t false none).1).map
          fun scores =>
            (-1) * scores.foldl (fun result score => result + log2 (1 / score)) 0
              / (if (collectionProbabilities c).foldl
                    (fun acc item => acc + item * log2 item) 0 * -1 = 0 then 1
                  else (collectionProbabilities c).foldl
                    (fun acc item => acc + item * log2 item) 0 * -1) := by
  rw [scoreTokens_eq_of_one_ne_zero h10, List.map_map]
  rfl

/-- With the default scorer over any arithmetic, the loop of `ScoreCollections` on valid
collections appends the score list of each collection. -/
theorem scoreCollectionsLoop_of_valid (log2 : G → G) (collections : List Collection)
    (hall : ∀ c ∈ collections, (NewOpenRarityScorer log2).ValidateCollection c = .ok ()) :
    ∀ allScores : List (List G),
      (NewScorer (NewInformationContentScoringHandler log2)).scoreCollectionsLoop allScores
          collections
        = .ok (allScores ++ collections.map fun c =>
            InformationContentScoringHandler.ScoreTokens log2 c c.Tokens) := by
  induction collections with
  | nil => intro allScores; simp [Scorer.scoreCollectionsLoop]
  | cons c rest ih =>
    intro allScores
    have hv : (NewScorer (NewInformationContentScoringHandler log2)).ValidateCollection c
        = .ok () := hall c (List.mem_cons_self _ _)
    unfold Scorer.scoreCollectionsLoop
    unfold Scorer.ScoreTokens
    rw [hv]
    simp only []
    have h := ih (fun c hc => hall c (List.mem_cons_of_mem _ hc))
      (allScores ++ [InformationContentScoringHandler.ScoreTokens log2 c c.Tokens])
    simp only [List.append_assoc, List.singleton_append] at h
    simp only [List.map_cons]
    exact h

/-- C24 (as amended): for a valid collection and the default scorer, in any arithmetic in
which 1 is not 0 (`float64` is one) and along one order of iteration over the maps of the
collection (the embedding iterates in list order): `ScoreCollection` and `ScoreTokens` on the
tokens of the collection return the same list, one score per token, in collection order,
the score of a token being its information content over the entropy of the collection (over
1 when that entropy is 0); and `ScoreCollections` on valid collections returns that list for
each collection, in input order. -/
theorem C24_scoreCollection_scores_every_token (h10 : (1 : G) ≠ 0) (log2 : G → G)
    (collection : Collection)
    (hvalid : (NewOpenRarityScorer log2).ValidateCollection collection = .ok ()) :
    (NewOpenRarityScorer log2).ScoreCollection collection
        = .ok (collection.Tokens.map fun t =>
            InformationContentScoringHandler.getICScore log2 collection t
                (some collection.ExtractNullAttributes)
              / (if InformationContentScoringHandler.GetCollectionEntropy log2 collection
                    none none = 0 then 1
                  else InformationContentScoringHandler.GetCollectionEntropy log2 collection
                    none none)) ∧
      (NewOpenRarityScorer log2).ScoreTokens collection collection.Tokens
        = (NewOpenRarityScorer log2).ScoreCollection collection ∧
      (∀ scores, (NewOpenRarityScorer log2).ScoreCollection collection = .ok scores →
        scores.length = collection.Tokens.length) ∧
      ∀ collections : List Collection,
        (∀ c ∈ collections, (NewOpenRarityScorer log2).ValidateCollection c = .ok ()) →
        (NewOpenRarityScorer log2).ScoreCollections collections
          = .ok (collections.map fun c => c.Tokens.map fun t =>
              InformationContentScoringHandler.getICScore log2 c t
                  (some c.ExtractNullAttributes)
                / (if InformationContentScoringHandler.GetCollectionEntropy log2 c
                      none none = 0 then 1
                    else InformationContentScoringHandler.GetCollectionEntropy log2 c
                      none none)) := by
  have hv : (NewScorer (NewInformationContentScoringHandler log2)).ValidateCollection
      collection = .ok () := hvalid
  have h1 : (NewOpenRarityScorer log2).ScoreCollection collection
      = .ok (InformationContentScoringHandler.ScoreTokens log2 collection
          collection.Tokens) := by
    show Scorer.ScoreCollection (NewScorer (NewInformationContentScoringHandler log2))
      collection = _
    unfold Scorer.ScoreCollection
    rw [hv]
    rfl
  have h2 : (NewOpenRarityScorer log2).ScoreTokens collection collection.Tokens
      = .ok (InformationContentScoringHandler.ScoreTokens log2 collection
          collection.Tokens) := by
    show Scorer.ScoreTokens (NewScorer (NewInformationContentScoringHandler log2))
      collection collection.Tokens = _
    unfold Scorer.ScoreTokens
    rw [hv]
    rfl
  refine ⟨?_, by rw [h1, h2], ?_, ?_⟩
  · rw [h1, scoreTokens_eq_of_one_ne_zero h10]
  · intro scores hs
    rw [h1] at hs
    cases hs
    simp [InformationContentScoringHandler.ScoreTokens]
  · intro collections hall
    show Scorer.scoreCollectionsLoop (NewScorer (NewInformationContentScoringHandler log2)) []
      collections = _
    rw [scoreCollectionsLoop_of_valid log2 collections hall]
    simp only [List.nil_append]
    congr 1
    apply List.map_congr_left
    intro c _
    exact scoreTokens_eq_of_one_ne_zero h10 log2 c c.Tokens

end AnyArithmetic

/-! ## Scores in float64 -/

theorem float64_one_ne_zero : (1 : Float64) ≠ 0 := by decide

/-- C24 in `float64`, at the 5-token collection of
`test_score_collections_with_string_attributes`: `ScoreCollection` and `ScoreTokens` return
the same 5 scores. -/
theorem C24_scoreCollection_scores_every_token_witness :
    (1 : Float64) ≠ 0 ∧
      (NewOpenRarityScorer Log2).ValidateCollection collectionStringOnly = .ok () ∧
      (NewOpenRarityScorer Log2).ScoreTokens collectionStringOnly collectionStringOnly.Tokens
        = (NewOpenRarityScorer Log2).ScoreCollection collectionStringOnly ∧
      ∀ scores,
        (NewOpenRarityScorer Log2).ScoreCollection collectionStringOnly = .ok scores →
        scores.length = 5 :=
  have h : (NewOpenRarityScorer Log2).ValidateCollection collectionStringOnly = .ok () := by
    show Scorer.ValidateCollection (NewScorer (NewInformationContentScoringHandler Log2))
      collectionStringOnly = _
    unfold Scorer.ValidateCollection
    rw [if_neg (by decide)]
    simp only []
    rw [if_neg (by decide)]
  ⟨float64_one_ne_zero, h,
    (C24_scoreCollection_scores_every_token float64_one_ne_zero Log2 collectionStringOnly h).2.1,
    fun scores hs =>
      ((C24_scoreCollection_scores_every_token float64_one_ne_zero Log2 collectionStringOnly
        h).2.2.1 scores hs).trans (by decide)⟩

/-- The attribute scores and the probabilities of `UniformRarityTokens(3, 5, 10)` in
`float64`: every token has the scores `10 / 2` (three times) and `10 / 10` (the trait
count), and the probabilities are 15 times `2 / 10` and once `10 / 10`. -/
theorem uniform_3_5_10_float64 :
    ((NewCollection "" (UniformRarityTokens 3 5 10)).Tokens.map fun t =>
        (GetTokenAttributesScoresAndWeights (NewCollection "" (UniformRarityTokens 3 5 10)) t
          false none).1)
      = List.replicate 10
          (([2, 2, 2, 10] : List Int).map fun k => ((10 : Int) : Float64) / ((k : Int) : Float64))
      ∧
      (collectionProbabilities (NewCollection "" (UniformRarityTokens 3 5 10)) : List Float64)
        = ([2, 2, 2, 2, 2, 2, 2, 2, 2, 2, 2, 2, 2, 2, 2, 10] : List Int).map
            fun k => ((k : Int) : Float64) / ((10 : Int) : Float64) := by
  constructor
  · decide!
  · decide!

/-- In `float64` the entropy of `UniformRarityTokens(3, 5, 10)` is 6.965784284662083, and
`ScoreTokens` gives every token the score `1 + 2 ^ -51`, printed 1.0000000000000004. -/
theorem uniform_3_5_10_scoreTokens :
    InformationContentScoringHandler.GetCollectionEntropy Log2
        (NewCollection "" (UniformRarityTokens 3 5 10)) none none
      = ⟨3921387938593427 / 562949953421312⟩ ∧
    InformationContentScoringHandler.ScoreTokens Log2
        (NewCollection "" (UniformRarityTokens 3 5 10))
        (NewCollection "" (UniformRarityTokens 3 5 10)).Tokens
      = List.replicate 10 ⟨1 + 1 / 2 ^ 51⟩ := by
  constructor
  · rw [getCollectionEntropy_eq_foldl Log2, uniform_3_5_10_float64.2]
    decide!
  · rw [scoreTokens_eq_foldl float64_one_ne_zero, uniform_3_5_10_float64.1,
      uniform_3_5_10_float64.2]
    decide!

/-- In `float64`, `ScoreToken` gives every token of `UniformRarityTokens(3, 5, 10)` the score
`1 + 2 ^ -51`. -/
theorem uniform_3_5_10_scoreToken :
    ∀ t ∈ (NewCollection "" (UniformRarityTokens 3 5 10)).Tokens,
      InformationContentScoringHandler.ScoreToken Log2
        (NewCollection "" (UniformRarityTokens 3 5 10)) t = ⟨1 + 1 / 2 ^ 51⟩ := by
  intro t ht
  have hs : (GetTokenAttributesScoresAndWeights (NewCollection "" (UniformRarityTokens 3 5 10))
      t false none).1
      = ([2, 2, 2, 10] : List Int).map
          fun k => ((10 : Int) : Float64) / ((k : Int) : Float64) := by
    have h := uniform_3_5_10_float64.1
    have hm : ((GetTokenAttributesScoresAndWeights
        (NewCollection "" (UniformRarityTokens 3 5 10)) t false none).1 : List Float64)
        ∈ (NewCollection "" (UniformRarityTokens 3 5 10)).Tokens.map fun t =>
          (GetTokenAttributesScoresAndWeights (NewCollection "" (UniformRarityTokens 3 5 10)) t
            false none).1 := List.mem_map_of_mem _ ht
    rw [h] at hm
    exact List.eq_of_mem_replicate hm
  rw [scoreToken_eq_foldl Log2, hs, uniform_3_5_10_float64.2]
  decide!

/-- C37 (counterexample): the collection of `UniformRarityTokens(3, 5, 10)`, whose tokens hold
their attributes under their names, and whose entropy is not 0. In `float64` the entropy is
6.965784284662083 and each of the ten scores that `ScoreTokens` returns is `1 + 2 ^ -51`,
printed 1.0000000000000004: the exact sum of the ten scores is `10 + 10 * 2 ^ -51`, and their
sum in `float64`, added from left to right as a Go loop does, is `10 + 2 ^ -49`, printed
10.000000000000002. Neither is 10. -/
theorem C37_rounding_counterexample :
    (∀ t ∈ UniformRarityTokens 3 5 10,
        ∀ e ∈ t.metadata.stringAttributes.entries, e.2.name = e.1) ∧
      (UniformRarityTokens 3 5 10).length = 10 ∧
      InformationContentScoringHandler.GetCollectionEntropy Log2
          (NewCollection "" (UniformRarityTokens 3 5 10)) none none
        = ⟨3921387938593427 / 562949953421312⟩ ∧
      (⟨3921387938593427 / 562949953421312⟩ : Float64) ≠ 0 ∧
      InformationContentScoringHandler.ScoreTokens Log2
          (NewCollection "" (UniformRarityTokens 3 5 10))
          (NewCollection "" (UniformRarityTokens 3 5 10)).Tokens
        = List.replicate 10 ⟨1 + 1 / 2 ^ 51⟩ ∧
      ((List.replicate 10 (⟨1 + 1 / 2 ^ 51⟩ : Float64)).map fun x => x.val).sum
        = 10 + 10 / 2 ^ 51 ∧
      (List.replicate 10 (⟨1 + 1 / 2 ^ 51⟩ : Float64)).foldl (fun sum x => sum + x) 0
        = ⟨10 + 1 / 2 ^ 49⟩ ∧
      (10 + 10 / 2 ^ 51 : ℚ) ≠ 10 ∧ (⟨10 + 1 / 2 ^ 49⟩ : Float64) ≠ ⟨10⟩ := by
  refine ⟨by decide, by decide, uniform_3_5_10_scoreTokens.1, by decide!,
    uniform_3_5_10_scoreTokens.2, by decide!, by decide!, by decide!, by decide!⟩

/-- The attribute scores and the probabilities of `equalProductTokens` in `float64`: the
counts behind the scores of the four tokens, in the order of the sorted names `a`, `b`, `c`,
`d` and trait count, and the counts behind the probabilities, in the order of the frequency
table. -/
theorem equalProductTokens_float64 :
    ((NewCollection "" equalProductTokens).Tokens.map fun t =>
        (GetTokenAttributesScoresAndWeights (NewCollection "" equalProductTokens) t
          false none).1)
      = ([[1, 3, 3, 3, 4], [3, 3, 3, 1, 4], [3, 3, 1, 3, 4], [3, 1, 3, 3, 4]] :
            List (List Int)).map
          (fun l => l.map fun k => ((4 : Int) : Float64) / ((k : Int) : Float64)) ∧
      (collectionProbabilities (NewCollection "" equalProductTokens) : List Float64)
        = ([1, 3, 3, 1, 3, 1, 3, 1, 4] : List Int).map
            fun k => ((k : Int) : Float64) / ((4 : Int) : Float64) := by
  constructor
  · decide!
  · decide!

/-- In `float64` the entropy of the collection of `equalProductTokens` is 3.2451124978365313,
and the four tokens get the scores `1 + 2 ^ -52` (printed 1.0000000000000002), 1, 1 and
`1 + 2 ^ -52`: the sum of the same four logarithms, taken in four orders. -/
theorem equalProductTokens_scoreTokens :
    InformationContentScoringHandler.GetCollectionEntropy Log2
        (NewCollection "" equalProductTokens) none none
      = ⟨7307343718015971 / 2251799813685248⟩ ∧
    InformationContentScoringHandler.ScoreTokens Log2 (NewCollection "" equalProductTokens)
        (NewCollection "" equalProductTokens).Tokens
      = [⟨1 + 1 / 2 ^ 52⟩, ⟨1⟩, ⟨1⟩, ⟨1 + 1 / 2 ^ 52⟩] := by
  constructor
  · rw [getCollectionEntropy_eq_foldl Log2, equalProductTokens_float64.2]
    decide!
  · rw [scoreTokens_eq_foldl float64_one_ne_zero, equalProductTokens_float64.1,
      equalProductTokens_float64.2]
    decide!

/-- The attribute scores and the probabilities of `listedTokens` and of `relistedTokens` in
`float64`: the counts behind the scores are the same, token by token, and the counts behind
the probabilities come in two orders. -/
theorem listedTokens_float64 :
    ((NewCollection "" listedTokens).Tokens.map fun t =>
        (GetTokenAttributesScoresAndWeights (NewCollection "" listedTokens) t false none).1)
      = ([[1, 1, 2, 1, 5], [2, 2, 2, 3, 5], [2, 2, 3, 3, 5], [2, 2, 3, 1, 5],
            [2, 2, 3, 3, 5]] : List (List Int)).map
          (fun l => l.map fun k => ((5 : Int) : Float64) / ((k : Int) : Float64)) ∧
      ((NewCollection "" relistedTokens).Tokens.map fun t =>
        (GetTokenAttributesScoresAndWeights (NewCollection "" relistedTokens) t false none).1)
      = ([[1, 1, 2, 1, 5], [2, 2, 2, 3, 5], [2, 2, 3, 3, 5], [2, 2, 3, 1, 5],
            [2, 2, 3, 3, 5]] : List (List Int)).map
          (fun l => l.map fun k => ((5 : Int) : Float64) / ((k : Int) : Float64)) ∧
      (collectionProbabilities (NewCollection "" listedTokens) : List Float64)
        = ([1, 2, 2, 1, 2, 2, 2, 3, 1, 3, 1, 5] : List Int).map
            (fun k => ((k : Int) : Float64) / ((5 : Int) : Float64)) ∧
      (collectionProbabilities (NewCollection "" relistedTokens) : List Float64)
        = ([1, 3, 1, 2, 3, 1, 2, 2, 1, 2, 2, 5] : List Int).map
            (fun k => ((k : Int) : Float64) / ((5 : Int) : Float64)) := by
  refine ⟨?_, ?_, ?_, ?_⟩
  · decide!
  · decide!
  · decide!
  · decide!

/-- In `float64` the entropy of the collection of `listedTokens` is 5.38575737868406 in the
one listing of its maps and 5.385757378684062 in the other, and the score of the first
token is 1.5388202246820193 in the one and 1.5388202246820188 in the other. -/
theorem listedTokens_scoreTokens :
    InformationContentScoringHandler.GetCollectionEntropy Log2
        (NewCollection "" listedTokens) none none
      = ⟨3031911865468679 / 562949953421312⟩ ∧
    InformationContentScoringHandler.GetCollectionEntropy Log2
        (NewCollection "" relistedTokens) none none
      = ⟨378988983183585 / 70368744177664⟩ ∧
    (InformationContentScoringHandler.ScoreTokens Log2 (NewCollection "" listedTokens)
        (NewCollection "" listedTokens).Tokens)[0]?
      = some ⟨6930230190468125 / 4503599627370496⟩ ∧
    (InformationContentScoringHandler.ScoreTokens Log2 (NewCollection "" relistedTokens)
        (NewCollection "" relistedTokens).Tokens)[0]?
      = some ⟨6930230190468123 / 4503599627370496⟩ := by
  refine ⟨?_, ?_, ?_, ?_⟩
  · rw [getCollectionEntropy_eq_foldl Log2, listedTokens_float64.2.2.1]
    decide!
  · rw [getCollectionEntropy_eq_foldl Log2, listedTokens_float64.2.2.2]
    decide!
  · rw [scoreTokens_eq_foldl float64_one_ne_zero, listedTokens_float64.1,
      listedTokens_float64.2.2.1]
    decide!
  · rw [scoreTokens_eq_foldl float64_one_ne_zero, listedTokens_float64.2.1,
      listedTokens_float64.2.2.2]
    decide!

/-- C24 (counterexample): `listedTokens` and `relistedTokens` are the same five tokens as Go
values: token by token the same identifier and the same entries of the attribute map, listed
in another order. Both collections are valid. In `float64`, `ScoreCollection` on the one
listing and `ScoreTokens` on the other return different lists: the entropy is summed in the
order in which the maps are listed, it comes out as 5.38575737868406 and as
5.385757378684062, and the score of the first token as 1.5388202246820193 and as
1.5388202246820188. Go lists a map in a new order at every `range`, so two calls on one
collection meet these two orders (among others). -/
theorem C24_map_order_counterexample :
    listedTokens.length = 5 ∧ relistedTokens.length = 5 ∧
      (∀ p ∈ listedTokens.zip relistedTokens,
        p.1.tokenIdentifier = p.2.tokenIdentifier ∧ p.1.tokenStandard = p.2.tokenStandard ∧
        p.1.metadata.stringAttributes.entries.Perm p.2.metadata.stringAttributes.entries ∧
        p.1.metadata.numericAttributes.entries = [] ∧
        p.2.metadata.numericAttributes.entries = [] ∧
        p.1.metadata.dateAttributes.entries = [] ∧
        p.2.metadata.dateAttributes.entries = []) ∧
      (NewOpenRarityScorer Log2).ValidateCollection (NewCollection "" listedTokens) = .ok () ∧
      (NewOpenRarityScorer Log2).ValidateCollection (NewCollection "" relistedTokens) = .ok () ∧
      (∃ scores, (NewOpenRarityScorer Log2).ScoreCollection (NewCollection "" listedTokens)
          = .ok scores ∧ scores.length = 5 ∧
          scores[0]? = some ⟨6930230190468125 / 4503599627370496⟩) ∧
      (∃ scores, (NewOpenRarityScorer Log2).ScoreTokens (NewCollection "" relistedTokens)
            (NewCollection "" relistedTokens).Tokens = .ok scores ∧ scores.length = 5 ∧
          scores[0]? = some ⟨6930230190468123 / 4503599627370496⟩) ∧
      (⟨6930230190468125 / 4503599627370496⟩ : Float64)
        ≠ ⟨6930230190468123 / 4503599627370496⟩ := by
  have hv : ∀ c : Collection, c.HasNumericAttribute = false →
      IsSubset [TokenStandardERC721, TokenStandardMetaplexNonFungible] c.TokenStandards = true →
      (NewOpenRarityScorer Log2).ValidateCollection c = .ok () := by
    intro c h1 h2
    show Scorer.ValidateCollection (NewScorer (NewInformationContentScoringHandler Log2)) c = _
    unfold Scorer.ValidateCollection
    rw [if_neg (by simp [h1])]
    simp only []
    rw [if_neg (by simp [h2])]
  have hv1 := hv (NewCollection "" listedTokens) (by decide) (by decide)
  have hv2 := hv (NewCollection "" relistedTokens) (by decide) (by decide)
  have hs1 : (NewOpenRarityScorer Log2).ScoreCollection (NewCollection "" listedTokens)
      = .ok (InformationContentScoringHandler.ScoreTokens Log2 (NewCollection "" listedTokens)
          (NewCollection "" listedTokens).Tokens) := by
    show Scorer.ScoreCollection (NewScorer (NewInformationContentScoringHandler Log2))
      (NewCollection "" listedTokens) = _
    unfold Scorer.ScoreCollection
    rw [show Scorer.ValidateCollection (NewScorer (NewInformationContentScoringHandler Log2))
      (NewCollection "" listedTokens) = .ok () from hv1]
    rfl
  have hs2 : (NewOpenRarityScorer Log2).ScoreTokens (NewCollection "" relistedTokens)
      (NewCollection "" relistedTokens).Tokens
      = .ok (InformationContentScoringHandler.ScoreTokens Log2
          (NewCollection "" relistedTokens) (NewCollection "" relistedTokens).Tokens) := by
    show Scorer.ScoreTokens (NewScorer (NewInformationContentScoringHandler Log2))
      (NewCollection "" relistedTokens) (NewCollection "" relistedTokens).Tokens = _
    unfold Scorer.ScoreTokens
    rw [show Scorer.ValidateCollection (NewScorer (NewInformationContentScoringHandler Log2))
      (NewCollection "" relistedTokens) = .ok () from hv2]
    rfl
  have hl1 : (InformationContentScoringHandler.ScoreTokens Log2 (NewCollection "" listedTokens)
      (NewCollection "" listedTokens).Tokens).length = 5 := by
    unfold InformationContentScoringHandler.ScoreTokens
    rw [List.length_map]
    decide
  have hl2 : (InformationContentScoringHandler.ScoreTokens Log2
      (NewCollection "" relistedTokens) (NewCollection "" relistedTokens).Tokens).length
      = 5 := by
    unfold InformationContentScoringHandler.ScoreTokens
    rw [List.length_map]
    decide
  exact ⟨by decide, by decide, by decide, hv1, hv2,
    ⟨_, hs1, hl1, listedTokens_scoreTokens.2.2.1⟩,
    ⟨_, hs2, hl2, listedTokens_scoreTokens.2.2.2⟩, by decide!⟩

/-- In `float64`, `ScoreToken` gives the first two tokens of `equalProductTokens` the scores
`1 + 2 ^ -52` and 1. -/
theorem equalProductTokens_scoreToken :
    ∃ A B : Token,
      (NewCollection "" equalProductTokens).Tokens[0]? = some A ∧
      (NewCollection "" equalProductTokens).Tokens[1]? = some B ∧
      InformationContentScoringHandler.ScoreToken Log2 (NewCollection "" equalProductTokens) A
        = ⟨1 + 1 / 2 ^ 52⟩ ∧
      InformationContentScoringHandler.ScoreToken Log2 (NewCollection "" equalProductTokens) B
        = ⟨1⟩ := by
  obtain ⟨A, B, C, D, hT⟩ : ∃ A B C D,
      (NewCollection "" equalProductTokens).Tokens = [A, B, C, D] := by
    have h : (NewCollection "" equalProductTokens).Tokens.length = 4 := by decide
    match hl : (NewCollection "" equalProductTokens).Tokens, h with
    | [A, B, C, D], _ => exact ⟨A, B, C, D, rfl⟩
  have h1 := equalProductTokens_float64.1
  rw [hT] at h1
  simp only [List.map_cons, List.map_nil, List.cons.injEq, and_true] at h1
  obtain ⟨hA, hB, -, -⟩ := h1
  refine ⟨A, B, by rw [hT]; rfl, by rw [hT]; rfl, ?_, ?_⟩
  · rw [scoreToken_eq_foldl Log2, hA, equalProductTokens_float64.2]
    decide!
  · rw [scoreToken_eq_foldl Log2, hB, equalProductTokens_float64.2]
    decide!

/-- C39 (counterexample). First, a rounding: in the collection of `equalProductTokens`, of
non-zero entropy and with the attributes under their names, the first token shares its
values with 1, 3, 3, 3 and 4 tokens and the second with 3, 3, 3, 1 and 4 tokens: the
products are equal, 108 both, and yet in `float64` the first token scores higher
(1.0000000000000002 against 1), the same four logarithms being added in another order.
Second, the keys: three tokens whose string-attribute maps hold, under the key `A`,
attributes of the normalized name `a`, with the values `x`, `x` and `y`; the third token has
the smaller product (1 * 3 against 2 * 3) and does not score higher, in exact arithmetic
either: `TotalTokensWithAttributes` looks the attributes up under the name `a` and finds the
count 0 for all three. -/
theorem C39_rounding_and_key_counterexample :
    (∃ A B : Token,
      (∀ t ∈ equalProductTokens,
        ∀ e ∈ t.metadata.stringAttributes.entries, e.2.name = e.1) ∧
      (NewCollection "" equalProductTokens).Tokens[0]? = some A ∧
      (NewCollection "" equalProductTokens).Tokens[1]? = some B ∧
      InformationContentScoringHandler.GetCollectionEntropy Log2
          (NewCollection "" equalProductTokens) none none
        = ⟨7307343718015971 / 2251799813685248⟩ ∧
      ((NewCollection "" equalProductTokens).attributesFrequencyCounts.keys.map fun k =>
        specSharedCount (NewCollection "" equalProductTokens).Tokens A k) = [1, 3, 3, 3, 4] ∧
      ((NewCollection "" equalProductTokens).attributesFrequencyCounts.keys.map fun k =>
        specSharedCount (NewCollection "" equalProductTokens).Tokens B k) = [3, 3, 3, 1, 4] ∧
      InformationContentScoringHandler.ScoreToken Log2 (NewCollection "" equalProductTokens) A
        = ⟨1 + 1 / 2 ^ 52⟩ ∧
      InformationContentScoringHandler.ScoreToken Log2 (NewCollection "" equalProductTokens) B
        = ⟨1⟩ ∧
      (1 : ℚ) < 1 + 1 / 2 ^ 52 ∧
      ¬ (([1, 3, 3, 3, 4] : List Nat).prod < ([3, 3, 3, 1, 4] : List Nat).prod)) ∧
    ∃ A B : Token,
      (NewCollection "c" sharedKeyTokens).Tokens[2]? = some A ∧
      (NewCollection "c" sharedKeyTokens).Tokens[0]? = some B ∧
      InformationContentScoringHandler.GetCollectionEntropy (Real.logb 2)
        (NewCollection "c" sharedKeyTokens) none none ≠ 0 ∧
      ((NewCollection "c" sharedKeyTokens).attributesFrequencyCounts.keys.map fun k =>
        specSharedCount (NewCollection "c" sharedKeyTokens).Tokens A k).prod = 1 * 3 ∧
      ((NewCollection "c" sharedKeyTokens).attributesFrequencyCounts.keys.map fun k =>
        specSharedCount (NewCollection "c" sharedKeyTokens).Tokens B k).prod = 2 * 3 ∧
      A.metadata.stringAttributes.entries.map
          (fun e => (NewCollection "c" sharedKeyTokens).TotalTokensWithAttributes e.2)
        = [0, 3] ∧
      B.metadata.stringAttributes.entries.map
          (fun e => (NewCollection "c" sharedKeyTokens).TotalTokensWithAttributes e.2)
        = [0, 3] ∧
      ¬ (InformationContentScoringHandler.ScoreToken (Real.logb 2)
          (NewCollection "c" sharedKeyTokens) B
        < InformationContentScoringHandler.ScoreToken (Real.logb 2)
          (NewCollection "c" sharedKeyTokens) A) := by
  refine ⟨?_, member_key_mismatch_scores⟩
  obtain ⟨A, B, hA, hB, sA, sB⟩ := equalProductTokens_scoreToken
  have hA' : (NewCollection "" equalProductTokens).Tokens[0]? = some A := hA
  have hB' : (NewCollection "" equalProductTokens).Tokens[1]? = some B := hB
  have hp : ((NewCollection "" equalProductTokens).Tokens.map fun t =>
      (NewCollection "" equalProductTokens).attributesFrequencyCounts.keys.map fun k =>
        specSharedCount (NewCollection "" equalProductTokens).Tokens t k)
      = [[1, 3, 3, 3, 4], [3, 3, 3, 1, 4], [3, 3, 1, 3, 4], [3, 1, 3, 3, 4]] := by decide
  have hpA := congrArg (fun l => l[0]?) hp
  have hpB := congrArg (fun l => l[1]?) hp
  simp only [List.getElem?_map, hA', hB', Option.map_some'] at hpA hpB
  exact ⟨A, B, by decide, hA, hB, equalProductTokens_scoreTokens.1,
    Option.some.inj hpA, Option.some.inj hpB, sA, sB, by norm_num, by decide⟩

/-- C21 (counterexample). First, a rounding: the collection of
`UniformRarityTokens(3, 5, 10)` meets the conditions of the claim (every name held by every
token, under its own name, all values of a name held by the same number of tokens, names with
5 values), and in `float64` the score of every token is `1 + 2 ^ -51`, printed
1.0000000000000004, not 1. Second, the keys: two tokens whose string-attribute maps hold,
under the key `A`, attributes of the normalized name `a`, with the values `x` and `y`; the
conditions of the claim hold, `TotalTokensWithAttributes` looks the attribute up under its
name `a`, the count is 0, and the score is not 1 in exact arithmetic either (the code divides
the supply by the count: in `float64` the score is infinite; in the embedding, where a
division by 0 gives 0, it is 0). -/
theorem C21_rounding_and_key_counterexample :
    ((∀ t ∈ (NewCollection "" (UniformRarityTokens 3 5 10)).Tokens,
        ∀ e ∈ t.metadata.stringAttributes.entries, e.2.name = e.1) ∧
      (∀ k ∈ (NewCollection "" (UniformRarityTokens 3 5 10)).attributesFrequencyCounts.keys,
        ∀ t ∈ (NewCollection "" (UniformRarityTokens 3 5 10)).Tokens,
          t.HasAttribute k = true) ∧
      (∀ e ∈ (NewCollection "" (UniformRarityTokens 3 5 10)).attributesFrequencyCounts.entries,
        ∀ x ∈ e.2.entries, ∀ y ∈ e.2.entries, y.2 = x.2) ∧
      (∃ e ∈ (NewCollection "" (UniformRarityTokens 3 5 10)).attributesFrequencyCounts.entries,
        2 ≤ e.2.entries.length) ∧
      (∀ t ∈ (NewCollection "" (UniformRarityTokens 3 5 10)).Tokens,
        InformationContentScoringHandler.ScoreToken Log2
          (NewCollection "" (UniformRarityTokens 3 5 10)) t = ⟨1 + 1 / 2 ^ 51⟩) ∧
      (⟨1 + 1 / 2 ^ 51⟩ : Float64) ≠ 1) ∧
    ((∀ k ∈ (NewCollection "c" mismatchedKeyTokens).attributesFrequencyCounts.keys,
        ∀ t ∈ (NewCollection "c" mismatchedKeyTokens).Tokens, t.HasAttribute k = true) ∧
      (∀ e ∈ (NewCollection "c" mismatchedKeyTokens).attributesFrequencyCounts.entries,
        ∀ x ∈ e.2.entries, ∀ y ∈ e.2.entries, y.2 = x.2) ∧
      (∃ e ∈ (NewCollection "c" mismatchedKeyTokens).attributesFrequencyCounts.entries,
        2 ≤ e.2.entries.length) ∧
      ∀ t ∈ (NewCollection "c" mismatchedKeyTokens).Tokens,
        t.metadata.stringAttributes.entries.map
            (fun e => (NewCollection "c" mismatchedKeyTokens).TotalTokensWithAttributes e.2)
          = [0, 2] ∧
        InformationContentScoringHandler.ScoreToken (Real.logb 2)
            (NewCollection "c" mismatchedKeyTokens) t ≠ 1) :=
  ⟨⟨by decide, by decide, by decide, by decide, uniform_3_5_10_scoreToken, by decide!⟩,
    uniform_key_mismatch_scores⟩

end Scoring

end OpenRarity
